import Mathlib

/-!
# Price-action engines: level ladder engine and psychological-box engine

A shallow embedding of `src/services/fiverr_engine_v1.js` (namespace `Fiverr`)
and `src/services/golden_era.js` (namespace `GoldenEra`).

Conventions of the embedding

* JavaScript numbers that carry prices are rationals (`ℚ`): the arithmetic of the
  engines is read over exact numbers. A division by a zero step (`Infinity` or `NaN`
  in the level engine) is the rational `x / 0 = 0`.
* The ladder function `processLevels` is also given with the rounding of binary64
  arithmetic (namespace `Fiverr.F64`): every operation is the exact operation followed
  by rounding to the nearest binary64 value. The statements about the arithmetic of
  the ladder are proved there.
* Bar indices are natural numbers; the integer settings `nLevels` and
  `zoneNoBars` are integers (they may be zero or negative).
* In the level engine a variable that the source initialises with `null` is an
  `Option`; a relational operator applied to `null` reads it as `0`
  (`Fiverr.num`), as JavaScript does.
* In the box engine a price field that the source initialises with `NaN` is an
  `Option ℚ` with `none` for `NaN`: arithmetic propagates `none`, every ordered
  comparison with `none` is `false`, and `none !== x` is `true`.
* Event `type` strings and close reasons are constructors of inductive types with
  the spelling of the source strings.
-/

/-! ## Candles -/

/-- A candle `{ open, high, low, close, time? }`, the input record of both engines;
the field `open` is spelled `open_` here. -/
structure Candle where
  open_ : ℚ
  high : ℚ
  low : ℚ
  close : ℚ
  time : Option ℚ := none
deriving DecidableEq

namespace Fiverr

/-! ## Level ladder (`processLevels`) -/

/-- Conversion `priceToPips(val, pipSize)`. -/
def priceToPips (val pipSize : ℚ) : ℚ := val / pipSize

/-- Conversion `pipsToPrice(val, pipSize)`. -/
def pipsToPrice (val pipSize : ℚ) : ℚ := val * pipSize

/-- Result object `{ up, dn, levelSizeInPrice }` of `processLevels`. -/
structure Levels where
  up : List ℚ
  dn : List ℚ
  levelSizeInPrice : ℚ
deriving DecidableEq

/-- The function `processLevels(price, pips, nLevels, pipSize)`, read over exact
rationals (`F64.processLevels` is the same function with the rounding of binary64).
The loop `for (i = nLevels - 1; i >= 0; i--)` visits `nLevels - 1, …, 0`, pushing one
up level and one down level per round; `up` is then sorted with the comparator
`a - b` (ascending) and `dn` with `b - a` (descending). -/
def processLevels (price pips : ℚ) (nLevels : ℤ) (pipSize : ℚ) : Levels :=
  let levelSizeInPrice := pipsToPrice pips pipSize
  let baseLevel := (⌊price / levelSizeInPrice⌋ : ℚ) * levelSizeInPrice
  let idx := (List.range nLevels.toNat).reverse
  let arrLevelsUp := idx.map (fun (i : ℕ) => baseLevel + ((i : ℚ) + 1) * levelSizeInPrice)
  let arrLevelsDn := idx.map (fun (i : ℕ) => baseLevel - (i : ℚ) * levelSizeInPrice)
  { up := arrLevelsUp.insertionSort (· ≤ ·)
    dn := arrLevelsDn.insertionSort (· ≥ ·)
    levelSizeInPrice := levelSizeInPrice }

/-! ## Data model of the level engine -/

/-- The settings object `s` of `runEngine`: the defaults of the source, any subset
of which a caller overrides. -/
structure Settings where
  pipSize : ℚ := 1 / 100
  levelPips : ℚ := 500
  nLevels : ℤ := 4
  levelStartIndex : ℤ := 200
  entryZonePips : ℚ := 50
  zoneNoBars : ℤ := 40
  closeBelowEntryZone : Bool := true
  slPips : ℚ := 150
  tp1Pips : ℚ := 150
  tp2Pips : ℚ := 300
  showPosPrice : Bool := true
  showHistPos : Bool := true
  showAllLevel : Bool := true
  showLevelOfInterest : Bool := true
  showDebug : Bool := false
deriving DecidableEq

/-- Numeric reading of a possibly-`null` value in a relational or arithmetic
operator: `null` counts as `0`. -/
def num (x : Option ℚ) : ℚ := x.getD 0

/-- The strings `"LONG"` and `"SHORT"`. -/
inductive Side where
  | LONG
  | SHORT
deriving DecidableEq

/-- The reason strings passed to `closePosition`: `"STOPLOSS"` and `"TP2"`. -/
inductive Reason where
  | STOPLOSS
  | TP2
deriving DecidableEq

/-- The object stored in `box_entry_zone`. -/
structure Box where
  leftIndex : ℕ
  rightIndex : ℤ
  top : ℚ
  bottom : ℚ
  createdBar : ℕ
  active_level : ℚ
deriving DecidableEq

/-- The template string `condition_met` of a `position_opened_*` event: which of the
two templates was used (`byClose` is `s.closeBelowEntryZone`), the candle price and
the zone edge printed in it. -/
structure ConditionMet where
  byClose : Bool
  price : ℚ
  edge : Option ℚ
deriving DecidableEq

/-- The objects pushed to `events`, one constructor per `type` string. -/
inductive Event where
  | tp1_reached (bar : ℕ) (tp : Option ℚ)
  | tp2_reached (bar : ℕ) (tp : Option ℚ)
  | position_closed (bar : ℕ) (reason : Reason) (entry sl tp1 tp2 : Option ℚ)
  | entry_zone_removed (bar : ℕ) (box : Box)
  | entry_zone_created (bar : ℕ) (box : Box) (active_level : ℚ)
  | entry_zone_activated_long (bar : ℕ) (box : Box) (prev_close prev_active_level : ℚ)
  | entry_zone_activated_short (bar : ℕ) (box : Box) (prev_close prev_active_level : ℚ)
  | entry_zone_activation_failed (bar : ℕ) (box : Box)
  | position_opened_long (bar : ℕ) (entry sl tp1 tp2 trigger_price : Option ℚ)
      (condition_met : ConditionMet)
  | position_opened_short (bar : ℕ) (entry sl tp1 tp2 trigger_price : Option ℚ)
      (condition_met : ConditionMet)
  | entry_zone_expired (bar : ℕ) (box : Box)
deriving DecidableEq

/-- The field `bar` of an event. -/
def Event.bar : Event → ℕ
  | .tp1_reached b _ => b
  | .tp2_reached b _ => b
  | .position_closed b _ _ _ _ _ => b
  | .entry_zone_removed b _ => b
  | .entry_zone_created b _ _ => b
  | .entry_zone_activated_long b _ _ _ => b
  | .entry_zone_activated_short b _ _ _ => b
  | .entry_zone_activation_failed b _ => b
  | .position_opened_long b _ _ _ _ _ _ => b
  | .position_opened_short b _ _ _ _ _ _ => b
  | .entry_zone_expired b _ => b

/-- A record of `positionsClosed`. -/
structure ClosedPosition where
  type : Side
  entry : Option ℚ
  sl : Option ℚ
  tp1 : Option ℚ
  tp2 : Option ℚ
  openedBar : Option ℕ
  closedBar : ℕ
  reason : Reason
  openedAtCandle : Option Candle
  closedAtCandle : Candle
  tp1_reached : Bool
  tp2_reached : Bool
deriving DecidableEq

/-- An entry of `levelsHistory`. -/
structure LevelSnapshot where
  barIndex : ℕ
  curr_level_top : Option ℚ
  curr_level_bot : Option ℚ
  active_level : Option ℚ
deriving DecidableEq

/-- The mutable locals of `runEngine` together with its three output arrays. The
default values are the initial values of the source. -/
structure State where
  pos : ℤ := 0
  pos_prev : ℤ := 0
  en : Option ℚ := none
  sl : Option ℚ := none
  tp1 : Option ℚ := none
  tp2 : Option ℚ := none
  tp1_reached : Bool := false
  tp2_reached : Bool := false
  entry_zone_active : ℤ := 0
  active_level_curr : Option ℚ := none
  active_level_prev : Option ℚ := none
  box_entry_zone : Option Box := none
  entry_zone_top : Option ℚ := none
  entry_zone_bot : Option ℚ := none
  zone_created_bar : Option ℕ := none
  positionsClosed : List ClosedPosition := []
  events : List Event := []
  levelsHistory : List LevelSnapshot := []
  openedBarIndex : Option ℕ := none
  openedCandleSnapshot : Option Candle := none
deriving DecidableEq

/-- The returned `openPosition` object. -/
structure OpenPosition where
  type : Side
  entry : Option ℚ
  sl : Option ℚ
  tp1 : Option ℚ
  tp2 : Option ℚ
  openedBar : Option ℕ
  openedAtCandle : Option Candle
  tp1_reached : Bool
  tp2_reached : Bool
deriving DecidableEq

/-- The object returned by `runEngine`. -/
structure Output where
  positionsClosed : List ClosedPosition
  openPosition : Option OpenPosition
  levelsHistory : List LevelSnapshot
  events : List Event
  settings : Settings
deriving DecidableEq

/-! ## The bar step of the level engine -/

/-- The inner helper `closePosition(reason, closedAtBarIndex, closedCandle)`. -/
def closePosition (reason : Reason) (closedAtBarIndex : ℕ) (closedCandle : Candle)
    (st : State) : State :=
  if st.pos = 0 then st
  else
    { st with
      positionsClosed := st.positionsClosed ++
        [{ type := if st.pos = 1 then Side.LONG else Side.SHORT
           entry := st.en
           sl := st.sl
           tp1 := st.tp1
           tp2 := st.tp2
           openedBar := st.openedBarIndex
           closedBar := closedAtBarIndex
           reason := reason
           openedAtCandle := st.openedCandleSnapshot
           closedAtCandle := closedCandle
           tp1_reached := st.tp1_reached
           tp2_reached := st.tp2_reached }]
      pos := 0
      en := none
      sl := none
      tp1 := none
      tp2 := none
      tp1_reached := false
      tp2_reached := false
      entry_zone_active := 0
      box_entry_zone := none
      entry_zone_top := none
      entry_zone_bot := none
      zone_created_bar := none
      openedBarIndex := none
      openedCandleSnapshot := none }

/-- Active level detection (source lines 161-172): the value assigned to
`active_level_curr`, which starts the bar as `null`. -/
def activeLevel (open_ close : ℚ) (curr_level_top curr_level_bot : Option ℚ) :
    Option ℚ :=
  if open_ > num curr_level_top ∧ close < num curr_level_top then curr_level_top
  else if open_ < num curr_level_bot ∧ close > num curr_level_bot then curr_level_bot
  else if open_ < num curr_level_bot ∧ close > num curr_level_top then curr_level_top
  else if open_ > num curr_level_top ∧ close < num curr_level_bot then curr_level_bot
  else none

/-- Source lines 138-172: `pos_prev`, the ladder of the bar's close, the
`levelsHistory` entry, the shift of the active level and its detection. -/
def updateLevels (s : Settings) (i : ℕ) (c : Candle) (st : State) : State :=
  let lv := processLevels c.close s.levelPips s.nLevels s.pipSize
  let curr_level_top := lv.up.head?
  let curr_level_bot := lv.dn.head?
  { st with
    pos_prev := if i > 0 then st.pos else 0
    levelsHistory := st.levelsHistory ++
      [{ barIndex := i
         curr_level_top := curr_level_top
         curr_level_bot := curr_level_bot
         active_level := st.active_level_curr }]
    active_level_prev := st.active_level_curr
    active_level_curr := activeLevel c.open_ c.close curr_level_top curr_level_bot }

/-- Source lines 177-185: the tp1 milestone. -/
def checkTp1 (i : ℕ) (c : Candle) (c_prev : Option Candle) (st : State) : State :=
  match c_prev with
  | some cp =>
    if st.tp1_reached = false then
      if st.pos > 0 ∧ cp.close < num st.tp1 ∧ c.high ≥ num st.tp1 then
        { st with tp1_reached := true, events := st.events ++ [Event.tp1_reached i st.tp1] }
      else if st.pos < 0 ∧ cp.close > num st.tp1 ∧ c.low ≤ num st.tp1 then
        { st with tp1_reached := true, events := st.events ++ [Event.tp1_reached i st.tp1] }
      else st
    else st
  | none => st

/-- Source lines 186-194: the tp2 milestone. -/
def checkTp2 (i : ℕ) (c : Candle) (c_prev : Option Candle) (st : State) : State :=
  match c_prev with
  | some cp =>
    if st.tp2_reached = false then
      if st.pos > 0 ∧ cp.close < num st.tp2 ∧ c.high ≥ num st.tp2 then
        { st with tp2_reached := true, events := st.events ++ [Event.tp2_reached i st.tp2] }
      else if st.pos < 0 ∧ cp.close > num st.tp2 ∧ c.low ≤ num st.tp2 then
        { st with tp2_reached := true, events := st.events ++ [Event.tp2_reached i st.tp2] }
      else st
    else st
  | none => st

/-- The reason computed in source lines 201-203. -/
def closeReason (c : Candle) (st : State) : Reason :=
  let reason := Reason.STOPLOSS
  let reason := if st.pos > 0 ∧ c.high ≥ num st.tp2 then Reason.TP2 else reason
  if st.pos < 0 ∧ c.low ≤ num st.tp2 then Reason.TP2 else reason

/-- Source lines 196-215: the position closing conditions. -/
def checkClose (i : ℕ) (c : Candle) (st : State) : State :=
  if (st.pos > 0 ∧ (c.low ≤ num st.sl ∨ c.high ≥ num st.tp2)) ∨
      (st.pos < 0 ∧ (c.high ≥ num st.sl ∨ c.low ≤ num st.tp2)) then
    closePosition (closeReason c st) i c
      { st with
        events := st.events ++
          [Event.position_closed i (closeReason c st) st.en st.sl st.tp1 st.tp2] }
  else st

/-- Source lines 174-216: the checks made while a position is open. -/
def managePosition (i : ℕ) (c : Candle) (c_prev : Option Candle) (st : State) : State :=
  if st.pos ≠ 0 then checkClose i c (checkTp2 i c c_prev (checkTp1 i c c_prev st))
  else st

/-- Source lines 218-251: entry zone creation. -/
def zoneCreation (s : Settings) (i : ℕ) (st : State) : State :=
  match st.active_level_curr with
  | some lvl =>
    if st.pos = 0 then
      let events1 :=
        match st.box_entry_zone with
        | some b => st.events ++ [Event.entry_zone_removed i b]
        | none => st.events
      let entry_zone_top := lvl + pipsToPrice s.entryZonePips s.pipSize
      let entry_zone_bot := lvl - pipsToPrice s.entryZonePips s.pipSize
      let box : Box :=
        { leftIndex := i
          rightIndex := (i : ℤ) + s.zoneNoBars
          top := entry_zone_top
          bottom := entry_zone_bot
          createdBar := i
          active_level := lvl }
      { st with
        entry_zone_top := some entry_zone_top
        entry_zone_bot := some entry_zone_bot
        box_entry_zone := some box
        zone_created_bar := some i
        entry_zone_active := 0
        events := events1 ++ [Event.entry_zone_created i box lvl] }
    else st
  | none => st

/-- Source lines 253-304: entry zone activation. -/
def zoneActivation (i : ℕ) (c : Candle) (c_prev : Option Candle) (st : State) : State :=
  match st.active_level_prev, st.active_level_curr, st.box_entry_zone, c_prev with
  | some lvlPrev, none, some box, some cp =>
    if st.pos = 0 ∧ st.entry_zone_active = 0 then
      if cp.close ≥ cp.open_ ∧ cp.close > lvlPrev ∧ c.close > num st.entry_zone_top then
        { st with
          entry_zone_active := 1
          events := st.events ++ [Event.entry_zone_activated_long i box cp.close lvlPrev] }
      else if ¬ (cp.close ≥ cp.open_) ∧ cp.close < lvlPrev ∧
          c.close < num st.entry_zone_bot then
        { st with
          entry_zone_active := -1
          events := st.events ++ [Event.entry_zone_activated_short i box cp.close lvlPrev] }
      else
        { st with
          events := st.events ++ [Event.entry_zone_activation_failed i box]
          box_entry_zone := none
          entry_zone_top := none
          entry_zone_bot := none
          entry_zone_active := 0 }
    else st
  | _, _, _, _ => st

/-- Source lines 306-371: position activation. -/
def positionActivation (s : Settings) (i : ℕ) (c : Candle) (st : State) : State :=
  match st.active_level_prev, st.active_level_curr, st.box_entry_zone with
  | none, none, some _ =>
    if st.pos = 0 ∧ st.entry_zone_active ≠ 0 then
      if st.entry_zone_active > 0 ∧ c.low ≤ num st.entry_zone_top ∧
          (if s.closeBelowEntryZone then c.close > num st.entry_zone_top
           else c.low ≤ num st.entry_zone_top) then
        let en := st.entry_zone_top
        let sl := some (num en - pipsToPrice s.slPips s.pipSize)
        let tp1 := some (num en + pipsToPrice s.tp1Pips s.pipSize)
        let tp2 := some (num en + pipsToPrice s.tp2Pips s.pipSize)
        { st with
          pos := 1
          en := en
          sl := sl
          tp1 := tp1
          tp2 := tp2
          openedBarIndex := some i
          openedCandleSnapshot := some c
          events := st.events ++
            [Event.position_opened_long i en sl tp1 tp2 st.entry_zone_top
              { byClose := s.closeBelowEntryZone
                price := if s.closeBelowEntryZone then c.close else c.low
                edge := st.entry_zone_top }] }
      else if st.entry_zone_active < 0 ∧ c.high ≥ num st.entry_zone_bot ∧
          (if s.closeBelowEntryZone then c.close < num st.entry_zone_bot
           else c.high ≥ num st.entry_zone_bot) then
        let en := st.entry_zone_bot
        let sl := some (num en + pipsToPrice s.slPips s.pipSize)
        let tp1 := some (num en - pipsToPrice s.tp1Pips s.pipSize)
        let tp2 := some (num en - pipsToPrice s.tp2Pips s.pipSize)
        { st with
          pos := -1
          en := en
          sl := sl
          tp1 := tp1
          tp2 := tp2
          openedBarIndex := some i
          openedCandleSnapshot := some c
          events := st.events ++
            [Event.position_opened_short i en sl tp1 tp2 st.entry_zone_bot
              { byClose := s.closeBelowEntryZone
                price := if s.closeBelowEntryZone then c.close else c.high
                edge := st.entry_zone_bot }] }
      else st
    else st
  | _, _, _ => st

/-- Source lines 373-386: clean up of expired entry zones. -/
def zoneExpiry (s : Settings) (i : ℕ) (st : State) : State :=
  match st.box_entry_zone, st.zone_created_bar with
  | some box, some created =>
    if (i : ℤ) - (created : ℤ) ≥ s.zoneNoBars ∧ st.pos = 0 then
      { st with
        events := st.events ++ [Event.entry_zone_expired i box]
        box_entry_zone := none
        entry_zone_top := none
        entry_zone_bot := none
        entry_zone_active := 0
        zone_created_bar := none }
    else st
  | _, _ => st

/-- One round of the main loop (source lines 131-387) for bar `i` with candle `c`;
`c_prev` is `candles[i - 1]`, or `null` on the first bar. -/
def step (s : Settings) (i : ℕ) (c : Candle) (c_prev : Option Candle) (st : State) :
    State :=
  zoneExpiry s i
    (positionActivation s i c
      (zoneActivation i c c_prev
        (zoneCreation s i
          (managePosition i c c_prev
            (updateLevels s i c st)))))

/-- The main loop from bar `i` on, over the candles still to be read. -/
def loop (s : Settings) : ℕ → Option Candle → List Candle → State → State
  | _, _, [], st => st
  | i, c_prev, c :: cs, st => loop s (i + 1) (some c) cs (step s i c c_prev st)

/-- The state after the main loop has read all `candles`. -/
def finalState (candles : List Candle) (s : Settings) : State :=
  loop s 0 none candles {}

/-- The `openPosition` computed after the loop (source lines 389-403). -/
def openPositionOf (st : State) : Option OpenPosition :=
  if st.pos ≠ 0 then
    some
      { type := if st.pos = 1 then Side.LONG else Side.SHORT
        entry := st.en
        sl := st.sl
        tp1 := st.tp1
        tp2 := st.tp2
        openedBar := st.openedBarIndex
        openedAtCandle := st.openedCandleSnapshot
        tp1_reached := st.tp1_reached
        tp2_reached := st.tp2_reached }
  else none

/-- The function `runEngine(candles, settings)` of the level engine. -/
def runEngine (candles : List Candle) (s : Settings) : Output :=
  let st := finalState candles s
  { positionsClosed := st.positionsClosed
    openPosition := openPositionOf st
    levelsHistory := st.levelsHistory
    events := st.events
    settings := s }

/-- The candles of `testEngine`. -/
def testCandles : List Candle :=
  [ { open_ := 2000, high := 2005, low := 1995, close := 2003 },
    { open_ := 2003, high := 2010, low := 2000, close := 2007 },
    { open_ := 2007, high := 2015, low := 2005, close := 2012 },
    { open_ := 2012, high := 2020, low := 2010, close := 2018 },
    { open_ := 2018, high := 2025, low := 2015, close := 2022 } ]

/-- The function `testEngine()`: the run on `testCandles` with the settings of the
source (which are the defaults, with `showDebug` on). -/
def testEngine : Output :=
  runEngine testCandles { showDebug := true }

end Fiverr

namespace GoldenEra

/-! ## Numbers that may be `NaN` -/

/-- Sum of two numbers, `none` standing for `NaN`. -/
def addN (a b : Option ℚ) : Option ℚ :=
  match a, b with
  | some x, some y => some (x + y)
  | _, _ => none

/-- Difference of two numbers, `none` standing for `NaN`. -/
def subN (a b : Option ℚ) : Option ℚ :=
  match a, b with
  | some x, some y => some (x - y)
  | _, _ => none

/-- The comparison `a < b`, false when a side is `NaN`. -/
def ltN (a b : Option ℚ) : Bool :=
  match a, b with
  | some x, some y => decide (x < y)
  | _, _ => false

/-- The comparison `a <= b`, false when a side is `NaN`. -/
def leN (a b : Option ℚ) : Bool :=
  match a, b with
  | some x, some y => decide (x ≤ y)
  | _, _ => false

/-- The comparison `a > b`, false when a side is `NaN`. -/
def gtN (a b : Option ℚ) : Bool := ltN b a

/-- The comparison `a >= b`, false when a side is `NaN`. -/
def geN (a b : Option ℚ) : Bool := leN b a

/-- Strict equality `a === b` of numbers, false when a side is `NaN`. -/
def eqN (a b : Option ℚ) : Bool :=
  match a, b with
  | some x, some y => decide (x = y)
  | _, _ => false

/-! ## Math helpers -/

/-- The function `clamp(n, lo, hi)`. -/
def clamp (n lo hi : ℚ) : ℚ := max lo (min hi n)

/-- The function `toIntTowardZero(x)`. -/
def toIntTowardZero (x : ℚ) : ℤ := if x < 0 then ⌈x⌉ else ⌊x⌋

/-- The remainder operator `a % b` of JavaScript on finite numbers: the result has
the sign of the dividend, `a - b * trunc(a / b)`, and is `NaN` when `b` is `0`. -/
def jsRem (a b : ℚ) : Option ℚ :=
  if b = 0 then none else some (a - b * (toIntTowardZero (a / b) : ℚ))

/-- The expression `((ni % step) + step) % step` shared by the two functions
below. -/
def posRem (ni step : ℚ) : Option ℚ :=
  match jsRem ni step with
  | some r => jsRem (r + step) step
  | none => none

/-- The function `firstMultipleUp(num, step)`. -/
def firstMultipleUp (num step : ℚ) : Option ℚ :=
  let ni : ℚ := (toIntTowardZero num : ℚ)
  match posRem ni step with
  | some rem => some (ni + (if step - rem = step then 0 else step - rem))
  | none => none

/-- The function `firstMultipleDown(num, step)`. -/
def firstMultipleDown (num step : ℚ) : Option ℚ :=
  let ni : ℚ := (toIntTowardZero num : ℚ)
  match posRem ni step with
  | some rem => some (ni - rem)
  | none => none

/-- The function `nearestMultiple(num, step)`. -/
def nearestMultiple (num step : ℚ) : Option ℚ :=
  let smaller := firstMultipleDown num step
  let larger := firstMultipleUp num step
  if gtN (subN (some num) smaller) (subN larger (some num)) then larger else smaller

/-! ## Zone check -/

/-- The object returned by `checkZone`. -/
structure ZoneCheck where
  is_closed_in_box : Bool
  is_pierced_up : Bool
  is_pierced_dwn : Bool
  mid_price : Option ℚ
deriving DecidableEq

/-- The function `checkZone(start, end, PSYC_STEP, BOX_STEP)`; the parameter `end`
is spelled `end_` here. -/
def checkZone (start end_ PSYC_STEP BOX_STEP : ℚ) : ZoneCheck :=
  let nearestEnd := nearestMultiple end_ PSYC_STEP
  let nearestEndTop := addN nearestEnd (some BOX_STEP)
  let nearestEndBot := subN nearestEnd (some BOX_STEP)
  let nearestUp := firstMultipleUp end_ PSYC_STEP
  let nearestUpBot := subN nearestUp (some BOX_STEP)
  let nearestDwn := firstMultipleDown end_ PSYC_STEP
  let nearestDwnTop := addN nearestDwn (some BOX_STEP)
  if geN (some end_) nearestEndBot && leN (some end_) nearestEndTop then
    { is_closed_in_box := true, is_pierced_up := false, is_pierced_dwn := false
      mid_price := nearestEnd }
  else if end_ ≥ start then
    if leN (some start) nearestDwnTop && geN (some end_) nearestDwnTop then
      { is_closed_in_box := false, is_pierced_up := true, is_pierced_dwn := false
        mid_price := nearestDwn }
    else
      { is_closed_in_box := false, is_pierced_up := false, is_pierced_dwn := false
        mid_price := none }
  else
    if geN (some start) nearestUpBot && leN (some end_) nearestUpBot then
      { is_closed_in_box := false, is_pierced_up := false, is_pierced_dwn := true
        mid_price := nearestUp }
    else
      { is_closed_in_box := false, is_pierced_up := false, is_pierced_dwn := false
        mid_price := none }

/-! ## Data model of the box engine -/

/-- The configuration `cfg` of `runEngine` with the defaults of the source. -/
structure Config where
  PSYC_STEP : ℚ := 5
  BOX_STEP : ℚ := 1 / 2
  SL_STEP : ℚ := 3 / 2
  TP1_STEP : ℚ := 3 / 2
  TP2_STEP : ℚ := 3
  showDebug : Bool := false
deriving DecidableEq

/-- The `state` object of `runEngine`; the defaults are its initial values. -/
structure State where
  isBoxFormed : Bool := false
  isBroken : Bool := false
  isBull : Option Bool := none
  isTouched : Bool := false
  isInTrade : Bool := false
  mid : Option ℚ := none
  top : Option ℚ := none
  bot : Option ℚ := none
  action : Option ℚ := none
  tp1 : Option ℚ := none
  tp2 : Option ℚ := none
  sl : Option ℚ := none
  entryPrice : Option ℚ := none
  entryBar : Option ℕ := none
  entryTime : Option ℚ := none
deriving DecidableEq

/-- The `type` strings of the events of the box engine. -/
inductive EventType where
  | box_formed
  | box_broken_bull
  | box_broken_bear
  | box_retest
  | box_reverse_invalidated
  | entry_long
  | entry_short
  | sl_hit
  | tp2_hit
  | touched
  | tp1_hit
  | sl_rebox_created
deriving DecidableEq

/-- The `extra` object spread into an event by `recordZoneEvent`, one constructor
per shape used in the source (`none` is the default `{}`). -/
inductive Extra where
  | none
  | formed (broken : Bool) (bull : Option Bool)
  | entry (entry sl tp1 tp2 : Option ℚ)
  | sl (sl : Option ℚ)
  | tp2 (tp2 : Option ℚ)
  | touched (action : Option ℚ)
  | tp1 (tp1 : Option ℚ)
  | rebox (bull : Bool) (mid : Option ℚ)
deriving DecidableEq

/-- An object pushed to `events` by `recordZoneEvent`. -/
structure Event where
  type : EventType
  bar : ℕ
  time : Option ℚ
  isBull : Option Bool
  mid : Option ℚ
  top : Option ℚ
  bot : Option ℚ
  extra : Extra
deriving DecidableEq

/-- An entry of `levelsHistory`; its constant field
`event: "box_created_or_moved"` is left out. -/
structure HistoryEntry where
  bar : ℕ
  time : Option ℚ
  mid : Option ℚ
  top : Option ℚ
  bot : Option ℚ
  isBroken : Bool
  isBull : Option Bool
deriving DecidableEq

/-- The strings `"long"` and `"short"`. -/
inductive Side where
  | long
  | short
deriving DecidableEq

/-- The exit reasons: the upper-cased type of the last event, or `"EXIT"`. -/
inductive ExitReason where
  | SL_HIT
  | TP2_HIT
  | TP1_HIT
  | EXIT
deriving DecidableEq

/-- A record of `positionsClosed`. -/
structure ClosedTrade where
  side : Side
  entry : Option ℚ
  sl : Option ℚ
  tp1 : Option ℚ
  tp2 : Option ℚ
  entryBar : Option ℕ
  entryTime : Option ℚ
  exitBar : ℕ
  exitTime : Option ℚ
  exitPrice : Option ℚ
  exitReason : ExitReason
deriving DecidableEq

/-- Everything `runEngine` mutates: the `state` object, the previous-bar snapshot
`prev` (`none` before the first bar ends) and the three output arrays. A `NaN` field
of the snapshot reads back as `null` after the JSON round trip; both are `none`
here. -/
structure Engine where
  state : State := {}
  prev : Option State := none
  positionsClosed : List ClosedTrade := []
  events : List Event := []
  levelsHistory : List HistoryEntry := []
deriving DecidableEq

/-- The returned `openPosition` object. -/
structure OpenPosition where
  side : Side
  entry : Option ℚ
  sl : Option ℚ
  tp1 : Option ℚ
  tp2 : Option ℚ
  entryBar : Option ℕ
  entryTime : Option ℚ
deriving DecidableEq

/-- The object returned by `runEngine`. -/
structure Output where
  positionsClosed : List ClosedTrade
  openPosition : Option OpenPosition
  levelsHistory : List HistoryEntry
  events : List Event
deriving DecidableEq

/-! ## Helpers of the box engine -/

/-- Truthiness of `state.isBull` (`null` is falsy). -/
def truthy (b : Option Bool) : Bool := b == some true

/-- The helper `recordZoneEvent(type, i, c, extra)`. The key `mid` of the extra
object of a `sl_rebox_created` event overrides the `mid` of the state. -/
def recordZoneEvent (type : EventType) (i : ℕ) (c : Candle) (extra : Extra)
    (eng : Engine) : Engine :=
  { eng with
    events := eng.events ++
      [{ type := type
         bar := i
         time := c.time
         isBull := eng.state.isBull
         mid := match extra with
           | Extra.rebox _ m => m
           | _ => eng.state.mid
         top := eng.state.top
         bot := eng.state.bot
         extra := extra }] }

/-- The helper `createZone(bull, broken, mid, i, c)`. -/
def createZone (cfg : Config) (bull : Option Bool) (broken : Bool) (mid : Option ℚ)
    (i : ℕ) (c : Candle) (eng : Engine) : Engine :=
  let st : State :=
    { eng.state with
      isInTrade := false
      isBoxFormed := true
      isBroken := broken
      isBull := bull
      isTouched := false
      mid := mid
      top := addN mid (some cfg.BOX_STEP)
      bot := subN mid (some cfg.BOX_STEP) }
  recordZoneEvent EventType.box_formed i c (Extra.formed st.isBroken st.isBull)
    { eng with
      state := st
      levelsHistory := eng.levelsHistory ++
        [{ bar := i, time := c.time, mid := st.mid, top := st.top, bot := st.bot
           isBroken := st.isBroken, isBull := st.isBull }] }

/-- The helper `processBreak(bull, i, c)`. -/
def processBreak (bull : Bool) (i : ℕ) (c : Candle) (eng : Engine) : Engine :=
  recordZoneEvent (if bull then EventType.box_broken_bull else EventType.box_broken_bear)
    i c Extra.none
    { eng with state := { eng.state with isBull := some bull, isBroken := true } }

/-- The helper `processInvalidateWait(i, c)`. -/
def processInvalidateWait (i : ℕ) (c : Candle) (eng : Engine) : Engine :=
  recordZoneEvent EventType.box_retest i c Extra.none
    { eng with state := { eng.state with isBroken := false } }

/-- The helper `processInvalidateReverse(i, c)`. -/
def processInvalidateReverse (i : ℕ) (c : Candle) (eng : Engine) : Engine :=
  recordZoneEvent EventType.box_reverse_invalidated i c Extra.none
    { eng with state := { eng.state with isBroken := false } }

/-- The helper `setTargetsFromZone()`. -/
def setTargetsFromZone (cfg : Config) (st : State) : State :=
  let action := if truthy st.isBull then st.top else st.bot
  let tp1 := if truthy st.isBull then addN action (some cfg.TP1_STEP)
    else subN action (some cfg.TP1_STEP)
  let tp2 := if truthy st.isBull then addN action (some cfg.TP2_STEP)
    else subN action (some cfg.TP2_STEP)
  let sl := if truthy st.isBull then subN action (some cfg.SL_STEP)
    else addN action (some cfg.SL_STEP)
  { st with action := action, tp1 := tp1, tp2 := tp2, sl := sl }

/-- The helper `enterTrade(entryPrice, i, c)`. -/
def enterTrade (cfg : Config) (entryPrice : ℚ) (i : ℕ) (c : Candle) (eng : Engine) :
    Engine :=
  let st : State :=
    { setTargetsFromZone cfg eng.state with
      isInTrade := true
      entryPrice := some entryPrice
      entryBar := some i
      entryTime := c.time }
  recordZoneEvent (if truthy st.isBull then EventType.entry_long else EventType.entry_short)
    i c (Extra.entry (some entryPrice) st.sl st.tp1 st.tp2)
    { eng with state := st }

/-- The helper `closeTrade(reason, exitPrice, i, c)`. -/
def closeTrade (reason : ExitReason) (exitPrice : Option ℚ) (i : ℕ) (c : Candle)
    (eng : Engine) : Engine :=
  { eng with
    positionsClosed :=
      if eng.state.isInTrade then
        eng.positionsClosed ++
          [{ side := if truthy eng.state.isBull then Side.long else Side.short
             entry := eng.state.entryPrice
             sl := eng.state.sl
             tp1 := eng.state.tp1
             tp2 := eng.state.tp2
             entryBar := eng.state.entryBar
             entryTime := eng.state.entryTime
             exitBar := i
             exitTime := c.time
             exitPrice := exitPrice
             exitReason := reason }]
      else eng.positionsClosed
    state :=
      { isInTrade := false
        isBoxFormed := false
        isBull := none
        isBroken := false
        isTouched := false
        mid := none
        top := none
        bot := none
        action := none
        tp1 := none
        tp2 := none
        sl := none
        entryPrice := none
        entryBar := none
        entryTime := none } }

/-! ## The bar step of the box engine -/

/-- The flag chain shared by the move test (source lines 311-323) and the create
test (lines 365-377): `some (newBull, newBroken)` when `shouldMoveBox` /
`shouldCreateBox` is set. -/
def boxDecision (z : ZoneCheck) : Option (Option Bool × Bool) :=
  if z.is_closed_in_box then some (none, false)
  else if z.is_pierced_up then some (some true, true)
  else if z.is_pierced_dwn then some (some false, true)
  else none

/-- Source lines 330-336: an unbroken box waits for a close beyond top or bottom;
the two tests are made one after the other. -/
def breakChecks (i : ℕ) (c : Candle) (eng : Engine) : Engine :=
  let eng1 := if gtN (some c.close) eng.state.top then processBreak true i c eng else eng
  if ltN (some c.close) eng1.state.bot then processBreak false i c eng1 else eng1

/-- Source lines 338-360: a broken box is retested, reverse-invalidated, or a trade
is entered. -/
def brokenChecks (cfg : Config) (z : ZoneCheck) (i : ℕ) (c : Candle) (eng : Engine) :
    Engine :=
  if z.is_closed_in_box && eqN eng.state.mid z.mid_price then
    processInvalidateWait i c eng
  else if truthy eng.state.isBull && ltN (some c.close) eng.state.bot then
    processInvalidateReverse i c eng
  else if !truthy eng.state.isBull && gtN (some c.close) eng.state.top then
    processInvalidateReverse i c eng
  else if truthy eng.state.isBull && gtN (some c.close) eng.state.mid then
    enterTrade cfg c.close i c eng
  else if !truthy eng.state.isBull && ltN (some c.close) eng.state.mid then
    enterTrade cfg c.close i c eng
  else eng

/-- Source lines 307-383: the branch taken while not in a trade. -/
def notInTrade (cfg : Config) (z : ZoneCheck) (i : ℕ) (c : Candle) (eng : Engine) :
    Engine :=
  if eng.state.isBoxFormed then
    let move : Option (Option Bool × Bool) :=
      if eng.state.mid.isSome && !eqN eng.state.mid z.mid_price then boxDecision z
      else none
    match move with
    | some (newBull, newBroken) => createZone cfg newBull newBroken z.mid_price i c eng
    | none =>
      if !eng.state.isBroken then breakChecks i c eng
      else brokenChecks cfg z i c eng
  else
    match boxDecision z with
    | some (newBull, newBroken) => createZone cfg newBull newBroken z.mid_price i c eng
    | none => eng

/-- The result of the exit checks of one bar (source lines 391-436): the engine
after the events of the checks, `exitThisBar` and `slRebox`. -/
structure ExitCheck where
  eng : Engine
  exitThisBar : Bool
  slRebox : Bool

/-- Source lines 391-436: exit checks of a bar that starts in a trade. -/
def exitChecks (i : ℕ) (c : Candle) (eng : Engine) : ExitCheck :=
  if truthy eng.state.isBull then
    if leN (some c.low) eng.state.sl then
      { eng := recordZoneEvent EventType.sl_hit i c (Extra.sl eng.state.sl) eng
        exitThisBar := true
        slRebox := ltN (some c.close) eng.state.sl }
    else if geN (some c.high) eng.state.tp2 then
      { eng := recordZoneEvent EventType.tp2_hit i c (Extra.tp2 eng.state.tp2) eng
        exitThisBar := true
        slRebox := false }
    else
      let eng1 :=
        if !eng.state.isTouched && leN (some c.low) eng.state.top then
          recordZoneEvent EventType.touched i c (Extra.touched eng.state.top)
            { eng with state := { eng.state with isTouched := true } }
        else eng
      if eng1.state.isTouched && geN (some c.high) eng1.state.tp1 then
        { eng := recordZoneEvent EventType.tp1_hit i c (Extra.tp1 eng1.state.tp1) eng1
          exitThisBar := true
          slRebox := false }
      else { eng := eng1, exitThisBar := false, slRebox := false }
  else
    if geN (some c.high) eng.state.sl then
      { eng := recordZoneEvent EventType.sl_hit i c (Extra.sl eng.state.sl) eng
        exitThisBar := true
        slRebox := gtN (some c.close) eng.state.sl }
    else if leN (some c.low) eng.state.tp2 then
      { eng := recordZoneEvent EventType.tp2_hit i c (Extra.tp2 eng.state.tp2) eng
        exitThisBar := true
        slRebox := false }
    else
      let eng1 :=
        if !eng.state.isTouched && geN (some c.high) eng.state.bot then
          recordZoneEvent EventType.touched i c (Extra.touched eng.state.bot)
            { eng with state := { eng.state with isTouched := true } }
        else eng
      if eng1.state.isTouched && leN (some c.low) eng1.state.tp1 then
        { eng := recordZoneEvent EventType.tp1_hit i c (Extra.tp1 eng1.state.tp1) eng1
          exitThisBar := true
          slRebox := false }
      else { eng := eng1, exitThisBar := false, slRebox := false }

/-- The `reason` of source lines 439-442, from the type of the last event. -/
def exitReasonOf (events : List Event) : ExitReason :=
  match events.getLast? with
  | some e =>
    match e.type with
    | EventType.tp1_hit => ExitReason.TP1_HIT
    | EventType.tp2_hit => ExitReason.TP2_HIT
    | EventType.sl_hit => ExitReason.SL_HIT
    | _ => ExitReason.EXIT
  | none => ExitReason.EXIT

/-- The `exitPrice` of source lines 443-448. -/
def exitPriceOf (reason : ExitReason) (c : Candle) (st : State) : Option ℚ :=
  match reason with
  | ExitReason.SL_HIT => st.sl
  | ExitReason.TP2_HIT => st.tp2
  | ExitReason.TP1_HIT => st.tp1
  | ExitReason.EXIT =>
    if truthy st.isBull then
      (if leN (some c.low) st.sl then st.sl
       else if geN (some c.high) st.tp2 then st.tp2 else st.tp1)
    else
      (if geN (some c.high) st.sl then st.sl
       else if leN (some c.low) st.tp2 then st.tp2 else st.tp1)

/-- Source lines 453-460: the re-box after a close beyond the stop. -/
def rebox (cfg : Config) (slRebox : Bool) (i : ℕ) (c : Candle) (eng : Engine) : Engine :=
  match eng.prev with
  | some prev =>
    if slRebox then
      let newSideIsBull := !truthy prev.isBull
      let prevMid := prev.mid
      recordZoneEvent EventType.sl_rebox_created i c (Extra.rebox newSideIsBull prevMid)
        (createZone cfg (some newSideIsBull) true prevMid i c eng)
    else eng
  | none => eng

/-- Source lines 387-461: the branch taken while in a trade. -/
def inTrade (cfg : Config) (i : ℕ) (c : Candle) (eng : Engine) : Engine :=
  let x := exitChecks i c eng
  let eng1 :=
    if x.exitThisBar then
      let reason := exitReasonOf x.eng.events
      closeTrade reason (exitPriceOf reason c x.eng.state) i c x.eng
    else x.eng
  rebox cfg x.slRebox i c eng1

/-- One round of the main loop (source lines 287-465) for bar `i` with candle `c`.
The local `cPrev` of the source is never read and is left out. -/
def step (cfg : Config) (i : ℕ) (c : Candle) (eng : Engine) : Engine :=
  let z := checkZone c.open_ c.close cfg.PSYC_STEP cfg.BOX_STEP
  let eng1 := if !eng.state.isInTrade then notInTrade cfg z i c eng else inTrade cfg i c eng
  { eng1 with prev := some eng1.state }

/-- The main loop from bar `i` on, over the candles still to be read. -/
def loop (cfg : Config) : ℕ → List Candle → Engine → Engine
  | _, [], eng => eng
  | i, c :: cs, eng => loop cfg (i + 1) cs (step cfg i c eng)

/-- The engine after the main loop has read all `candles`. -/
def finalEngine (candles : List Candle) (cfg : Config) : Engine :=
  loop cfg 0 candles {}

/-- The `openPosition` computed after the loop (source lines 467-477). -/
def openPositionOf (st : State) : Option OpenPosition :=
  if st.isInTrade then
    some
      { side := if truthy st.isBull then Side.long else Side.short
        entry := st.entryPrice
        sl := st.sl
        tp1 := st.tp1
        tp2 := st.tp2
        entryBar := st.entryBar
        entryTime := st.entryTime }
  else none

/-- The function `runEngine(candles, settings)` of the box engine. -/
def runEngine (candles : List Candle) (cfg : Config) : Output :=
  let eng := finalEngine candles cfg
  { positionsClosed := eng.positionsClosed
    openPosition := openPositionOf eng.state
    levelsHistory := eng.levelsHistory
    events := eng.events }

end GoldenEra

/-! # Observations, invariants and sample runs -/

/-- Opens and closes, each given by its bar indices in order of occurrence, strictly
alternate in time starting with an open: the `k`-th open comes before the `k`-th
close, which comes before the `k+1`-st open, and there are as many opens as closes
or one more. -/
def Alternating (opens closes : List ℕ) : Prop :=
  closes.length ≤ opens.length ∧ opens.length ≤ closes.length + 1 ∧
  (∀ k o c : ℕ, opens[k]? = some o → closes[k]? = some c → o < c) ∧
  (∀ k o c : ℕ, closes[k]? = some c → opens[k + 1]? = some o → c < o)

namespace Fiverr

/-! ## Reading the output of the level engine -/

/-- What a `position_opened_*` event and a `ClosedPosition` record have in common:
the bar of the opening and the four prices fixed there. -/
structure TradeInfo where
  bar : Option ℕ
  entry : Option ℚ
  sl : Option ℚ
  tp1 : Option ℚ
  tp2 : Option ℚ
deriving DecidableEq

/-- The trade data carried by a `position_opened_long` / `position_opened_short`
event. -/
def Event.openInfo? : Event → Option TradeInfo
  | .position_opened_long b e sl tp1 tp2 _ _ => some ⟨some b, e, sl, tp1, tp2⟩
  | .position_opened_short b e sl tp1 tp2 _ _ => some ⟨some b, e, sl, tp1, tp2⟩
  | _ => none

/-- The bar of a `position_opened_long` / `position_opened_short` event. -/
def Event.openBar? : Event → Option ℕ
  | .position_opened_long b _ _ _ _ _ _ => some b
  | .position_opened_short b _ _ _ _ _ _ => some b
  | _ => none

/-- The bar of a `position_closed` event. -/
def Event.closedBar? : Event → Option ℕ
  | .position_closed b _ _ _ _ _ => some b
  | _ => none

/-- Marks the `position_closed` events. -/
def Event.isPositionClosed : Event → Bool
  | .position_closed _ _ _ _ _ _ => true
  | _ => false

/-- The trade data stored in a `ClosedPosition` record. -/
def ClosedPosition.info (r : ClosedPosition) : TradeInfo :=
  ⟨r.openedBar, r.entry, r.sl, r.tp1, r.tp2⟩

/-- The trade data of the position held in the state, if one is open. -/
def State.current (st : State) : List TradeInfo :=
  if st.pos ≠ 0 then [⟨st.openedBarIndex, st.en, st.sl, st.tp1, st.tp2⟩] else []

/-- The zone an event refers to: its field `box`, for the six `entry_zone_*` event
types. -/
def Event.box? : Event → Option Box
  | .entry_zone_removed _ b => some b
  | .entry_zone_created _ b _ => some b
  | .entry_zone_activated_long _ b _ _ => some b
  | .entry_zone_activated_short _ b _ _ => some b
  | .entry_zone_activation_failed _ b => some b
  | .entry_zone_expired _ b => some b
  | _ => none

/-- Marks the `entry_zone_created` events. -/
def Event.isCreated : Event → Bool
  | .entry_zone_created _ _ _ => true
  | _ => false

/-- The candle before bar `j`: `candles[j - 1]`, or `null` for the first bar. -/
def prevCandle (candles : List Candle) (j : ℕ) : Option Candle :=
  if j = 0 then none else candles[j - 1]?

/-! ## Invariants of the level engine -/

/-- Facts that hold between two rounds of the main loop, `n` being the number of
bars read so far. -/
structure LevelInv (n : ℕ) (st : State) : Prop where
  opens : st.events.filterMap Event.openInfo? =
    st.positionsClosed.map ClosedPosition.info ++ st.current
  closes : st.events.filterMap Event.closedBar? =
    st.positionsClosed.map ClosedPosition.closedBar
  closedOk : ∀ r ∈ st.positionsClosed, ∃ b, r.openedBar = some b ∧ b < r.closedBar ∧
    r.closedBar < n
  ordered : st.positionsClosed.Pairwise
    (fun r1 r2 => ∀ b, r2.openedBar = some b → r1.closedBar < b)
  cur : st.pos ≠ 0 → ∃ b, st.openedBarIndex = some b ∧ b < n ∧
    ∀ r ∈ st.positionsClosed, r.closedBar < b

/-- A close on bar `i` leaves the engine flat with no zone, or with a zone created on
this very bar; either way no position can be opened on bar `i` any more. -/
def Blocked (i : ℕ) (st : State) : Prop :=
  (∃ r ∈ st.positionsClosed, r.closedBar = i) →
    st.pos = 0 ∧ (st.box_entry_zone = none ∨ st.active_level_curr ≠ none)

/-- What the two milestone checks leave untouched. -/
structure SameTrade (st st' : State) : Prop where
  pos : st'.pos = st.pos
  en : st'.en = st.en
  sl : st'.sl = st.sl
  tp1 : st'.tp1 = st.tp1
  tp2 : st'.tp2 = st.tp2
  bar : st'.openedBarIndex = st.openedBarIndex
  snap : st'.openedCandleSnapshot = st.openedCandleSnapshot
  closed : st'.positionsClosed = st.positionsClosed
  pre : st.events <+: st'.events
  noClose : st'.events.filter Event.isPositionClosed =
    st.events.filter Event.isPositionClosed

/-- What the phases after the close checks leave untouched, and that they cannot
open a position when no zone is left or an active level was detected. -/
structure AfterClose (st st' : State) : Prop where
  closed : st'.positionsClosed = st.positionsClosed
  pre : st.events <+: st'.events
  noClose : st'.events.filter Event.isPositionClosed =
    st.events.filter Event.isPositionClosed
  flat : st.pos = 0 → (st.box_entry_zone = none ∨ st.active_level_curr ≠ none) →
    st'.pos = 0 ∧ (st'.box_entry_zone = none ∨ st'.active_level_curr ≠ none)

/-- A phase of bar `i` only appends events of bar `i`, refers only to the zone it
found in the state or to a zone created on bar `i`, and leaves as zone the one it
found or one created on bar `i`. -/
structure Mentions (i : ℕ) (st st' : State) : Prop where
  events : ∃ evs, st'.events = st.events ++ evs ∧ ∀ e ∈ evs, e.bar = i ∧
    ∀ b, e.box? = some b → st.box_entry_zone = some b ∨ b.createdBar = i
  box : ∀ b, st'.box_entry_zone = some b → st.box_entry_zone = some b ∨ b.createdBar = i

/-- A phase that only appends events without a zone and keeps or drops the zone of
the state. -/
structure Plain (st st' : State) : Prop where
  events : ∃ evs, st'.events = st.events ++ evs ∧ ∀ e ∈ evs, e.box? = none
  box : st'.box_entry_zone = st.box_entry_zone ∨ st'.box_entry_zone = none

/-! ## Sample runs of the level engine -/

/-- The run used against C5: a zone around 2000 is created on bar 0, activated long
on bar 1 and entered on bar 2 (entry 2000.5, sl 1999, tp2 2003.5); bar 3 has
`low = 1998 ≤ sl` and `high = 2004 ≥ tp2`. -/
def bothHitCandles : List Candle :=
  [ { open_ := 1999, high := 2003, low := 1998, close := 2002 },
    { open_ := 2002, high := 2004, low := 2001, close := 2003 },
    { open_ := 2003, high := 2004, low := 10001 / 5, close := 4007 / 2 },
    { open_ := 4007 / 2, high := 2004, low := 1998, close := 10018 / 5 } ]

/-- Bar 3 of `bothHitCandles`. -/
def bothHitBar : Candle :=
  { open_ := 4007 / 2, high := 2004, low := 1998, close := 10018 / 5 }

/-- The state of the run on `bothHitCandles` when bar 3 starts: a long position is
open. -/
def bothHitState : State :=
  finalState (bothHitCandles.take 3) {}

/-- The record that the run on `bothHitCandles` appends to `positionsClosed`. -/
def bothHitRecord : ClosedPosition :=
  { type := Side.LONG
    entry := some (4001 / 2)
    sl := some 1999
    tp1 := some 2002
    tp2 := some (4007 / 2)
    openedBar := some 2
    closedBar := 3
    reason := Reason.TP2
    openedAtCandle := some { open_ := 2003, high := 2004, low := 10001 / 5, close := 4007 / 2 }
    closedAtCandle := bothHitBar
    tp1_reached := false
    tp2_reached := false }

/-- The run used against C9, with `zoneNoBars = 2`: bar 0 crosses the level 2005
downwards, which creates a zone around 2005; bar 1 has no active level and closes at
2004.8, inside the zone, so the zone is neither activated long nor short. -/
def expiryCandles : List Candle :=
  [ { open_ := 2006, high := 2007, low := 2002, close := 2003 },
    { open_ := 2003, high := 2005, low := 2003, close := 10024 / 5 },
    { open_ := 10024 / 5, high := 2005, low := 2004, close := 20049 / 10 } ]

/-- The zone created on bar 0 of `expiryCandles`. -/
def expiryBox : Box :=
  { leftIndex := 0, rightIndex := 2, top := 4011 / 2, bottom := 4009 / 2, createdBar := 0
    active_level := 2005 }

end Fiverr

namespace GoldenEra

/-! ## Reading the output of the box engine -/

/-- What an `entry_long` / `entry_short` event and a record of `positionsClosed` have
in common: the bar of the entry and the four prices fixed there. -/
structure TradeInfo where
  bar : Option ℕ
  entry : Option ℚ
  sl : Option ℚ
  tp1 : Option ℚ
  tp2 : Option ℚ
deriving DecidableEq

/-- Marks the `entry_long` and `entry_short` events. -/
def Event.isEntry (e : Event) : Bool :=
  e.type = EventType.entry_long || e.type = EventType.entry_short

/-- The trade data carried by an entry event: its bar and the keys `entry`, `sl`,
`tp1`, `tp2` of its extra object. -/
def Event.entryInfo? (e : Event) : Option TradeInfo :=
  if e.isEntry then
    match e.extra with
    | Extra.entry en sl tp1 tp2 => some ⟨some e.bar, en, sl, tp1, tp2⟩
    | _ => some ⟨some e.bar, none, none, none, none⟩
  else none

/-- The bar of an entry event. -/
def Event.entryBar? (e : Event) : Option ℕ :=
  if e.isEntry then some e.bar else none

/-- The trade data stored in a record of `positionsClosed`. -/
def ClosedTrade.info (r : ClosedTrade) : TradeInfo :=
  ⟨r.entryBar, r.entry, r.sl, r.tp1, r.tp2⟩

/-- The trade data of the trade held in the state, if one is open. -/
def State.current (st : State) : List TradeInfo :=
  if st.isInTrade then [⟨st.entryBar, st.entryPrice, st.sl, st.tp1, st.tp2⟩] else []

/-! ## Invariants of the box engine -/

/-- Facts that hold between two rounds of the main loop of the box engine, `n` being
the number of bars read so far. -/
structure BoxInv (n : ℕ) (eng : Engine) : Prop where
  opens : eng.events.filterMap Event.entryInfo? =
    eng.positionsClosed.map ClosedTrade.info ++ eng.state.current
  closedOk : ∀ r ∈ eng.positionsClosed, ∃ b, r.entryBar = some b ∧ b < r.exitBar ∧
    r.exitBar < n
  ordered : eng.positionsClosed.Pairwise
    (fun r1 r2 => ∀ b, r2.entryBar = some b → r1.exitBar < b)
  cur : eng.state.isInTrade = true → ∃ b, eng.state.entryBar = some b ∧ b < n ∧
    ∀ r ∈ eng.positionsClosed, r.exitBar < b

/-- An update that closes and opens nothing: same records, same open trade, no new
entry event. -/
structure Quiet (eng eng' : Engine) : Prop where
  closed : eng'.positionsClosed = eng.positionsClosed
  entries : eng'.events.filterMap Event.entryInfo? =
    eng.events.filterMap Event.entryInfo?
  current : eng'.state.current = eng.state.current
  trade : eng'.state.isInTrade = eng.state.isInTrade
  bar : eng'.state.entryBar = eng.state.entryBar

/-! ## Sample runs of the box engine -/

/-- Two bars that open a long trade in the box engine with the default
configuration: bar 0 pierces the box around 2000 upwards, bar 1 closes above its
middle (entry 2002, sl 1999, tp1 2002, tp2 2003.5). -/
def longTradeCandles : List Candle :=
  [ { open_ := 1999, high := 2002, low := 1998, close := 2001 },
    { open_ := 2001, high := 2003, low := 2001, close := 2002 } ]

/-- A bar that reaches both the stop and the second target of the trade opened by
`longTradeCandles`: `low = 1998 ≤ sl` and `high = 2004 ≥ tp2`. -/
def bothHitBar : Candle :=
  { open_ := 2002, high := 2004, low := 1998, close := 3997 / 2 }

/-- The record that the run on `longTradeCandles` followed by `bothHitBar` appends to
`positionsClosed`. -/
def bothHitTrade : ClosedTrade :=
  { side := Side.long
    entry := some 2002
    sl := some 1999
    tp1 := some 2002
    tp2 := some (4007 / 2)
    entryBar := some 1
    entryTime := none
    exitBar := 2
    exitTime := none
    exitPrice := some 1999
    exitReason := ExitReason.SL_HIT }

/-! ## Reading a bar of the box engine -/

/-- The flag `shouldMoveBox` of source lines 311-323 as a function of the zone check
and the state at the start of the bar: the box has a mid, `mid_price` differs from
it, and the bar closed in a box or pierced one. -/
def shouldMoveBox (z : ZoneCheck) (st : State) : Bool :=
  st.mid.isSome && !eqN st.mid z.mid_price && (boxDecision z).isSome

/-- The `levelsHistory` entry that `createZone` pushes together with a `box_formed`
event, read back from the event: same bar, time, mid, top, bot and bias, and the
`broken` key of the extra object. Other events have none. -/
def Event.snapshot? (e : Event) : Option HistoryEntry :=
  if e.type = EventType.box_formed then
    some
      { bar := e.bar
        time := e.time
        mid := e.mid
        top := e.top
        bot := e.bot
        isBroken := match e.extra with
          | Extra.formed broken _ => broken
          | _ => false
        isBull := e.isBull }
  else none

/-- What a round of the main loop for bar `i` does to the three output arrays: it
appends events of bar `i`, appends to `levelsHistory` the snapshots of the appended
`box_formed` events, and appends records closed on bar `i`. -/
structure Grows (i : ℕ) (eng eng' : Engine) : Prop where
  events : ∃ D, eng'.events = eng.events ++ D ∧ (∀ e ∈ D, e.bar = i) ∧
    eng'.levelsHistory = eng.levelsHistory ++ D.filterMap Event.snapshot?
  closed : ∃ D, eng'.positionsClosed = eng.positionsClosed ++ D ∧ ∀ r ∈ D, r.exitBar = i

/-- Facts about the state between two rounds of the main loop: a trade is held only
with a formed box, a formed box has a mid, and the snapshot `prev`, once taken, is the
state itself. -/
structure BoxShape (eng : Engine) : Prop where
  formed : eng.state.isInTrade = true → eng.state.isBoxFormed = true
  mid : eng.state.isBoxFormed = true → eng.state.mid.isSome = true
  snap : ∀ p, eng.prev = some p → p = eng.state

/-! ## More sample bars of the box engine -/

/-- A bar that pierces the box around 2000 from below: it opens under the box and
closes above its top, outside the box of the level nearest to its close. -/
def pierceUpBar : Candle :=
  { open_ := 1999, high := 2002, low := 1998, close := 2001 }

/-- One bar that forms the unbroken box around 2000, then a bar that closes above
its top inside the box around 2005. -/
def moveBoxCandles : List Candle :=
  [ { open_ := 2000, high := 2001, low := 1999, close := 10001 / 5 },
    { open_ := 10001 / 5, high := 2006, low := 2000, close := 10026 / 5 } ]

/-- The second bar of `moveBoxCandles`. -/
def moveBoxBar : Candle :=
  { open_ := 10001 / 5, high := 2006, low := 2000, close := 10026 / 5 }

/-- A state with the formed, unbroken box around 2000 at the default `BOX_STEP`. -/
def unbrokenBox : State :=
  { isBoxFormed := true, mid := some 2000, top := some (4001 / 2), bot := some (3999 / 2) }

/-- A bar that closes above the top of `unbrokenBox` without closing in another box
or piercing one: the body lies between the boxes around 2000 and 2005. -/
def breakBar : Candle :=
  { open_ := 2001, high := 2003, low := 2001, close := 2002 }

end GoldenEra

namespace Fiverr

/-! ## Zone rules, closes and milestones of the level engine -/

/-- The zone created on bar 0 of `bothHitCandles` with the default settings, around
the level 2000. -/
def crossZone : Box :=
  { leftIndex := 0, rightIndex := 40, top := 4001 / 2, bottom := 3999 / 2, createdBar := 0
    active_level := 2000 }

/-- The object that entry zone creation (source lines 233-240) assigns to
`box_entry_zone` on bar `i` for the active level `lvl`. -/
def newZone (s : Settings) (i : ℕ) (lvl : ℚ) : Box :=
  { leftIndex := i
    rightIndex := (i : ℤ) + s.zoneNoBars
    top := lvl + pipsToPrice s.entryZonePips s.pipSize
    bottom := lvl - pipsToPrice s.entryZonePips s.pipSize
    createdBar := i
    active_level := lvl }

/-- The position fields at their flat defaults: no position, the four prices, the
opening bar and the opening snapshot `null`, both milestone flags `false`. -/
def State.flatDefaults (st : State) : Prop :=
  st.pos = 0 ∧ st.en = none ∧ st.sl = none ∧ st.tp1 = none ∧ st.tp2 = none ∧
    st.openedBarIndex = none ∧ st.openedCandleSnapshot = none ∧
    st.tp1_reached = false ∧ st.tp2_reached = false

/-- Marks the `tp1_reached` events. -/
def Event.isTp1 : Event → Bool
  | .tp1_reached _ _ => true
  | _ => false

/-- Marks the `tp2_reached` events. -/
def Event.isTp2 : Event → Bool
  | .tp2_reached _ _ => true
  | _ => false

/-- Reading an event list from the left with a flag that a milestone event (one
marked by `isM`) raises and a `position_closed` event lowers: the flag after the
list. -/
def flagAfter (isM : Event → Bool) : Bool → List Event → Bool
  | flagged, [] => flagged
  | flagged, e :: es =>
    if isM e then flagAfter isM true es
    else if e.isPositionClosed then flagAfter isM false es
    else flagAfter isM flagged es

/-- Reading an event list the same way: no milestone event is met while the flag is
raised. -/
def milestoneOnce (isM : Event → Bool) : Bool → List Event → Bool
  | _, [] => true
  | flagged, e :: es =>
    if isM e then !flagged && milestoneOnce isM true es
    else if e.isPositionClosed then milestoneOnce isM false es
    else milestoneOnce isM flagged es

/-- A phase that keeps both milestone flags and appends only events that are neither
milestone events nor `position_closed` events. -/
structure NoMilestone (st st' : State) : Prop where
  events : ∃ evs, st'.events = st.events ++ evs ∧
    ∀ e ∈ evs, e.isTp1 = false ∧ e.isTp2 = false ∧ e.isPositionClosed = false
  tp1 : st'.tp1_reached = st.tp1_reached
  tp2 : st'.tp2_reached = st.tp2_reached

/-- The two milestone flags of the state agree with the event list: each flag is
raised exactly when a milestone event of its kind came after the last
`position_closed` event, and no milestone event was emitted under a raised flag. -/
structure Milestones (st : State) : Prop where
  once1 : milestoneOnce Event.isTp1 false st.events = true
  flag1 : flagAfter Event.isTp1 false st.events = st.tp1_reached
  once2 : milestoneOnce Event.isTp2 false st.events = true
  flag2 : flagAfter Event.isTp2 false st.events = st.tp2_reached

/-- Marks the `entry_zone_activated_long` and `entry_zone_activated_short` events of
the zone `b`. -/
def Event.activates : Event → Box → Bool
  | .entry_zone_activated_long _ b0 _ _, b => decide (b0 = b)
  | .entry_zone_activated_short _ b0 _ _, b => decide (b0 = b)
  | _, _ => false

/-- Marks the `entry_zone_expired` events. -/
def Event.isExpired : Event → Bool
  | .entry_zone_expired _ _ => true
  | _ => false

/-- Every `entry_zone_expired` event of the list, emitted at bar `i` for the zone `b`,
has `b.createdBar = i - zoneNoBars` and comes after an activation event of `b`. -/
def ExpiredOk (s : Settings) (evs : List Event) : Prop :=
  ∀ (k i : ℕ) (b : Box), evs[k]? = some (Event.entry_zone_expired i b) →
    (b.createdBar : ℤ) = (i : ℤ) - s.zoneNoBars ∧
      ∃ k0 : ℕ, k0 < k ∧ ∃ e : Event, evs[k0]? = some e ∧ e.activates b = true

/-- Facts about the zone of the state while bar `i` is being read (or, with `i` the
number of bars read, between two bars): the bar recorded in `zone_created_bar` is the
one of the zone; an activated zone has an activation event; a zone held while flat is
younger than `zoneNoBars` bars at bar `i - 1`; and the expiry events so far are as
`ExpiredOk` says. -/
structure ZoneCore (s : Settings) (i : ℕ) (st : State) : Prop where
  edges : ∀ b, st.box_entry_zone = some b → st.zone_created_bar = some b.createdBar
  act : ∀ b, st.box_entry_zone = some b → st.entry_zone_active ≠ 0 →
    ∃ e ∈ st.events, e.activates b = true
  young : ∀ b, st.box_entry_zone = some b → st.pos = 0 →
    (i : ℤ) - 1 - (b.createdBar : ℤ) < s.zoneNoBars
  expired : ExpiredOk s st.events

/-- The invariant of the main loop about zones, `j` being the number of bars read: the
facts of `ZoneCore`, and a zone that is not activated was created on the last bar
read, on which an active level was detected, and the engine is flat. -/
structure ZoneInv (s : Settings) (j : ℕ) (st : State) : Prop where
  core : ZoneCore s j st
  fresh : ∀ b, st.box_entry_zone = some b → st.entry_zone_active = 0 →
    st.pos = 0 ∧ st.active_level_curr ≠ none ∧ b.createdBar + 1 = j

/-- A run for `zoneNoBars = 2` in which an activated zone expires: bar 0 crosses the
level 2005 downwards (zone `expiryBox`), bar 1 closes at 2002.5 below the zone, which
activates it short, and bar 2 stays below the zone, so no position is opened and the
zone expires on bar 2. -/
def lapseCandles : List Candle :=
  [ { open_ := 2006, high := 2007, low := 2002, close := 2003 },
    { open_ := 2003, high := 2004, low := 2002, close := 4005 / 2 },
    { open_ := 4005 / 2, high := 2003, low := 2002, close := 4005 / 2 } ]

end Fiverr

namespace GoldenEra

/-! ## The exit order of the box engine -/

/-- What a record `r` of `positionsClosed` says about the bar `c` it was closed on:
its reason is the first exit condition that holds on `c`, in the order stop
(`low <= sl` for a long, `high >= sl` for a short), second target (`high >= tp2`,
resp. `low <= tp2`), first target (`high >= tp1`, resp. `low <= tp1`), and its exit
price is the `sl`, `tp2` or `tp1` of the trade accordingly. -/
def ExitOrder (c : Candle) (r : ClosedTrade) : Prop :=
  let stop := if r.side = Side.long then leN (some c.low) r.sl else geN (some c.high) r.sl
  let target2 :=
    if r.side = Side.long then geN (some c.high) r.tp2 else leN (some c.low) r.tp2
  let target1 :=
    if r.side = Side.long then geN (some c.high) r.tp1 else leN (some c.low) r.tp1
  (r.exitReason = ExitReason.SL_HIT ∧ r.exitPrice = r.sl ∧ stop = true) ∨
  (r.exitReason = ExitReason.TP2_HIT ∧ r.exitPrice = r.tp2 ∧ stop = false ∧
    target2 = true) ∨
  (r.exitReason = ExitReason.TP1_HIT ∧ r.exitPrice = r.tp1 ∧ stop = false ∧
    target2 = false ∧ target1 = true)

end GoldenEra

namespace Fiverr

namespace F64

/-! ## Binary64 arithmetic

The numbers of JavaScript are IEEE 754 binary64 values. A finite binary64 value is a
rational; an arithmetic operation of the source is the exact operation on rationals
followed by rounding to the nearest binary64 value, ties to the value with an even
significand (`fl`). The two zeros `0` and `-0` are one value here (they are equal under
`==` and `<`), and a decimal literal such as `1900.1` denotes `nearest (19001 / 10)`.
`NaN` and the infinities are not values of the model: an operation that produces one
has the result `none`. -/

/-- The power `2 ^ k` for an integer exponent `k`. -/
def pow2 (k : ℤ) : ℚ :=
  if 0 ≤ k then ((2 ^ k.toNat : ℕ) : ℚ) else 1 / ((2 ^ (-k).toNat : ℕ) : ℚ)

/-- The search of `log2` with a bound on the number of halvings. -/
def log2Aux : ℕ → ℕ → ℕ
  | 0, _ => 0
  | fuel + 1, n => if 2 ≤ n then log2Aux fuel (n / 2) + 1 else 0

/-- The position of the leading binary digit of `n`: the `k` with
`2 ^ k ≤ n < 2 ^ (k + 1)` for `n ≥ 1`, and `0` for `n = 0`. -/
def log2 (n : ℕ) : ℕ := log2Aux n n

/-- The binary exponent of a positive rational `x`: the integer `e` with
`2 ^ e ≤ x < 2 ^ (e + 1)`. The difference of the leading digit positions of numerator
and denominator is `e` or `e + 1`. -/
def ilog2 (x : ℚ) : ℤ :=
  if pow2 ((log2 x.num.natAbs : ℤ) - (log2 x.den : ℤ)) ≤ x then
    (log2 x.num.natAbs : ℤ) - (log2 x.den : ℤ)
  else (log2 x.num.natAbs : ℤ) - (log2 x.den : ℤ) - 1

/-- Rounding of a rational to the nearest integer, a tie to the even one. -/
def rne (a : ℚ) : ℤ :=
  if a - ⌊a⌋ < 1 / 2 then ⌊a⌋
  else if 1 / 2 < a - ⌊a⌋ then ⌊a⌋ + 1
  else if ⌊a⌋ % 2 = 0 then ⌊a⌋ else ⌊a⌋ + 1

/-- The exponent of the binary64 values around `x`: the binary exponent of `|x|`, and
`-1022` in the subnormal range below `2 ^ (-1022)`. -/
def exponent (x : ℚ) : ℤ := max (ilog2 |x|) (-1022)

/-- The unit in the last place of the binary64 values around `x`: there the values
are `52` binary digits below the leading one, so they are `2 ^ (exponent x - 52)`
apart. -/
def ulp (x : ℚ) : ℚ := pow2 (exponent x - 52)

/-- The binary64 value nearest to `x` when the exponent range is unbounded above:
`x` is rounded to a multiple of its unit in the last place. -/
def nearest (x : ℚ) : ℚ := (rne (x / ulp x) : ℚ) * ulp x

/-- The largest finite binary64 value, `Number.MAX_VALUE`. -/
def maxValue : ℚ := (2 ^ 53 - 1) * pow2 971

/-- The result of an operation whose exact value is `x`: the nearest binary64 value,
or `none` when that value is beyond `maxValue` (the operation gives `Infinity`). -/
def fl (x : ℚ) : Option ℚ :=
  if |nearest x| ≤ maxValue then some (nearest x) else none

/-- A finite binary64 value: a rational that rounding leaves unchanged and that is
within the finite range. -/
@[reducible]
def IsDouble (x : ℚ) : Prop := fl x = some x

/-! ## The level ladder in binary64 -/

/-- The sum `a + b` of two binary64 values. -/
def add (a b : ℚ) : Option ℚ := fl (a + b)

/-- The difference `a - b` of two binary64 values. -/
def sub (a b : ℚ) : Option ℚ := fl (a - b)

/-- The product `a * b` of two binary64 values. -/
def mul (a b : ℚ) : Option ℚ := fl (a * b)

/-- The quotient `a / b` of two binary64 values; a zero divisor gives `Infinity` or
`NaN`, which is `none`. -/
def div (a b : ℚ) : Option ℚ := if b = 0 then none else fl (a / b)

/-- Conversion `pipsToPrice(val, pipSize)` in binary64. -/
def pipsToPrice (val pipSize : ℚ) : Option ℚ := mul val pipSize

/-- The value `baseLevel + (i + 1) * levelSizeInPrice` of a loop round. -/
def upLevel (baseLevel levelSizeInPrice : ℚ) (i : ℕ) : Option ℚ :=
  (add (i : ℚ) 1).bind fun j =>
    (mul j levelSizeInPrice).bind fun t => add baseLevel t

/-- The value `baseLevel - i * levelSizeInPrice` of a loop round. -/
def dnLevel (baseLevel levelSizeInPrice : ℚ) (i : ℕ) : Option ℚ :=
  (mul (i : ℚ) levelSizeInPrice).bind fun t => sub baseLevel t

/-- The pushed values of the loop, when all of them are finite. -/
def collect : List (Option ℚ) → Option (List ℚ)
  | [] => some []
  | none :: _ => none
  | some a :: l => (collect l).map (a :: ·)

/-- The function `processLevels(price, pips, nLevels, pipSize)` (source lines 20-41)
on finite binary64 arguments, every arithmetic operation rounded as JavaScript rounds
it: `levelSizeInPrice = pips * pipSize`,
`baseLevel = Math.floor(price / levelSizeInPrice) * levelSizeInPrice` (`Math.floor` is
exact), the loop over `i = nLevels - 1, …, 0` and the two sorts. The result is `none`
when an operation leaves the finite range, where the source goes on with `Infinity` or
`NaN`. -/
def processLevels (price pips : ℚ) (nLevels : ℤ) (pipSize : ℚ) : Option Levels :=
  (pipsToPrice pips pipSize).bind fun levelSizeInPrice =>
    (div price levelSizeInPrice).bind fun q =>
      (mul (⌊q⌋ : ℚ) levelSizeInPrice).bind fun baseLevel =>
        (collect ((List.range nLevels.toNat).reverse.map
            (upLevel baseLevel levelSizeInPrice))).bind fun arrLevelsUp =>
          (collect ((List.range nLevels.toNat).reverse.map
              (dnLevel baseLevel levelSizeInPrice))).bind fun arrLevelsDn =>
            some
              { up := arrLevelsUp.insertionSort (· ≤ ·)
                dn := arrLevelsDn.insertionSort (· ≥ ·)
                levelSizeInPrice := levelSizeInPrice }

/-! ## Sample ladders in binary64 -/

/-- The ladder of `processLevels(2003.7, 500, 4, 0.01)`: the step `500 * 0.01` is the
binary64 value `5`, and every level is an integer. -/
def defaultLadder : Levels :=
  { up := [2005, 2010, 2015, 2020], dn := [2000, 1995, 1990, 1985], levelSizeInPrice := 5 }

/-- The ladder of `processLevels(1e17, 1, 4, 1)`: at `1e17` the binary64 values are
`16` apart, so adding or subtracting up to four steps of `1` changes nothing. -/
def collapsedLadder : Levels :=
  { up := [10 ^ 17, 10 ^ 17, 10 ^ 17, 10 ^ 17], dn := [10 ^ 17, 10 ^ 17, 10 ^ 17, 10 ^ 17]
    levelSizeInPrice := 1 }

/-- The ladder of `processLevels(2000, 1, 4, 2 ** -43)`: at `2000` the binary64 values
are `2 ** -42` apart, twice the step. -/
def mergedLadder : Levels :=
  { up := [2000, 2000 + pow2 (-42), 2000 + pow2 (-41), 2000 + pow2 (-41)]
    dn := [2000, 2000, 2000 - pow2 (-42), 2000 - pow2 (-41)]
    levelSizeInPrice := pow2 (-43) }

end F64

end Fiverr

/-! # Theorems -/

namespace Fiverr

/-! ## The ladder in closed form -/

theorem sorted_up_closed (base step : ℚ) (hstep : 0 < step) (n : ℕ) :
    List.Sorted (· < ·) ((List.range n).map (fun (i : ℕ) => base + ((i : ℚ) + 1) * step)) := by
  unfold List.Sorted
  rw [List.pairwise_map]
  refine (List.pairwise_lt_range n).imp ?_
  intro a b hab
  have h : (a : ℚ) < (b : ℚ) := by exact_mod_cast hab
  nlinarith

theorem sorted_dn_closed (base step : ℚ) (hstep : 0 < step) (n : ℕ) :
    List.Sorted (· > ·) ((List.range n).map (fun (i : ℕ) => base - (i : ℚ) * step)) := by
  unfold List.Sorted
  rw [List.pairwise_map]
  refine (List.pairwise_lt_range n).imp ?_
  intro a b hab
  have h : (a : ℚ) < (b : ℚ) := by exact_mod_cast hab
  show base - (a : ℚ) * step > base - (b : ℚ) * step
  nlinarith

/-- With a positive step the sorted `up` array is `base + step, base + 2 step, …`. -/
theorem processLevels_up_eq (price pips pipSize : ℚ) (nLevels : ℤ)
    (hstep : 0 < pips * pipSize) :
    (processLevels price pips nLevels pipSize).up =
      (List.range nLevels.toNat).map
        (fun (i : ℕ) => (⌊price / (pips * pipSize)⌋ : ℚ) * (pips * pipSize)
          + ((i : ℚ) + 1) * (pips * pipSize)) := by
  simp only [processLevels, pipsToPrice]
  apply List.eq_of_perm_of_sorted (r := (· ≤ ·))
  · refine (List.perm_insertionSort _ _).trans ?_
    rw [List.map_reverse]
    exact List.reverse_perm _
  · exact List.sorted_insertionSort _ _
  · exact (sorted_up_closed _ _ hstep _).le_of_lt

/-- With a positive step the sorted `dn` array is `base, base - step, …`. -/
theorem processLevels_dn_eq (price pips pipSize : ℚ) (nLevels : ℤ)
    (hstep : 0 < pips * pipSize) :
    (processLevels price pips nLevels pipSize).dn =
      (List.range nLevels.toNat).map
        (fun (i : ℕ) => (⌊price / (pips * pipSize)⌋ : ℚ) * (pips * pipSize)
          - (i : ℚ) * (pips * pipSize)) := by
  simp only [processLevels, pipsToPrice]
  apply List.eq_of_perm_of_sorted (r := (· ≥ ·))
  · refine (List.perm_insertionSort _ _).trans ?_
    rw [List.map_reverse]
    exact List.reverse_perm _
  · exact List.sorted_insertionSort _ _
  · exact (sorted_dn_closed _ _ hstep _).ge_of_gt

theorem floor_mul_le (price step : ℚ) (hstep : 0 < step) :
    (⌊price / step⌋ : ℚ) * step ≤ price := by
  have h := Int.floor_le (price / step)
  calc (⌊price / step⌋ : ℚ) * step ≤ price / step * step :=
        mul_le_mul_of_nonneg_right h hstep.le
    _ = price := div_mul_cancel₀ _ hstep.ne'

theorem lt_floor_mul_add (price step : ℚ) (hstep : 0 < step) :
    price < (⌊price / step⌋ : ℚ) * step + step := by
  have h := Int.lt_floor_add_one (price / step)
  calc price = price / step * step := (div_mul_cancel₀ _ hstep.ne').symm
    _ < ((⌊price / step⌋ : ℚ) + 1) * step := mul_lt_mul_of_pos_right h hstep
    _ = (⌊price / step⌋ : ℚ) * step + step := by ring

/-! ## The anchor of the ladder over exact rationals -/

/-- Over exact rationals: for every price, every positive step `pips * pipSize` and every
`nLevels ≥ 1`, `dn[0]` is `floor(price / step) * step`, `up[0]` is `dn[0] + step`,
and `dn[0] ≤ price < up[0]`. -/
theorem processLevels_anchor (price pips pipSize : ℚ) (nLevels : ℤ)
    (hstep : 0 < pips * pipSize) (hn : 1 ≤ nLevels) :
    (processLevels price pips nLevels pipSize).dn[0]? =
        some ((⌊price / (pips * pipSize)⌋ : ℚ) * (pips * pipSize)) ∧
    (processLevels price pips nLevels pipSize).up[0]? =
        some ((⌊price / (pips * pipSize)⌋ : ℚ) * (pips * pipSize) + pips * pipSize) ∧
    (⌊price / (pips * pipSize)⌋ : ℚ) * (pips * pipSize) ≤ price ∧
    price < (⌊price / (pips * pipSize)⌋ : ℚ) * (pips * pipSize) + pips * pipSize := by
  obtain ⟨m, hm⟩ : ∃ m : ℕ, nLevels.toNat = m + 1 := by
    refine ⟨nLevels.toNat - 1, ?_⟩
    have : 1 ≤ nLevels.toNat := by omega
    omega
  refine ⟨?_, ?_, floor_mul_le _ _ hstep, lt_floor_mul_add _ _ hstep⟩
  · rw [processLevels_dn_eq _ _ _ _ hstep, hm, List.range_succ_eq_map]
    simp
  · rw [processLevels_up_eq _ _ _ _ hstep, hm, List.range_succ_eq_map]
    simp

/-- The exact anchor at price `-7/2`, step `500 * (1/100) = 5`, four levels. -/
theorem processLevels_anchor_witness :
    (0 : ℚ) < 500 * (1 / 100) ∧ (1 : ℤ) ≤ 4 ∧
    ((processLevels (-7 / 2) 500 4 (1 / 100)).dn[0]? =
        some ((⌊(-7 / 2 : ℚ) / (500 * (1 / 100))⌋ : ℚ) * (500 * (1 / 100))) ∧
    (processLevels (-7 / 2) 500 4 (1 / 100)).up[0]? =
        some ((⌊(-7 / 2 : ℚ) / (500 * (1 / 100))⌋ : ℚ) * (500 * (1 / 100))
          + 500 * (1 / 100)) ∧
    (⌊(-7 / 2 : ℚ) / (500 * (1 / 100))⌋ : ℚ) * (500 * (1 / 100)) ≤ -7 / 2 ∧
    (-7 / 2 : ℚ) < (⌊(-7 / 2 : ℚ) / (500 * (1 / 100))⌋ : ℚ) * (500 * (1 / 100))
      + 500 * (1 / 100)) :=
  ⟨by norm_num, by norm_num,
    processLevels_anchor (-7 / 2) 500 (1 / 100) 4 (by norm_num) (by norm_num)⟩

/-! ## The order of the ladder over exact rationals -/

/-- Over exact rationals: for every price, every positive step and every `nLevels`, `up` is strictly
ascending and `dn` is strictly descending. -/
theorem processLevels_strictly_ordered (price pips pipSize : ℚ) (nLevels : ℤ)
    (hstep : 0 < pips * pipSize) :
    List.Sorted (· < ·) (processLevels price pips nLevels pipSize).up ∧
    List.Sorted (· > ·) (processLevels price pips nLevels pipSize).dn := by
  rw [processLevels_up_eq _ _ _ _ hstep, processLevels_dn_eq _ _ _ _ hstep]
  exact ⟨sorted_up_closed _ _ hstep _, sorted_dn_closed _ _ hstep _⟩

/-- The exact order at price `2003`, step `5`, four levels. -/
theorem processLevels_strictly_ordered_witness :
    (0 : ℚ) < 500 * (1 / 100) ∧
    (List.Sorted (· < ·) (processLevels 2003 500 4 (1 / 100)).up ∧
     List.Sorted (· > ·) (processLevels 2003 500 4 (1 / 100)).dn) :=
  ⟨by norm_num, processLevels_strictly_ordered 2003 500 (1 / 100) 4 (by norm_num)⟩

/-! ## The spacing of the ladder over exact rationals -/

/-- Over exact rationals: for every price, positive step and `nLevels = n ≥ 0`, `processLevels` returns
`n` up levels and `n` down levels, consecutive up levels differ by `step`,
consecutive down levels differ by `step`, and `levelSizeInPrice = pips * pipSize`. -/
theorem processLevels_uniform (price pips pipSize : ℚ) (n : ℤ)
    (hstep : 0 < pips * pipSize) (hn : 0 ≤ n) :
    ((processLevels price pips n pipSize).up.length : ℤ) = n ∧
    ((processLevels price pips n pipSize).dn.length : ℤ) = n ∧
    (∀ (k : ℕ) (a b : ℚ), (processLevels price pips n pipSize).up[k]? = some a →
        (processLevels price pips n pipSize).up[k + 1]? = some b →
        b - a = pips * pipSize) ∧
    (∀ (k : ℕ) (a b : ℚ), (processLevels price pips n pipSize).dn[k]? = some a →
        (processLevels price pips n pipSize).dn[k + 1]? = some b →
        a - b = pips * pipSize) ∧
    (processLevels price pips n pipSize).levelSizeInPrice = pips * pipSize := by
  rw [processLevels_up_eq _ _ _ _ hstep, processLevels_dn_eq _ _ _ _ hstep]
  refine ⟨?_, ?_, ?_, ?_, rfl⟩
  · simp [Int.toNat_of_nonneg hn]
  · simp [Int.toNat_of_nonneg hn]
  · intro k a b ha hb
    simp only [List.getElem?_map, List.getElem?_range, Option.map_eq_some'] at ha hb
    obtain ⟨i, hi, rfl⟩ := ha
    obtain ⟨j, hj, rfl⟩ := hb
    have hi' : i = k := by
      by_cases h : k < n.toNat
      · simpa [List.getElem?_range h] using hi.symm
      · simp [List.getElem?_eq_none (l := List.range n.toNat) (by simpa using h)] at hi
    have hj' : j = k + 1 := by
      by_cases h : k + 1 < n.toNat
      · simpa [List.getElem?_range h] using hj.symm
      · simp [List.getElem?_eq_none (l := List.range n.toNat) (by simpa using h)] at hj
    subst hi' hj'
    push_cast
    ring
  · intro k a b ha hb
    simp only [List.getElem?_map, List.getElem?_range, Option.map_eq_some'] at ha hb
    obtain ⟨i, hi, rfl⟩ := ha
    obtain ⟨j, hj, rfl⟩ := hb
    have hi' : i = k := by
      by_cases h : k < n.toNat
      · simpa [List.getElem?_range h] using hi.symm
      · simp [List.getElem?_eq_none (l := List.range n.toNat) (by simpa using h)] at hi
    have hj' : j = k + 1 := by
      by_cases h : k + 1 < n.toNat
      · simpa [List.getElem?_range h] using hj.symm
      · simp [List.getElem?_eq_none (l := List.range n.toNat) (by simpa using h)] at hj
    subst hi' hj'
    push_cast
    ring

/-- The exact spacing at price `2003`, step `5`, four levels. -/
theorem processLevels_uniform_witness :
    (0 : ℚ) < 500 * (1 / 100) ∧ (0 : ℤ) ≤ 4 ∧
    (((processLevels 2003 500 4 (1 / 100)).up.length : ℤ) = 4 ∧
    ((processLevels 2003 500 4 (1 / 100)).dn.length : ℤ) = 4 ∧
    (∀ (k : ℕ) (a b : ℚ), (processLevels 2003 500 4 (1 / 100)).up[k]? = some a →
        (processLevels 2003 500 4 (1 / 100)).up[k + 1]? = some b →
        b - a = 500 * (1 / 100)) ∧
    (∀ (k : ℕ) (a b : ℚ), (processLevels 2003 500 4 (1 / 100)).dn[k]? = some a →
        (processLevels 2003 500 4 (1 / 100)).dn[k + 1]? = some b →
        a - b = 500 * (1 / 100)) ∧
    (processLevels 2003 500 4 (1 / 100)).levelSizeInPrice = 500 * (1 / 100)) :=
  ⟨by norm_num, by norm_num,
    processLevels_uniform 2003 500 (1 / 100) 4 (by norm_num) (by norm_num)⟩

/-! ## C4 -/

/-- C4: the classifier evaluated on two full spans. With the levels
`bot = 2 < top = 3`, a bar that opens at 1 below `bot` and closes at 4 above `top`
(full span up) gets the lower level 2 as active level, not the upper level 3; a bar
that opens at 4 and closes at 1 (full span down) gets the upper level 3, not the
lower level 2. -/
theorem activeLevel_full_span_counterexample :
    ((2 : ℚ) < 3 ∧ (1 : ℚ) < 2 ∧ (4 : ℚ) > 3) ∧
    activeLevel 1 4 (some 3) (some 2) = some 2 ∧
    activeLevel 1 4 (some 3) (some 2) ≠ some 3 ∧
    activeLevel 4 1 (some 3) (some 2) = some 3 ∧
    activeLevel 4 1 (some 3) (some 2) ≠ some 2 := by
  decide!

/-- What the chain does on every full span: for levels `bot < top`, a bar with
`open < bot` and `close > top` gets `bot`, and a bar with `open > top` and
`close < bot` gets `top`. The tests for a crossing of a single level come first in
the chain and match, so its last two branches are never reached. -/
theorem activeLevel_full_span (open_ close bot top : ℚ) (h : bot < top)
    (hspan : (open_ < bot ∧ close > top) ∨ (open_ > top ∧ close < bot)) :
    activeLevel open_ close (some top) (some bot) =
      some (if open_ < bot then bot else top) := by
  unfold activeLevel num
  simp only [Option.getD_some]
  rcases hspan with ⟨h1, h2⟩ | ⟨h1, h2⟩
  · have h3 : ¬ open_ > top := by linarith
    have h4 : close > bot := by linarith
    simp [h1, h2, h3, h4]
  · have h3 : ¬ open_ < bot := by linarith
    have h4 : close < top := by linarith
    simp [h1, h2, h3, h4]

end Fiverr

/-! ## Alternation of opens and closes -/

theorem alternating_nil_left (cur : Option ℕ) : Alternating cur.toList [] := by
  refine ⟨by simp, ?_, by simp, by simp⟩
  cases cur <;> simp

theorem alternating_cons (o c : ℕ) (os cs : List ℕ) (h1 : o < c)
    (h2 : ∀ o' ∈ os.head?, c < o') (h : Alternating os cs) :
    Alternating (o :: os) (c :: cs) := by
  obtain ⟨ha, hb, hc, hd⟩ := h
  refine ⟨by simpa using ha, by simpa using hb, ?_, ?_⟩
  · intro k o' c' ho hc'
    cases k with
    | zero => simp at ho hc'; subst ho hc'; exact h1
    | succ k => simp at ho hc'; exact hc k o' c' ho hc'
  · intro k o' c' hc' ho
    cases k with
    | zero =>
      simp at ho hc'; subst hc'
      apply h2
      cases os with
      | nil => simp at ho
      | cons x xs => simp at ho; simp [ho]
    | succ k => simp at ho hc'; exact hd k o' c' hc' ho

/-- Records that each carry an opening bar before their closing bar, that are
ordered in time, and that all close before the open trade (if any) was opened, give
alternating opens and closes. -/
theorem alternating_of_records {α : Type} (ob : α → Option ℕ) (cb : α → ℕ)
    (cl : List α) (cur : Option ℕ)
    (h2 : ∀ r ∈ cl, ∃ b, ob r = some b ∧ b < cb r)
    (h3 : cl.Pairwise (fun r1 r2 => ∀ b, ob r2 = some b → cb r1 < b))
    (h4 : ∀ b ∈ cur, ∀ r ∈ cl, cb r < b) :
    Alternating (cl.filterMap ob ++ cur.toList) (cl.map cb) := by
  induction cl with
  | nil => simpa using alternating_nil_left cur
  | cons r cl ih =>
    obtain ⟨b, hb, hlt⟩ := h2 r (by simp)
    rw [List.pairwise_cons] at h3
    have ih' := ih (fun r' hr' => h2 r' (by simp [hr'])) h3.2
      (fun b' hb' r' hr' => h4 b' hb' r' (by simp [hr']))
    simp only [List.filterMap_cons, hb, List.map_cons, List.cons_append]
    refine alternating_cons _ _ _ _ hlt ?_ ih'
    intro o' ho'
    cases cl with
    | nil =>
      cases cur with
      | none => simp at ho'
      | some x =>
        simp at ho'; subst ho'
        exact h4 _ rfl r (by simp)
    | cons r' cl' =>
      obtain ⟨b', hb', -⟩ := h2 r' (by simp)
      simp [hb'] at ho'
      subst ho'
      exact h3.1 r' (by simp) _ hb'

namespace Fiverr

/-! ## Invariants of the level engine -/

theorem levelInv_init : LevelInv 0 ({} : State) := by
  constructor <;> simp [State.current]

theorem levelInv_updateLevels {n : ℕ} {st : State} (s : Settings) (i : ℕ) (c : Candle)
    (h : LevelInv n st) : LevelInv n (updateLevels s i c st) := by
  obtain ⟨h1, h2, h3, h4, h5⟩ := h
  exact ⟨h1, h2, h3, h4, h5⟩

theorem levelInv_checkTp1 {n : ℕ} {st : State} (i : ℕ) (c : Candle) (cp : Option Candle)
    (h : LevelInv n st) : LevelInv n (checkTp1 i c cp st) ∧ (checkTp1 i c cp st).pos = st.pos := by
  obtain ⟨h1, h2, h3, h4, h5⟩ := h
  unfold checkTp1
  split
  · split
    · split
      · exact ⟨⟨by simpa [Event.openInfo?, State.current] using h1,
          by simpa [Event.closedBar?] using h2, h3, h4, h5⟩, rfl⟩
      · split
        · exact ⟨⟨by simpa [Event.openInfo?, State.current] using h1,
            by simpa [Event.closedBar?] using h2, h3, h4, h5⟩, rfl⟩
        · exact ⟨⟨h1, h2, h3, h4, h5⟩, rfl⟩
    · exact ⟨⟨h1, h2, h3, h4, h5⟩, rfl⟩
  · exact ⟨⟨h1, h2, h3, h4, h5⟩, rfl⟩

theorem levelInv_checkTp2 {n : ℕ} {st : State} (i : ℕ) (c : Candle) (cp : Option Candle)
    (h : LevelInv n st) : LevelInv n (checkTp2 i c cp st) ∧ (checkTp2 i c cp st).pos = st.pos := by
  obtain ⟨h1, h2, h3, h4, h5⟩ := h
  unfold checkTp2
  split
  · split
    · split
      · exact ⟨⟨by simpa [Event.openInfo?, State.current] using h1,
          by simpa [Event.closedBar?] using h2, h3, h4, h5⟩, rfl⟩
      · split
        · exact ⟨⟨by simpa [Event.openInfo?, State.current] using h1,
            by simpa [Event.closedBar?] using h2, h3, h4, h5⟩, rfl⟩
        · exact ⟨⟨h1, h2, h3, h4, h5⟩, rfl⟩
    · exact ⟨⟨h1, h2, h3, h4, h5⟩, rfl⟩
  · exact ⟨⟨h1, h2, h3, h4, h5⟩, rfl⟩

theorem levelInv_checkClose {i : ℕ} {st : State} (c : Candle) (h : LevelInv i st) :
    LevelInv (i + 1) (checkClose i c st) ∧ Blocked i (checkClose i c st) := by
  obtain ⟨h1, h2, h3, h4, h5⟩ := h
  have hno : ¬ ∃ r ∈ st.positionsClosed, r.closedBar = i := by
    rintro ⟨r, hr, rfl⟩
    obtain ⟨b, -, -, hlt⟩ := h3 r hr
    exact lt_irrefl _ hlt
  have hweak : LevelInv (i + 1) st ∧ Blocked i st := by
    refine ⟨⟨h1, h2, ?_, h4, ?_⟩, fun hex => absurd hex hno⟩
    · intro r hr
      obtain ⟨b, hb1, hb2, hb3⟩ := h3 r hr
      exact ⟨b, hb1, hb2, by omega⟩
    · intro hp
      obtain ⟨b, hb1, hb2, hb3⟩ := h5 hp
      exact ⟨b, hb1, by omega, hb3⟩
  unfold checkClose
  split
  · rename_i hcond
    have hp : st.pos ≠ 0 := by
      rcases hcond with ⟨hc, -⟩ | ⟨hc, -⟩ <;> omega
    obtain ⟨b, hb1, hb2, hb3⟩ := h5 hp
    unfold closePosition
    simp only [hp, if_false]
    refine ⟨⟨?_, ?_, ?_, ?_, ?_⟩, ?_⟩
    · simp [Event.openInfo?, State.current, ClosedPosition.info, h1, hp]
    · simp [Event.closedBar?, h2]
    · intro r hr
      simp only [List.mem_append, List.mem_singleton] at hr
      rcases hr with hr | rfl
      · obtain ⟨b', hb1', hb2', hb3'⟩ := h3 r hr
        exact ⟨b', hb1', hb2', by omega⟩
      · exact ⟨b, hb1, hb2, by simp⟩
    · rw [List.pairwise_append]
      refine ⟨h4, by simp, ?_⟩
      intro r1 hr1 r2 hr2 b' hb'
      simp only [List.mem_singleton] at hr2
      subst hr2
      simp only [hb1, Option.some.injEq] at hb'
      subst hb'
      exact hb3 r1 hr1
    · simp
    · intro _
      simp
  · exact hweak

theorem levelInv_weaken {i : ℕ} {st : State} (h : LevelInv i st) :
    LevelInv (i + 1) st ∧ Blocked i st := by
  obtain ⟨h1, h2, h3, h4, h5⟩ := h
  have hno : ¬ ∃ r ∈ st.positionsClosed, r.closedBar = i := by
    rintro ⟨r, hr, rfl⟩
    obtain ⟨b, -, -, hlt⟩ := h3 r hr
    exact lt_irrefl _ hlt
  refine ⟨⟨h1, h2, ?_, h4, ?_⟩, fun hex => absurd hex hno⟩
  · intro r hr
    obtain ⟨b, hb1, hb2, hb3⟩ := h3 r hr
    exact ⟨b, hb1, hb2, by omega⟩
  · intro hp
    obtain ⟨b, hb1, hb2, hb3⟩ := h5 hp
    exact ⟨b, hb1, by omega, hb3⟩

theorem levelInv_managePosition {i : ℕ} {st : State} (c : Candle) (cp : Option Candle)
    (h : LevelInv i st) :
    LevelInv (i + 1) (managePosition i c cp st) ∧ Blocked i (managePosition i c cp st) := by
  unfold managePosition
  split
  · exact levelInv_checkClose c (levelInv_checkTp2 i c cp (levelInv_checkTp1 i c cp h).1).1
  · exact levelInv_weaken h

theorem levelInv_zoneCreation {n i : ℕ} {st : State} (s : Settings)
    (h : LevelInv n st ∧ Blocked i st) :
    LevelInv n (zoneCreation s i st) ∧ Blocked i (zoneCreation s i st) := by
  obtain ⟨⟨h1, h2, h3, h4, h5⟩, h6⟩ := h
  unfold zoneCreation
  split
  · rename_i lvl hlvl
    split
    · rename_i hp
      refine ⟨⟨?_, ?_, h3, h4, ?_⟩, ?_⟩
      · cases hb : st.box_entry_zone <;>
          simpa [Event.openInfo?, State.current, hp] using h1
      · cases hb : st.box_entry_zone <;> simpa [Event.closedBar?] using h2
      · intro hp'; exact absurd hp hp'
      · intro _; exact ⟨hp, Or.inr (by simp [hlvl])⟩
    · exact ⟨⟨h1, h2, h3, h4, h5⟩, h6⟩
  · exact ⟨⟨h1, h2, h3, h4, h5⟩, h6⟩

theorem levelInv_zoneActivation {n i : ℕ} {st : State} (c : Candle) (cp : Option Candle)
    (h : LevelInv n st ∧ Blocked i st) :
    LevelInv n (zoneActivation i c cp st) ∧ Blocked i (zoneActivation i c cp st) := by
  obtain ⟨⟨h1, h2, h3, h4, h5⟩, h6⟩ := h
  unfold zoneActivation
  split
  · split
    · rename_i hcond
      have hp : st.pos = 0 := hcond.1
      split
      · refine ⟨⟨?_, ?_, h3, h4, h5⟩, ?_⟩
        · simpa [Event.openInfo?, State.current, hp] using h1
        · simpa [Event.closedBar?] using h2
        · intro hex; exact ⟨hp, (h6 hex).2⟩
      · split
        · refine ⟨⟨?_, ?_, h3, h4, h5⟩, ?_⟩
          · simpa [Event.openInfo?, State.current, hp] using h1
          · simpa [Event.closedBar?] using h2
          · intro hex; exact ⟨hp, (h6 hex).2⟩
        · refine ⟨⟨?_, ?_, h3, h4, h5⟩, ?_⟩
          · simpa [Event.openInfo?, State.current, hp] using h1
          · simpa [Event.closedBar?] using h2
          · intro _; exact ⟨hp, Or.inl rfl⟩
    · exact ⟨⟨h1, h2, h3, h4, h5⟩, h6⟩
  · exact ⟨⟨h1, h2, h3, h4, h5⟩, h6⟩

theorem levelInv_positionActivation {i : ℕ} {st : State} (s : Settings) (c : Candle)
    (h : LevelInv (i + 1) st ∧ Blocked i st) :
    LevelInv (i + 1) (positionActivation s i c st) ∧
      Blocked i (positionActivation s i c st) := by
  obtain ⟨⟨h1, h2, h3, h4, h5⟩, h6⟩ := h
  unfold positionActivation
  split
  · rename_i bx hprev hcurr hbox
    have hno : ¬ ∃ r ∈ st.positionsClosed, r.closedBar = i := by
      intro hex
      rcases (h6 hex).2 with hb | hc
      · simp [hb] at hbox
      · exact hc hcurr
    have hlt : ∀ r ∈ st.positionsClosed, r.closedBar < i := by
      intro r hr
      obtain ⟨b, -, -, hb⟩ := h3 r hr
      have : r.closedBar ≠ i := fun he => hno ⟨r, hr, he⟩
      omega
    by_cases hp : st.pos = 0
    · split_ifs
      all_goals first
        | exact ⟨⟨h1, h2, h3, h4, h5⟩, h6⟩
        | exact ⟨⟨by simpa [Event.openInfo?, State.current, hp] using h1,
            by simpa [Event.closedBar?] using h2, h3, h4,
            fun _ => ⟨i, rfl, by omega, hlt⟩⟩, fun hex => absurd hex hno⟩
    · rw [if_neg (fun hc => hp hc.1)]
      exact ⟨⟨h1, h2, h3, h4, h5⟩, h6⟩
  · exact ⟨⟨h1, h2, h3, h4, h5⟩, h6⟩

theorem levelInv_zoneExpiry {n i : ℕ} {st : State} (s : Settings)
    (h : LevelInv n st ∧ Blocked i st) :
    LevelInv n (zoneExpiry s i st) ∧ Blocked i (zoneExpiry s i st) := by
  obtain ⟨⟨h1, h2, h3, h4, h5⟩, h6⟩ := h
  unfold zoneExpiry
  split
  · split
    · rename_i hcond
      have hp : st.pos = 0 := hcond.2
      refine ⟨⟨?_, ?_, h3, h4, h5⟩, ?_⟩
      · simpa [Event.openInfo?, State.current, hp] using h1
      · simpa [Event.closedBar?] using h2
      · intro _; exact ⟨hp, Or.inl rfl⟩
    · exact ⟨⟨h1, h2, h3, h4, h5⟩, h6⟩
  · exact ⟨⟨h1, h2, h3, h4, h5⟩, h6⟩

theorem levelInv_step {i : ℕ} {st : State} (s : Settings) (c : Candle) (cp : Option Candle)
    (h : LevelInv i st) : LevelInv (i + 1) (step s i c cp st) := by
  unfold step
  exact (levelInv_zoneExpiry s (levelInv_positionActivation s c (levelInv_zoneActivation c cp
    (levelInv_zoneCreation s (levelInv_managePosition c cp (levelInv_updateLevels s i c h)))))).1

theorem levelInv_loop (s : Settings) (cs : List Candle) :
    ∀ (i : ℕ) (cp : Option Candle) (st : State), LevelInv i st →
      LevelInv (i + cs.length) (loop s i cp cs st) := by
  induction cs with
  | nil => intro i cp st h; simpa [loop] using h
  | cons c cs ih =>
    intro i cp st h
    have := ih (i + 1) (some c) _ (levelInv_step s c cp h)
    simpa [loop, Nat.add_assoc, Nat.add_comm 1] using this

theorem levelInv_finalState (candles : List Candle) (s : Settings) :
    LevelInv candles.length (finalState candles s) := by
  simpa [finalState] using levelInv_loop s candles 0 none {} levelInv_init

end Fiverr

namespace GoldenEra

/-! ## Invariants of the box engine -/

theorem quiet_refl (eng : Engine) : Quiet eng eng := ⟨rfl, rfl, rfl, rfl, rfl⟩

theorem quiet_trans {a b c : Engine} (h1 : Quiet a b) (h2 : Quiet b c) : Quiet a c :=
  ⟨h2.closed.trans h1.closed, h2.entries.trans h1.entries, h2.current.trans h1.current,
    h2.trade.trans h1.trade, h2.bar.trans h1.bar⟩

theorem boxInv_quiet {n : ℕ} {eng eng' : Engine} (h : BoxInv n eng) (q : Quiet eng eng') :
    BoxInv n eng' := by
  obtain ⟨h1, h2, h3, h4⟩ := h
  obtain ⟨q1, q2, q3, q4, q5⟩ := q
  refine ⟨by rw [q1, q2, q3]; exact h1, by rw [q1]; exact h2, by rw [q1]; exact h3, ?_⟩
  rw [q1, q4, q5]; exact h4

theorem boxInv_mono {n m : ℕ} {eng : Engine} (h : BoxInv n eng) (hnm : n ≤ m) : BoxInv m eng := by
  obtain ⟨h1, h2, h3, h4⟩ := h
  refine ⟨h1, ?_, h3, ?_⟩
  · intro r hr
    obtain ⟨b, hb1, hb2, hb3⟩ := h2 r hr
    exact ⟨b, hb1, hb2, by omega⟩
  · intro ht
    obtain ⟨b, hb1, hb2, hb3⟩ := h4 ht
    exact ⟨b, hb1, by omega, hb3⟩

theorem boxInv_init : BoxInv 0 ({} : Engine) := by
  constructor <;> simp [State.current]

theorem quiet_recordZoneEvent (t : EventType) (i : ℕ) (c : Candle) (x : Extra)
    (eng : Engine) (ht : t ≠ EventType.entry_long ∧ t ≠ EventType.entry_short) :
    Quiet eng (recordZoneEvent t i c x eng) := by
  refine ⟨rfl, ?_, rfl, rfl, rfl⟩
  simp [recordZoneEvent, Event.entryInfo?, Event.isEntry, ht.1, ht.2]

theorem quiet_createZone (cfg : Config) (bull : Option Bool) (broken : Bool)
    (mid : Option ℚ) (i : ℕ) (c : Candle) (eng : Engine)
    (h : eng.state.isInTrade = false) :
    Quiet eng (createZone cfg bull broken mid i c eng) := by
  refine ⟨rfl, ?_, ?_, ?_, rfl⟩
  · simp [createZone, recordZoneEvent, Event.entryInfo?, Event.isEntry]
  · simp [createZone, recordZoneEvent, State.current, h]
  · simp [createZone, recordZoneEvent, h]

theorem quiet_processBreak (bull : Bool) (i : ℕ) (c : Candle) (eng : Engine)
    (h : eng.state.isInTrade = false) : Quiet eng (processBreak bull i c eng) := by
  refine ⟨rfl, ?_, ?_, rfl, rfl⟩
  · cases bull <;> simp [processBreak, recordZoneEvent, Event.entryInfo?, Event.isEntry]
  · simp [processBreak, recordZoneEvent, State.current, h]

theorem quiet_processInvalidateWait (i : ℕ) (c : Candle) (eng : Engine)
    (h : eng.state.isInTrade = false) : Quiet eng (processInvalidateWait i c eng) := by
  refine ⟨rfl, ?_, ?_, rfl, rfl⟩
  · simp [processInvalidateWait, recordZoneEvent, Event.entryInfo?, Event.isEntry]
  · simp [processInvalidateWait, recordZoneEvent, State.current, h]

theorem quiet_processInvalidateReverse (i : ℕ) (c : Candle) (eng : Engine)
    (h : eng.state.isInTrade = false) : Quiet eng (processInvalidateReverse i c eng) := by
  refine ⟨rfl, ?_, ?_, rfl, rfl⟩
  · simp [processInvalidateReverse, recordZoneEvent, Event.entryInfo?, Event.isEntry]
  · simp [processInvalidateReverse, recordZoneEvent, State.current, h]

theorem quiet_breakChecks (i : ℕ) (c : Candle) (eng : Engine)
    (h : eng.state.isInTrade = false) : Quiet eng (breakChecks i c eng) := by
  unfold breakChecks
  by_cases h1 : gtN (some c.close) eng.state.top = true
  · simp only [h1, if_true]
    have q1 := quiet_processBreak true i c eng h
    split
    · exact quiet_trans q1 (quiet_processBreak false i c _ (by rw [q1.trade]; exact h))
    · exact q1
  · simp only [h1, Bool.false_eq_true, if_false]
    split
    · exact quiet_processBreak false i c eng h
    · exact quiet_refl eng

theorem boxInv_enterTrade {i : ℕ} {eng : Engine} (cfg : Config) (p : ℚ) (c : Candle)
    (h : BoxInv i eng) (ht : eng.state.isInTrade = false) :
    BoxInv (i + 1) (enterTrade cfg p i c eng) := by
  obtain ⟨h1, h2, h3, h4⟩ := h
  refine ⟨?_, ?_, h3, ?_⟩
  · have : (if truthy (setTargetsFromZone cfg eng.state).isBull = true
        then EventType.entry_long else EventType.entry_short) = EventType.entry_long ∨
        (if truthy (setTargetsFromZone cfg eng.state).isBull = true
        then EventType.entry_long else EventType.entry_short) = EventType.entry_short := by
      split <;> simp
    simp only [State.current, ht, Bool.false_eq_true, if_false, List.append_nil] at h1
    rcases this with hh | hh <;>
      simp [enterTrade, recordZoneEvent, Event.entryInfo?, Event.isEntry, State.current,
        ClosedTrade.info, h1, hh]
  · intro r hr
    obtain ⟨b, hb1, hb2, hb3⟩ := h2 r hr
    exact ⟨b, hb1, hb2, by omega⟩
  · intro _
    refine ⟨i, rfl, by omega, ?_⟩
    intro r hr
    obtain ⟨b, hb1, hb2, hb3⟩ := h2 r hr
    exact hb3

theorem boxInv_brokenChecks {i : ℕ} {eng : Engine} (cfg : Config) (z : ZoneCheck)
    (c : Candle) (h : BoxInv i eng) (ht : eng.state.isInTrade = false) :
    BoxInv (i + 1) (brokenChecks cfg z i c eng) := by
  unfold brokenChecks
  split_ifs
  · exact boxInv_quiet (boxInv_mono h (Nat.le_succ i)) (quiet_processInvalidateWait i c eng ht)
  · exact boxInv_quiet (boxInv_mono h (Nat.le_succ i)) (quiet_processInvalidateReverse i c eng ht)
  · exact boxInv_quiet (boxInv_mono h (Nat.le_succ i)) (quiet_processInvalidateReverse i c eng ht)
  · exact boxInv_enterTrade cfg _ c h ht
  · exact boxInv_enterTrade cfg _ c h ht
  · exact boxInv_mono h (Nat.le_succ i)

theorem boxInv_notInTrade {i : ℕ} {eng : Engine} (cfg : Config) (z : ZoneCheck)
    (c : Candle) (h : BoxInv i eng) (ht : eng.state.isInTrade = false) :
    BoxInv (i + 1) (notInTrade cfg z i c eng) := by
  unfold notInTrade
  split
  · dsimp only
    generalize (if (eng.state.mid.isSome && !eqN eng.state.mid z.mid_price) = true
      then boxDecision z else none) = move
    split
    · exact boxInv_quiet (boxInv_mono h (Nat.le_succ i)) (quiet_createZone cfg _ _ _ i c eng ht)
    · split
      · exact boxInv_quiet (boxInv_mono h (Nat.le_succ i)) (quiet_breakChecks i c eng ht)
      · exact boxInv_brokenChecks cfg z c h ht
  · split
    · exact boxInv_quiet (boxInv_mono h (Nat.le_succ i)) (quiet_createZone cfg _ _ _ i c eng ht)
    · exact boxInv_mono h (Nat.le_succ i)

theorem quiet_exitChecks (i : ℕ) (c : Candle) (eng : Engine) :
    Quiet eng (exitChecks i c eng).eng := by
  unfold exitChecks
  dsimp only
  split_ifs <;>
    first
      | exact quiet_refl eng
      | exact quiet_recordZoneEvent _ i c _ eng (by decide)
      | exact ⟨rfl, by simp [recordZoneEvent, Event.entryInfo?, Event.isEntry], rfl, rfl, rfl⟩

theorem exitChecks_slRebox (i : ℕ) (c : Candle) (eng : Engine)
    (h : (exitChecks i c eng).slRebox = true) : (exitChecks i c eng).exitThisBar = true := by
  unfold exitChecks at h ⊢
  dsimp only at h ⊢
  split_ifs at h ⊢ <;> simp_all

theorem boxInv_closeTrade {i : ℕ} {eng : Engine} (reason : ExitReason) (p : Option ℚ)
    (c : Candle) (h : BoxInv i eng) (ht : eng.state.isInTrade = true) :
    BoxInv (i + 1) (closeTrade reason p i c eng) ∧
      (closeTrade reason p i c eng).state.isInTrade = false := by
  obtain ⟨h1, h2, h3, h4⟩ := h
  obtain ⟨b, hb1, hb2, hb3⟩ := h4 ht
  refine ⟨⟨?_, ?_, ?_, ?_⟩, rfl⟩
  · simp only [State.current, ht, if_true] at h1
    simp [closeTrade, ht, State.current, ClosedTrade.info, h1]
  · intro r hr
    simp only [closeTrade, ht, if_true, List.mem_append, List.mem_singleton] at hr
    rcases hr with hr | rfl
    · obtain ⟨b', hb1', hb2', hb3'⟩ := h2 r hr
      exact ⟨b', hb1', hb2', by omega⟩
    · exact ⟨b, hb1, hb2, by simp⟩
  · simp only [closeTrade, ht, if_true]
    rw [List.pairwise_append]
    refine ⟨h3, by simp, ?_⟩
    intro r1 hr1 r2 hr2 b' hb'
    simp only [List.mem_singleton] at hr2
    subst hr2
    simp only [hb1, Option.some.injEq] at hb'
    subst hb'
    exact hb3 r1 hr1
  · intro hc
    simp [closeTrade] at hc

theorem quiet_rebox (cfg : Config) (slRebox : Bool) (i : ℕ) (c : Candle) (eng : Engine)
    (h : slRebox = true → eng.state.isInTrade = false) :
    Quiet eng (rebox cfg slRebox i c eng) := by
  unfold rebox
  split
  · split
    · rename_i hs
      have q1 := quiet_createZone cfg (some (!truthy ‹State›.isBull)) true ‹State›.mid i c eng (h hs)
      exact quiet_trans q1 (quiet_recordZoneEvent _ i c _ _ (by decide))
    · exact quiet_refl eng
  · exact quiet_refl eng

theorem boxInv_inTrade {i : ℕ} {eng : Engine} (cfg : Config) (c : Candle)
    (h : BoxInv i eng) (ht : eng.state.isInTrade = true) :
    BoxInv (i + 1) (inTrade cfg i c eng) := by
  unfold inTrade
  dsimp only
  have q := quiet_exitChecks i c eng
  have hx := boxInv_quiet h q
  have htx : (exitChecks i c eng).eng.state.isInTrade = true := by rw [q.trade]; exact ht
  by_cases he : (exitChecks i c eng).exitThisBar = true
  · simp only [he, if_true]
    obtain ⟨hc, hf⟩ := boxInv_closeTrade (exitReasonOf (exitChecks i c eng).eng.events)
      (exitPriceOf (exitReasonOf (exitChecks i c eng).eng.events) c
        (exitChecks i c eng).eng.state) c hx htx
    exact boxInv_quiet hc (quiet_rebox cfg _ i c _ (fun _ => hf))
  · simp only [he, Bool.false_eq_true, if_false]
    have hs : (exitChecks i c eng).slRebox = false := by
      by_contra hc
      exact he (exitChecks_slRebox i c eng (by simpa using hc))
    exact boxInv_quiet (boxInv_mono hx (Nat.le_succ i)) (quiet_rebox cfg _ i c _ (by simp [hs]))

theorem boxInv_step {i : ℕ} {eng : Engine} (cfg : Config) (c : Candle) (h : BoxInv i eng) :
    BoxInv (i + 1) (step cfg i c eng) := by
  unfold step
  dsimp only
  have key : BoxInv (i + 1) (if (!eng.state.isInTrade) = true
      then notInTrade cfg (checkZone c.open_ c.close cfg.PSYC_STEP cfg.BOX_STEP) i c eng
      else inTrade cfg i c eng) := by
    split
    · rename_i ht
      exact boxInv_notInTrade cfg _ c h (by simpa using ht)
    · rename_i ht
      exact boxInv_inTrade cfg c h (by simpa using ht)
  exact boxInv_quiet key ⟨rfl, rfl, rfl, rfl, rfl⟩

theorem boxInv_loop (cfg : Config) (cs : List Candle) :
    ∀ (i : ℕ) (eng : Engine), BoxInv i eng → BoxInv (i + cs.length) (loop cfg i cs eng) := by
  induction cs with
  | nil => intro i eng h; simpa [loop] using h
  | cons c cs ih =>
    intro i eng h
    have := ih (i + 1) _ (boxInv_step cfg c h)
    simpa [loop, Nat.add_assoc, Nat.add_comm 1] using this

theorem boxInv_finalEngine (candles : List Candle) (cfg : Config) :
    BoxInv candles.length (finalEngine candles cfg) := by
  simpa [finalEngine] using boxInv_loop cfg candles 0 {} boxInv_init

end GoldenEra

namespace Fiverr

/-! ## C7 and C8 on the level engine -/

theorem openBar?_eq_bind : Event.openBar? = fun e => (Event.openInfo? e).bind TradeInfo.bar := by
  funext e
  cases e <;> rfl

theorem openBars_eq {n : ℕ} {st : State} (h : LevelInv n st) :
    st.events.filterMap Event.openBar? =
      st.positionsClosed.filterMap ClosedPosition.openedBar ++
        (if st.pos ≠ 0 then st.openedBarIndex else none).toList := by
  rw [openBar?_eq_bind, ← List.filterMap_filterMap, h.opens, List.filterMap_append,
    List.filterMap_map]
  congr 1
  unfold State.current
  split
  · cases hb : st.openedBarIndex <;> simp [hb]
  · simp

theorem alternating_level {n : ℕ} {st : State} (h : LevelInv n st) :
    Alternating (st.events.filterMap Event.openBar?)
      (st.events.filterMap Event.closedBar?) := by
  rw [openBars_eq h, h.closes]
  apply alternating_of_records
  · intro r hr
    obtain ⟨b, hb1, hb2, -⟩ := h.closedOk r hr
    exact ⟨b, hb1, hb2⟩
  · exact h.ordered
  · intro b hb r hr
    split at hb
    · rename_i hp
      obtain ⟨b', hb1, -, hb3⟩ := h.cur hp
      rw [hb1] at hb
      cases hb
      exact hb3 r hr
    · cases hb

theorem length_filterMap_openedBar {n : ℕ} {st : State} (h : LevelInv n st) :
    (st.positionsClosed.filterMap ClosedPosition.openedBar).length =
      st.positionsClosed.length := by
  have hall : ∀ r ∈ st.positionsClosed, ∃ b, r.openedBar = some b :=
    fun r hr => (h.closedOk r hr).imp fun _ hb => hb.1
  generalize st.positionsClosed = l at hall
  induction l with
  | nil => rfl
  | cons r l ih =>
    obtain ⟨b, hb⟩ := hall r (by simp)
    simp [List.filterMap_cons, hb, ih (fun r' hr' => hall r' (by simp [hr']))]

theorem open_iff_level {n : ℕ} {st : State} (h : LevelInv n st) :
    (openPositionOf st).isSome ↔
      (st.events.filterMap Event.openBar?).length =
        (st.events.filterMap Event.closedBar?).length + 1 := by
  rw [openBars_eq h, h.closes, List.length_append, length_filterMap_openedBar h,
    List.length_map]
  unfold openPositionOf
  by_cases hp : st.pos = 0
  · simp [hp]
  · obtain ⟨b, hb, -⟩ := h.cur hp
    simp [hp, hb]

theorem record_matches_level {n : ℕ} {st : State} (h : LevelInv n st) (k : ℕ)
    (r : ClosedPosition) (hr : st.positionsClosed[k]? = some r) :
    (∃ b, r.openedBar = some b ∧ b ≤ r.closedBar) ∧
      (st.events.filterMap Event.openInfo?)[k]? =
        some ⟨r.openedBar, r.entry, r.sl, r.tp1, r.tp2⟩ := by
  have hk : k < st.positionsClosed.length := by
    by_contra hc
    rw [List.getElem?_eq_none (by omega)] at hr
    cases hr
  have hmem : r ∈ st.positionsClosed := List.getElem?_mem hr
  refine ⟨?_, ?_⟩
  · obtain ⟨b, hb1, hb2, -⟩ := h.closedOk r hmem
    exact ⟨b, hb1, hb2.le⟩
  · rw [h.opens, List.getElem?_append_left (by simpa using hk), List.getElem?_map, hr]
    rfl

end Fiverr

namespace GoldenEra

/-! ## C7 and C8 on the box engine -/

theorem entryBar?_eq_bind :
    Event.entryBar? = fun e => (Event.entryInfo? e).bind TradeInfo.bar := by
  funext e
  unfold Event.entryBar? Event.entryInfo?
  split
  · split <;> rfl
  · rfl

theorem entryBars_eq {n : ℕ} {eng : Engine} (h : BoxInv n eng) :
    eng.events.filterMap Event.entryBar? =
      eng.positionsClosed.filterMap ClosedTrade.entryBar ++
        (if eng.state.isInTrade then eng.state.entryBar else none).toList := by
  rw [entryBar?_eq_bind, ← List.filterMap_filterMap, h.opens, List.filterMap_append,
    List.filterMap_map]
  congr 1
  unfold State.current
  split
  · cases hb : eng.state.entryBar <;> simp [hb]
  · simp

theorem length_filterMap_entryBar {n : ℕ} {eng : Engine} (h : BoxInv n eng) :
    (eng.positionsClosed.filterMap ClosedTrade.entryBar).length =
      eng.positionsClosed.length := by
  have hall : ∀ r ∈ eng.positionsClosed, ∃ b, r.entryBar = some b :=
    fun r hr => (h.closedOk r hr).imp fun _ hb => hb.1
  generalize eng.positionsClosed = l at hall
  induction l with
  | nil => rfl
  | cons r l ih =>
    obtain ⟨b, hb⟩ := hall r (by simp)
    simp [List.filterMap_cons, hb, ih (fun r' hr' => hall r' (by simp [hr']))]

theorem alternating_box {n : ℕ} {eng : Engine} (h : BoxInv n eng) :
    Alternating (eng.events.filterMap Event.entryBar?)
      (eng.positionsClosed.map ClosedTrade.exitBar) := by
  rw [entryBars_eq h]
  apply alternating_of_records
  · intro r hr
    obtain ⟨b, hb1, hb2, -⟩ := h.closedOk r hr
    exact ⟨b, hb1, hb2⟩
  · exact h.ordered
  · intro b hb r hr
    split at hb
    · rename_i hp
      obtain ⟨b', hb1, -, hb3⟩ := h.cur hp
      rw [hb1] at hb
      cases hb
      exact hb3 r hr
    · cases hb

theorem open_iff_box {n : ℕ} {eng : Engine} (h : BoxInv n eng) :
    (openPositionOf eng.state).isSome ↔
      (eng.events.filterMap Event.entryBar?).length =
        (eng.positionsClosed.map ClosedTrade.exitBar).length + 1 := by
  rw [entryBars_eq h, List.length_append, length_filterMap_entryBar h, List.length_map]
  unfold openPositionOf
  by_cases hp : eng.state.isInTrade = true
  · obtain ⟨b, hb, -⟩ := h.cur hp
    simp [hp, hb]
  · simp [hp]

theorem record_matches_box {n : ℕ} {eng : Engine} (h : BoxInv n eng) (k : ℕ)
    (r : ClosedTrade) (hr : eng.positionsClosed[k]? = some r) :
    (∃ b, r.entryBar = some b ∧ b ≤ r.exitBar) ∧
      (eng.events.filterMap Event.entryInfo?)[k]? =
        some ⟨r.entryBar, r.entry, r.sl, r.tp1, r.tp2⟩ := by
  have hk : k < eng.positionsClosed.length := by
    by_contra hc
    rw [List.getElem?_eq_none (by omega)] at hr
    cases hr
  have hmem : r ∈ eng.positionsClosed := List.getElem?_mem hr
  refine ⟨?_, ?_⟩
  · obtain ⟨b, hb1, hb2, -⟩ := h.closedOk r hmem
    exact ⟨b, hb1, hb2.le⟩
  · rw [h.opens, List.getElem?_append_left (by simpa using hk), List.getElem?_map, hr]
    rfl

end GoldenEra

/-! ## C7 and C8 -/

/-- C7: in each engine opens and closes strictly alternate along the run, starting
with an open (level engine: the bars of the `position_opened_long/short` events
against the bars of the `position_closed` events; box engine: the bars of the
`entry_long/short` events against the `exitBar` of the `positionsClosed` records), so
the trades never overlap, and the returned `openPosition` is non-null if and only if
there is one more open than closes. -/
theorem opens_closes_alternate (candles : List Candle) (s : Fiverr.Settings)
    (cfg : GoldenEra.Config) :
    (Alternating ((Fiverr.runEngine candles s).events.filterMap Fiverr.Event.openBar?)
        ((Fiverr.runEngine candles s).events.filterMap Fiverr.Event.closedBar?) ∧
      ((Fiverr.runEngine candles s).openPosition.isSome ↔
        ((Fiverr.runEngine candles s).events.filterMap Fiverr.Event.openBar?).length =
          ((Fiverr.runEngine candles s).events.filterMap
            Fiverr.Event.closedBar?).length + 1)) ∧
    (Alternating
        ((GoldenEra.runEngine candles cfg).events.filterMap GoldenEra.Event.entryBar?)
        ((GoldenEra.runEngine candles cfg).positionsClosed.map
          GoldenEra.ClosedTrade.exitBar) ∧
      ((GoldenEra.runEngine candles cfg).openPosition.isSome ↔
        ((GoldenEra.runEngine candles cfg).events.filterMap
            GoldenEra.Event.entryBar?).length =
          ((GoldenEra.runEngine candles cfg).positionsClosed.map
            GoldenEra.ClosedTrade.exitBar).length + 1)) := by
  have h1 := Fiverr.levelInv_finalState candles s
  have h2 := GoldenEra.boxInv_finalEngine candles cfg
  exact ⟨⟨Fiverr.alternating_level h1, Fiverr.open_iff_level h1⟩,
    ⟨GoldenEra.alternating_box h2, GoldenEra.open_iff_box h2⟩⟩

/-- C8: in each engine the `k`-th record of `positionsClosed` has its opening bar at
or before its closing bar, and its opening bar, entry, sl, tp1 and tp2 are those
carried by the `k`-th open event (`position_opened_*` in the level engine,
`entry_*` in the box engine), the open event of the same trade. -/
theorem closed_records_match_opens (candles : List Candle) (s : Fiverr.Settings)
    (cfg : GoldenEra.Config) :
    (∀ (k : ℕ) (r : Fiverr.ClosedPosition),
      (Fiverr.runEngine candles s).positionsClosed[k]? = some r →
        (∃ b, r.openedBar = some b ∧ b ≤ r.closedBar) ∧
        ((Fiverr.runEngine candles s).events.filterMap Fiverr.Event.openInfo?)[k]? =
          some ⟨r.openedBar, r.entry, r.sl, r.tp1, r.tp2⟩) ∧
    (∀ (k : ℕ) (r : GoldenEra.ClosedTrade),
      (GoldenEra.runEngine candles cfg).positionsClosed[k]? = some r →
        (∃ b, r.entryBar = some b ∧ b ≤ r.exitBar) ∧
        ((GoldenEra.runEngine candles cfg).events.filterMap
            GoldenEra.Event.entryInfo?)[k]? =
          some ⟨r.entryBar, r.entry, r.sl, r.tp1, r.tp2⟩) :=
  ⟨fun k r hr => Fiverr.record_matches_level (Fiverr.levelInv_finalState candles s) k r hr,
    fun k r hr =>
      GoldenEra.record_matches_box (GoldenEra.boxInv_finalEngine candles cfg) k r hr⟩

/-- Witness for C8: the trade closed on bar 3 of `Fiverr.bothHitCandles` and the
trade that `GoldenEra.bothHitBar` closes after `GoldenEra.longTradeCandles`. -/
theorem closed_records_match_opens_witness :
    ((Fiverr.runEngine Fiverr.bothHitCandles {}).positionsClosed[0]? =
        some Fiverr.bothHitRecord ∧
      (∃ b, Fiverr.bothHitRecord.openedBar = some b ∧ b ≤ Fiverr.bothHitRecord.closedBar) ∧
      ((Fiverr.runEngine Fiverr.bothHitCandles {}).events.filterMap
          Fiverr.Event.openInfo?)[0]? =
        some ⟨Fiverr.bothHitRecord.openedBar, Fiverr.bothHitRecord.entry,
          Fiverr.bothHitRecord.sl, Fiverr.bothHitRecord.tp1, Fiverr.bothHitRecord.tp2⟩) ∧
    ((GoldenEra.runEngine (GoldenEra.longTradeCandles ++ [GoldenEra.bothHitBar])
          {}).positionsClosed[0]? = some GoldenEra.bothHitTrade ∧
      (∃ b, GoldenEra.bothHitTrade.entryBar = some b ∧ b ≤ GoldenEra.bothHitTrade.exitBar) ∧
      ((GoldenEra.runEngine (GoldenEra.longTradeCandles ++ [GoldenEra.bothHitBar])
          {}).events.filterMap GoldenEra.Event.entryInfo?)[0]? =
        some ⟨GoldenEra.bothHitTrade.entryBar, GoldenEra.bothHitTrade.entry,
          GoldenEra.bothHitTrade.sl, GoldenEra.bothHitTrade.tp1,
          GoldenEra.bothHitTrade.tp2⟩) :=
  ⟨⟨by decide!,
      (closed_records_match_opens Fiverr.bothHitCandles {} {}).1 0 Fiverr.bothHitRecord
        (by decide!)⟩,
    ⟨by decide!,
      (closed_records_match_opens (GoldenEra.longTradeCandles ++ [GoldenEra.bothHitBar])
        {} {}).2 0 GoldenEra.bothHitTrade (by decide!)⟩⟩

namespace Fiverr

/-! ## Frame lemmas of the phases of the level engine -/

theorem sameTrade_refl (st : State) : SameTrade st st :=
  ⟨rfl, rfl, rfl, rfl, rfl, rfl, rfl, rfl, List.prefix_refl _, rfl⟩

theorem sameTrade_trans {a b c : State} (h1 : SameTrade a b) (h2 : SameTrade b c) :
    SameTrade a c :=
  ⟨h2.pos.trans h1.pos, h2.en.trans h1.en, h2.sl.trans h1.sl, h2.tp1.trans h1.tp1,
    h2.tp2.trans h1.tp2, h2.bar.trans h1.bar, h2.snap.trans h1.snap,
    h2.closed.trans h1.closed, h1.pre.trans h2.pre, h2.noClose.trans h1.noClose⟩

theorem sameTrade_checkTp1 (i : ℕ) (c : Candle) (cp : Option Candle) (st : State) :
    SameTrade st (checkTp1 i c cp st) := by
  unfold checkTp1
  split
  · split_ifs
    all_goals first
      | exact sameTrade_refl st
      | exact ⟨rfl, rfl, rfl, rfl, rfl, rfl, rfl, rfl, List.prefix_append _ _,
          by simp [Event.isPositionClosed]⟩
  · exact sameTrade_refl st

theorem sameTrade_checkTp2 (i : ℕ) (c : Candle) (cp : Option Candle) (st : State) :
    SameTrade st (checkTp2 i c cp st) := by
  unfold checkTp2
  split
  · split_ifs
    all_goals first
      | exact sameTrade_refl st
      | exact ⟨rfl, rfl, rfl, rfl, rfl, rfl, rfl, rfl, List.prefix_append _ _,
          by simp [Event.isPositionClosed]⟩
  · exact sameTrade_refl st

theorem afterClose_trans {a b c : State} (h1 : AfterClose a b) (h2 : AfterClose b c) :
    AfterClose a c :=
  ⟨h2.closed.trans h1.closed, h1.pre.trans h2.pre, h2.noClose.trans h1.noClose,
    fun hp hb => h2.flat (h1.flat hp hb).1 (h1.flat hp hb).2⟩

theorem afterClose_zoneCreation (s : Settings) (i : ℕ) (st : State) :
    AfterClose st (zoneCreation s i st) := by
  unfold zoneCreation
  split
  · rename_i lvl hl
    split
    · refine ⟨rfl, ?_, ?_, fun hp _ => ⟨hp, Or.inr (by simp [hl])⟩⟩
      · cases st.box_entry_zone <;> simp [List.append_assoc]
      · cases st.box_entry_zone <;> simp [Event.isPositionClosed]
    · exact ⟨rfl, List.prefix_refl _, rfl, fun hp hb => ⟨hp, hb⟩⟩
  · exact ⟨rfl, List.prefix_refl _, rfl, fun hp hb => ⟨hp, hb⟩⟩

theorem afterClose_zoneActivation (i : ℕ) (c : Candle) (cp : Option Candle) (st : State) :
    AfterClose st (zoneActivation i c cp st) := by
  unfold zoneActivation
  split
  · split_ifs
    all_goals first
      | exact ⟨rfl, List.prefix_refl _, rfl, fun hp hb => ⟨hp, hb⟩⟩
      | exact ⟨rfl, List.prefix_append _ _, by simp [Event.isPositionClosed],
          fun hp hb => ⟨hp, hb⟩⟩
      | exact ⟨rfl, List.prefix_append _ _, by simp [Event.isPositionClosed],
          fun hp _ => ⟨hp, Or.inl rfl⟩⟩
  · exact ⟨rfl, List.prefix_refl _, rfl, fun hp hb => ⟨hp, hb⟩⟩

theorem afterClose_positionActivation (s : Settings) (i : ℕ) (c : Candle) (st : State) :
    AfterClose st (positionActivation s i c st) := by
  unfold positionActivation
  split
  · rename_i bx hprev hcurr hbox
    have hno : ¬ (st.box_entry_zone = none ∨ st.active_level_curr ≠ none) := by
      rintro (hb | hc)
      · simp [hb] at hbox
      · exact hc hcurr
    split_ifs
    all_goals first
      | exact ⟨rfl, List.prefix_refl _, rfl, fun hp hb => ⟨hp, hb⟩⟩
      | exact ⟨rfl, List.prefix_append _ _, by simp [Event.isPositionClosed],
          fun _ hb => absurd hb hno⟩
  · exact ⟨rfl, List.prefix_refl _, rfl, fun hp hb => ⟨hp, hb⟩⟩

theorem afterClose_zoneExpiry (s : Settings) (i : ℕ) (st : State) :
    AfterClose st (zoneExpiry s i st) := by
  unfold zoneExpiry
  split
  · split_ifs
    · exact ⟨rfl, List.prefix_append _ _, by simp [Event.isPositionClosed],
        fun hp _ => ⟨hp, Or.inl rfl⟩⟩
    · exact ⟨rfl, List.prefix_refl _, rfl, fun hp hb => ⟨hp, hb⟩⟩
  · exact ⟨rfl, List.prefix_refl _, rfl, fun hp hb => ⟨hp, hb⟩⟩

/-- The four phases that follow `managePosition` in `step`. -/
theorem afterClose_rest (s : Settings) (i : ℕ) (c : Candle) (cp : Option Candle)
    (st : State) :
    AfterClose st
      (zoneExpiry s i (positionActivation s i c (zoneActivation i c cp
        (zoneCreation s i st)))) :=
  afterClose_trans (afterClose_trans (afterClose_trans (afterClose_zoneCreation s i st)
    (afterClose_zoneActivation i c cp _)) (afterClose_positionActivation s i c _))
    (afterClose_zoneExpiry s i _)

theorem exists_suffix_of_filter {l l' : List Event} {e : Event} (hpre : l <+: l')
    (hf : l'.filter Event.isPositionClosed = l.filter Event.isPositionClosed ++ [e]) :
    ∃ evs, l' = l ++ evs ∧ evs.filter Event.isPositionClosed = [e] := by
  obtain ⟨evs, rfl⟩ := hpre
  refine ⟨evs, rfl, ?_⟩
  rw [List.filter_append] at hf
  exact List.append_cancel_left hf

/-! ## C5 -/

/-- C5 (counterexample): on bar 3 of `bothHitCandles` a long position with
`sl = 1999` and `tp2 = 2003.5` is open, `low = 1998 ≤ sl` and `high = 2004 ≥ tp2`,
and the position is closed with reason `TP2`, not `STOPLOSS`, in the event and in the
record. -/
theorem close_reason_both_hit_counterexample :
    (runEngine bothHitCandles {}).events.filterMap Event.openInfo? =
        [⟨some 2, some (4001 / 2), some 1999, some 2002, some (4007 / 2)⟩] ∧
    ((1998 : ℚ) ≤ 1999 ∧ (2004 : ℚ) ≥ 4007 / 2) ∧
    (runEngine bothHitCandles {}).events.filter Event.isPositionClosed =
        [Event.position_closed 3 Reason.TP2 (some (4001 / 2)) (some 1999) (some 2002)
          (some (4007 / 2))] ∧
    (runEngine bothHitCandles {}).positionsClosed.map
        (fun r => (r.closedBar, r.reason)) = [(3, Reason.TP2)] ∧
    (runEngine bothHitCandles {}).positionsClosed.map
        (fun r => (r.closedBar, r.reason)) ≠ [(3, Reason.STOPLOSS)] := by
  decide!

/-- C5 (amended): when a bar is processed while a long position is open and both
`low ≤ sl` and `high ≥ tp2` hold (for a short: `high ≥ sl` and `low ≤ tp2`), the
position is closed on that bar with reason `TP2`: exactly one record is appended,
with closing bar `i`, reason `TP2` and the prices of the position, exactly one
`position_closed` event is emitted, with reason `TP2`, and the engine is flat after
the bar. -/
theorem close_reason_both_hit (s : Settings) (i : ℕ) (c : Candle) (cp : Option Candle)
    (st : State)
    (h : (st.pos > 0 ∧ c.low ≤ num st.sl ∧ c.high ≥ num st.tp2) ∨
      (st.pos < 0 ∧ c.high ≥ num st.sl ∧ c.low ≤ num st.tp2)) :
    (step s i c cp st).pos = 0 ∧
    (∃ r, (step s i c cp st).positionsClosed = st.positionsClosed ++ [r] ∧
      r.reason = Reason.TP2 ∧ r.closedBar = i ∧ r.entry = st.en ∧ r.sl = st.sl ∧
      r.tp1 = st.tp1 ∧ r.tp2 = st.tp2 ∧ r.openedBar = st.openedBarIndex) ∧
    (∃ evs, (step s i c cp st).events = st.events ++ evs ∧
      evs.filter Event.isPositionClosed =
        [Event.position_closed i Reason.TP2 st.en st.sl st.tp1 st.tp2]) := by
  have hp : st.pos ≠ 0 := by rcases h with ⟨h1, -⟩ | ⟨h1, -⟩ <;> omega
  have q0 : SameTrade st (updateLevels s i c st) :=
    ⟨rfl, rfl, rfl, rfl, rfl, rfl, rfl, rfl, List.prefix_refl _, rfl⟩
  have q := sameTrade_trans (sameTrade_trans q0
    (sameTrade_checkTp1 i c cp (updateLevels s i c st))) (sameTrade_checkTp2 i c cp _)
  set st2 := checkTp2 i c cp (checkTp1 i c cp (updateLevels s i c st)) with hst2
  have hpos2 : st2.pos = st.pos := q.pos
  have hsl2 : st2.sl = st.sl := q.sl
  have htp22 : st2.tp2 = st.tp2 := q.tp2
  have hcond : (st2.pos > 0 ∧ (c.low ≤ num st2.sl ∨ c.high ≥ num st2.tp2)) ∨
      (st2.pos < 0 ∧ (c.high ≥ num st2.sl ∨ c.low ≤ num st2.tp2)) := by
    rw [hpos2, hsl2, htp22]
    rcases h with ⟨h1, h2, -⟩ | ⟨h1, h2, -⟩
    · exact Or.inl ⟨h1, Or.inl h2⟩
    · exact Or.inr ⟨h1, Or.inl h2⟩
  have hreason : closeReason c st2 = Reason.TP2 := by
    unfold closeReason
    rw [hpos2, htp22]
    rcases h with ⟨h1, -, h3⟩ | ⟨h1, -, h3⟩
    · have : ¬ st.pos < 0 := by omega
      simp [h1, h3, this]
    · simp [h1, h3]
  have hm : managePosition i c cp (updateLevels s i c st) = checkClose i c st2 := by
    unfold managePosition
    rw [if_pos (by simpa using hp)]
  have hclose : checkClose i c st2 =
      closePosition Reason.TP2 i c
        { st2 with events := st2.events ++
            [Event.position_closed i Reason.TP2 st2.en st2.sl st2.tp1 st2.tp2] } := by
    unfold checkClose
    rw [if_pos hcond, hreason]
  set st3 := managePosition i c cp (updateLevels s i c st) with hst3
  have hp2 : st2.pos ≠ 0 := by rw [hpos2]; exact hp
  have h3pos : st3.pos = 0 := by
    rw [hm, hclose]; simp [closePosition, hp2]
  have h3box : st3.box_entry_zone = none := by
    rw [hm, hclose]; simp [closePosition, hp2]
  have h3closed : st3.positionsClosed = st.positionsClosed ++
      [{ type := if st.pos = 1 then Side.LONG else Side.SHORT
         entry := st.en, sl := st.sl, tp1 := st.tp1, tp2 := st.tp2
         openedBar := st.openedBarIndex, closedBar := i, reason := Reason.TP2
         openedAtCandle := st.openedCandleSnapshot, closedAtCandle := c
         tp1_reached := st2.tp1_reached, tp2_reached := st2.tp2_reached }] := by
    rw [hm, hclose]
    simp [closePosition, hp2, hp, q.closed, q.en, q.sl, q.tp1, q.tp2, q.bar, q.snap, hpos2]
  have h3events : st3.events = st2.events ++
      [Event.position_closed i Reason.TP2 st.en st.sl st.tp1 st.tp2] := by
    rw [hm, hclose]
    simp [closePosition, hp2, hp, q.en, q.sl, q.tp1, q.tp2]
  have a := afterClose_rest s i c cp st3
  have hstep : step s i c cp st =
      zoneExpiry s i (positionActivation s i c (zoneActivation i c cp
        (zoneCreation s i st3))) := rfl
  rw [hstep]
  refine ⟨(a.flat h3pos (Or.inl h3box)).1, ⟨_, by rw [a.closed, h3closed], rfl, rfl, rfl,
    rfl, rfl, rfl, rfl⟩, ?_⟩
  apply exists_suffix_of_filter
  · refine List.IsPrefix.trans ?_ a.pre
    rw [h3events]
    exact (q.pre).trans (List.prefix_append _ _)
  · rw [a.noClose, h3events, List.filter_append, q.noClose]
    simp [Event.isPositionClosed]

/-- Witness for C5 (amended): bar 3 of `bothHitCandles`, processed in the state the
run has reached after three bars (long position, `sl = 1999`, `tp2 = 2003.5`). -/
theorem close_reason_both_hit_witness :
    ((bothHitState.pos > 0 ∧ bothHitBar.low ≤ num bothHitState.sl ∧
        bothHitBar.high ≥ num bothHitState.tp2) ∨
      (bothHitState.pos < 0 ∧ bothHitBar.high ≥ num bothHitState.sl ∧
        bothHitBar.low ≤ num bothHitState.tp2)) ∧
    ((step {} 3 bothHitBar (prevCandle bothHitCandles 3) bothHitState).pos = 0 ∧
    (∃ r, (step {} 3 bothHitBar (prevCandle bothHitCandles 3) bothHitState).positionsClosed =
        bothHitState.positionsClosed ++ [r] ∧
      r.reason = Reason.TP2 ∧ r.closedBar = 3 ∧ r.entry = bothHitState.en ∧
      r.sl = bothHitState.sl ∧ r.tp1 = bothHitState.tp1 ∧ r.tp2 = bothHitState.tp2 ∧
      r.openedBar = bothHitState.openedBarIndex) ∧
    (∃ evs, (step {} 3 bothHitBar (prevCandle bothHitCandles 3) bothHitState).events =
        bothHitState.events ++ evs ∧
      evs.filter Event.isPositionClosed =
        [Event.position_closed 3 Reason.TP2 bothHitState.en bothHitState.sl
          bothHitState.tp1 bothHitState.tp2])) :=
  ⟨Or.inl (by decide!),
    close_reason_both_hit {} 3 bothHitBar (prevCandle bothHitCandles 3) bothHitState
      (Or.inl (by decide!))⟩

end Fiverr

namespace GoldenEra

/-! ## C6 -/

/-- C6: when a bar is processed while a long trade is open and both `low ≤ sl` and
`high ≥ tp2` hold (for a short: `high ≥ sl` and `low ≤ tp2`), the trade is closed on
that bar with `exitReason = SL_HIT` and `exitPrice = sl`; an `sl_hit` event is
emitted and no `tp2_hit` event. -/
theorem stop_loss_first_box (cfg : Config) (i : ℕ) (c : Candle) (eng : Engine)
    (sl tp2 : ℚ) (ht : eng.state.isInTrade = true) (hsl : eng.state.sl = some sl)
    (htp2 : eng.state.tp2 = some tp2)
    (h : (truthy eng.state.isBull = true ∧ c.low ≤ sl ∧ c.high ≥ tp2) ∨
      (truthy eng.state.isBull = false ∧ c.high ≥ sl ∧ c.low ≤ tp2)) :
    (step cfg i c eng).positionsClosed = eng.positionsClosed ++
      [{ side := if truthy eng.state.isBull then Side.long else Side.short
         entry := eng.state.entryPrice
         sl := some sl
         tp1 := eng.state.tp1
         tp2 := some tp2
         entryBar := eng.state.entryBar
         entryTime := eng.state.entryTime
         exitBar := i
         exitTime := c.time
         exitPrice := some sl
         exitReason := ExitReason.SL_HIT }] ∧
    (step cfg i c eng).state.isInTrade = false ∧
    (∃ evs, (step cfg i c eng).events = eng.events ++ evs ∧
      (∀ e ∈ evs, e.bar = i ∧ e.type ≠ EventType.tp2_hit) ∧
      (∃ e ∈ evs, e.type = EventType.sl_hit)) := by
  have hx : ∃ rb, exitChecks i c eng =
      { eng := recordZoneEvent EventType.sl_hit i c (Extra.sl eng.state.sl) eng
        exitThisBar := true
        slRebox := rb } := by
    unfold exitChecks
    rcases h with ⟨hb, h1, -⟩ | ⟨hb, h1, -⟩
    · exact ⟨ltN (some c.close) (some sl), by simp [hb, hsl, leN, h1]⟩
    · exact ⟨gtN (some c.close) (some sl), by simp [hb, hsl, geN, leN, h1]⟩
  obtain ⟨rb, hx⟩ := hx
  have hstep : step cfg i c eng =
      { inTrade cfg i c eng with prev := some (inTrade cfg i c eng).state } := by
    unfold step
    simp [ht]
  have hin : inTrade cfg i c eng =
      rebox cfg rb i c
        (closeTrade ExitReason.SL_HIT (some sl) i c
          (recordZoneEvent EventType.sl_hit i c (Extra.sl eng.state.sl) eng)) := by
    unfold inTrade
    simp only [hx, if_true]
    have hr : exitReasonOf
        (recordZoneEvent EventType.sl_hit i c (Extra.sl eng.state.sl) eng).events =
        ExitReason.SL_HIT := by
      simp [recordZoneEvent, exitReasonOf]
    rw [hr]
    simp [exitPriceOf, recordZoneEvent, hsl]
  rw [hstep, hin]
  unfold rebox
  cases hprev : eng.prev with
  | none =>
    simp [closeTrade, recordZoneEvent, ht, hsl, htp2, hprev]
  | some prev =>
    cases rb with
    | false =>
      simp [closeTrade, recordZoneEvent, ht, hsl, htp2, hprev]
    | true =>
      simp [closeTrade, recordZoneEvent, createZone, ht, hsl, htp2, hprev]

/-- Witness for C6: the bar `bothHitBar` processed as bar 2 after `longTradeCandles`
has opened a long trade with `sl = 1999` and `tp2 = 2003.5`. -/
theorem stop_loss_first_box_witness :
    ((finalEngine longTradeCandles {}).state.isInTrade = true ∧
      (finalEngine longTradeCandles {}).state.sl = some 1999 ∧
      (finalEngine longTradeCandles {}).state.tp2 = some (4007 / 2) ∧
      truthy (finalEngine longTradeCandles {}).state.isBull = true ∧
      bothHitBar.low ≤ 1999 ∧ bothHitBar.high ≥ 4007 / 2) ∧
    ((step {} 2 bothHitBar (finalEngine longTradeCandles {})).positionsClosed =
      (finalEngine longTradeCandles {}).positionsClosed ++
      [{ side := if truthy (finalEngine longTradeCandles {}).state.isBull
           then Side.long else Side.short
         entry := (finalEngine longTradeCandles {}).state.entryPrice
         sl := some 1999
         tp1 := (finalEngine longTradeCandles {}).state.tp1
         tp2 := some (4007 / 2)
         entryBar := (finalEngine longTradeCandles {}).state.entryBar
         entryTime := (finalEngine longTradeCandles {}).state.entryTime
         exitBar := 2
         exitTime := bothHitBar.time
         exitPrice := some 1999
         exitReason := ExitReason.SL_HIT }] ∧
    (step {} 2 bothHitBar (finalEngine longTradeCandles {})).state.isInTrade = false ∧
    (∃ evs, (step {} 2 bothHitBar (finalEngine longTradeCandles {})).events =
        (finalEngine longTradeCandles {}).events ++ evs ∧
      (∀ e ∈ evs, e.bar = 2 ∧ e.type ≠ EventType.tp2_hit) ∧
      (∃ e ∈ evs, e.type = EventType.sl_hit))) :=
  ⟨by decide!,
    stop_loss_first_box {} 2 bothHitBar (finalEngine longTradeCandles {}) 1999 (4007 / 2)
      (by decide!) (by decide!) (by decide!) (Or.inl (by decide!))⟩

end GoldenEra

namespace Fiverr

/-! ## C10 -/

theorem managePosition_levelsHistory (i : ℕ) (c : Candle) (cp : Option Candle)
    (st : State) : (managePosition i c cp st).levelsHistory = st.levelsHistory := by
  have h1 : ∀ st : State, (checkTp1 i c cp st).levelsHistory = st.levelsHistory := by
    intro st; unfold checkTp1; split
    · split_ifs <;> rfl
    · rfl
  have h2 : ∀ st : State, (checkTp2 i c cp st).levelsHistory = st.levelsHistory := by
    intro st; unfold checkTp2; split
    · split_ifs <;> rfl
    · rfl
  have h3 : ∀ st : State, (checkClose i c st).levelsHistory = st.levelsHistory := by
    intro st; unfold checkClose closePosition; split_ifs <;> rfl
  unfold managePosition
  split
  · rw [h3, h2, h1]
  · rfl

theorem zoneCreation_levelsHistory (s : Settings) (i : ℕ) (st : State) :
    (zoneCreation s i st).levelsHistory = st.levelsHistory := by
  unfold zoneCreation
  split
  · split_ifs <;> rfl
  · rfl

theorem zoneActivation_levelsHistory (i : ℕ) (c : Candle) (cp : Option Candle)
    (st : State) : (zoneActivation i c cp st).levelsHistory = st.levelsHistory := by
  unfold zoneActivation
  split
  · split_ifs <;> rfl
  · rfl

theorem positionActivation_levelsHistory (s : Settings) (i : ℕ) (c : Candle)
    (st : State) : (positionActivation s i c st).levelsHistory = st.levelsHistory := by
  unfold positionActivation
  split
  · split_ifs <;> rfl
  · rfl

theorem zoneExpiry_levelsHistory (s : Settings) (i : ℕ) (st : State) :
    (zoneExpiry s i st).levelsHistory = st.levelsHistory := by
  unfold zoneExpiry
  split
  · split_ifs <;> rfl
  · rfl

theorem step_levelsHistory (s : Settings) (i : ℕ) (c : Candle) (cp : Option Candle)
    (st : State) :
    (step s i c cp st).levelsHistory = st.levelsHistory ++
      [{ barIndex := i
         curr_level_top := (processLevels c.close s.levelPips s.nLevels s.pipSize).up.head?
         curr_level_bot := (processLevels c.close s.levelPips s.nLevels s.pipSize).dn.head?
         active_level := st.active_level_curr }] := by
  unfold step
  rw [zoneExpiry_levelsHistory, positionActivation_levelsHistory,
    zoneActivation_levelsHistory, zoneCreation_levelsHistory, managePosition_levelsHistory]
  rfl

/-- The bar index and the two nearest levels of the entries that the loop appends to
`levelsHistory`. -/
theorem loop_levelsHistory (s : Settings) (cs : List Candle) :
    ∀ (i : ℕ) (cp : Option Candle) (st : State),
      (loop s i cp cs st).levelsHistory.map
          (fun e => (e.barIndex, e.curr_level_top, e.curr_level_bot)) =
        st.levelsHistory.map (fun e => (e.barIndex, e.curr_level_top, e.curr_level_bot)) ++
          (cs.enumFrom i).map (fun p =>
            (p.1, (processLevels p.2.close s.levelPips s.nLevels s.pipSize).up.head?,
              (processLevels p.2.close s.levelPips s.nLevels s.pipSize).dn.head?)) := by
  induction cs with
  | nil => intro i cp st; simp [loop]
  | cons c cs ih =>
    intro i cp st
    rw [loop, ih, step_levelsHistory]
    simp

theorem processLevels_length (price pips pipSize : ℚ) (nLevels : ℤ) :
    (processLevels price pips nLevels pipSize).up.length = nLevels.toNat ∧
    (processLevels price pips nLevels pipSize).dn.length = nLevels.toNat := by
  simp [processLevels, List.length_insertionSort]

/-- C10: for every bar sequence and every config with `nLevels ≥ 1`, `levelsHistory`
has one entry per bar: its length is the number of bars, the `i`-th entry has
`barIndex = i`, and its `curr_level_top` / `curr_level_bot` are `up[0]` / `dn[0]` of
`processLevels` applied to the close of bar `i`. -/
theorem levelsHistory_one_per_bar (candles : List Candle) (s : Settings)
    (hn : 1 ≤ s.nLevels) :
    (runEngine candles s).levelsHistory.length = candles.length ∧
    ∀ (i : ℕ) (c : Candle), candles[i]? = some c →
      ∃ e t b, (runEngine candles s).levelsHistory[i]? = some e ∧ e.barIndex = i ∧
        (processLevels c.close s.levelPips s.nLevels s.pipSize).up[0]? = some t ∧
        (processLevels c.close s.levelPips s.nLevels s.pipSize).dn[0]? = some b ∧
        e.curr_level_top = some t ∧ e.curr_level_bot = some b := by
  have hmap := loop_levelsHistory s candles 0 none {}
  simp only [List.map_nil, List.nil_append] at hmap
  have hlen : (runEngine candles s).levelsHistory.length = candles.length := by
    have := congrArg List.length hmap
    simpa [runEngine, finalState] using this
  refine ⟨hlen, ?_⟩
  intro i c hc
  have hi : i < candles.length := by
    by_contra hcon
    rw [List.getElem?_eq_none (by omega)] at hc
    cases hc
  have hi' : i < (runEngine candles s).levelsHistory.length := by omega
  obtain ⟨hu, hd⟩ := processLevels_length c.close s.levelPips s.pipSize s.nLevels
  have hpos : 0 < s.nLevels.toNat := by omega
  have hget := congrArg (fun l => l[i]?) hmap
  simp only [List.getElem?_map, List.getElem?_enumFrom, hc, Option.map_some'] at hget
  have he : (runEngine candles s).levelsHistory[i]? =
      some ((runEngine candles s).levelsHistory[i]) := List.getElem?_eq_getElem hi'
  have he' : (loop s 0 none candles {}).levelsHistory[i]? =
      some ((runEngine candles s).levelsHistory[i]) := he
  rw [he'] at hget
  simp only [Option.map_some', Option.some.injEq, Prod.mk.injEq, zero_add] at hget
  obtain ⟨h1, h2, h3⟩ := hget
  have hu0 : 0 < (processLevels c.close s.levelPips s.nLevels s.pipSize).up.length := by
    omega
  have hd0 : 0 < (processLevels c.close s.levelPips s.nLevels s.pipSize).dn.length := by
    omega
  refine ⟨_, (processLevels c.close s.levelPips s.nLevels s.pipSize).up[0],
    (processLevels c.close s.levelPips s.nLevels s.pipSize).dn[0], he, h1,
    List.getElem?_eq_getElem hu0, List.getElem?_eq_getElem hd0, ?_, ?_⟩
  · rw [h2, List.head?_eq_getElem?]; exact List.getElem?_eq_getElem hu0
  · rw [h3, List.head?_eq_getElem?]; exact List.getElem?_eq_getElem hd0

/-- Witness for C10: the five candles and the settings of `testEngine`. -/
theorem levelsHistory_one_per_bar_witness :
    (1 : ℤ) ≤ ({ showDebug := true } : Settings).nLevels ∧
    ((runEngine testCandles { showDebug := true }).levelsHistory.length =
        testCandles.length ∧
    ∀ (i : ℕ) (c : Candle), testCandles[i]? = some c →
      ∃ e t b, (runEngine testCandles { showDebug := true }).levelsHistory[i]? = some e ∧
        e.barIndex = i ∧
        (processLevels c.close ({ showDebug := true } : Settings).levelPips
          ({ showDebug := true } : Settings).nLevels
          ({ showDebug := true } : Settings).pipSize).up[0]? = some t ∧
        (processLevels c.close ({ showDebug := true } : Settings).levelPips
          ({ showDebug := true } : Settings).nLevels
          ({ showDebug := true } : Settings).pipSize).dn[0]? = some b ∧
        e.curr_level_top = some t ∧ e.curr_level_bot = some b) :=
  ⟨by decide, levelsHistory_one_per_bar testCandles { showDebug := true } (by decide)⟩

/-! ## Phases that do nothing -/

theorem managePosition_flat (i : ℕ) (c : Candle) (cp : Option Candle) (st : State)
    (h : st.pos = 0) : managePosition i c cp st = st := by
  unfold managePosition
  simp [h]

theorem zoneCreation_of_curr_none (s : Settings) (i : ℕ) (st : State)
    (h : st.active_level_curr = none) : zoneCreation s i st = st := by
  unfold zoneCreation
  split
  · simp_all
  · rfl

theorem zoneCreation_of_pos (s : Settings) (i : ℕ) (st : State)
    (h : st.pos ≠ 0) : zoneCreation s i st = st := by
  unfold zoneCreation
  split
  · simp [h]
  · rfl

theorem zoneActivation_of_curr_some (i : ℕ) (c : Candle) (cp : Option Candle)
    (st : State) (l : ℚ) (h : st.active_level_curr = some l) :
    zoneActivation i c cp st = st := by
  unfold zoneActivation
  split
  · simp_all
  · rfl

theorem positionActivation_of_curr_some (s : Settings) (i : ℕ) (c : Candle)
    (st : State) (l : ℚ) (h : st.active_level_curr = some l) :
    positionActivation s i c st = st := by
  unfold positionActivation
  split
  · simp_all
  · rfl

theorem positionActivation_of_prev_some (s : Settings) (i : ℕ) (c : Candle)
    (st : State) (l : ℚ) (h : st.active_level_prev = some l) :
    positionActivation s i c st = st := by
  unfold positionActivation
  split
  · simp_all
  · rfl

theorem zoneExpiry_of_no_box (s : Settings) (i : ℕ) (st : State)
    (h : st.box_entry_zone = none) : zoneExpiry s i st = st := by
  unfold zoneExpiry
  split
  · simp_all
  · rfl

theorem zoneExpiry_fresh (s : Settings) (i : ℕ) (st : State)
    (h : st.zone_created_bar = some i) (hz : 1 ≤ s.zoneNoBars) :
    zoneExpiry s i st = st := by
  unfold zoneExpiry
  split
  · rename_i bx created hb hc
    rw [h] at hc
    cases hc
    have : ¬ ((i : ℤ) - (i : ℤ) ≥ s.zoneNoBars ∧ st.pos = 0) := by
      intro hh
      have := hh.1
      omega
    rw [if_neg this]
  · rfl

/-- The zone that `zoneCreation` builds on bar `i` around the level `lvl`. -/
theorem zoneCreation_fires (s : Settings) (i : ℕ) (st : State) (lvl : ℚ)
    (hl : st.active_level_curr = some lvl) (hp : st.pos = 0) :
    ∃ bx : Box, bx.createdBar = i ∧
      (zoneCreation s i st).box_entry_zone = some bx ∧
      (zoneCreation s i st).zone_created_bar = some i ∧
      (zoneCreation s i st).pos = 0 ∧
      (zoneCreation s i st).entry_zone_active = 0 ∧
      (zoneCreation s i st).active_level_curr = some lvl ∧
      (zoneCreation s i st).events =
        st.events ++ (match st.box_entry_zone with
          | some b => [Event.entry_zone_removed i b]
          | none => []) ++ [Event.entry_zone_created i bx lvl] := by
  refine ⟨{ leftIndex := i
            rightIndex := (i : ℤ) + s.zoneNoBars
            top := lvl + pipsToPrice s.entryZonePips s.pipSize
            bottom := lvl - pipsToPrice s.entryZonePips s.pipSize
            createdBar := i
            active_level := lvl }, rfl, ?_⟩
  unfold zoneCreation
  simp only [hl, hp, if_true]
  cases st.box_entry_zone <;> simp

/-- The bar after a zone was created: the engine is flat, the zone `b` is not yet
activated and the previous bar had an active level. Either the zone is activated on
this bar, or it is replaced by a new zone, or its activation fails and it is
discarded. -/
theorem step_after_creation (s : Settings) (i : ℕ) (c p : Candle) (st : State)
    (b : Box) (lvl : ℚ) (hz : 1 ≤ s.zoneNoBars)
    (hbox : st.box_entry_zone = some b) (hpos : st.pos = 0)
    (heza : st.entry_zone_active = 0) (hcurr : st.active_level_curr = some lvl) :
    (∃ pc pl evs, (step s i c (some p) st).events =
        st.events ++ Event.entry_zone_activated_long i b pc pl :: evs ∨
      (step s i c (some p) st).events =
        st.events ++ Event.entry_zone_activated_short i b pc pl :: evs) ∨
    (∃ b' l', b'.createdBar = i ∧ (step s i c (some p) st).box_entry_zone = some b' ∧
      (step s i c (some p) st).pos = 0 ∧
      (step s i c (some p) st).events =
        st.events ++ [Event.entry_zone_removed i b, Event.entry_zone_created i b' l']) ∨
    ((step s i c (some p) st).box_entry_zone = none ∧
      (step s i c (some p) st).pos = 0 ∧
      (step s i c (some p) st).events =
        st.events ++ [Event.entry_zone_activation_failed i b]) := by
  have h1pos : (updateLevels s i c st).pos = 0 := hpos
  have hm : managePosition i c (some p) (updateLevels s i c st) = updateLevels s i c st :=
    managePosition_flat _ _ _ _ h1pos
  have hstep : step s i c (some p) st =
      zoneExpiry s i (positionActivation s i c (zoneActivation i c (some p)
        (zoneCreation s i (updateLevels s i c st)))) := by
    unfold step
    rw [hm]
  have hprev : (updateLevels s i c st).active_level_prev = some lvl := hcurr
  rw [hstep]
  cases ha : (updateLevels s i c st).active_level_curr with
  | some l' =>
    -- a new level is detected: the zone is replaced
    obtain ⟨bx, hbx, h1, h2, h3, h4, h5, h6⟩ :=
      zoneCreation_fires s i (updateLevels s i c st) l' ha h1pos
    rw [zoneActivation_of_curr_some _ _ _ _ l' h5,
      positionActivation_of_curr_some _ _ _ _ l' h5, zoneExpiry_fresh _ _ _ h2 hz]
    refine Or.inr (Or.inl ⟨bx, l', hbx, h1, h3, ?_⟩)
    rw [h6]
    have : (updateLevels s i c st).box_entry_zone = some b := hbox
    rw [this]
    simp only [List.append_assoc, List.singleton_append]
    rfl
  | none =>
    rw [zoneCreation_of_curr_none _ _ _ ha]
    have hza : ∀ st', zoneActivation i c (some p) (updateLevels s i c st) = st' →
        st'.active_level_prev = some lvl := by
      intro st' hst'
      subst hst'
      unfold zoneActivation
      split
      · split_ifs <;> exact hprev
      · exact hprev
    rw [positionActivation_of_prev_some _ _ _ _ lvl (hza _ rfl)]
    have hb1 : (updateLevels s i c st).box_entry_zone = some b := hbox
    have he1 : (updateLevels s i c st).entry_zone_active = 0 := heza
    have hev : (updateLevels s i c st).events = st.events := rfl
    have hY : (∃ pc pl,
          (zoneActivation i c (some p) (updateLevels s i c st)).events =
            st.events ++ [Event.entry_zone_activated_long i b pc pl] ∨
          (zoneActivation i c (some p) (updateLevels s i c st)).events =
            st.events ++ [Event.entry_zone_activated_short i b pc pl]) ∨
        ((zoneActivation i c (some p) (updateLevels s i c st)).box_entry_zone = none ∧
          (zoneActivation i c (some p) (updateLevels s i c st)).pos = 0 ∧
          (zoneActivation i c (some p) (updateLevels s i c st)).events =
            st.events ++ [Event.entry_zone_activation_failed i b]) := by
      unfold zoneActivation
      simp only [hprev, ha, hb1, h1pos, he1, and_self, if_true]
      split_ifs
      · exact Or.inl ⟨p.close, lvl, Or.inl (by rw [hev])⟩
      · exact Or.inl ⟨p.close, lvl, Or.inr (by rw [hev])⟩
      · exact Or.inr ⟨rfl, rfl, by rw [hev]⟩
    rcases hY with ⟨pc, pl, hY⟩ | ⟨hY1, hY2, hY3⟩
    · obtain ⟨evs, hevs⟩ := (afterClose_zoneExpiry s i
        (zoneActivation i c (some p) (updateLevels s i c st))).pre
      refine Or.inl ⟨pc, pl, evs, ?_⟩
      rw [← hevs]
      rcases hY with hY | hY
      · exact Or.inl (by rw [hY]; simp)
      · exact Or.inr (by rw [hY]; simp)
    · refine Or.inr (Or.inr ?_)
      rw [zoneExpiry_of_no_box _ _ _ hY1]
      exact ⟨hY1, hY2, hY3⟩

/-! ## Which zone the events of a bar refer to -/

theorem mentions_refl (i : ℕ) (st : State) : Mentions i st st :=
  ⟨⟨[], by simp, by simp⟩, fun _ h => Or.inl h⟩

theorem mentions_trans {i : ℕ} {a b c : State} (h1 : Mentions i a b)
    (h2 : Mentions i b c) : Mentions i a c := by
  obtain ⟨⟨e1, he1, hm1⟩, hb1⟩ := h1
  obtain ⟨⟨e2, he2, hm2⟩, hb2⟩ := h2
  refine ⟨⟨e1 ++ e2, by rw [he2, he1, List.append_assoc], ?_⟩, ?_⟩
  · intro e he
    rcases List.mem_append.1 he with he | he
    · exact hm1 e he
    · refine ⟨(hm2 e he).1, fun bx hbx => ?_⟩
      rcases (hm2 e he).2 bx hbx with h | h
      · exact hb1 bx h
      · exact Or.inr h
  · intro bx hbx
    rcases hb2 bx hbx with h | h
    · exact hb1 bx h
    · exact Or.inr h

/-- A phase that appends one event without a zone and keeps the zone. -/
theorem mentions_of_plain {i : ℕ} {st st' : State} (e : Event)
    (hev : st'.events = st.events ++ [e]) (hbar : e.bar = i) (hno : e.box? = none)
    (hbox : st'.box_entry_zone = st.box_entry_zone ∨ st'.box_entry_zone = none) :
    Mentions i st st' := by
  refine ⟨⟨[e], hev, ?_⟩, ?_⟩
  · intro e' he'
    simp only [List.mem_singleton] at he'
    subst he'
    exact ⟨hbar, fun b hb => by rw [hno] at hb; cases hb⟩
  · intro b hb
    rcases hbox with h | h
    · exact Or.inl (by rw [← h]; exact hb)
    · rw [h] at hb; cases hb

/-- A phase that appends one event about the zone of the state and keeps or drops
that zone. -/
theorem mentions_of_zone {i : ℕ} {st st' : State} (e : Event) (bx : Box)
    (hev : st'.events = st.events ++ [e]) (hbar : e.bar = i) (hz : e.box? = some bx)
    (hst : st.box_entry_zone = some bx)
    (hbox : st'.box_entry_zone = st.box_entry_zone ∨ st'.box_entry_zone = none) :
    Mentions i st st' := by
  refine ⟨⟨[e], hev, ?_⟩, ?_⟩
  · intro e' he'
    simp only [List.mem_singleton] at he'
    subst he'
    exact ⟨hbar, fun b hb => by rw [hz] at hb; cases hb; exact Or.inl hst⟩
  · intro b hb
    rcases hbox with h | h
    · exact Or.inl (by rw [← h]; exact hb)
    · rw [h] at hb; cases hb

theorem mentions_checkTp1 (i : ℕ) (c : Candle) (cp : Option Candle) (st : State) :
    Mentions i st (checkTp1 i c cp st) := by
  unfold checkTp1
  split
  · split_ifs
    all_goals first
      | exact mentions_refl i st
      | exact mentions_of_plain _ rfl rfl rfl (Or.inl rfl)
  · exact mentions_refl i st

theorem mentions_checkTp2 (i : ℕ) (c : Candle) (cp : Option Candle) (st : State) :
    Mentions i st (checkTp2 i c cp st) := by
  unfold checkTp2
  split
  · split_ifs
    all_goals first
      | exact mentions_refl i st
      | exact mentions_of_plain _ rfl rfl rfl (Or.inl rfl)
  · exact mentions_refl i st

theorem mentions_checkClose (i : ℕ) (c : Candle) (st : State) :
    Mentions i st (checkClose i c st) := by
  unfold checkClose closePosition
  split_ifs
  all_goals first
    | exact mentions_refl i st
    | exact mentions_of_plain _ rfl rfl rfl (Or.inl rfl)
    | exact mentions_of_plain _ rfl rfl rfl (Or.inr rfl)

theorem mentions_managePosition (i : ℕ) (c : Candle) (cp : Option Candle) (st : State) :
    Mentions i st (managePosition i c cp st) := by
  unfold managePosition
  split
  · exact mentions_trans (mentions_trans (mentions_checkTp1 i c cp st)
      (mentions_checkTp2 i c cp _)) (mentions_checkClose i c _)
  · exact mentions_refl i st

theorem mentions_zoneCreation (s : Settings) (i : ℕ) (st : State) :
    Mentions i st (zoneCreation s i st) := by
  cases hl : st.active_level_curr with
  | none => rw [zoneCreation_of_curr_none _ _ _ hl]; exact mentions_refl i st
  | some lvl =>
    by_cases hp : st.pos = 0
    · obtain ⟨bx, hbx, h1, -, -, -, -, h6⟩ := zoneCreation_fires s i st lvl hl hp
      refine ⟨⟨_, by rw [h6, List.append_assoc], ?_⟩, ?_⟩
      · intro e he
        cases hb : st.box_entry_zone with
        | none =>
          simp only [hb, List.nil_append, List.mem_singleton] at he
          subst he
          exact ⟨rfl, fun b hb' => by cases hb'; exact Or.inr hbx⟩
        | some b0 =>
          simp only [hb, List.singleton_append, List.mem_cons, List.mem_singleton,
            List.not_mem_nil, or_false] at he
          rcases he with rfl | rfl
          · exact ⟨rfl, fun b hb' => by cases hb'; exact Or.inl rfl⟩
          · exact ⟨rfl, fun b hb' => by cases hb'; exact Or.inr hbx⟩
      · intro b hb
        rw [h1] at hb
        cases hb
        exact Or.inr hbx
    · rw [zoneCreation_of_pos _ _ _ hp]; exact mentions_refl i st

theorem mentions_zoneActivation (i : ℕ) (c : Candle) (cp : Option Candle) (st : State) :
    Mentions i st (zoneActivation i c cp st) := by
  unfold zoneActivation
  split
  · split_ifs
    all_goals first
      | exact mentions_refl i st
      | exact mentions_of_zone _ _ rfl rfl rfl (by assumption) (Or.inl rfl)
      | exact mentions_of_zone _ _ rfl rfl rfl (by assumption) (Or.inr rfl)
  · exact mentions_refl i st

theorem mentions_positionActivation (s : Settings) (i : ℕ) (c : Candle) (st : State) :
    Mentions i st (positionActivation s i c st) := by
  unfold positionActivation
  split
  · split_ifs
    all_goals first
      | exact mentions_refl i st
      | exact mentions_of_plain _ rfl rfl rfl (Or.inl rfl)
  · exact mentions_refl i st

theorem mentions_zoneExpiry (s : Settings) (i : ℕ) (st : State) :
    Mentions i st (zoneExpiry s i st) := by
  unfold zoneExpiry
  split
  · split_ifs
    · exact mentions_of_zone _ _ rfl rfl rfl (by assumption) (Or.inr rfl)
    · exact mentions_refl i st
  · exact mentions_refl i st

theorem mentions_step (s : Settings) (i : ℕ) (c : Candle) (cp : Option Candle)
    (st : State) : Mentions i st (step s i c cp st) := by
  unfold step
  have h0 : Mentions i st (updateLevels s i c st) :=
    ⟨⟨[], (List.append_nil _).symm, by simp⟩, fun _ h => Or.inl h⟩
  exact mentions_trans (mentions_trans (mentions_trans (mentions_trans
    (mentions_trans h0 (mentions_managePosition i c cp _)) (mentions_zoneCreation s i _))
    (mentions_zoneActivation i c cp _)) (mentions_positionActivation s i c _))
    (mentions_zoneExpiry s i _)

/-! ## The bar on which a zone is created -/

theorem plain_refl (st : State) : Plain st st := ⟨⟨[], by simp, by simp⟩, Or.inl rfl⟩

theorem plain_trans {a b c : State} (h1 : Plain a b) (h2 : Plain b c) : Plain a c := by
  obtain ⟨⟨e1, he1, hm1⟩, hb1⟩ := h1
  obtain ⟨⟨e2, he2, hm2⟩, hb2⟩ := h2
  refine ⟨⟨e1 ++ e2, by rw [he2, he1, List.append_assoc], ?_⟩, ?_⟩
  · intro e he
    rcases List.mem_append.1 he with he | he
    · exact hm1 e he
    · exact hm2 e he
  · rcases hb2 with h | h
    · rcases hb1 with h' | h'
      · exact Or.inl (h.trans h')
      · exact Or.inr (h.trans h')
    · exact Or.inr h

theorem plain_of_event {st st' : State} (e : Event) (hev : st'.events = st.events ++ [e])
    (hno : e.box? = none)
    (hbox : st'.box_entry_zone = st.box_entry_zone ∨ st'.box_entry_zone = none) :
    Plain st st' :=
  ⟨⟨[e], hev, fun e' he' => by
    simp only [List.mem_singleton] at he'; subst he'; exact hno⟩, hbox⟩

theorem plain_checkTp1 (i : ℕ) (c : Candle) (cp : Option Candle) (st : State) :
    Plain st (checkTp1 i c cp st) := by
  unfold checkTp1
  split
  · split_ifs
    all_goals first
      | exact plain_refl st
      | exact plain_of_event _ rfl rfl (Or.inl rfl)
  · exact plain_refl st

theorem plain_checkTp2 (i : ℕ) (c : Candle) (cp : Option Candle) (st : State) :
    Plain st (checkTp2 i c cp st) := by
  unfold checkTp2
  split
  · split_ifs
    all_goals first
      | exact plain_refl st
      | exact plain_of_event _ rfl rfl (Or.inl rfl)
  · exact plain_refl st

theorem plain_checkClose (i : ℕ) (c : Candle) (st : State) :
    Plain st (checkClose i c st) := by
  unfold checkClose closePosition
  split_ifs
  all_goals first
    | exact plain_refl st
    | exact plain_of_event _ rfl rfl (Or.inl rfl)
    | exact plain_of_event _ rfl rfl (Or.inr rfl)

theorem plain_managePosition (i : ℕ) (c : Candle) (cp : Option Candle) (st : State) :
    Plain st (managePosition i c cp st) := by
  unfold managePosition
  split
  · exact plain_trans (plain_trans (plain_checkTp1 i c cp st) (plain_checkTp2 i c cp _))
      (plain_checkClose i c _)
  · exact plain_refl st

theorem noCreate_zoneActivation (i : ℕ) (c : Candle) (cp : Option Candle) (st : State) :
    (zoneActivation i c cp st).events.filter Event.isCreated =
      st.events.filter Event.isCreated := by
  unfold zoneActivation
  split
  · split_ifs <;> simp [Event.isCreated]
  · rfl

theorem noCreate_positionActivation (s : Settings) (i : ℕ) (c : Candle) (st : State) :
    (positionActivation s i c st).events.filter Event.isCreated =
      st.events.filter Event.isCreated := by
  unfold positionActivation
  split
  · split_ifs <;> simp [Event.isCreated]
  · rfl

theorem noCreate_zoneExpiry (s : Settings) (i : ℕ) (st : State) :
    (zoneExpiry s i st).events.filter Event.isCreated =
      st.events.filter Event.isCreated := by
  unfold zoneExpiry
  split
  · split_ifs <;> simp [Event.isCreated]
  · rfl

theorem isCreated_of_box?_none {e : Event} (h : e.box? = none) : e.isCreated = false := by
  cases e <;> simp_all [Event.box?, Event.isCreated]

/-- The bar on which an `entry_zone_created` event is emitted: after the bar the
created zone is the zone of the state, the engine is flat, the zone is not
activated, the active level is the one of the event, and no other event of the bar
refers to the new zone. -/
theorem step_creation (s : Settings) (i : ℕ) (c : Candle) (cp : Option Candle)
    (st : State) (hz : 1 ≤ s.zoneNoBars)
    (hfresh : ∀ b0, st.box_entry_zone = some b0 → b0.createdBar ≠ i)
    (j : ℕ) (b : Box) (l : ℚ) (evs : List Event)
    (hevs : (step s i c cp st).events = st.events ++ evs)
    (hmem : Event.entry_zone_created j b l ∈ evs) :
    b.createdBar = i ∧ (step s i c cp st).box_entry_zone = some b ∧
      (step s i c cp st).pos = 0 ∧ (step s i c cp st).entry_zone_active = 0 ∧
      (step s i c cp st).active_level_curr = some l ∧
      ∀ e ∈ evs, e.box? = some b → e = Event.entry_zone_created j b l := by
  have hP : Plain st (managePosition i c cp (updateLevels s i c st)) :=
    plain_trans
      (⟨⟨[], (List.append_nil _).symm, by simp⟩, Or.inl rfl⟩ :
        Plain st (updateLevels s i c st))
      (plain_managePosition i c cp _)
  have hstep : step s i c cp st =
      zoneExpiry s i (positionActivation s i c (zoneActivation i c cp
        (zoneCreation s i (managePosition i c cp (updateLevels s i c st))))) := rfl
  generalize managePosition i c cp (updateLevels s i c st) = st2 at hP hstep
  obtain ⟨⟨em, hem, hmm⟩, hbx2⟩ := hP
  by_cases hA : st2.pos = 0 ∧ ∃ lv, st2.active_level_curr = some lv
  · obtain ⟨hp, lv, hl⟩ := hA
    obtain ⟨bx, hbx, h1, h2, h3, h4, h5, h6⟩ := zoneCreation_fires s i st2 lv hl hp
    have hfin : step s i c cp st = zoneCreation s i st2 := by
      rw [hstep, zoneActivation_of_curr_some _ _ _ _ lv h5,
        positionActivation_of_curr_some _ _ _ _ lv h5, zoneExpiry_fresh _ _ _ h2 hz]
    rw [hfin] at hevs ⊢
    rw [h6, hem, List.append_assoc, List.append_assoc] at hevs
    have hevs' := List.append_cancel_left hevs
    subst hevs'
    have hold : ∀ e ∈ (match st2.box_entry_zone with
        | some b => [Event.entry_zone_removed i b]
        | none => []), ∃ b0, e = Event.entry_zone_removed i b0 ∧ b0.createdBar ≠ i := by
      intro e he
      cases hb : st2.box_entry_zone with
      | none => simp [hb] at he
      | some b0 =>
        simp only [hb, List.mem_singleton] at he
        refine ⟨b0, he, hfresh b0 ?_⟩
        rcases hbx2 with h | h
        · rw [← h]; exact hb
        · rw [h] at hb; cases hb
    have hb : b = bx ∧ j = i ∧ l = lv := by
      simp only [List.mem_append, List.mem_singleton] at hmem
      rcases hmem with hm | hm | hm
      · have := hmm _ hm
        cases this
      · obtain ⟨b0, hb0, -⟩ := hold _ hm
        cases hb0
      · cases hm
        exact ⟨rfl, rfl, rfl⟩
    obtain ⟨rfl, rfl, rfl⟩ := hb
    refine ⟨hbx, h1, h3, h4, h5, ?_⟩
    intro e he hbe
    simp only [List.mem_append, List.mem_singleton] at he
    rcases he with hm | hm | hm
    · rw [hmm _ hm] at hbe
      cases hbe
    · obtain ⟨b0, hb0, hne⟩ := hold _ hm
      subst hb0
      cases hbe
      exact absurd hbx hne
    · exact hm
  · exfalso
    have hzc : zoneCreation s i st2 = st2 := by
      by_cases hp : st2.pos = 0
      · cases hl : st2.active_level_curr with
        | none => exact zoneCreation_of_curr_none _ _ _ hl
        | some lv => exact absurd ⟨hp, lv, hl⟩ hA
      · exact zoneCreation_of_pos _ _ _ hp
    have hf : (step s i c cp st).events.filter Event.isCreated =
        st.events.filter Event.isCreated := by
      rw [hstep, hzc, noCreate_zoneExpiry, noCreate_positionActivation,
        noCreate_zoneActivation, hem, List.filter_append]
      have : em.filter Event.isCreated = [] := by
        rw [List.filter_eq_nil_iff]
        intro e he
        simp [isCreated_of_box?_none (hmm e he)]
      rw [this, List.append_nil]
    rw [hevs, List.filter_append] at hf
    have hnil : evs.filter Event.isCreated = [] := by
      have := congrArg List.length hf
      simp only [List.length_append] at this
      exact List.eq_nil_of_length_eq_zero (by omega)
    have : Event.entry_zone_created j b l ∈ evs.filter Event.isCreated :=
      List.mem_filter.2 ⟨hmem, rfl⟩
    rw [hnil] at this
    cases this

/-! ## Runs on prefixes of the bar sequence -/

theorem loop_take_succ (s : Settings) (cs : List Candle) :
    ∀ (i : ℕ) (cp : Option Candle) (st : State) (j : ℕ) (hj : j < cs.length),
      loop s i cp (cs.take (j + 1)) st =
        step s (i + j) cs[j] (if j = 0 then cp else cs[j - 1]?)
          (loop s i cp (cs.take j) st) := by
  induction cs with
  | nil => intro i cp st j hj; simp at hj
  | cons c cs ih =>
    intro i cp st j hj
    cases j with
    | zero => simp [loop]
    | succ j =>
      have hj' : j < cs.length := by simpa using hj
      have := ih (i + 1) (some c) (step s i c cp st) j hj'
      simp only [List.take_succ_cons, loop, this, List.getElem_cons_succ]
      have h1 : i + 1 + j = i + (j + 1) := by omega
      rw [h1]
      congr 1
      cases j with
      | zero => simp
      | succ j => simp

/-- The state after `j + 1` bars is the state after `j` bars, stepped with bar `j`. -/
theorem finalState_take_succ (candles : List Candle) (s : Settings) (j : ℕ)
    (hj : j < candles.length) :
    finalState (candles.take (j + 1)) s =
      step s j candles[j] (prevCandle candles j) (finalState (candles.take j) s) := by
  unfold finalState prevCandle
  rw [loop_take_succ s candles 0 none {} j hj]
  simp only [Nat.zero_add]

theorem finalState_take_length (candles : List Candle) (s : Settings) :
    finalState (candles.take candles.length) s = finalState candles s := by
  rw [List.take_length]

/-- After `j` bars all events carry a bar below `j`, and every zone held or referred
to was created on a bar below `j`. -/
theorem bars_below (candles : List Candle) (s : Settings) (j : ℕ)
    (hj : j ≤ candles.length) :
    (∀ e ∈ (finalState (candles.take j) s).events, e.bar < j) ∧
    (∀ b, (finalState (candles.take j) s).box_entry_zone = some b → b.createdBar < j) ∧
    (∀ e ∈ (finalState (candles.take j) s).events, ∀ b, e.box? = some b →
      b.createdBar < j) := by
  induction j with
  | zero => simp [finalState, loop]
  | succ j ih =>
    obtain ⟨h1, h2, h3⟩ := ih (by omega)
    rw [finalState_take_succ candles s j (by omega)]
    obtain ⟨⟨evs, hevs, hm⟩, hb⟩ := mentions_step s j candles[j] (prevCandle candles j)
      (finalState (candles.take j) s)
    refine ⟨?_, ?_, ?_⟩
    · intro e he
      rw [hevs] at he
      rcases List.mem_append.1 he with he | he
      · have := h1 e he; omega
      · have := (hm e he).1; omega
    · intro b hb'
      rcases hb b hb' with h | h
      · have := h2 b h; omega
      · omega
    · intro e he b hbe
      rw [hevs] at he
      rcases List.mem_append.1 he with he | he
      · have := h3 e he b hbe; omega
      · rcases (hm e he).2 b hbe with h | h
        · have := h2 b h; omega
        · omega

/-- The events of a longer prefix extend those of a shorter one by events of later
bars. -/
theorem events_extend (candles : List Candle) (s : Settings) (k j : ℕ) (hkj : k ≤ j)
    (hj : j ≤ candles.length) :
    ∃ evs, (finalState (candles.take j) s).events =
        (finalState (candles.take k) s).events ++ evs ∧ ∀ e ∈ evs, k ≤ e.bar := by
  induction j, hkj using Nat.le_induction with
  | base => exact ⟨[], by simp, by simp⟩
  | succ j hkj ih =>
    obtain ⟨evs, hevs, hbar⟩ := ih (by omega)
    rw [finalState_take_succ candles s j (by omega)]
    obtain ⟨⟨evs', hevs', hm⟩, -⟩ := mentions_step s j candles[j] (prevCandle candles j)
      (finalState (candles.take j) s)
    refine ⟨evs ++ evs', by rw [hevs', hevs, List.append_assoc], ?_⟩
    intro e he
    rcases List.mem_append.1 he with he | he
    · exact hbar e he
    · have := (hm e he).1; omega

theorem events_subset (candles : List Candle) (s : Settings) (j : ℕ)
    (hj : j ≤ candles.length) (e : Event)
    (he : e ∈ (finalState (candles.take j) s).events) :
    e ∈ (finalState candles s).events := by
  obtain ⟨evs, hevs, -⟩ := events_extend candles s j candles.length hj le_rfl
  rw [finalState_take_length] at hevs
  rw [hevs]
  exact List.mem_append_left _ he

/-! ## C9 -/

/-- The events of the run on `expiryCandles` with `zoneNoBars = 2`. -/
theorem expiry_events :
    (runEngine expiryCandles { zoneNoBars := 2 }).events =
      [Event.entry_zone_created 0 expiryBox 2005,
        Event.entry_zone_activation_failed 1 expiryBox] := by
  decide!

/-- C9 (counterexample): with `zoneNoBars = 2` the three bars of `expiryCandles` are
more than `0 + 2` bars, a zone is created on bar 0 and never activated, and the run
emits exactly two events, the creation on bar 0 and the failed activation on bar 1:
no `entry_zone_expired` event is emitted on bar `0 + 2`. -/
theorem zone_expiry_counterexample :
    expiryCandles.length > 0 + 2 ∧
    (runEngine expiryCandles { zoneNoBars := 2 }).events =
      [Event.entry_zone_created 0 expiryBox 2005,
        Event.entry_zone_activation_failed 1 expiryBox] ∧
    Event.entry_zone_expired 2 expiryBox ∉
      (runEngine expiryCandles { zoneNoBars := 2 }).events := by
  decide!

theorem prevCandle_succ (candles : List Candle) (k : ℕ) (hk : k < candles.length) :
    prevCandle candles (k + 1) = some candles[k] := by
  unfold prevCandle
  simp [List.getElem?_eq_getElem hk]

/-- C9 (amended): with `zoneNoBars ≥ 1`, a zone created on bar `k` (with bar `k + 1`
in the sequence) that is not activated on bar `k + 1` is discarded on bar `k + 1`,
by an `entry_zone_removed` event (a new zone replaces it) or by an
`entry_zone_activation_failed` event. Its creation and that event are the only
events of the run that refer to it, so no `entry_zone_expired` and no
`entry_zone_activated_*` event is ever emitted for it, and the engine never holds a
position while it is the zone of the state. -/
theorem zone_not_activated_is_discarded (candles : List Candle) (s : Settings) (k : ℕ)
    (box : Box) (lvl : ℚ) (hz : 1 ≤ s.zoneNoBars) (hk : k + 1 < candles.length)
    (hc : Event.entry_zone_created k box lvl ∈ (runEngine candles s).events)
    (hna : ∀ pc pl,
      Event.entry_zone_activated_long (k + 1) box pc pl ∉ (runEngine candles s).events ∧
      Event.entry_zone_activated_short (k + 1) box pc pl ∉
        (runEngine candles s).events) :
    (Event.entry_zone_removed (k + 1) box ∈ (runEngine candles s).events ∨
      Event.entry_zone_activation_failed (k + 1) box ∈ (runEngine candles s).events) ∧
    (∀ e ∈ (runEngine candles s).events, e.box? = some box →
      e = Event.entry_zone_created k box lvl ∨ e = Event.entry_zone_removed (k + 1) box ∨
        e = Event.entry_zone_activation_failed (k + 1) box) ∧
    (∀ j, j ≤ candles.length → (finalState (candles.take j) s).pos ≠ 0 →
      (finalState (candles.take j) s).box_entry_zone ≠ some box) := by
  have hev : (runEngine candles s).events = (finalState candles s).events := rfl
  rw [hev] at hc hna ⊢
  -- the state before bar `k`
  obtain ⟨hk1, hk2, hk3⟩ := bars_below candles s k (by omega)
  -- bar `k`
  have hs1 := finalState_take_succ candles s k (by omega)
  obtain ⟨⟨evk, hevk, hmk⟩, -⟩ := mentions_step s k candles[k] (prevCandle candles k)
    (finalState (candles.take k) s)
  rw [← hs1] at hevk
  obtain ⟨later, hlater, hlbar⟩ := events_extend candles s (k + 1) candles.length
    (by omega) le_rfl
  rw [finalState_take_length] at hlater
  have hck : Event.entry_zone_created k box lvl ∈ evk := by
    rw [hlater, hevk] at hc
    simp only [List.mem_append] at hc
    rcases hc with (h | h) | h
    · have := hk1 _ h
      simp [Event.bar] at this
    · exact h
    · have := hlbar _ h
      simp [Event.bar] at this
  have hevk' : (step s k candles[k] (prevCandle candles k)
      (finalState (candles.take k) s)).events =
      (finalState (candles.take k) s).events ++ evk := by rw [← hs1]; exact hevk
  obtain ⟨hcb, hbox1, hpos1, heza1, hcurr1, honly⟩ :=
    step_creation s k candles[k] (prevCandle candles k) (finalState (candles.take k) s) hz
      (fun b0 hb0 => (hk2 b0 hb0).ne) k box lvl evk hevk' hck
  rw [← hs1] at hbox1 hpos1 heza1 hcurr1
  -- the events after bar `k` that refer to the zone
  have hS1 : ∀ e ∈ (finalState (candles.take (k + 1)) s).events, e.box? = some box →
      e = Event.entry_zone_created k box lvl := by
    intro e he hbe
    rw [hevk] at he
    rcases List.mem_append.1 he with he | he
    · have := hk3 e he box hbe
      omega
    · exact honly e he hbe
  -- bar `k + 1`
  have hs2 := finalState_take_succ candles s (k + 1) hk
  rw [prevCandle_succ candles k (by omega)] at hs2
  have hsub2 := events_subset candles s (k + 2) (by omega)
  have hafter := step_after_creation s (k + 1) candles[k + 1] candles[k]
    (finalState (candles.take (k + 1)) s) box lvl hz hbox1 hpos1 heza1 hcurr1
  rw [← hs2] at hafter
  have hS2 : (finalState (candles.take (k + 2)) s).box_entry_zone ≠ some box ∧
      (finalState (candles.take (k + 2)) s).pos = 0 ∧
      (Event.entry_zone_removed (k + 1) box ∈
          (finalState (candles.take (k + 2)) s).events ∨
        Event.entry_zone_activation_failed (k + 1) box ∈
          (finalState (candles.take (k + 2)) s).events) ∧
      ∀ e ∈ (finalState (candles.take (k + 2)) s).events, e.box? = some box →
        e = Event.entry_zone_created k box lvl ∨
          e = Event.entry_zone_removed (k + 1) box ∨
          e = Event.entry_zone_activation_failed (k + 1) box := by
    rcases hafter with ⟨pc, pl, evs, h | h⟩ | ⟨b', l', hb', hbx, hp, h⟩ | ⟨hbx, hp, h⟩
    · exfalso
      exact (hna pc pl).1 (hsub2 _ (by rw [h]; simp))
    · exfalso
      exact (hna pc pl).2 (hsub2 _ (by rw [h]; simp))
    · refine ⟨?_, hp, Or.inl (by rw [h]; simp), ?_⟩
      · rw [hbx]
        intro hcon
        cases hcon
        omega
      · intro e he hbe
        rw [h] at he
        simp only [List.mem_append, List.mem_cons, List.mem_singleton, List.not_mem_nil,
          or_false] at he
        rcases he with he | rfl | rfl
        · exact Or.inl (hS1 e he hbe)
        · cases hbe; exact Or.inr (Or.inl rfl)
        · cases hbe; omega
    · refine ⟨by rw [hbx]; simp, hp, Or.inr (by rw [h]; simp), ?_⟩
      intro e he hbe
      rw [h] at he
      simp only [List.mem_append, List.mem_singleton] at he
      rcases he with he | rfl
      · exact Or.inl (hS1 e he hbe)
      · cases hbe; exact Or.inr (Or.inr rfl)
  -- the bars after `k + 1`
  have hQ : ∀ j, k + 2 ≤ j → j ≤ candles.length →
      (finalState (candles.take j) s).box_entry_zone ≠ some box ∧
      ∀ e ∈ (finalState (candles.take j) s).events, e.box? = some box →
        e = Event.entry_zone_created k box lvl ∨
          e = Event.entry_zone_removed (k + 1) box ∨
          e = Event.entry_zone_activation_failed (k + 1) box := by
    intro j hj
    induction j, hj using Nat.le_induction with
    | base => intro _; exact ⟨hS2.1, hS2.2.2.2⟩
    | succ j hj ih =>
      intro hjl
      obtain ⟨ih1, ih2⟩ := ih (by omega)
      rw [finalState_take_succ candles s j (by omega)]
      obtain ⟨⟨evs, hevs, hm⟩, hb⟩ := mentions_step s j candles[j] (prevCandle candles j)
        (finalState (candles.take j) s)
      refine ⟨?_, ?_⟩
      · intro hcon
        rcases hb box hcon with h | h
        · exact ih1 h
        · omega
      · intro e he hbe
        rw [hevs] at he
        rcases List.mem_append.1 he with he | he
        · exact ih2 e he hbe
        · rcases (hm e he).2 box hbe with h | h
          · exact absurd h ih1
          · omega
  refine ⟨?_, ?_, ?_⟩
  · rcases hS2.2.2.1 with h | h
    · exact Or.inl (hsub2 _ h)
    · exact Or.inr (hsub2 _ h)
  · have := (hQ candles.length (by omega) le_rfl).2
    rw [finalState_take_length] at this
    exact this
  · intro j hj hpos
    by_cases h1 : j ≤ k
    · intro hcon
      have := (bars_below candles s j hj).2.1 box hcon
      omega
    · by_cases h2 : j = k + 1
      · subst h2
        exact absurd hpos1 hpos
      · exact (hQ j (by omega) hj).1

/-- Witness for C9 (amended): the zone created on bar 0 of `expiryCandles`, with
`zoneNoBars = 2`. -/
theorem zone_not_activated_is_discarded_witness :
    ((1 : ℤ) ≤ ({ zoneNoBars := 2 } : Settings).zoneNoBars ∧
      0 + 1 < expiryCandles.length ∧
      Event.entry_zone_created 0 expiryBox 2005 ∈
        (runEngine expiryCandles { zoneNoBars := 2 }).events ∧
      ∀ pc pl,
        Event.entry_zone_activated_long (0 + 1) expiryBox pc pl ∉
          (runEngine expiryCandles { zoneNoBars := 2 }).events ∧
        Event.entry_zone_activated_short (0 + 1) expiryBox pc pl ∉
          (runEngine expiryCandles { zoneNoBars := 2 }).events) ∧
    ((Event.entry_zone_removed (0 + 1) expiryBox ∈
          (runEngine expiryCandles { zoneNoBars := 2 }).events ∨
        Event.entry_zone_activation_failed (0 + 1) expiryBox ∈
          (runEngine expiryCandles { zoneNoBars := 2 }).events) ∧
      (∀ e ∈ (runEngine expiryCandles { zoneNoBars := 2 }).events,
        e.box? = some expiryBox →
          e = Event.entry_zone_created 0 expiryBox 2005 ∨
          e = Event.entry_zone_removed (0 + 1) expiryBox ∨
          e = Event.entry_zone_activation_failed (0 + 1) expiryBox) ∧
      (∀ j, j ≤ expiryCandles.length →
        (finalState (expiryCandles.take j) { zoneNoBars := 2 }).pos ≠ 0 →
        (finalState (expiryCandles.take j) { zoneNoBars := 2 }).box_entry_zone ≠
          some expiryBox)) :=
  have hna : ∀ pc pl,
      Event.entry_zone_activated_long (0 + 1) expiryBox pc pl ∉
        (runEngine expiryCandles { zoneNoBars := 2 }).events ∧
      Event.entry_zone_activated_short (0 + 1) expiryBox pc pl ∉
        (runEngine expiryCandles { zoneNoBars := 2 }).events := by
    intro pc pl
    rw [expiry_events]
    simp
  have hc : Event.entry_zone_created 0 expiryBox 2005 ∈
      (runEngine expiryCandles { zoneNoBars := 2 }).events := by
    rw [expiry_events]
    simp
  ⟨⟨by decide, by decide, hc, hna⟩,
    zone_not_activated_is_discarded expiryCandles { zoneNoBars := 2 } 0 expiryBox 2005
      (by decide) (by decide) hc hna⟩

end Fiverr

namespace GoldenEra

/-! ## The math helpers on a positive integer step -/

theorem toIntTowardZero_nonneg (x : ℚ) (h : 0 ≤ x) :
    (toIntTowardZero x : ℚ) ≤ x ∧ x < (toIntTowardZero x : ℚ) + 1 ∧
      0 ≤ toIntTowardZero x := by
  unfold toIntTowardZero
  rw [if_neg (not_lt.2 h)]
  exact ⟨Int.floor_le x, Int.lt_floor_add_one x, Int.floor_nonneg.2 h⟩

theorem toIntTowardZero_neg (x : ℚ) (h : x < 0) :
    x ≤ (toIntTowardZero x : ℚ) ∧ (toIntTowardZero x : ℚ) < x + 1 ∧
      toIntTowardZero x ≤ 0 := by
  unfold toIntTowardZero
  rw [if_pos h]
  refine ⟨Int.le_ceil x, Int.ceil_lt_add_one x, ?_⟩
  exact Int.ceil_le.2 (by exact_mod_cast h.le)

/-- The remainder `a % b` for a positive divisor: `a - b * t` for an integer `t`,
strictly between `-b` and `b`, and not negative when `a` is not. -/
theorem jsRem_pos (a b : ℚ) (hb : 0 < b) :
    ∃ t : ℤ, jsRem a b = some (a - b * t) ∧ -b < a - b * t ∧ a - b * t < b ∧
      (0 ≤ a → 0 ≤ a - b * t) := by
  refine ⟨toIntTowardZero (a / b), ?_, ?_⟩
  · unfold jsRem
    rw [if_neg hb.ne']
  · have hab : a = b * (a / b) := by field_simp
    by_cases h : 0 ≤ a / b
    · obtain ⟨h1, h2, -⟩ := toIntTowardZero_nonneg _ h
      have e1 : b * (toIntTowardZero (a / b) : ℚ) ≤ b * (a / b) :=
        mul_le_mul_of_nonneg_left h1 hb.le
      have e2 : b * (a / b) < b * ((toIntTowardZero (a / b) : ℚ) + 1) :=
        mul_lt_mul_of_pos_left h2 hb
      refine ⟨by nlinarith, by nlinarith, fun _ => by nlinarith⟩
    · obtain ⟨h1, h2, -⟩ := toIntTowardZero_neg _ (not_le.1 h)
      have e1 : b * (a / b) ≤ b * (toIntTowardZero (a / b) : ℚ) :=
        mul_le_mul_of_nonneg_left h1 hb.le
      have e2 : b * (toIntTowardZero (a / b) : ℚ) < b * (a / b + 1) :=
        mul_lt_mul_of_pos_left h2 hb
      refine ⟨by nlinarith, by nlinarith, fun ha => ?_⟩
      exact absurd (div_nonneg ha hb.le) h

/-- The expression `((a % s) + s) % s` for integers `a` and `s > 0`: the remainder
of `a` in `[0, s)`. -/
theorem posRem_int (a s : ℤ) (hs : 0 < s) :
    ∃ k : ℤ, posRem (a : ℚ) (s : ℚ) = some (((a - s * k : ℤ) : ℚ)) ∧ 0 ≤ a - s * k ∧
      a - s * k < s := by
  have hs' : (0 : ℚ) < (s : ℚ) := by exact_mod_cast hs
  obtain ⟨t1, h1, h1a, h1b, -⟩ := jsRem_pos (a : ℚ) (s : ℚ) hs'
  obtain ⟨t2, h2, -, h2b, h2c⟩ := jsRem_pos ((a : ℚ) - s * t1 + s) (s : ℚ) hs'
  have hnn : (0 : ℚ) ≤ (a : ℚ) - s * t1 + s := by linarith
  have h2c' := h2c hnn
  refine ⟨t1 + t2 - 1, ?_, ?_, ?_⟩
  · unfold posRem
    rw [h1]
    simp only
    rw [h2]
    congr 1
    push_cast
    ring
  · have : (0 : ℚ) ≤ ((a - s * (t1 + t2 - 1) : ℤ) : ℚ) := by
      push_cast
      linarith
    exact_mod_cast this
  · have : ((a - s * (t1 + t2 - 1) : ℤ) : ℚ) < (s : ℚ) := by
      push_cast
      linarith
    exact_mod_cast this

/-- The two multiples around the truncated number, for an integer step `s > 0`: with
`k` the floor quotient of `trunc(num)` by `s`, `firstMultipleDown` is `s * k`, and
`firstMultipleUp` is `s * k` when `trunc(num)` is that multiple and `s * (k + 1)`
otherwise. -/
theorem firstMultiples_int (num : ℚ) (s : ℤ) (hs : 0 < s) :
    ∃ k : ℤ, s * k ≤ toIntTowardZero num ∧ toIntTowardZero num < s * k + s ∧
      firstMultipleDown num s = some (((s * k : ℤ) : ℚ)) ∧
      firstMultipleUp num s =
        some (((if toIntTowardZero num = s * k then s * k else s * k + s : ℤ) : ℚ)) := by
  obtain ⟨k, hk, h0, h1⟩ := posRem_int (toIntTowardZero num) s hs
  refine ⟨k, by omega, by omega, ?_, ?_⟩
  · unfold firstMultipleDown
    simp only [hk]
    congr 1
    push_cast
    ring
  · unfold firstMultipleUp
    simp only [hk]
    congr 1
    by_cases h : toIntTowardZero num = s * k
    · have : ((toIntTowardZero num - s * k : ℤ) : ℚ) = 0 := by
        rw [h]; simp
      rw [this, if_pos h]
      simp [h]
    · have hne : ((toIntTowardZero num - s * k : ℤ) : ℚ) ≠ 0 := by
        intro hc
        have : toIntTowardZero num - s * k = 0 := by exact_mod_cast hc
        omega
      rw [if_neg h, if_neg (by intro hc; apply hne; linarith)]
      push_cast
      ring

theorem int_mul_lt_cancel (s a b : ℤ) (hs : 0 < s) (h : s * a < s * b) : a < b :=
  lt_of_mul_lt_mul_left h hs.le

/-- Around a number: the truncation of `num` is within one unit of `num`, on the
side of zero. -/
theorem toIntTowardZero_near (x : ℚ) :
    |x - (toIntTowardZero x : ℚ)| < 1 ∧
      ((toIntTowardZero x : ℚ) ≤ x ∨ x ≤ (toIntTowardZero x : ℚ)) ∧
      (0 ≤ x → (toIntTowardZero x : ℚ) ≤ x) ∧ (x < 0 → x ≤ (toIntTowardZero x : ℚ)) ∧
      (0 < toIntTowardZero x → (toIntTowardZero x : ℚ) ≤ x) ∧
      (toIntTowardZero x < 0 → x ≤ (toIntTowardZero x : ℚ)) := by
  by_cases h : 0 ≤ x
  · obtain ⟨h1, h2, h3⟩ := toIntTowardZero_nonneg x h
    refine ⟨?_, Or.inl h1, fun _ => h1, fun hx => absurd h (not_le.2 hx), fun _ => h1,
      fun hx => absurd h3 (not_le.2 hx)⟩
    rw [abs_lt]
    constructor <;> linarith
  · obtain ⟨h1, h2, h3⟩ := toIntTowardZero_neg x (not_le.1 h)
    refine ⟨?_, Or.inr h1, fun hx => absurd hx h, fun _ => h1,
      fun hx => absurd h3 (not_le.2 hx), fun _ => h1⟩
    rw [abs_lt]
    constructor <;> linarith

/-- The function `nearestMultiple` on an integer step `s > 0`, in terms of the floor
quotient `k` of `trunc(num)` by `s`. -/
theorem nearestMultiple_int (num : ℚ) (s : ℤ) (hs : 0 < s) :
    ∃ k : ℤ, s * k ≤ toIntTowardZero num ∧ toIntTowardZero num < s * k + s ∧
      nearestMultiple num s =
        some (((if toIntTowardZero num = s * k then s * k
          else if num - ((s * k : ℤ) : ℚ) > ((s * k + s : ℤ) : ℚ) - num then s * k + s
          else s * k : ℤ) : ℚ)) := by
  obtain ⟨k, h0, h1, hd, hu⟩ := firstMultiples_int num s hs
  refine ⟨k, h0, h1, ?_⟩
  unfold nearestMultiple
  simp only [hd, hu, gtN, ltN, subN]
  by_cases h : toIntTowardZero num = s * k
  · simp only [if_pos h]
    split_ifs <;> rfl
  · simp only [if_neg h]
    by_cases h2 : num - ((s * k : ℤ) : ℚ) > ((s * k + s : ℤ) : ℚ) - num
    · rw [if_pos h2, if_pos (by simpa using h2)]
    · rw [if_neg h2, if_neg (by simpa using h2)]

/-! ## C15 -/

/-- Claim C15, counterexample: with step 1 the number 0.9 is sent to 0, although the
multiple 1 is nearer (0.1 against 0.9): the number is truncated toward zero before
the two neighbouring multiples are taken. -/
theorem nearestMultiple_step_one_counterexample :
    nearestMultiple (9 / 10) 1 = some 0 ∧
      ¬ (|(9 / 10 : ℚ) - 0| ≤ |(9 / 10 : ℚ) - ((1 * 1 : ℤ) : ℚ)|) := by
  refine ⟨by decide!, ?_⟩
  norm_num [abs_of_nonneg, abs_of_neg]

/-- Claim C15, amended: for every integer step of at least 2 and every number `num`,
`nearestMultiple num step` is a number, an integer multiple `q * step` of the step,
and no integer multiple of the step is nearer to `num`. -/
theorem nearestMultiple_is_nearest (num : ℚ) (step : ℤ) (hstep : 2 ≤ step) :
    ∃ q : ℤ, nearestMultiple num step = some (((q * step : ℤ) : ℚ)) ∧
      ∀ j : ℤ, |num - ((q * step : ℤ) : ℚ)| ≤ |num - ((j * step : ℤ) : ℚ)| := by
  have hs : 0 < step := by omega
  obtain ⟨k, h0, h1, hn⟩ := nearestMultiple_int num step hs
  obtain ⟨hnear, -⟩ := toIntTowardZero_near num
  rw [abs_lt] at hnear
  by_cases h : toIntTowardZero num = step * k
  · rw [if_pos h] at hn
    refine ⟨k, by rw [hn, mul_comm], fun j => ?_⟩
    have e : ((k * step : ℤ) : ℚ) = (toIntTowardZero num : ℚ) := by rw [h, mul_comm]
    rw [e]
    rcases lt_trichotomy j k with hj | hj | hj
    · have hz : j * step + 2 ≤ toIntTowardZero num := by rw [h]; nlinarith
      have hq : ((j * step : ℤ) : ℚ) + 2 ≤ (toIntTowardZero num : ℚ) := by
        exact_mod_cast hz
      rw [abs_of_nonneg (a := num - ((j * step : ℤ) : ℚ)) (by linarith), abs_le]
      constructor <;> linarith
    · rw [hj, e]
    · have hz : toIntTowardZero num + 2 ≤ j * step := by rw [h]; nlinarith
      have hq : (toIntTowardZero num : ℚ) + 2 ≤ ((j * step : ℤ) : ℚ) := by
        exact_mod_cast hz
      rw [abs_of_nonpos (a := num - ((j * step : ℤ) : ℚ)) (by linarith), abs_le]
      constructor <;> linarith
  · rw [if_neg h] at hn
    have hD : ((step * k : ℤ) : ℚ) + 1 ≤ (toIntTowardZero num : ℚ) := by
      have : step * k + 1 ≤ toIntTowardZero num := by omega
      exact_mod_cast this
    have hU : (toIntTowardZero num : ℚ) + 1 ≤ ((step * k + step : ℤ) : ℚ) := by
      have : toIntTowardZero num + 1 ≤ step * k + step := by omega
      exact_mod_cast this
    have below : ∀ j : ℤ, j ≤ k → ((j * step : ℤ) : ℚ) ≤ ((step * k : ℤ) : ℚ) := by
      intro j hj
      have : j * step ≤ step * k := by nlinarith
      exact_mod_cast this
    have above : ∀ j : ℤ, k + 1 ≤ j →
        ((step * k + step : ℤ) : ℚ) ≤ ((j * step : ℤ) : ℚ) := by
      intro j hj
      have : step * k + step ≤ j * step := by nlinarith
      exact_mod_cast this
    by_cases h2 : num - ((step * k : ℤ) : ℚ) > ((step * k + step : ℤ) : ℚ) - num
    · rw [if_pos h2] at hn
      refine ⟨k + 1, by rw [hn]; congr 2; ring, fun j => ?_⟩
      have e : (((k + 1) * step : ℤ) : ℚ) = ((step * k + step : ℤ) : ℚ) := by
        congr 1; ring
      rw [e, abs_of_nonpos (a := num - ((step * k + step : ℤ) : ℚ)) (by linarith)]
      rcases le_or_lt j k with hj | hj
      · have := below j hj
        rw [abs_of_nonneg (a := num - ((j * step : ℤ) : ℚ)) (by linarith)]
        linarith
      · have := above j hj
        rw [abs_of_nonpos (a := num - ((j * step : ℤ) : ℚ)) (by linarith)]
        linarith
    · rw [if_neg h2] at hn
      refine ⟨k, by rw [hn, mul_comm], fun j => ?_⟩
      have e : ((k * step : ℤ) : ℚ) = ((step * k : ℤ) : ℚ) := by rw [mul_comm]
      rw [e, abs_of_nonneg (a := num - ((step * k : ℤ) : ℚ)) (by linarith)]
      rcases le_or_lt j k with hj | hj
      · have := below j hj
        rw [abs_of_nonneg (a := num - ((j * step : ℤ) : ℚ)) (by linarith)]
        linarith
      · have := above j hj
        rw [abs_of_nonpos (a := num - ((j * step : ℤ) : ℚ)) (by linarith)]
        linarith

/-- Claim C15, amended, at step 5 and the number 2003.2: the result is the multiple
2005. -/
theorem nearestMultiple_is_nearest_witness :
    (2 : ℤ) ≤ 5 ∧ ∃ q : ℤ, nearestMultiple (10016 / 5) ((5 : ℤ) : ℚ) =
        some (((q * 5 : ℤ) : ℚ)) ∧
      ∀ j : ℤ, |(10016 / 5 : ℚ) - ((q * 5 : ℤ) : ℚ)| ≤
        |(10016 / 5 : ℚ) - ((j * 5 : ℤ) : ℚ)| :=
  ⟨by decide, nearestMultiple_is_nearest (10016 / 5) 5 (by decide)⟩

/-! ## C16 -/

/-- Claim C16, counterexample: at the multiple 10 of step 5 both functions return 10
itself, neither strictly above nor strictly below; and at 10.5 the function
`firstMultipleUp` returns 10, which is below the number. -/
theorem firstMultiple_strict_counterexample :
    firstMultipleUp 10 5 = some 10 ∧ firstMultipleDown 10 5 = some 10 ∧
      firstMultipleUp (21 / 2) 5 = some 10 ∧ ¬ ((21 / 2 : ℚ) < 10) := by
  refine ⟨by decide!, by decide!, by decide!, by norm_num⟩

/-- Claim C16, amended: for every integer step of at least 1 and every number `num`,
with `t` the truncation of `num` toward zero, `firstMultipleUp num step` is the
smallest integer multiple of the step that is at least `t` and `firstMultipleDown num
step` the largest integer multiple of the step that is at most `t`; and whenever
`checkZone` reports a pierce, its `mid_price` is that lower multiple (pierce up, the
bar rose through the lower multiple plus `BOX_STEP`) or that upper multiple (pierce
down, the bar fell through the upper multiple minus `BOX_STEP`). -/
theorem firstMultiple_of_truncation (num : ℚ) (step : ℤ) (hstep : 1 ≤ step) :
    ∃ u d : ℤ,
      firstMultipleUp num step = some (((u * step : ℤ) : ℚ)) ∧
      firstMultipleDown num step = some (((d * step : ℤ) : ℚ)) ∧
      toIntTowardZero num ≤ u * step ∧
      (∀ j : ℤ, toIntTowardZero num ≤ j * step → u * step ≤ j * step) ∧
      d * step ≤ toIntTowardZero num ∧
      (∀ j : ℤ, j * step ≤ toIntTowardZero num → j * step ≤ d * step) ∧
      ∀ start BOX_STEP : ℚ,
        ((checkZone start num step BOX_STEP).is_pierced_up = true →
          (checkZone start num step BOX_STEP).mid_price = some (((d * step : ℤ) : ℚ)) ∧
          start ≤ ((d * step : ℤ) : ℚ) + BOX_STEP ∧
          ((d * step : ℤ) : ℚ) + BOX_STEP ≤ num) ∧
        ((checkZone start num step BOX_STEP).is_pierced_dwn = true →
          (checkZone start num step BOX_STEP).mid_price = some (((u * step : ℤ) : ℚ)) ∧
          ((u * step : ℤ) : ℚ) - BOX_STEP ≤ start ∧
          num ≤ ((u * step : ℤ) : ℚ) - BOX_STEP) := by
  have hs : 0 < step := by omega
  obtain ⟨k, h0, h1, hd, hu⟩ := firstMultiples_int num step hs
  have hd' : firstMultipleDown num step = some (((k * step : ℤ) : ℚ)) := by
    rw [hd, mul_comm]
  have zone : ∀ (u : ℤ), firstMultipleUp num step = some (((u * step : ℤ) : ℚ)) →
      ∀ start BOX_STEP : ℚ,
        ((checkZone start num step BOX_STEP).is_pierced_up = true →
          (checkZone start num step BOX_STEP).mid_price = some (((k * step : ℤ) : ℚ)) ∧
          start ≤ ((k * step : ℤ) : ℚ) + BOX_STEP ∧
          ((k * step : ℤ) : ℚ) + BOX_STEP ≤ num) ∧
        ((checkZone start num step BOX_STEP).is_pierced_dwn = true →
          (checkZone start num step BOX_STEP).mid_price = some (((u * step : ℤ) : ℚ)) ∧
          ((u * step : ℤ) : ℚ) - BOX_STEP ≤ start ∧
          num ≤ ((u * step : ℤ) : ℚ) - BOX_STEP) := by
    intro u hu' start BOX_STEP
    unfold checkZone
    simp only [hd', hu', addN, subN, leN, geN]
    split_ifs with c1 c2 c3 c4
    · simp
    · simp only [Bool.and_eq_true, decide_eq_true_eq] at c3
      refine ⟨?_, by simp⟩
      refine fun _ => ⟨rfl, c3.1, c3.2⟩
    · simp
    · simp only [Bool.and_eq_true, decide_eq_true_eq] at c4
      refine ⟨by simp, ?_⟩
      refine fun _ => ⟨rfl, c4.1, c4.2⟩
    · simp
  by_cases h : toIntTowardZero num = step * k
  · rw [if_pos h] at hu
    have hu' : firstMultipleUp num step = some (((k * step : ℤ) : ℚ)) := by
      rw [hu, mul_comm]
    refine ⟨k, k, hu', hd', by rw [h, mul_comm], fun j hj => ?_, by rw [h, mul_comm],
      fun j hj => ?_, zone k hu'⟩
    · rw [h] at hj; rw [mul_comm k]; exact hj
    · rw [h] at hj; rw [mul_comm k]; exact hj
  · rw [if_neg h] at hu
    have hu' : firstMultipleUp num step = some ((((k + 1) * step : ℤ) : ℚ)) := by
      rw [hu]; congr 2; ring
    refine ⟨k + 1, k, hu', hd', by nlinarith, fun j hj => ?_, by rw [mul_comm]; exact h0,
      fun j hj => ?_, zone (k + 1) hu'⟩
    · have : k < j := by
        apply int_mul_lt_cancel step _ _ hs
        rw [mul_comm step j]
        omega
      nlinarith
    · have : j < k + 1 := by
        apply int_mul_lt_cancel step _ _ hs
        rw [mul_comm step j]
        nlinarith
      nlinarith

/-- Claim C16, amended, at step 5 and the number 2003.2, whose truncation 2003 lies
between the multiples 2000 and 2005. -/
theorem firstMultiple_of_truncation_witness :
    (1 : ℤ) ≤ 5 ∧ firstMultipleUp (10016 / 5) 5 = some 2005 ∧
      firstMultipleDown (10016 / 5) 5 = some 2000 ∧
      ∃ u d : ℤ, firstMultipleUp (10016 / 5) ((5 : ℤ) : ℚ) = some (((u * 5 : ℤ) : ℚ)) ∧
        firstMultipleDown (10016 / 5) ((5 : ℤ) : ℚ) = some (((d * 5 : ℤ) : ℚ)) :=
  ⟨by decide, by decide!, by decide!,
    (firstMultiple_of_truncation (10016 / 5) 5 (by decide)).imp fun _ h =>
      h.imp fun _ h => ⟨h.1, h.2.1⟩⟩

/-! ## C17 -/

/-- The pierce-up flag of `checkZone` unfolded: the bar does not close inside the box
of the nearest level, it does not fall, and its body reaches from the top of the box
of the lower multiple or below up to that top or above; `mid_price` is then the lower
multiple. -/
theorem checkZone_pierced_up (start end_ PSYC_STEP BOX_STEP : ℚ)
    (h : (checkZone start end_ PSYC_STEP BOX_STEP).is_pierced_up = true) :
    (checkZone start end_ PSYC_STEP BOX_STEP).is_closed_in_box = false ∧
      (checkZone start end_ PSYC_STEP BOX_STEP).mid_price =
        firstMultipleDown end_ PSYC_STEP ∧
      (geN (some end_) (subN (nearestMultiple end_ PSYC_STEP) (some BOX_STEP)) &&
        leN (some end_) (addN (nearestMultiple end_ PSYC_STEP) (some BOX_STEP))) = false ∧
      start ≤ end_ ∧
      leN (some start) (addN (firstMultipleDown end_ PSYC_STEP) (some BOX_STEP)) = true ∧
      geN (some end_) (addN (firstMultipleDown end_ PSYC_STEP) (some BOX_STEP)) = true := by
  unfold checkZone at h ⊢
  dsimp only at h ⊢
  split_ifs at h ⊢ with c1 c2 c3 c4
  simp only [Bool.and_eq_true] at c3
  exact ⟨rfl, rfl, by simpa using c1, c2, c3.1, c3.2⟩

/-- Claim C17: a bar processed while not in a trade and with no box formed, for which
`checkZone` reports pierce-up (so the bar does not close inside the box of the nearest
level, `open <= close`, and `open <= lower multiple + BOX_STEP <= close`), emits exactly
one event; it is a `box_formed` at that bar with `broken = true` and `isBull = true`
whose `mid` is the lower multiple `firstMultipleDown close PSYC_STEP`; afterwards the
state has a formed, broken, bullish box at that mid, and no trade. -/
theorem pierce_up_forms_broken_bull_box (cfg : Config) (i : ℕ) (c : Candle)
    (eng : Engine) (hflat : eng.state.isInTrade = false)
    (hnobox : eng.state.isBoxFormed = false)
    (hup : (checkZone c.open_ c.close cfg.PSYC_STEP cfg.BOX_STEP).is_pierced_up = true) :
    (∃ e : Event, (step cfg i c eng).events = eng.events ++ [e] ∧
        e.type = EventType.box_formed ∧ e.bar = i ∧
        e.extra = Extra.formed true (some true) ∧ e.isBull = some true ∧
        e.mid = firstMultipleDown c.close cfg.PSYC_STEP ∧
        e.top = addN (firstMultipleDown c.close cfg.PSYC_STEP) (some cfg.BOX_STEP) ∧
        e.bot = subN (firstMultipleDown c.close cfg.PSYC_STEP) (some cfg.BOX_STEP)) ∧
      (step cfg i c eng).state.isBoxFormed = true ∧
      (step cfg i c eng).state.isBroken = true ∧
      (step cfg i c eng).state.isBull = some true ∧
      (step cfg i c eng).state.isInTrade = false ∧
      (step cfg i c eng).state.mid = firstMultipleDown c.close cfg.PSYC_STEP ∧
      (checkZone c.open_ c.close cfg.PSYC_STEP cfg.BOX_STEP).is_closed_in_box = false ∧
      c.open_ ≤ c.close ∧
      leN (some c.open_)
        (addN (firstMultipleDown c.close cfg.PSYC_STEP) (some cfg.BOX_STEP)) = true ∧
      geN (some c.close)
        (addN (firstMultipleDown c.close cfg.PSYC_STEP) (some cfg.BOX_STEP)) = true := by
  obtain ⟨h1, h2, -, h4, h5, h6⟩ := checkZone_pierced_up _ _ _ _ hup
  have hd : boxDecision (checkZone c.open_ c.close cfg.PSYC_STEP cfg.BOX_STEP) =
      some (some true, true) := by
    unfold boxDecision
    rw [h1, hup]
    rfl
  have hs : step cfg i c eng =
      { createZone cfg (some true) true (firstMultipleDown c.close cfg.PSYC_STEP) i c eng
        with prev := some (createZone cfg (some true) true
          (firstMultipleDown c.close cfg.PSYC_STEP) i c eng).state } := by
    unfold step notInTrade
    simp only [hflat, hnobox, hd, h2]
    rfl
  rw [hs]
  exact ⟨⟨_, rfl, rfl, rfl, rfl, rfl, rfl, rfl, rfl⟩, rfl, rfl, rfl, rfl, rfl, h1, h4, h5, h6⟩

/-- Claim C17 on the bar `pierceUpBar` read first by the engine at its defaults: the
box around 2000 is formed, broken and bullish. -/
theorem pierce_up_forms_broken_bull_box_witness :
    (step {} 0 pierceUpBar {}).state.mid = some 2000 ∧
      (step {} 0 pierceUpBar {}).state.isBroken = true ∧
      ∃ e : Event, (step {} 0 pierceUpBar {}).events = [] ++ [e] ∧
        e.type = EventType.box_formed ∧ e.isBull = some true :=
  have h := pierce_up_forms_broken_bull_box {} 0 pierceUpBar {} rfl rfl (by decide!)
  ⟨by decide!, h.2.2.1, h.1.imp fun _ he => ⟨he.1, he.2.1, he.2.2.2.2.1⟩⟩

/-! ## C18 -/

theorem move_none_of_shouldMoveBox (z : ZoneCheck) (st : State)
    (h : shouldMoveBox z st = false) :
    (if st.mid.isSome && !eqN st.mid z.mid_price then boxDecision z else none) = none := by
  unfold shouldMoveBox at h
  split_ifs with c
  · rw [c, Bool.true_and] at h
    cases hb : boxDecision z with
    | none => rfl
    | some p => rw [hb] at h; exact Bool.noConfusion h
  · rfl

/-- The branch taken while not in a trade when the box is formed and not moved. -/
theorem notInTrade_stay (cfg : Config) (z : ZoneCheck) (i : ℕ) (c : Candle) (eng : Engine)
    (hbox : eng.state.isBoxFormed = true) (hstay : shouldMoveBox z eng.state = false) :
    notInTrade cfg z i c eng =
      if !eng.state.isBroken then breakChecks i c eng else brokenChecks cfg z i c eng := by
  unfold notInTrade
  rw [if_pos hbox]
  dsimp only
  rw [move_none_of_shouldMoveBox z eng.state hstay]

theorem step_flat (cfg : Config) (i : ℕ) (c : Candle) (eng : Engine)
    (hflat : eng.state.isInTrade = false) :
    step cfg i c eng =
      { notInTrade cfg (checkZone c.open_ c.close cfg.PSYC_STEP cfg.BOX_STEP) i c eng with
        prev := some (notInTrade cfg
          (checkZone c.open_ c.close cfg.PSYC_STEP cfg.BOX_STEP) i c eng).state } := by
  unfold step
  simp only [hflat]
  rfl

/-- Claim C18, counterexample: after the first bar of `moveBoxCandles` the engine is
flat with the formed, unbroken box around 2000 (top 2000.5); the second bar closes at
2005.2, above that top, yet the box is not flagged broken and no `box_broken_bull`
event is emitted: the bar closes inside the box around 2005, so the box is moved
there (a second `box_formed` event), still unbroken and without bias. -/
theorem close_above_top_moves_box_counterexample :
    (finalEngine (moveBoxCandles.take 1) {}).state.isInTrade = false ∧
      (finalEngine (moveBoxCandles.take 1) {}).state.isBoxFormed = true ∧
      (finalEngine (moveBoxCandles.take 1) {}).state.isBroken = false ∧
      (finalEngine (moveBoxCandles.take 1) {}).state.top = some (4001 / 2) ∧
      moveBoxCandles[1]? = some moveBoxBar ∧
      gtN (some moveBoxBar.close) (finalEngine (moveBoxCandles.take 1) {}).state.top = true ∧
      (finalEngine moveBoxCandles {}).state.isBroken = false ∧
      (finalEngine moveBoxCandles {}).state.isBull = none ∧
      (finalEngine moveBoxCandles {}).state.mid = some 2005 ∧
      (finalEngine moveBoxCandles {}).events.map (fun e => (e.type, e.bar)) =
        [(EventType.box_formed, 0), (EventType.box_formed, 1)] := by
  decide!

/-- Claim C18, amended: for a bar processed while not in a trade with a formed,
unbroken box that is not moved on this bar (`shouldMoveBox` is false): if the close
is above the top and not below the bottom, the state after the bar is the same box
flagged broken with bullish bias, and the bar emits exactly one event, a
`box_broken_bull`; if the close is below the bottom, the state after the bar is the
same box flagged broken with bearish bias, and the last event of the bar is a
`box_broken_bear` (preceded by a `box_broken_bull` only if the close is also above the
top). -/
theorem unbroken_box_break (cfg : Config) (i : ℕ) (c : Candle) (eng : Engine)
    (hflat : eng.state.isInTrade = false) (hbox : eng.state.isBoxFormed = true)
    (hunbroken : eng.state.isBroken = false)
    (hstay : shouldMoveBox (checkZone c.open_ c.close cfg.PSYC_STEP cfg.BOX_STEP)
      eng.state = false) :
    (gtN (some c.close) eng.state.top = true → ltN (some c.close) eng.state.bot = false →
      (step cfg i c eng).state = { eng.state with isBull := some true, isBroken := true } ∧
      (step cfg i c eng).events = eng.events ++
        [{ type := EventType.box_broken_bull, bar := i, time := c.time
           isBull := some true, mid := eng.state.mid, top := eng.state.top
           bot := eng.state.bot, extra := Extra.none }]) ∧
    (ltN (some c.close) eng.state.bot = true →
      (step cfg i c eng).state = { eng.state with isBull := some false, isBroken := true } ∧
      (step cfg i c eng).events =
        (if gtN (some c.close) eng.state.top then eng.events ++
          [{ type := EventType.box_broken_bull, bar := i, time := c.time
             isBull := some true, mid := eng.state.mid, top := eng.state.top
             bot := eng.state.bot, extra := Extra.none }]
         else eng.events) ++
        [{ type := EventType.box_broken_bear, bar := i, time := c.time
           isBull := some false, mid := eng.state.mid, top := eng.state.top
           bot := eng.state.bot, extra := Extra.none }]) := by
  rw [step_flat cfg i c eng hflat, notInTrade_stay cfg _ i c eng hbox hstay]
  simp only [hunbroken, Bool.not_false, if_true]
  unfold breakChecks
  constructor
  · intro h1 h2
    simp only [h1, if_true]
    have : (processBreak true i c eng).state.bot = eng.state.bot := rfl
    rw [this, h2]
    exact ⟨rfl, rfl⟩
  · intro h2
    by_cases h1 : gtN (some c.close) eng.state.top = true
    · simp only [h1, if_true]
      have : (processBreak true i c eng).state.bot = eng.state.bot := rfl
      rw [this, h2]
      exact ⟨rfl, rfl⟩
    · simp only [h1, if_false, h2, if_true, Bool.false_eq_true]
      exact ⟨rfl, rfl⟩

/-- Claim C18, amended, on the bar `breakBar` read with the box `unbrokenBox`: the
close 2002 is above the top 2000.5 and the box is flagged broken, bullish. -/
theorem unbroken_box_break_witness :
    (step {} 1 breakBar { state := unbrokenBox }).state =
        { unbrokenBox with isBull := some true, isBroken := true } ∧
      (step {} 1 breakBar { state := unbrokenBox }).events.map (fun e => e.type) =
        [EventType.box_broken_bull] :=
  have h := (unbroken_box_break {} 1 breakBar { state := unbrokenBox } rfl rfl rfl
    (by decide!)).1 (by decide!) (by decide!)
  ⟨h.1, by rw [h.2]; rfl⟩

/-! ## C19 -/

/-- Claim C19: for a bar processed while not in a trade with a formed, broken box
that is not moved on this bar and not retested (the bar does not close inside the
same box): if the box is bullish, the close is not below the bottom and is above the
mid, a long trade is opened on this bar with `entry = close`, `sl = top - SL_STEP`,
`tp1 = top + TP1_STEP`, `tp2 = top + TP2_STEP`, and the bar emits exactly one event,
an `entry_long` carrying these values; if the box is bearish, the close is not above
the top and is below the mid, a short trade is opened with `sl = bot + SL_STEP`,
`tp1 = bot - TP1_STEP`, `tp2 = bot - TP2_STEP` and an `entry_short` event. -/
theorem broken_box_entry (cfg : Config) (i : ℕ) (c : Candle) (eng : Engine)
    (hflat : eng.state.isInTrade = false) (hbox : eng.state.isBoxFormed = true)
    (hbroken : eng.state.isBroken = true)
    (hstay : shouldMoveBox (checkZone c.open_ c.close cfg.PSYC_STEP cfg.BOX_STEP)
      eng.state = false)
    (hnoretest : ((checkZone c.open_ c.close cfg.PSYC_STEP cfg.BOX_STEP).is_closed_in_box &&
      eqN eng.state.mid
        (checkZone c.open_ c.close cfg.PSYC_STEP cfg.BOX_STEP).mid_price) = false) :
    (eng.state.isBull = some true → ltN (some c.close) eng.state.bot = false →
      gtN (some c.close) eng.state.mid = true →
      (step cfg i c eng).state =
        { eng.state with
          isInTrade := true
          action := eng.state.top
          sl := subN eng.state.top (some cfg.SL_STEP)
          tp1 := addN eng.state.top (some cfg.TP1_STEP)
          tp2 := addN eng.state.top (some cfg.TP2_STEP)
          entryPrice := some c.close
          entryBar := some i
          entryTime := c.time } ∧
      (step cfg i c eng).events = eng.events ++
        [{ type := EventType.entry_long, bar := i, time := c.time
           isBull := some true, mid := eng.state.mid, top := eng.state.top
           bot := eng.state.bot
           extra := Extra.entry (some c.close) (subN eng.state.top (some cfg.SL_STEP))
             (addN eng.state.top (some cfg.TP1_STEP))
             (addN eng.state.top (some cfg.TP2_STEP)) }]) ∧
    (eng.state.isBull = some false → gtN (some c.close) eng.state.top = false →
      ltN (some c.close) eng.state.mid = true →
      (step cfg i c eng).state =
        { eng.state with
          isInTrade := true
          action := eng.state.bot
          sl := addN eng.state.bot (some cfg.SL_STEP)
          tp1 := subN eng.state.bot (some cfg.TP1_STEP)
          tp2 := subN eng.state.bot (some cfg.TP2_STEP)
          entryPrice := some c.close
          entryBar := some i
          entryTime := c.time } ∧
      (step cfg i c eng).events = eng.events ++
        [{ type := EventType.entry_short, bar := i, time := c.time
           isBull := some false, mid := eng.state.mid, top := eng.state.top
           bot := eng.state.bot
           extra := Extra.entry (some c.close) (addN eng.state.bot (some cfg.SL_STEP))
             (subN eng.state.bot (some cfg.TP1_STEP))
             (subN eng.state.bot (some cfg.TP2_STEP)) }]) := by
  rw [step_flat cfg i c eng hflat, notInTrade_stay cfg _ i c eng hbox hstay]
  simp only [hbroken, Bool.not_true, Bool.false_eq_true, if_false]
  unfold brokenChecks
  rw [if_neg (by rw [hnoretest]; exact Bool.false_ne_true)]
  constructor
  · intro hb h1 h2
    simp only [hb, truthy, h1, h2, beq_self_eq_true, Bool.and_false, Bool.not_true,
      Bool.false_and, Bool.and_self, Bool.false_eq_true, if_false, if_true]
    unfold enterTrade setTargetsFromZone recordZoneEvent
    simp only [hb, truthy, beq_self_eq_true, if_true]
    exact ⟨by rw [hbroken], trivial⟩
  · intro hb h1 h2
    have hf : (some false == some true) = false := rfl
    simp only [hb, truthy, hf, h1, h2, Bool.false_and, Bool.not_false, Bool.and_false,
      Bool.and_self, Bool.false_eq_true, if_false, if_true, Bool.true_and]
    unfold enterTrade setTargetsFromZone recordZoneEvent
    simp only [hb, truthy, hf, Bool.false_eq_true, if_false]
    exact ⟨by rw [hbroken], trivial⟩

/-- Claim C19 on the second bar of `longTradeCandles`, read after the first bar has
formed the broken bullish box around 2000 (top 2000.5): a long trade is opened at the
close 2002 with stop 1999 and targets 2002 and 2003.5. -/
theorem broken_box_entry_witness :
    (step {} 1 { open_ := 2001, high := 2003, low := 2001, close := 2002 }
        (finalEngine (longTradeCandles.take 1) {})).state.isInTrade = true ∧
      (step {} 1 { open_ := 2001, high := 2003, low := 2001, close := 2002 }
        (finalEngine (longTradeCandles.take 1) {})).state.sl = some 1999 ∧
      (step {} 1 { open_ := 2001, high := 2003, low := 2001, close := 2002 }
        (finalEngine (longTradeCandles.take 1) {})).state.tp2 = some (4007 / 2) :=
  have h := (broken_box_entry {} 1 { open_ := 2001, high := 2003, low := 2001, close := 2002 }
    (finalEngine (longTradeCandles.take 1) {}) (by decide!) (by decide!) (by decide!)
    (by decide!) (by decide!)).1 (by decide!) (by decide!) (by decide!)
  ⟨by rw [h.1], by rw [h.1]; decide!, by rw [h.1]; decide!⟩

/-! ## What a bar appends to the outputs of the box engine -/

theorem grows_refl (i : ℕ) (eng : Engine) : Grows i eng eng :=
  ⟨⟨[], by simp, by simp, by simp⟩, ⟨[], by simp, by simp⟩⟩

theorem grows_trans {i : ℕ} {a b c : Engine} (h1 : Grows i a b) (h2 : Grows i b c) :
    Grows i a c := by
  obtain ⟨⟨D1, e1, b1, l1⟩, ⟨R1, r1, x1⟩⟩ := h1
  obtain ⟨⟨D2, e2, b2, l2⟩, ⟨R2, r2, x2⟩⟩ := h2
  refine ⟨⟨D1 ++ D2, by rw [e2, e1, List.append_assoc], ?_, ?_⟩,
    ⟨R1 ++ R2, by rw [r2, r1, List.append_assoc], ?_⟩⟩
  · intro e he
    rcases List.mem_append.1 he with he | he
    · exact b1 e he
    · exact b2 e he
  · rw [l2, l1, List.filterMap_append, List.append_assoc]
  · intro r hr
    rcases List.mem_append.1 hr with hr | hr
    · exact x1 r hr
    · exact x2 r hr

/-- A state update alone appends nothing. -/
theorem grows_state (i : ℕ) (eng : Engine) (st : State) :
    Grows i eng { eng with state := st } :=
  ⟨⟨[], by simp, by simp, by simp⟩, ⟨[], by simp, by simp⟩⟩

theorem grows_recordZoneEvent (t : EventType) (i : ℕ) (c : Candle) (x : Extra)
    (eng : Engine) (ht : t ≠ EventType.box_formed) :
    Grows i eng (recordZoneEvent t i c x eng) := by
  refine ⟨⟨_, rfl, ?_, ?_⟩, ⟨[], by simp [recordZoneEvent], by simp⟩⟩
  · intro e he
    rw [List.mem_singleton] at he
    rw [he]
  · simp [recordZoneEvent, Event.snapshot?, ht]

theorem grows_createZone (cfg : Config) (bull : Option Bool) (broken : Bool)
    (mid : Option ℚ) (i : ℕ) (c : Candle) (eng : Engine) :
    Grows i eng (createZone cfg bull broken mid i c eng) := by
  refine ⟨⟨_, rfl, ?_, ?_⟩, ⟨[], by simp [createZone, recordZoneEvent], by simp⟩⟩
  · intro e he
    rw [List.mem_singleton] at he
    rw [he]
  · simp [createZone, recordZoneEvent, Event.snapshot?]

theorem grows_processBreak (bull : Bool) (i : ℕ) (c : Candle) (eng : Engine) :
    Grows i eng (processBreak bull i c eng) := by
  unfold processBreak
  exact grows_trans (grows_state i eng _)
    (grows_recordZoneEvent _ i c _ _ (by cases bull <;> decide))

theorem grows_breakChecks (i : ℕ) (c : Candle) (eng : Engine) :
    Grows i eng (breakChecks i c eng) := by
  unfold breakChecks
  dsimp only
  split_ifs
  · exact grows_trans (grows_processBreak true i c eng) (grows_processBreak false i c _)
  · exact grows_processBreak true i c eng
  · exact grows_processBreak false i c eng
  · exact grows_refl i eng

theorem grows_enterTrade (cfg : Config) (p : ℚ) (i : ℕ) (c : Candle) (eng : Engine) :
    Grows i eng (enterTrade cfg p i c eng) := by
  unfold enterTrade
  dsimp only
  exact grows_trans (grows_state i eng _)
    (grows_recordZoneEvent _ i c _ _ (by split_ifs <;> decide))

theorem grows_brokenChecks (cfg : Config) (z : ZoneCheck) (i : ℕ) (c : Candle)
    (eng : Engine) : Grows i eng (brokenChecks cfg z i c eng) := by
  have hw : Grows i eng (processInvalidateWait i c eng) :=
    grows_trans (grows_state i eng _) (grows_recordZoneEvent _ i c _ _ (by decide))
  have hr : Grows i eng (processInvalidateReverse i c eng) :=
    grows_trans (grows_state i eng _) (grows_recordZoneEvent _ i c _ _ (by decide))
  unfold brokenChecks
  split_ifs
  all_goals first
    | exact hw
    | exact hr
    | exact grows_enterTrade cfg _ i c eng
    | exact grows_refl i eng

theorem grows_notInTrade (cfg : Config) (z : ZoneCheck) (i : ℕ) (c : Candle)
    (eng : Engine) : Grows i eng (notInTrade cfg z i c eng) := by
  unfold notInTrade
  split
  · dsimp only
    generalize (if (eng.state.mid.isSome && !eqN eng.state.mid z.mid_price) = true
      then boxDecision z else none) = move
    split
    · exact grows_createZone cfg _ _ _ i c eng
    · split
      · exact grows_breakChecks i c eng
      · exact grows_brokenChecks cfg z i c eng
  · split
    · exact grows_createZone cfg _ _ _ i c eng
    · exact grows_refl i eng

theorem grows_exitChecks (i : ℕ) (c : Candle) (eng : Engine) :
    Grows i eng (exitChecks i c eng).eng := by
  have ht : Grows i eng (recordZoneEvent EventType.touched i c (Extra.touched eng.state.top)
      { eng with state := { eng.state with isTouched := true } }) :=
    grows_trans (grows_state i eng _) (grows_recordZoneEvent _ i c _ _ (by decide))
  have hb : Grows i eng (recordZoneEvent EventType.touched i c (Extra.touched eng.state.bot)
      { eng with state := { eng.state with isTouched := true } }) :=
    grows_trans (grows_state i eng _) (grows_recordZoneEvent _ i c _ _ (by decide))
  unfold exitChecks
  dsimp only
  split_ifs
  all_goals try dsimp only
  all_goals first
    | exact grows_refl i eng
    | exact ht
    | exact hb
    | (refine grows_recordZoneEvent _ i c _ eng ?_; decide)
    | (refine grows_trans ht (grows_recordZoneEvent _ i c _ _ ?_); decide)
    | (refine grows_trans hb (grows_recordZoneEvent _ i c _ _ ?_); decide)

theorem grows_closeTrade (reason : ExitReason) (p : Option ℚ) (i : ℕ) (c : Candle)
    (eng : Engine) : Grows i eng (closeTrade reason p i c eng) := by
  refine ⟨⟨[], by simp [closeTrade], by simp, by simp [closeTrade]⟩, ?_⟩
  unfold closeTrade
  dsimp only
  by_cases h : eng.state.isInTrade = true
  · rw [if_pos h]
    refine ⟨_, rfl, ?_⟩
    intro r hr
    rw [List.mem_singleton] at hr
    rw [hr]
  · rw [if_neg h]
    exact ⟨[], by simp, by simp⟩

theorem grows_rebox (cfg : Config) (slRebox : Bool) (i : ℕ) (c : Candle) (eng : Engine) :
    Grows i eng (rebox cfg slRebox i c eng) := by
  unfold rebox
  split
  · dsimp only
    split_ifs
    · exact grows_trans (grows_createZone cfg _ _ _ i c eng)
        (grows_recordZoneEvent _ i c _ _ (by decide))
    · exact grows_refl i eng
  · exact grows_refl i eng

theorem grows_inTrade (cfg : Config) (i : ℕ) (c : Candle) (eng : Engine) :
    Grows i eng (inTrade cfg i c eng) := by
  unfold inTrade
  dsimp only
  refine grows_trans ?_ (grows_rebox cfg _ i c _)
  split_ifs
  · exact grows_trans (grows_exitChecks i c eng) (grows_closeTrade _ _ i c _)
  · exact grows_exitChecks i c eng

theorem grows_step (cfg : Config) (i : ℕ) (c : Candle) (eng : Engine) :
    Grows i eng (step cfg i c eng) := by
  unfold step
  dsimp only
  have key : Grows i eng (if (!eng.state.isInTrade) = true
      then notInTrade cfg (checkZone c.open_ c.close cfg.PSYC_STEP cfg.BOX_STEP) i c eng
      else inTrade cfg i c eng) := by
    split
    · exact grows_notInTrade cfg _ i c eng
    · exact grows_inTrade cfg i c eng
  exact grows_trans key ⟨⟨[], by simp, by simp, by simp⟩, ⟨[], by simp, by simp⟩⟩

/-! ## Runs of the box engine on prefixes of the bar sequence -/

theorem boxLoop_take_succ (cfg : Config) (cs : List Candle) :
    ∀ (i : ℕ) (eng : Engine) (j : ℕ) (hj : j < cs.length),
      loop cfg i (cs.take (j + 1)) eng =
        step cfg (i + j) cs[j] (loop cfg i (cs.take j) eng) := by
  induction cs with
  | nil => intro i eng j hj; simp at hj
  | cons c cs ih =>
    intro i eng j hj
    cases j with
    | zero => simp [loop]
    | succ j =>
      have hj' : j < cs.length := by simpa using hj
      have := ih (i + 1) (step cfg i c eng) j hj'
      simp only [List.take_succ_cons, loop, this, List.getElem_cons_succ]
      have h1 : i + 1 + j = i + (j + 1) := by omega
      rw [h1]

/-- The engine after `j + 1` bars is the engine after `j` bars, stepped with bar
`j`. -/
theorem finalEngine_take_succ (candles : List Candle) (cfg : Config) (j : ℕ)
    (hj : j < candles.length) :
    finalEngine (candles.take (j + 1)) cfg =
      step cfg j candles[j] (finalEngine (candles.take j) cfg) := by
  unfold finalEngine
  rw [boxLoop_take_succ cfg candles 0 {} j hj]
  simp only [Nat.zero_add]

theorem finalEngine_take_length (candles : List Candle) (cfg : Config) :
    finalEngine (candles.take candles.length) cfg = finalEngine candles cfg := by
  rw [List.take_length]

/-! ## The shape of the state of the box engine -/

theorem isSome_of_leN_sub (x : ℚ) (a b : Option ℚ) (h : geN (some x) (subN a b) = true) :
    a.isSome = true := by
  cases a with
  | none => simp [geN, leN, subN] at h
  | some v => rfl

theorem isSome_of_leN_add (x : ℚ) (a b : Option ℚ) (h : leN (some x) (addN a b) = true) :
    a.isSome = true := by
  cases a with
  | none => simp [leN, addN] at h
  | some v => rfl

theorem isSome_of_geN_sub (x : ℚ) (a b : Option ℚ) (h : leN (some x) (subN a b) = true) :
    a.isSome = true := by
  cases a with
  | none => simp [leN, subN] at h
  | some v => rfl

/-- A zone check that sets a flag has a `mid_price`. -/
theorem checkZone_flags (start end_ PSYC_STEP BOX_STEP : ℚ) :
    ((checkZone start end_ PSYC_STEP BOX_STEP).is_closed_in_box = true →
      (checkZone start end_ PSYC_STEP BOX_STEP).mid_price.isSome = true) ∧
    ((checkZone start end_ PSYC_STEP BOX_STEP).is_pierced_up = true →
      (checkZone start end_ PSYC_STEP BOX_STEP).mid_price.isSome = true) ∧
    ((checkZone start end_ PSYC_STEP BOX_STEP).is_pierced_dwn = true →
      (checkZone start end_ PSYC_STEP BOX_STEP).mid_price.isSome = true) := by
  unfold checkZone
  dsimp only
  split_ifs with c1 c2 c3 c4
  · simp only [Bool.and_eq_true] at c1
    exact ⟨fun _ => isSome_of_leN_sub _ _ _ c1.1, fun h => h.elim,
      fun h => h.elim⟩
  · simp only [Bool.and_eq_true] at c3
    exact ⟨fun h => h.elim, fun _ => isSome_of_leN_add _ _ _ c3.1,
      fun h => h.elim⟩
  · exact ⟨fun h => h.elim, fun h => h.elim,
      fun h => h.elim⟩
  · simp only [Bool.and_eq_true] at c4
    exact ⟨fun h => h.elim, fun h => h.elim,
      fun _ => isSome_of_geN_sub _ _ _ c4.2⟩
  · exact ⟨fun h => h.elim, fun h => h.elim,
      fun h => h.elim⟩

theorem checkZone_mid_isSome (start end_ PSYC_STEP BOX_STEP : ℚ) (p : Option Bool × Bool)
    (h : boxDecision (checkZone start end_ PSYC_STEP BOX_STEP) = some p) :
    (checkZone start end_ PSYC_STEP BOX_STEP).mid_price.isSome = true := by
  obtain ⟨h1, h2, h3⟩ := checkZone_flags start end_ PSYC_STEP BOX_STEP
  unfold boxDecision at h
  split_ifs at h with c1 c2 c3
  · exact h1 c1
  · exact h2 c2
  · exact h3 c3

theorem breakChecks_box (i : ℕ) (c : Candle) (eng : Engine) :
    (breakChecks i c eng).state.isInTrade = eng.state.isInTrade ∧
      (breakChecks i c eng).state.isBoxFormed = eng.state.isBoxFormed ∧
      (breakChecks i c eng).state.mid = eng.state.mid ∧
      (breakChecks i c eng).prev = eng.prev := by
  unfold breakChecks
  dsimp only
  split_ifs <;> exact ⟨rfl, rfl, rfl, rfl⟩

theorem brokenChecks_box (cfg : Config) (z : ZoneCheck) (i : ℕ) (c : Candle) (eng : Engine) :
    (brokenChecks cfg z i c eng).state.isBoxFormed = eng.state.isBoxFormed ∧
      (brokenChecks cfg z i c eng).state.mid = eng.state.mid ∧
      (brokenChecks cfg z i c eng).prev = eng.prev := by
  unfold brokenChecks
  split_ifs <;> exact ⟨rfl, rfl, rfl⟩

theorem createZone_box (cfg : Config) (bull : Option Bool) (broken : Bool) (mid : Option ℚ)
    (i : ℕ) (c : Candle) (eng : Engine) :
    (createZone cfg bull broken mid i c eng).state.isInTrade = false ∧
      (createZone cfg bull broken mid i c eng).state.isBoxFormed = true ∧
      (createZone cfg bull broken mid i c eng).state.mid = mid ∧
      (createZone cfg bull broken mid i c eng).prev = eng.prev :=
  ⟨rfl, rfl, rfl, rfl⟩

theorem shape_notInTrade (cfg : Config) (i : ℕ) (c : Candle) (eng : Engine)
    (h1 : eng.state.isInTrade = true → eng.state.isBoxFormed = true)
    (h2 : eng.state.isBoxFormed = true → eng.state.mid.isSome = true) :
    ((notInTrade cfg (checkZone c.open_ c.close cfg.PSYC_STEP cfg.BOX_STEP) i c
        eng).state.isInTrade = true →
      (notInTrade cfg (checkZone c.open_ c.close cfg.PSYC_STEP cfg.BOX_STEP) i c
        eng).state.isBoxFormed = true) ∧
    ((notInTrade cfg (checkZone c.open_ c.close cfg.PSYC_STEP cfg.BOX_STEP) i c
        eng).state.isBoxFormed = true →
      (notInTrade cfg (checkZone c.open_ c.close cfg.PSYC_STEP cfg.BOX_STEP) i c
        eng).state.mid.isSome = true) := by
  have hz := checkZone_mid_isSome c.open_ c.close cfg.PSYC_STEP cfg.BOX_STEP
  generalize checkZone c.open_ c.close cfg.PSYC_STEP cfg.BOX_STEP = z at hz
  unfold notInTrade
  split
  · rename_i hbox
    dsimp only
    have hmove : ∀ p, (if (eng.state.mid.isSome && !eqN eng.state.mid z.mid_price) = true
        then boxDecision z else none) = some p → z.mid_price.isSome = true := by
      intro p hp
      split_ifs at hp
      exact hz p hp
    generalize (if (eng.state.mid.isSome && !eqN eng.state.mid z.mid_price) = true
      then boxDecision z else none) = move at hmove
    split
    · exact ⟨fun _ => rfl, fun _ => hmove _ rfl⟩
    · split
      · obtain ⟨e1, e2, e3, -⟩ := breakChecks_box i c eng
        rw [e1, e2, e3]
        exact ⟨h1, h2⟩
      · obtain ⟨e2, e3, -⟩ := brokenChecks_box cfg z i c eng
        rw [e2, e3]
        exact ⟨fun _ => hbox, h2⟩
  · split
    · rename_i hd
      exact ⟨fun _ => rfl, fun _ => hz _ hd⟩
    · exact ⟨h1, h2⟩

theorem exitChecks_box (i : ℕ) (c : Candle) (eng : Engine) :
    (exitChecks i c eng).eng.state.isInTrade = eng.state.isInTrade ∧
      (exitChecks i c eng).eng.state.isBoxFormed = eng.state.isBoxFormed ∧
      (exitChecks i c eng).eng.state.mid = eng.state.mid ∧
      (exitChecks i c eng).eng.state.isBull = eng.state.isBull ∧
      (exitChecks i c eng).eng.prev = eng.prev ∧
      (exitChecks i c eng).eng.levelsHistory = eng.levelsHistory ∧
      (exitChecks i c eng).eng.positionsClosed = eng.positionsClosed := by
  unfold exitChecks
  dsimp only
  split_ifs <;> exact ⟨rfl, rfl, rfl, rfl, rfl, rfl, rfl⟩

theorem shape_inTrade (cfg : Config) (i : ℕ) (c : Candle) (eng : Engine)
    (h : BoxShape eng) (ht : eng.state.isInTrade = true) :
    ((inTrade cfg i c eng).state.isInTrade = true →
      (inTrade cfg i c eng).state.isBoxFormed = true) ∧
    ((inTrade cfg i c eng).state.isBoxFormed = true →
      (inTrade cfg i c eng).state.mid.isSome = true) := by
  obtain ⟨x1, x2, x3, -, x4, -, -⟩ := exitChecks_box i c eng
  have hmid : eng.state.mid.isSome = true := h.mid (h.formed ht)
  unfold inTrade rebox
  dsimp only
  by_cases he : (exitChecks i c eng).exitThisBar = true
  · simp only [he, if_true]
    have hp : (closeTrade (exitReasonOf (exitChecks i c eng).eng.events)
        (exitPriceOf (exitReasonOf (exitChecks i c eng).eng.events) c
          (exitChecks i c eng).eng.state) i c (exitChecks i c eng).eng).prev = eng.prev := x4
    split
    · rename_i p hpp
      rw [hp] at hpp
      have := h.snap p hpp
      split
      · refine ⟨fun _ => rfl, fun _ => ?_⟩
        show p.mid.isSome = true
        rw [this]
        exact hmid
      · exact ⟨fun hc => Bool.noConfusion hc, fun hc => Bool.noConfusion hc⟩
    · exact ⟨fun hc => Bool.noConfusion hc, fun hc => Bool.noConfusion hc⟩
  · simp only [he, Bool.false_eq_true, if_false]
    have hs : (exitChecks i c eng).slRebox = false := by
      by_contra hc
      exact he (exitChecks_slRebox i c eng (by simpa using hc))
    simp only [hs, Bool.false_eq_true, if_false]
    split <;>
    · rw [x1, x2, x3]
      exact ⟨h.formed, h.mid⟩

theorem boxShape_step (cfg : Config) (i : ℕ) (c : Candle) (eng : Engine)
    (h : BoxShape eng) :
    BoxShape (step cfg i c eng) ∧ (step cfg i c eng).prev = some (step cfg i c eng).state := by
  unfold step
  dsimp only
  refine ⟨⟨?_, ?_, fun p hp => (Option.some.inj hp).symm⟩, rfl⟩
  · by_cases ht : eng.state.isInTrade = true
    · simp only [ht, Bool.not_true, Bool.false_eq_true, if_false]
      exact (shape_inTrade cfg i c eng h ht).1
    · simp only [ht, Bool.not_eq_true] at ht ⊢
      simp only [ht, Bool.not_false, if_true]
      exact (shape_notInTrade cfg i c eng h.formed h.mid).1
  · by_cases ht : eng.state.isInTrade = true
    · simp only [ht, Bool.not_true, Bool.false_eq_true, if_false]
      exact (shape_inTrade cfg i c eng h ht).2
    · simp only [ht, Bool.not_eq_true] at ht ⊢
      simp only [ht, Bool.not_false, if_true]
      exact (shape_notInTrade cfg i c eng h.formed h.mid).2

/-- After any number of bars of a run the state has the shape `BoxShape`, and after
at least one bar the snapshot `prev` is the state. -/
theorem boxShape_take (candles : List Candle) (cfg : Config) (j : ℕ)
    (hj : j ≤ candles.length) :
    BoxShape (finalEngine (candles.take j) cfg) ∧
      (0 < j → (finalEngine (candles.take j) cfg).prev =
        some (finalEngine (candles.take j) cfg).state) := by
  induction j with
  | zero =>
    refine ⟨⟨fun hc => ?_, fun hc => ?_, fun p hp => ?_⟩, fun h => absurd h (lt_irrefl 0)⟩
    · simp [finalEngine, loop] at hc
    · simp [finalEngine, loop] at hc
    · simp [finalEngine, loop] at hp
  | succ j ih =>
    rw [finalEngine_take_succ candles cfg j (by omega)]
    obtain ⟨h1, h2⟩ := boxShape_step cfg j candles[j] _ (ih (by omega)).1
    exact ⟨h1, fun _ => h2⟩

/-! ## C20 -/

/-- The bar step when the exit checks find the stop hit: the `sl_hit` event, the
close with reason `SL_HIT` at the stop, then the re-box test. -/
theorem step_on_stop (cfg : Config) (i : ℕ) (c : Candle) (eng : Engine) (rb : Bool)
    (ht : eng.state.isInTrade = true)
    (hx : exitChecks i c eng =
      { eng := recordZoneEvent EventType.sl_hit i c (Extra.sl eng.state.sl) eng
        exitThisBar := true
        slRebox := rb }) :
    step cfg i c eng =
      { rebox cfg rb i c (closeTrade ExitReason.SL_HIT eng.state.sl i c
          (recordZoneEvent EventType.sl_hit i c (Extra.sl eng.state.sl) eng)) with
        prev := some (rebox cfg rb i c (closeTrade ExitReason.SL_HIT eng.state.sl i c
          (recordZoneEvent EventType.sl_hit i c (Extra.sl eng.state.sl) eng))).state } := by
  have hstep : step cfg i c eng =
      { inTrade cfg i c eng with prev := some (inTrade cfg i c eng).state } := by
    unfold step
    simp [ht]
  have hin : inTrade cfg i c eng =
      rebox cfg rb i c
        (closeTrade ExitReason.SL_HIT eng.state.sl i c
          (recordZoneEvent EventType.sl_hit i c (Extra.sl eng.state.sl) eng)) := by
    unfold inTrade
    simp only [hx, if_true]
    have hr : exitReasonOf
        (recordZoneEvent EventType.sl_hit i c (Extra.sl eng.state.sl) eng).events =
        ExitReason.SL_HIT := by
      simp [recordZoneEvent, exitReasonOf]
    rw [hr]
    simp [exitPriceOf, recordZoneEvent]
  rw [hstep, hin]

/-- The exit checks of a bar that reaches the stop of the trade held. -/
theorem exitChecks_on_stop (i : ℕ) (c : Candle) (eng : Engine) (long : Bool)
    (hside : truthy eng.state.isBull = long)
    (hsl : (if long then leN (some c.low) eng.state.sl
      else geN (some c.high) eng.state.sl) = true) :
    exitChecks i c eng =
      { eng := recordZoneEvent EventType.sl_hit i c (Extra.sl eng.state.sl) eng
        exitThisBar := true
        slRebox := if long then ltN (some c.close) eng.state.sl
          else gtN (some c.close) eng.state.sl } := by
  unfold exitChecks
  cases long with
  | true =>
    simp only [if_true] at hsl
    simp only [hside, hsl, if_true]
  | false =>
    simp only [Bool.false_eq_true, if_false] at hsl
    simp only [hside, hsl, if_true, Bool.false_eq_true, if_false]

/-- Claim C20: in a run of the box engine, let bar `k` be processed while a trade is
open, `long` telling whether it is a long trade, and let the bar reach the stop
(`low <= sl` for a long, `high >= sl` for a short). Then the trade is closed on bar
`k` (one record with reason `SL_HIT` at the stop). If moreover the bar closes beyond
the stop (`close < sl` for a long, `close > sl` for a short), a new zone is created
on the same bar: the state after the bar is a formed, already broken box of the
opposite bias at the mid `m` of the closed trade's zone, with `top = m + BOX_STEP` and
`bot = m - BOX_STEP`, one `levelsHistory` entry is pushed for it, and the events of
the bar are `sl_hit`, `box_formed`, `sl_rebox_created`. If the bar does not close
beyond the stop, no zone is created: the state after the bar is the initial state
without a box, `levelsHistory` is unchanged and the only event is `sl_hit`. -/
theorem stop_close_rebox (candles : List Candle) (cfg : Config) (k : ℕ)
    (hk : k < candles.length)
    (htrade : (finalEngine (candles.take k) cfg).state.isInTrade = true) :
    ∃ m : ℚ, (finalEngine (candles.take k) cfg).state.mid = some m ∧
      ∀ long : Bool, truthy (finalEngine (candles.take k) cfg).state.isBull = long →
        (if long then leN (some candles[k].low) (finalEngine (candles.take k) cfg).state.sl
          else geN (some candles[k].high) (finalEngine (candles.take k) cfg).state.sl)
          = true →
        (∃ r : ClosedTrade,
          (finalEngine (candles.take (k + 1)) cfg).positionsClosed =
            (finalEngine (candles.take k) cfg).positionsClosed ++ [r] ∧
          r.exitBar = k ∧ r.side = (if long then Side.long else Side.short) ∧
          r.exitReason = ExitReason.SL_HIT ∧
          r.exitPrice = (finalEngine (candles.take k) cfg).state.sl) ∧
        ((if long then
            ltN (some candles[k].close) (finalEngine (candles.take k) cfg).state.sl
          else gtN (some candles[k].close) (finalEngine (candles.take k) cfg).state.sl)
            = true →
          (finalEngine (candles.take (k + 1)) cfg).state =
            { isBoxFormed := true, isBroken := true, isBull := some (!long)
              mid := some m, top := some (m + cfg.BOX_STEP)
              bot := some (m - cfg.BOX_STEP) } ∧
          (finalEngine (candles.take (k + 1)) cfg).levelsHistory =
            (finalEngine (candles.take k) cfg).levelsHistory ++
              [{ bar := k, time := candles[k].time, mid := some m
                 top := some (m + cfg.BOX_STEP), bot := some (m - cfg.BOX_STEP)
                 isBroken := true, isBull := some (!long) }] ∧
          ∃ evs, (finalEngine (candles.take (k + 1)) cfg).events =
              (finalEngine (candles.take k) cfg).events ++ evs ∧
            evs.map (fun e => (e.type, e.bar)) =
              [(EventType.sl_hit, k), (EventType.box_formed, k),
                (EventType.sl_rebox_created, k)]) ∧
        ((if long then
            ltN (some candles[k].close) (finalEngine (candles.take k) cfg).state.sl
          else gtN (some candles[k].close) (finalEngine (candles.take k) cfg).state.sl)
            = false →
          (finalEngine (candles.take (k + 1)) cfg).state = {} ∧
          (finalEngine (candles.take (k + 1)) cfg).state.isBoxFormed = false ∧
          (finalEngine (candles.take (k + 1)) cfg).levelsHistory =
            (finalEngine (candles.take k) cfg).levelsHistory ∧
          ∃ evs, (finalEngine (candles.take (k + 1)) cfg).events =
              (finalEngine (candles.take k) cfg).events ++ evs ∧
            evs.map (fun e => (e.type, e.bar)) = [(EventType.sl_hit, k)]) := by
  obtain ⟨hshape, hprev⟩ := boxShape_take candles cfg k hk.le
  have hk0 : 0 < k := by
    rcases Nat.eq_zero_or_pos k with h0 | h0
    · rw [h0] at htrade
      simp [finalEngine, loop] at htrade
    · exact h0
  have hprev := hprev hk0
  have hmid := hshape.mid (hshape.formed htrade)
  rw [finalEngine_take_succ candles cfg k hk]
  generalize finalEngine (candles.take k) cfg = eng at htrade hprev hmid ⊢
  generalize candles[k] = c
  obtain ⟨m, hm⟩ := Option.isSome_iff_exists.1 hmid
  refine ⟨m, hm, ?_⟩
  intro long hside hsl
  rw [step_on_stop cfg k c eng _ htrade (exitChecks_on_stop k c eng long hside hsl)]
  generalize (if long then ltN (some c.close) eng.state.sl
    else gtN (some c.close) eng.state.sl) = rb
  have hp : (closeTrade ExitReason.SL_HIT eng.state.sl k c
      (recordZoneEvent EventType.sl_hit k c (Extra.sl eng.state.sl) eng)).prev =
      some eng.state := hprev
  unfold rebox
  rw [hp]
  dsimp only
  refine ⟨?_, ?_, ?_⟩
  · cases rb with
    | true =>
      simp only [if_true]
      refine ⟨_, by simp [closeTrade, recordZoneEvent, createZone, htrade]; rfl, rfl, ?_,
        rfl, rfl⟩
      cases long <;> simp [hside]
    | false =>
      simp only [Bool.false_eq_true, if_false]
      refine ⟨_, by simp [closeTrade, recordZoneEvent, htrade]; rfl, rfl, ?_, rfl, rfl⟩
      cases long <;> simp [hside]
  · intro hrb
    rw [hrb]
    simp only [if_true]
    refine ⟨?_, ?_, ?_⟩
    · simp [closeTrade, recordZoneEvent, createZone, hm, hside, addN, subN]
    · simp [closeTrade, recordZoneEvent, createZone, hm, hside, addN, subN]
    · simp only [closeTrade, recordZoneEvent, createZone, List.append_assoc,
        List.singleton_append, List.cons_append, List.nil_append]
      exact ⟨_, rfl, rfl⟩
  · intro hrb
    rw [hrb]
    simp only [Bool.false_eq_true, if_false]
    exact ⟨rfl, rfl, rfl, ⟨_, rfl, rfl⟩⟩

/-- Claim C20 on the run `longTradeCandles` followed by `bothHitBar`: the long trade
opened on bar 1 (stop 1999, zone mid 2000) is stopped on bar 2, which closes at 1998.5
below the stop, and the bearish broken box around 2000 is created on that bar. -/
theorem stop_close_rebox_witness :
    (2 < (longTradeCandles ++ [bothHitBar]).length ∧
      (finalEngine ((longTradeCandles ++ [bothHitBar]).take 2) {}).state.isInTrade = true) ∧
      (finalEngine ((longTradeCandles ++ [bothHitBar]).take (2 + 1)) {}).state =
        { isBoxFormed := true, isBroken := true, isBull := some false
          mid := some 2000, top := some (4001 / 2), bot := some (3999 / 2) } := by
  refine ⟨⟨by decide, by decide!⟩, ?_⟩
  obtain ⟨m, hm, h⟩ := stop_close_rebox (longTradeCandles ++ [bothHitBar]) {} 2
    (by decide) (by decide!)
  have hm2 : (finalEngine ((longTradeCandles ++ [bothHitBar]).take 2) {}).state.mid =
      some 2000 := by decide!
  have hm3 : m = 2000 := Option.some.inj (hm.symm.trans hm2)
  have h2 := ((h true (by decide!) (by decide!)).2.1 (by decide!)).1
  rw [h2, hm3]
  decide!

end GoldenEra

/-! ## Lists that grow bar by bar -/

/-- Facts about a list that starts empty and to which round `j` appends items keyed
`j` only: after `j` rounds all keys are below `j` and in non-decreasing order, and
the list after `k ≤ n` rounds is the list after `n` rounds restricted to the keys
below `k`. -/
theorem grown_lists {α : Type} (key : α → ℕ) (L : ℕ → List α) (n : ℕ) (h0 : L 0 = [])
    (hstep : ∀ j, j < n → ∃ D, L (j + 1) = L j ++ D ∧ ∀ x ∈ D, key x = j) :
    (∀ j, j ≤ n → ∀ x ∈ L j, key x < j) ∧
    (∀ j, j ≤ n → (L j).Pairwise (fun a b => key a ≤ key b)) ∧
    (∀ k, k ≤ n → (L n).filter (fun x => decide (key x < k)) = L k) := by
  have below : ∀ j, j ≤ n → ∀ x ∈ L j, key x < j := by
    intro j
    induction j with
    | zero => intro _ x hx; rw [h0] at hx; simp at hx
    | succ j ih =>
      intro hj x hx
      obtain ⟨D, hD, hk⟩ := hstep j (by omega)
      rw [hD] at hx
      rcases List.mem_append.1 hx with hx | hx
      · have := ih (by omega) x hx; omega
      · have := hk x hx; omega
  refine ⟨below, ?_, ?_⟩
  · intro j
    induction j with
    | zero => intro _; rw [h0]; exact List.Pairwise.nil
    | succ j ih =>
      intro hj
      obtain ⟨D, hD, hk⟩ := hstep j (by omega)
      rw [hD, List.pairwise_append]
      refine ⟨ih (by omega), ?_, ?_⟩
      · rw [List.pairwise_iff_forall_sublist]
        intro a b hab
        have ha := hk a (hab.subset (List.mem_cons_self _ _))
        have hb := hk b (hab.subset (List.mem_cons_of_mem _ (List.mem_singleton_self _)))
        omega
      · intro a ha b hb
        have := below j (by omega) a ha
        have := hk b hb
        omega
  · intro k hk
    have key_ge : ∀ m, k ≤ m → m ≤ n →
        (L m).filter (fun x => decide (key x < k)) = L k := by
      intro m hkm
      induction m, hkm using Nat.le_induction with
      | base =>
        intro hkn
        rw [List.filter_eq_self]
        intro x hx
        simpa using below k hkn x hx
      | succ m hkm ih =>
        intro hmn
        obtain ⟨D, hD, hkD⟩ := hstep m (by omega)
        rw [hD, List.filter_append, ih (by omega)]
        have : D.filter (fun x => decide (key x < k)) = [] := by
          rw [List.filter_eq_nil_iff]
          intro x hx
          have := hkD x hx
          simp only [decide_eq_true_eq]
          omega
        rw [this, List.append_nil]
    exact key_ge n hk le_rfl

namespace Fiverr

/-! ## What a bar appends to the outputs of the level engine -/

theorem checkClose_positionsClosed (i : ℕ) (c : Candle) (st : State) :
    ∃ D, (checkClose i c st).positionsClosed = st.positionsClosed ++ D ∧
      ∀ r ∈ D, r.closedBar = i := by
  have hc : ∀ (reason : Reason) (st : State),
      ∃ D, (closePosition reason i c st).positionsClosed = st.positionsClosed ++ D ∧
        ∀ r ∈ D, r.closedBar = i := by
    intro reason st
    unfold closePosition
    by_cases h : st.pos = 0
    · rw [if_pos h]
      exact ⟨[], by simp, by simp⟩
    · rw [if_neg h]
      refine ⟨_, rfl, ?_⟩
      intro r hr
      rw [List.mem_singleton] at hr
      rw [hr]
  unfold checkClose
  split
  · exact hc _ _
  · exact ⟨[], by simp, by simp⟩

theorem step_positionsClosed (s : Settings) (i : ℕ) (c : Candle) (cp : Option Candle)
    (st : State) :
    ∃ D, (step s i c cp st).positionsClosed = st.positionsClosed ++ D ∧
      ∀ r ∈ D, r.closedBar = i := by
  unfold step
  rw [(afterClose_rest s i c cp _).closed]
  unfold managePosition
  split_ifs
  · obtain ⟨D, hD, hk⟩ := checkClose_positionsClosed i c
      (checkTp2 i c cp (checkTp1 i c cp (updateLevels s i c st)))
    refine ⟨D, ?_, hk⟩
    rw [hD, (sameTrade_checkTp2 i c cp _).closed, (sameTrade_checkTp1 i c cp _).closed]
    rfl
  · exact ⟨[], by simp [updateLevels], by simp⟩

/-- The three output lists of the level engine after the first `j` bars, as lists
that grow bar by bar. -/
theorem level_outputs_grow (candles : List Candle) (s : Settings) (j : ℕ)
    (hj : j < candles.length) :
    (∃ D, (finalState (candles.take (j + 1)) s).events =
        (finalState (candles.take j) s).events ++ D ∧ ∀ e ∈ D, e.bar = j) ∧
    (∃ D, (finalState (candles.take (j + 1)) s).levelsHistory =
        (finalState (candles.take j) s).levelsHistory ++ D ∧ ∀ h ∈ D, h.barIndex = j) ∧
    (∃ D, (finalState (candles.take (j + 1)) s).positionsClosed =
        (finalState (candles.take j) s).positionsClosed ++ D ∧
        ∀ r ∈ D, r.closedBar = j) := by
  rw [finalState_take_succ candles s j hj]
  refine ⟨?_, ?_, step_positionsClosed s j _ _ _⟩
  · obtain ⟨⟨evs, hevs, hm⟩, -⟩ := mentions_step s j candles[j] (prevCandle candles j)
      (finalState (candles.take j) s)
    exact ⟨evs, hevs, fun e he => (hm e he).1⟩
  · refine ⟨_, step_levelsHistory s j _ _ _, ?_⟩
    intro h hh
    rw [List.mem_singleton] at hh
    rw [hh]

end Fiverr

/-- The restriction of a bar-by-bar grown list to the keys below any `k`: the list
after `min k n` rounds. -/
theorem grown_lists_filter {α : Type} (key : α → ℕ) (L : ℕ → List α) (n : ℕ)
    (h0 : L 0 = [])
    (hstep : ∀ j, j < n → ∃ D, L (j + 1) = L j ++ D ∧ ∀ x ∈ D, key x = j) (k : ℕ) :
    (L n).filter (fun x => decide (key x < k)) = L (min k n) := by
  obtain ⟨below, -, hfil⟩ := grown_lists key L n h0 hstep
  rcases le_total k n with hk | hk
  · rw [min_eq_left hk]
    exact hfil k hk
  · rw [min_eq_right hk, List.filter_eq_self]
    intro x hx
    have := below n le_rfl x hx
    simp only [decide_eq_true_eq]
    omega

theorem take_min_length {α : Type} (l : List α) (k : ℕ) :
    l.take (min k l.length) = l.take k := by
  rcases le_total k l.length with hk | hk
  · rw [min_eq_left hk]
  · rw [min_eq_right hk, List.take_length, List.take_of_length_le hk]

namespace Fiverr

theorem level_events_grown (candles : List Candle) (s : Settings) :
    (∀ e ∈ (finalState candles s).events, e.bar < candles.length) ∧
    (finalState candles s).events.Pairwise (fun a b => a.bar ≤ b.bar) ∧
    ∀ k, (finalState candles s).events.filter (fun e => decide (e.bar < k)) =
      (finalState (candles.take k) s).events := by
  have h0 : (finalState (candles.take 0) s).events = [] := rfl
  have hs := fun j hj => (level_outputs_grow candles s j hj).1
  obtain ⟨h1, h2, -⟩ := grown_lists Event.bar
    (fun j => (finalState (candles.take j) s).events) candles.length h0 hs
  have h3 := grown_lists_filter Event.bar
    (fun j => (finalState (candles.take j) s).events) candles.length h0 hs
  simp only [finalState_take_length, take_min_length] at h1 h2 h3
  exact ⟨by simpa using h1 candles.length le_rfl, by simpa using h2 candles.length le_rfl, h3⟩

theorem level_history_grown (candles : List Candle) (s : Settings) :
    (∀ e ∈ (finalState candles s).levelsHistory, e.barIndex < candles.length) ∧
    (finalState candles s).levelsHistory.Pairwise (fun a b => a.barIndex ≤ b.barIndex) ∧
    ∀ k, (finalState candles s).levelsHistory.filter (fun e => decide (e.barIndex < k)) =
      (finalState (candles.take k) s).levelsHistory := by
  have h0 : (finalState (candles.take 0) s).levelsHistory = [] := rfl
  have hs := fun j hj => (level_outputs_grow candles s j hj).2.1
  obtain ⟨h1, h2, -⟩ := grown_lists LevelSnapshot.barIndex
    (fun j => (finalState (candles.take j) s).levelsHistory) candles.length h0 hs
  have h3 := grown_lists_filter LevelSnapshot.barIndex
    (fun j => (finalState (candles.take j) s).levelsHistory) candles.length h0 hs
  simp only [finalState_take_length, take_min_length] at h1 h2 h3
  exact ⟨by simpa using h1 candles.length le_rfl, by simpa using h2 candles.length le_rfl, h3⟩

theorem level_closed_grown (candles : List Candle) (s : Settings) :
    (∀ e ∈ (finalState candles s).positionsClosed, e.closedBar < candles.length) ∧
    (finalState candles s).positionsClosed.Pairwise (fun a b => a.closedBar ≤ b.closedBar) ∧
    ∀ k, (finalState candles s).positionsClosed.filter (fun e => decide (e.closedBar < k)) =
      (finalState (candles.take k) s).positionsClosed := by
  have h0 : (finalState (candles.take 0) s).positionsClosed = [] := rfl
  have hs := fun j hj => (level_outputs_grow candles s j hj).2.2
  obtain ⟨h1, h2, -⟩ := grown_lists ClosedPosition.closedBar
    (fun j => (finalState (candles.take j) s).positionsClosed) candles.length h0 hs
  have h3 := grown_lists_filter ClosedPosition.closedBar
    (fun j => (finalState (candles.take j) s).positionsClosed) candles.length h0 hs
  simp only [finalState_take_length, take_min_length] at h1 h2 h3
  exact ⟨by simpa using h1 candles.length le_rfl, by simpa using h2 candles.length le_rfl, h3⟩

end Fiverr

namespace GoldenEra

theorem box_outputs_grow (candles : List Candle) (cfg : Config) (j : ℕ)
    (hj : j < candles.length) :
    Grows j (finalEngine (candles.take j) cfg) (finalEngine (candles.take (j + 1)) cfg) := by
  rw [finalEngine_take_succ candles cfg j hj]
  exact grows_step cfg j _ _

theorem snapshot?_bar (e : Event) (h : HistoryEntry) (he : e.snapshot? = some h) :
    h.bar = e.bar := by
  unfold Event.snapshot? at he
  split_ifs at he
  rw [← Option.some.inj he]

theorem box_events_grown (candles : List Candle) (cfg : Config) :
    (∀ e ∈ (finalEngine candles cfg).events, e.bar < candles.length) ∧
    (finalEngine candles cfg).events.Pairwise (fun a b => a.bar ≤ b.bar) ∧
    ∀ k, (finalEngine candles cfg).events.filter (fun e => decide (e.bar < k)) =
      (finalEngine (candles.take k) cfg).events := by
  have h0 : (finalEngine (candles.take 0) cfg).events = [] := rfl
  have hs : ∀ j, j < candles.length → ∃ D,
      (finalEngine (candles.take (j + 1)) cfg).events =
        (finalEngine (candles.take j) cfg).events ++ D ∧ ∀ e ∈ D, e.bar = j := by
    intro j hj
    obtain ⟨⟨D, h1, h2, -⟩, -⟩ := box_outputs_grow candles cfg j hj
    exact ⟨D, h1, h2⟩
  obtain ⟨h1, h2, -⟩ := grown_lists Event.bar
    (fun j => (finalEngine (candles.take j) cfg).events) candles.length h0 hs
  have h3 := grown_lists_filter Event.bar
    (fun j => (finalEngine (candles.take j) cfg).events) candles.length h0 hs
  simp only [finalEngine_take_length, take_min_length] at h1 h2 h3
  exact ⟨by simpa using h1 candles.length le_rfl, by simpa using h2 candles.length le_rfl, h3⟩

theorem box_history_grown (candles : List Candle) (cfg : Config) :
    (∀ e ∈ (finalEngine candles cfg).levelsHistory, e.bar < candles.length) ∧
    (finalEngine candles cfg).levelsHistory.Pairwise (fun a b => a.bar ≤ b.bar) ∧
    ∀ k, (finalEngine candles cfg).levelsHistory.filter (fun e => decide (e.bar < k)) =
      (finalEngine (candles.take k) cfg).levelsHistory := by
  have h0 : (finalEngine (candles.take 0) cfg).levelsHistory = [] := rfl
  have hs : ∀ j, j < candles.length → ∃ D,
      (finalEngine (candles.take (j + 1)) cfg).levelsHistory =
        (finalEngine (candles.take j) cfg).levelsHistory ++ D ∧ ∀ e ∈ D, e.bar = j := by
    intro j hj
    obtain ⟨⟨D, -, h2, h3⟩, -⟩ := box_outputs_grow candles cfg j hj
    refine ⟨_, h3, ?_⟩
    intro h hh
    obtain ⟨e, he, hsn⟩ := List.mem_filterMap.1 hh
    rw [snapshot?_bar e h hsn]
    exact h2 e he
  obtain ⟨h1, h2, -⟩ := grown_lists HistoryEntry.bar
    (fun j => (finalEngine (candles.take j) cfg).levelsHistory) candles.length h0 hs
  have h3 := grown_lists_filter HistoryEntry.bar
    (fun j => (finalEngine (candles.take j) cfg).levelsHistory) candles.length h0 hs
  simp only [finalEngine_take_length, take_min_length] at h1 h2 h3
  exact ⟨by simpa using h1 candles.length le_rfl, by simpa using h2 candles.length le_rfl, h3⟩

theorem box_closed_grown (candles : List Candle) (cfg : Config) :
    (∀ e ∈ (finalEngine candles cfg).positionsClosed, e.exitBar < candles.length) ∧
    (finalEngine candles cfg).positionsClosed.Pairwise (fun a b => a.exitBar ≤ b.exitBar) ∧
    ∀ k, (finalEngine candles cfg).positionsClosed.filter
        (fun e => decide (e.exitBar < k)) =
      (finalEngine (candles.take k) cfg).positionsClosed := by
  have h0 : (finalEngine (candles.take 0) cfg).positionsClosed = [] := rfl
  have hs := fun j hj => (box_outputs_grow candles cfg j hj).closed
  obtain ⟨h1, h2, -⟩ := grown_lists ClosedTrade.exitBar
    (fun j => (finalEngine (candles.take j) cfg).positionsClosed) candles.length h0 hs
  have h3 := grown_lists_filter ClosedTrade.exitBar
    (fun j => (finalEngine (candles.take j) cfg).positionsClosed) candles.length h0 hs
  simp only [finalEngine_take_length, take_min_length] at h1 h2 h3
  exact ⟨by simpa using h1 candles.length le_rfl, by simpa using h2 candles.length le_rfl, h3⟩

/-- The history of a run is the list of snapshots of its `box_formed` events. -/
theorem history_eq_snapshots (candles : List Candle) (cfg : Config) :
    ∀ j, j ≤ candles.length →
      (finalEngine (candles.take j) cfg).levelsHistory =
        (finalEngine (candles.take j) cfg).events.filterMap Event.snapshot? := by
  intro j
  induction j with
  | zero => intro _; rfl
  | succ j ih =>
    intro hj
    obtain ⟨⟨D, h1, -, h3⟩, -⟩ := box_outputs_grow candles cfg j (by omega)
    rw [h3, h1, List.filterMap_append, ih (by omega)]

/-! ## C11 -/

theorem length_filterMap_snapshot (l : List Event) :
    (l.filterMap Event.snapshot?).length =
      (l.filter (fun e => decide (e.type = EventType.box_formed))).length := by
  induction l with
  | nil => rfl
  | cons e l ih =>
    by_cases h : e.type = EventType.box_formed
    · simp [List.filterMap_cons, Event.snapshot?, h, ih]
    · simp [List.filterMap_cons, Event.snapshot?, h, ih]

/-- Claim C11, counterexample: the run of the box engine on the two bars of
`longTradeCandles` has a single `levelsHistory` entry, for bar 0; bar 1, on which a
trade is entered and no box is formed, has none. -/
theorem levelsHistory_per_bar_counterexample :
    longTradeCandles.length = 2 ∧
      (runEngine longTradeCandles {}).levelsHistory.map (fun h => h.bar) = [0] ∧
      (runEngine longTradeCandles {}).levelsHistory.length ≠ longTradeCandles.length := by
  decide!

/-- Claim C11, amended: in the box engine, for every bar sequence and config,
`levelsHistory` contains one snapshot per `box_formed` event (a zone created or
moved) and none for other bars: it is the list of the snapshots of the `box_formed`
events in order, each with the bar, time, mid, top, bot, broken flag and bias of its
event, so its length is the number of `box_formed` events; every entry belongs to a
bar of the input. -/
theorem levelsHistory_one_per_box (candles : List Candle) (cfg : Config) :
    (runEngine candles cfg).levelsHistory =
        (runEngine candles cfg).events.filterMap Event.snapshot? ∧
      (runEngine candles cfg).levelsHistory.length =
        ((runEngine candles cfg).events.filter
          (fun e => decide (e.type = EventType.box_formed))).length ∧
      ∀ h ∈ (runEngine candles cfg).levelsHistory, h.bar < candles.length := by
  have h1 := history_eq_snapshots candles cfg candles.length le_rfl
  rw [finalEngine_take_length] at h1
  refine ⟨h1, ?_, (box_history_grown candles cfg).1⟩
  show (finalEngine candles cfg).levelsHistory.length = _
  rw [h1]
  exact length_filterMap_snapshot _

end GoldenEra

/-! ## C12 -/

/-- Claim C12: in each engine, for every bar sequence and config, the returned
`events` and `levelsHistory` are ordered by non-decreasing bar index, and the bar
index of every event (and of every `levelsHistory` entry) is a valid index of the
input bar sequence. -/
theorem outputs_ordered_by_bar (candles : List Candle) (s : Fiverr.Settings)
    (cfg : GoldenEra.Config) :
    ((Fiverr.runEngine candles s).events.Pairwise (fun a b => a.bar ≤ b.bar) ∧
      (Fiverr.runEngine candles s).levelsHistory.Pairwise
        (fun a b => a.barIndex ≤ b.barIndex) ∧
      (∀ e ∈ (Fiverr.runEngine candles s).events, e.bar < candles.length) ∧
      (∀ h ∈ (Fiverr.runEngine candles s).levelsHistory, h.barIndex < candles.length)) ∧
    ((GoldenEra.runEngine candles cfg).events.Pairwise (fun a b => a.bar ≤ b.bar) ∧
      (GoldenEra.runEngine candles cfg).levelsHistory.Pairwise
        (fun a b => a.bar ≤ b.bar) ∧
      (∀ e ∈ (GoldenEra.runEngine candles cfg).events, e.bar < candles.length) ∧
      (∀ h ∈ (GoldenEra.runEngine candles cfg).levelsHistory, h.bar < candles.length)) :=
  ⟨⟨(Fiverr.level_events_grown candles s).2.1, (Fiverr.level_history_grown candles s).2.1,
      (Fiverr.level_events_grown candles s).1, (Fiverr.level_history_grown candles s).1⟩,
    ⟨(GoldenEra.box_events_grown candles cfg).2.1,
      (GoldenEra.box_history_grown candles cfg).2.1,
      (GoldenEra.box_events_grown candles cfg).1,
      (GoldenEra.box_history_grown candles cfg).1⟩⟩

/-! ## C13 -/

/-- Claim C13: causal consistency of each engine. For every bar sequence, config and
`k` (in particular every `k` up to the number of bars), the run on the first `k` bars
returns exactly the events, the `levelsHistory` entries and the `positionsClosed`
records of the run on the full sequence whose bar index (closing bar index for the
records) is below `k`, in the same order. -/
theorem shorter_run_is_restriction (candles : List Candle) (s : Fiverr.Settings)
    (cfg : GoldenEra.Config) (k : ℕ) :
    ((Fiverr.runEngine (candles.take k) s).events =
        (Fiverr.runEngine candles s).events.filter (fun e => decide (e.bar < k)) ∧
      (Fiverr.runEngine (candles.take k) s).levelsHistory =
        (Fiverr.runEngine candles s).levelsHistory.filter
          (fun h => decide (h.barIndex < k)) ∧
      (Fiverr.runEngine (candles.take k) s).positionsClosed =
        (Fiverr.runEngine candles s).positionsClosed.filter
          (fun r => decide (r.closedBar < k))) ∧
    ((GoldenEra.runEngine (candles.take k) cfg).events =
        (GoldenEra.runEngine candles cfg).events.filter (fun e => decide (e.bar < k)) ∧
      (GoldenEra.runEngine (candles.take k) cfg).levelsHistory =
        (GoldenEra.runEngine candles cfg).levelsHistory.filter
          (fun h => decide (h.bar < k)) ∧
      (GoldenEra.runEngine (candles.take k) cfg).positionsClosed =
        (GoldenEra.runEngine candles cfg).positionsClosed.filter
          (fun r => decide (r.exitBar < k))) :=
  ⟨⟨((Fiverr.level_events_grown candles s).2.2 k).symm,
      ((Fiverr.level_history_grown candles s).2.2 k).symm,
      ((Fiverr.level_closed_grown candles s).2.2 k).symm⟩,
    ⟨((GoldenEra.box_events_grown candles cfg).2.2 k).symm,
      ((GoldenEra.box_history_grown candles cfg).2.2 k).symm,
      ((GoldenEra.box_closed_grown candles cfg).2.2 k).symm⟩⟩

/-! ## C14 -/

/-- Claim C14, counterexample: on the empty bar sequence with the default settings
each engine returns an output bundle, the empty one; no error is raised. -/
theorem empty_input_counterexample :
    Fiverr.runEngine [] {} =
        { positionsClosed := [], openPosition := none, levelsHistory := [], events := []
          settings := {} } ∧
      GoldenEra.runEngine [] {} =
        { positionsClosed := [], openPosition := none, levelsHistory := []
          events := [] } :=
  ⟨rfl, rfl⟩

/-- Claim C14, amended: for the empty bar sequence and every config, `runEngine` (in
each engine) processes no bar and returns the output bundle with empty
`positionsClosed`, `levelsHistory` and `events` and with `openPosition` null (the
level engine also returns the settings); the input is not validated and no error is
raised. -/
theorem empty_input_empty_bundle (s : Fiverr.Settings) (cfg : GoldenEra.Config) :
    Fiverr.runEngine [] s =
        { positionsClosed := [], openPosition := none, levelsHistory := [], events := []
          settings := s } ∧
      GoldenEra.runEngine [] cfg =
        { positionsClosed := [], openPosition := none, levelsHistory := []
          events := [] } ∧
      Fiverr.finalState [] s = {} ∧ GoldenEra.finalEngine [] cfg = {} :=
  ⟨rfl, rfl, rfl, rfl⟩

namespace Fiverr

/-! ## C21 -/

/-- Entry zone activation when its guard holds. -/
theorem zoneActivation_fires (i : ℕ) (c p : Candle) (st : State) (box : Box) (L : ℚ)
    (h1 : st.active_level_prev = some L) (h2 : st.active_level_curr = none)
    (h3 : st.box_entry_zone = some box) (h4 : st.pos = 0) (h5 : st.entry_zone_active = 0) :
    zoneActivation i c (some p) st =
      if p.close ≥ p.open_ ∧ p.close > L ∧ c.close > num st.entry_zone_top then
        { st with
          entry_zone_active := 1
          events := st.events ++ [Event.entry_zone_activated_long i box p.close L] }
      else if ¬ (p.close ≥ p.open_) ∧ p.close < L ∧ c.close < num st.entry_zone_bot then
        { st with
          entry_zone_active := -1
          events := st.events ++ [Event.entry_zone_activated_short i box p.close L] }
      else
        { st with
          events := st.events ++ [Event.entry_zone_activation_failed i box]
          box_entry_zone := none
          entry_zone_top := none
          entry_zone_bot := none
          entry_zone_active := 0 } := by
  unfold zoneActivation
  split
  · rename_i lvlPrev bx cp e1 e2 e3 e4
    rw [h1] at e1
    rw [h3] at e3
    cases e1
    cases e3
    cases e4
    rw [if_pos ⟨h4, h5⟩]
  · rename_i hno
    exact absurd rfl (hno L box p h1 h2 h3)

/-- The clean up of expired zones appends nothing or the expiry event of the zone of
the state, and keeps the position. -/
theorem zoneExpiry_cases (s : Settings) (i : ℕ) (st : State) :
    zoneExpiry s i st = st ∨
      ∃ b, st.box_entry_zone = some b ∧
        (zoneExpiry s i st).events = st.events ++ [Event.entry_zone_expired i b] ∧
        (zoneExpiry s i st).box_entry_zone = none ∧
        (zoneExpiry s i st).entry_zone_active = 0 ∧
        (zoneExpiry s i st).pos = st.pos := by
  unfold zoneExpiry
  split
  · rename_i b created hb hc
    split_ifs
    · exact Or.inr ⟨b, hb, rfl, rfl, rfl, rfl⟩
    · exact Or.inl rfl
  · exact Or.inl rfl

/-- Claim C21: let bar `i` (with previous candle `p`) be read while the engine is
flat with a zone `box` that is not yet activated, let `L` be the active level of bar
`i - 1` and let no active level be detected on bar `i`. The first event of the bar is
`entry_zone_activated_long` if `p` is bullish (`close >= open`), `p.close > L` and
the close of bar `i` is above the zone top; otherwise it is
`entry_zone_activated_short` if `p` is bearish, `p.close < L` and the close is below
the zone bottom; otherwise it is `entry_zone_activation_failed`, and then it is the
only event, no zone exists after the bar and nothing is activated. After an
activation the zone is the zone of the state with `entry_zone_active` 1 resp. -1,
unless it expires on the same bar, which is then the only further event. -/
theorem zone_activation_rule (s : Settings) (i : ℕ) (c p : Candle) (st : State)
    (box : Box) (L : ℚ) (hflat : st.pos = 0) (hbox : st.box_entry_zone = some box)
    (hna : st.entry_zone_active = 0) (hprev : st.active_level_curr = some L)
    (hcur : activeLevel c.open_ c.close
      (processLevels c.close s.levelPips s.nLevels s.pipSize).up.head?
      (processLevels c.close s.levelPips s.nLevels s.pipSize).dn.head? = none) :
    ∃ tail, (step s i c (some p) st).events = st.events ++
        (if p.close ≥ p.open_ ∧ p.close > L ∧ c.close > num st.entry_zone_top then
          Event.entry_zone_activated_long i box p.close L
        else if ¬ (p.close ≥ p.open_) ∧ p.close < L ∧ c.close < num st.entry_zone_bot then
          Event.entry_zone_activated_short i box p.close L
        else Event.entry_zone_activation_failed i box) :: tail ∧
      (tail = [] ∨ tail = [Event.entry_zone_expired i box]) ∧
      (step s i c (some p) st).pos = 0 ∧
      (¬ (p.close ≥ p.open_ ∧ p.close > L ∧ c.close > num st.entry_zone_top) →
        ¬ (¬ (p.close ≥ p.open_) ∧ p.close < L ∧ c.close < num st.entry_zone_bot) →
        tail = [] ∧ (step s i c (some p) st).box_entry_zone = none ∧
          (step s i c (some p) st).entry_zone_active = 0) ∧
      (tail = [] →
        (p.close ≥ p.open_ ∧ p.close > L ∧ c.close > num st.entry_zone_top) →
        (step s i c (some p) st).entry_zone_active = 1 ∧
          (step s i c (some p) st).box_entry_zone = some box) ∧
      (tail = [] →
        ¬ (p.close ≥ p.open_ ∧ p.close > L ∧ c.close > num st.entry_zone_top) →
        (¬ (p.close ≥ p.open_) ∧ p.close < L ∧ c.close < num st.entry_zone_bot) →
        (step s i c (some p) st).entry_zone_active = -1 ∧
          (step s i c (some p) st).box_entry_zone = some box) := by
  have h1pos : (updateLevels s i c st).pos = 0 := hflat
  have h1cur : (updateLevels s i c st).active_level_curr = none := hcur
  have h1prev : (updateLevels s i c st).active_level_prev = some L := hprev
  have h4 := zoneActivation_fires i c p (updateLevels s i c st) box L h1prev h1cur hbox
    h1pos hna
  have hstep : step s i c (some p) st =
      zoneExpiry s i (zoneActivation i c (some p) (updateLevels s i c st)) := by
    unfold step
    rw [managePosition_flat _ _ _ _ h1pos, zoneCreation_of_curr_none s i _ h1cur]
    have hp4 : (zoneActivation i c (some p) (updateLevels s i c st)).active_level_prev =
        some L := by
      rw [h4]
      split_ifs <;> exact h1prev
    rw [positionActivation_of_prev_some s i c _ L hp4]
  rw [hstep]
  have e1 : (updateLevels s i c st).events = st.events := rfl
  have e2 : (updateLevels s i c st).entry_zone_top = st.entry_zone_top := rfl
  have e3 : (updateLevels s i c st).entry_zone_bot = st.entry_zone_bot := rfl
  rw [e1, e2, e3] at h4
  by_cases hl : p.close ≥ p.open_ ∧ p.close > L ∧ c.close > num st.entry_zone_top
  · rw [if_pos hl] at h4 ⊢
    rcases zoneExpiry_cases s i (zoneActivation i c (some p) (updateLevels s i c st)) with
      h | ⟨b, hb, he, hbn, ha, hp⟩
    · rw [h, h4]
      exact ⟨[], rfl, Or.inl rfl, hflat, fun h => absurd hl h, fun _ _ => ⟨rfl, hbox⟩,
        fun _ h => absurd hl h⟩
    · have hbb : b = box := by
        rw [h4] at hb
        exact (Option.some.inj (hbox.symm.trans hb)).symm
      subst hbb
      refine ⟨[Event.entry_zone_expired i b], ?_, Or.inr rfl, ?_, fun h => absurd hl h,
        fun h => by simp at h, fun h => by simp at h⟩
      · rw [he, h4]
        simp
      · rw [hp, h4]
        exact hflat
  · rw [if_neg hl] at h4 ⊢
    by_cases hs : ¬ (p.close ≥ p.open_) ∧ p.close < L ∧ c.close < num st.entry_zone_bot
    · rw [if_pos hs] at h4 ⊢
      rcases zoneExpiry_cases s i (zoneActivation i c (some p) (updateLevels s i c st)) with
        h | ⟨b, hb, he, hbn, ha, hp⟩
      · rw [h, h4]
        exact ⟨[], rfl, Or.inl rfl, hflat, fun _ h => absurd hs h, fun _ h => absurd h hl,
          fun _ _ _ => ⟨rfl, hbox⟩⟩
      · have hbb : b = box := by
          rw [h4] at hb
          exact (Option.some.inj (hbox.symm.trans hb)).symm
        subst hbb
        refine ⟨[Event.entry_zone_expired i b], ?_, Or.inr rfl, ?_, fun _ h => absurd hs h,
          fun h => by simp at h, fun h => by simp at h⟩
        · rw [he, h4]
          simp
        · rw [hp, h4]
          exact hflat
    · rw [if_neg hs] at h4 ⊢
      have hnb : (zoneActivation i c (some p) (updateLevels s i c st)).box_entry_zone =
          none := by rw [h4]
      rw [zoneExpiry_of_no_box s i _ hnb, h4]
      exact ⟨[], rfl, Or.inl rfl, hflat, fun _ _ => ⟨rfl, rfl, rfl⟩, fun _ h => absurd h hl,
        fun _ _ h => absurd h hs⟩

/-- Claim C21 on bar 1 of `bothHitCandles`: bar 0 is bullish and closes at 2002 above
its active level 2000, bar 1 has no active level and closes at 2003 above the zone
top 2000.5, so the zone is activated long. -/
theorem zone_activation_rule_witness :
    (finalState (bothHitCandles.take 1) {}).box_entry_zone = some crossZone ∧
      ∃ tail, (step {} 1 { open_ := 2002, high := 2004, low := 2001, close := 2003 }
          (some { open_ := 1999, high := 2003, low := 1998, close := 2002 })
          (finalState (bothHitCandles.take 1) {})).events =
        (finalState (bothHitCandles.take 1) {}).events ++
          Event.entry_zone_activated_long 1 crossZone 2002 2000 :: tail := by
  refine ⟨by decide!, ?_⟩
  obtain ⟨tail, h, -⟩ := zone_activation_rule {} 1
    { open_ := 2002, high := 2004, low := 2001, close := 2003 }
    { open_ := 1999, high := 2003, low := 1998, close := 2002 }
    (finalState (bothHitCandles.take 1) {}) crossZone 2000
    (by decide!) (by decide!) (by decide!) (by decide!) (by decide!)
  rw [if_pos (by decide!)] at h
  exact ⟨tail, h⟩

/-! ## C22 -/

theorem zoneActivation_of_prev_none (i : ℕ) (c : Candle) (cp : Option Candle)
    (st : State) (h : st.active_level_prev = none) : zoneActivation i c cp st = st := by
  unfold zoneActivation
  split
  · simp_all
  · rfl

theorem zoneExpiry_of_pos (s : Settings) (i : ℕ) (st : State) (h : st.pos ≠ 0) :
    zoneExpiry s i st = st := by
  unfold zoneExpiry
  split
  · rw [if_neg (fun hh => h hh.2)]
  · rfl

/-- Position activation when its guard holds. -/
theorem positionActivation_fires (s : Settings) (i : ℕ) (c : Candle) (st : State)
    (box : Box) (h1 : st.active_level_prev = none) (h2 : st.active_level_curr = none)
    (h3 : st.box_entry_zone = some box) (h4 : st.pos = 0) (h5 : st.entry_zone_active ≠ 0) :
    positionActivation s i c st =
      if st.entry_zone_active > 0 ∧ c.low ≤ num st.entry_zone_top ∧
          (if s.closeBelowEntryZone then c.close > num st.entry_zone_top
           else c.low ≤ num st.entry_zone_top) then
        { st with
          pos := 1
          en := st.entry_zone_top
          sl := some (num st.entry_zone_top - pipsToPrice s.slPips s.pipSize)
          tp1 := some (num st.entry_zone_top + pipsToPrice s.tp1Pips s.pipSize)
          tp2 := some (num st.entry_zone_top + pipsToPrice s.tp2Pips s.pipSize)
          openedBarIndex := some i
          openedCandleSnapshot := some c
          events := st.events ++
            [Event.position_opened_long i st.entry_zone_top
              (some (num st.entry_zone_top - pipsToPrice s.slPips s.pipSize))
              (some (num st.entry_zone_top + pipsToPrice s.tp1Pips s.pipSize))
              (some (num st.entry_zone_top + pipsToPrice s.tp2Pips s.pipSize))
              st.entry_zone_top
              { byClose := s.closeBelowEntryZone
                price := if s.closeBelowEntryZone then c.close else c.low
                edge := st.entry_zone_top }] }
      else if st.entry_zone_active < 0 ∧ c.high ≥ num st.entry_zone_bot ∧
          (if s.closeBelowEntryZone then c.close < num st.entry_zone_bot
           else c.high ≥ num st.entry_zone_bot) then
        { st with
          pos := -1
          en := st.entry_zone_bot
          sl := some (num st.entry_zone_bot + pipsToPrice s.slPips s.pipSize)
          tp1 := some (num st.entry_zone_bot - pipsToPrice s.tp1Pips s.pipSize)
          tp2 := some (num st.entry_zone_bot - pipsToPrice s.tp2Pips s.pipSize)
          openedBarIndex := some i
          openedCandleSnapshot := some c
          events := st.events ++
            [Event.position_opened_short i st.entry_zone_bot
              (some (num st.entry_zone_bot + pipsToPrice s.slPips s.pipSize))
              (some (num st.entry_zone_bot - pipsToPrice s.tp1Pips s.pipSize))
              (some (num st.entry_zone_bot - pipsToPrice s.tp2Pips s.pipSize))
              st.entry_zone_bot
              { byClose := s.closeBelowEntryZone
                price := if s.closeBelowEntryZone then c.close else c.high
                edge := st.entry_zone_bot }] }
      else st := by
  unfold positionActivation
  split
  · rw [if_pos ⟨h4, h5⟩]
  · rename_i hno
    exact absurd h3 (by
      intro hh
      exact hno box h1 h2 hh)

/-- Claim C22: let a bar be read while the engine is flat with a zone `box`, with no
active level on the previous bar and none detected on this bar. If the zone is
long-activated, a long position is opened on this bar exactly when `low <= zone top`
and, if `closeBelowEntryZone` is set, `close > zone top`; the opened position has
`entry = zone top`, `sl = entry - slPips * pipSize`, `tp1 = entry + tp1Pips * pipSize`,
`tp2 = entry + tp2Pips * pipSize`, and the only event of the bar is
`position_opened_long` with these values. If the zone is short-activated the same
holds with `high >= zone bottom`, `close < zone bottom`, `entry = zone bottom` and the
offsets reversed. When the condition fails the engine stays flat and the bar emits
no event, except the expiry of the zone if it is due. -/
theorem position_activation_rule (s : Settings) (i : ℕ) (c : Candle) (cp : Option Candle)
    (st : State) (box : Box) (hflat : st.pos = 0) (hbox : st.box_entry_zone = some box)
    (hprev : st.active_level_curr = none)
    (hcur : activeLevel c.open_ c.close
      (processLevels c.close s.levelPips s.nLevels s.pipSize).up.head?
      (processLevels c.close s.levelPips s.nLevels s.pipSize).dn.head? = none) :
    (st.entry_zone_active > 0 →
      ((c.low ≤ num st.entry_zone_top ∧
          (s.closeBelowEntryZone = true → c.close > num st.entry_zone_top)) →
        (step s i c cp st).pos = 1 ∧
        (step s i c cp st).en = st.entry_zone_top ∧
        (step s i c cp st).sl = some (num st.entry_zone_top - s.slPips * s.pipSize) ∧
        (step s i c cp st).tp1 = some (num st.entry_zone_top + s.tp1Pips * s.pipSize) ∧
        (step s i c cp st).tp2 = some (num st.entry_zone_top + s.tp2Pips * s.pipSize) ∧
        (step s i c cp st).openedBarIndex = some i ∧
        (step s i c cp st).events = st.events ++
          [Event.position_opened_long i st.entry_zone_top
            (some (num st.entry_zone_top - s.slPips * s.pipSize))
            (some (num st.entry_zone_top + s.tp1Pips * s.pipSize))
            (some (num st.entry_zone_top + s.tp2Pips * s.pipSize))
            st.entry_zone_top
            { byClose := s.closeBelowEntryZone
              price := if s.closeBelowEntryZone then c.close else c.low
              edge := st.entry_zone_top }]) ∧
      (¬ (c.low ≤ num st.entry_zone_top ∧
          (s.closeBelowEntryZone = true → c.close > num st.entry_zone_top)) →
        (step s i c cp st).pos = 0 ∧
        ((step s i c cp st).events = st.events ∨
          (step s i c cp st).events = st.events ++ [Event.entry_zone_expired i box]))) ∧
    (st.entry_zone_active < 0 →
      ((c.high ≥ num st.entry_zone_bot ∧
          (s.closeBelowEntryZone = true → c.close < num st.entry_zone_bot)) →
        (step s i c cp st).pos = -1 ∧
        (step s i c cp st).en = st.entry_zone_bot ∧
        (step s i c cp st).sl = some (num st.entry_zone_bot + s.slPips * s.pipSize) ∧
        (step s i c cp st).tp1 = some (num st.entry_zone_bot - s.tp1Pips * s.pipSize) ∧
        (step s i c cp st).tp2 = some (num st.entry_zone_bot - s.tp2Pips * s.pipSize) ∧
        (step s i c cp st).openedBarIndex = some i ∧
        (step s i c cp st).events = st.events ++
          [Event.position_opened_short i st.entry_zone_bot
            (some (num st.entry_zone_bot + s.slPips * s.pipSize))
            (some (num st.entry_zone_bot - s.tp1Pips * s.pipSize))
            (some (num st.entry_zone_bot - s.tp2Pips * s.pipSize))
            st.entry_zone_bot
            { byClose := s.closeBelowEntryZone
              price := if s.closeBelowEntryZone then c.close else c.high
              edge := st.entry_zone_bot }]) ∧
      (¬ (c.high ≥ num st.entry_zone_bot ∧
          (s.closeBelowEntryZone = true → c.close < num st.entry_zone_bot)) →
        (step s i c cp st).pos = 0 ∧
        ((step s i c cp st).events = st.events ∨
          (step s i c cp st).events = st.events ++ [Event.entry_zone_expired i box]))) := by
  have h1pos : (updateLevels s i c st).pos = 0 := hflat
  have h1cur : (updateLevels s i c st).active_level_curr = none := hcur
  have h1prev : (updateLevels s i c st).active_level_prev = none := hprev
  have hstep : step s i c cp st =
      zoneExpiry s i (positionActivation s i c (updateLevels s i c st)) := by
    unfold step
    rw [managePosition_flat _ _ _ _ h1pos, zoneCreation_of_curr_none s i _ h1cur,
      zoneActivation_of_prev_none i c cp _ h1prev]
  have stay : (step s i c cp st = zoneExpiry s i (updateLevels s i c st)) →
      (step s i c cp st).pos = 0 ∧
        ((step s i c cp st).events = st.events ∨
          (step s i c cp st).events = st.events ++ [Event.entry_zone_expired i box]) := by
    intro h
    rw [h]
    rcases zoneExpiry_cases s i (updateLevels s i c st) with h | ⟨b, hb, he, -, -, hp⟩
    · rw [h]
      exact ⟨hflat, Or.inl rfl⟩
    · have hbb : b = box := (Option.some.inj (hbox.symm.trans hb)).symm
      subst hbb
      exact ⟨hp.trans hflat, Or.inr he⟩
  have econd : ∀ (a b : Prop) (f : Bool), (a ∧ (if f = true then b else a)) ↔
      (a ∧ (f = true → b)) := by
    intro a b f
    cases f <;> simp
  constructor
  · intro hact
    have h5 := positionActivation_fires s i c (updateLevels s i c st) box h1prev h1cur hbox
      h1pos (by
        have : st.entry_zone_active > 0 := hact
        show st.entry_zone_active ≠ 0
        omega)
    have ea : (updateLevels s i c st).entry_zone_active = st.entry_zone_active := rfl
    have et : (updateLevels s i c st).entry_zone_top = st.entry_zone_top := rfl
    have eb : (updateLevels s i c st).entry_zone_bot = st.entry_zone_bot := rfl
    have ee : (updateLevels s i c st).events = st.events := rfl
    rw [ea, et, eb, ee] at h5
    constructor
    · intro hc
      have hc2 : st.entry_zone_active > 0 ∧ c.low ≤ num st.entry_zone_top ∧
          (if s.closeBelowEntryZone = true then c.close > num st.entry_zone_top
           else c.low ≤ num st.entry_zone_top) :=
        ⟨hact, (econd _ _ _).2 hc⟩
      rw [if_pos hc2] at h5
      have hp5 : (positionActivation s i c (updateLevels s i c st)).pos ≠ 0 := by
        rw [h5]
        dsimp only
        omega
      rw [hstep, zoneExpiry_of_pos s i _ hp5, h5]
      exact ⟨rfl, rfl, rfl, rfl, rfl, rfl, rfl⟩
    · intro hc
      have hc2 : ¬ (st.entry_zone_active > 0 ∧ c.low ≤ num st.entry_zone_top ∧
          (if s.closeBelowEntryZone = true then c.close > num st.entry_zone_top
           else c.low ≤ num st.entry_zone_top)) :=
        fun h => hc ((econd _ _ _).1 h.2)
      have hc3 : ¬ (st.entry_zone_active < 0 ∧ c.high ≥ num st.entry_zone_bot ∧
          (if s.closeBelowEntryZone = true then c.close < num st.entry_zone_bot
           else c.high ≥ num st.entry_zone_bot)) := by
        intro h
        have := h.1
        omega
      rw [if_neg hc2, if_neg hc3] at h5
      exact stay (by rw [hstep, h5])
  · intro hact
    have h5 := positionActivation_fires s i c (updateLevels s i c st) box h1prev h1cur hbox
      h1pos (by
        have : st.entry_zone_active < 0 := hact
        show st.entry_zone_active ≠ 0
        omega)
    have ea : (updateLevels s i c st).entry_zone_active = st.entry_zone_active := rfl
    have et : (updateLevels s i c st).entry_zone_top = st.entry_zone_top := rfl
    have eb : (updateLevels s i c st).entry_zone_bot = st.entry_zone_bot := rfl
    have ee : (updateLevels s i c st).events = st.events := rfl
    rw [ea, et, eb, ee] at h5
    have hc1 : ¬ (st.entry_zone_active > 0 ∧ c.low ≤ num st.entry_zone_top ∧
        (if s.closeBelowEntryZone = true then c.close > num st.entry_zone_top
         else c.low ≤ num st.entry_zone_top)) := by
      intro h
      have := h.1
      omega
    rw [if_neg hc1] at h5
    constructor
    · intro hc
      have hc2 : st.entry_zone_active < 0 ∧ c.high ≥ num st.entry_zone_bot ∧
          (if s.closeBelowEntryZone = true then c.close < num st.entry_zone_bot
           else c.high ≥ num st.entry_zone_bot) :=
        ⟨hact, (econd _ _ _).2 hc⟩
      rw [if_pos hc2] at h5
      have hp5 : (positionActivation s i c (updateLevels s i c st)).pos ≠ 0 := by
        rw [h5]
        dsimp only
        omega
      rw [hstep, zoneExpiry_of_pos s i _ hp5, h5]
      exact ⟨rfl, rfl, rfl, rfl, rfl, rfl, rfl⟩
    · intro hc
      have hc2 : ¬ (st.entry_zone_active < 0 ∧ c.high ≥ num st.entry_zone_bot ∧
          (if s.closeBelowEntryZone = true then c.close < num st.entry_zone_bot
           else c.high ≥ num st.entry_zone_bot)) :=
        fun h => hc ((econd _ _ _).1 h.2)
      rw [if_neg hc2] at h5
      exact stay (by rw [hstep, h5])

/-- Claim C22 on bar 2 of `bothHitCandles`: the zone around 2000 is long-activated,
the bar dips to 2000.2 below the zone top 2000.5 and closes above it, so a long
position is opened at 2000.5 with stop 1999 and targets 2002 and 2003.5. -/
theorem position_activation_rule_witness :
    ((finalState (bothHitCandles.take 2) {}).entry_zone_active > 0 ∧
      (finalState (bothHitCandles.take 2) {}).entry_zone_top = some (4001 / 2)) ∧
      (step {} 2 { open_ := 2003, high := 2004, low := 10001 / 5, close := 4007 / 2 }
        (some { open_ := 2002, high := 2004, low := 2001, close := 2003 })
        (finalState (bothHitCandles.take 2) {})).pos = 1 ∧
      (step {} 2 { open_ := 2003, high := 2004, low := 10001 / 5, close := 4007 / 2 }
        (some { open_ := 2002, high := 2004, low := 2001, close := 2003 })
        (finalState (bothHitCandles.take 2) {})).sl = some 1999 := by
  refine ⟨by decide!, ?_⟩
  have h := ((position_activation_rule {} 2
    { open_ := 2003, high := 2004, low := 10001 / 5, close := 4007 / 2 }
    (some { open_ := 2002, high := 2004, low := 2001, close := 2003 })
    (finalState (bothHitCandles.take 2) {}) crossZone
    (by decide!) (by decide!) (by decide!) (by decide!)).1 (by decide!)).1 (by decide!)
  refine ⟨h.1, ?_⟩
  rw [h.2.2.1]
  decide!

/-! ## C23 -/

theorem checkTp1_levels (i : ℕ) (c : Candle) (cp : Option Candle) (st : State) :
    (checkTp1 i c cp st).active_level_curr = st.active_level_curr ∧
      (checkTp1 i c cp st).active_level_prev = st.active_level_prev := by
  unfold checkTp1
  split
  · split_ifs <;> exact ⟨rfl, rfl⟩
  · exact ⟨rfl, rfl⟩

theorem checkTp2_levels (i : ℕ) (c : Candle) (cp : Option Candle) (st : State) :
    (checkTp2 i c cp st).active_level_curr = st.active_level_curr ∧
      (checkTp2 i c cp st).active_level_prev = st.active_level_prev := by
  unfold checkTp2
  split
  · split_ifs <;> exact ⟨rfl, rfl⟩
  · exact ⟨rfl, rfl⟩

theorem checkClose_levels (i : ℕ) (c : Candle) (st : State) :
    (checkClose i c st).active_level_curr = st.active_level_curr ∧
      (checkClose i c st).active_level_prev = st.active_level_prev := by
  unfold checkClose
  split
  · unfold closePosition
    dsimp only
    split <;> exact ⟨rfl, rfl⟩
  · exact ⟨rfl, rfl⟩

/-- The close checks do not touch the active levels. -/
theorem managePosition_levels (i : ℕ) (c : Candle) (cp : Option Candle) (st : State) :
    (managePosition i c cp st).active_level_curr = st.active_level_curr ∧
      (managePosition i c cp st).active_level_prev = st.active_level_prev := by
  unfold managePosition
  split
  · obtain ⟨a1, a2⟩ := checkClose_levels i c (checkTp2 i c cp (checkTp1 i c cp st))
    obtain ⟨b1, b2⟩ := checkTp2_levels i c cp (checkTp1 i c cp st)
    obtain ⟨c1, c2⟩ := checkTp1_levels i c cp st
    exact ⟨a1.trans (b1.trans c1), a2.trans (b2.trans c2)⟩
  · exact ⟨rfl, rfl⟩

/-- Entry zone creation when it fires, with the zone spelled out. -/
theorem zoneCreation_newZone (s : Settings) (i : ℕ) (st : State) (lvl : ℚ)
    (hl : st.active_level_curr = some lvl) (hp : st.pos = 0) :
    zoneCreation s i st =
      { st with
        entry_zone_top := some (newZone s i lvl).top
        entry_zone_bot := some (newZone s i lvl).bottom
        box_entry_zone := some (newZone s i lvl)
        zone_created_bar := some i
        entry_zone_active := 0
        events := st.events ++
          (match st.box_entry_zone with
            | some b => [Event.entry_zone_removed i b]
            | none => []) ++ [Event.entry_zone_created i (newZone s i lvl) lvl] } := by
  unfold zoneCreation
  simp only [hl, hp, if_true]
  cases st.box_entry_zone <;> simp [newZone]

/-- Claim C23: let the engine be flat after the close checks of bar `i` and let the
active level `L` be detected on bar `i`. Then the zone `newZone s i L` is created:
`top = L + entryZonePips * pipSize`, `bottom = L - entryZonePips * pipSize`,
`createdBar = i`, `rightIndex = i + zoneNoBars`. The events of the bar after the
close checks are: an `entry_zone_removed` event for the old zone if one existed, then
immediately the `entry_zone_created` event, and nothing else unless `zoneNoBars <= 0`,
in which case the new zone expires at once. The zone is not activated, the engine
stays flat, and with `zoneNoBars >= 1` the new zone is the zone of the state after
the bar. When the bar starts flat, the close checks change neither the zone nor the
events. -/
theorem zone_created_on_active_level (s : Settings) (i : ℕ) (c : Candle)
    (cp : Option Candle) (st : State) (L : ℚ)
    (hflat : (managePosition i c cp (updateLevels s i c st)).pos = 0)
    (hL : activeLevel c.open_ c.close
      (processLevels c.close s.levelPips s.nLevels s.pipSize).up.head?
      (processLevels c.close s.levelPips s.nLevels s.pipSize).dn.head? = some L) :
    ((newZone s i L).top = L + s.entryZonePips * s.pipSize ∧
      (newZone s i L).bottom = L - s.entryZonePips * s.pipSize ∧
      (newZone s i L).createdBar = i ∧
      (newZone s i L).rightIndex = (i : ℤ) + s.zoneNoBars) ∧
    (step s i c cp st).events =
      (managePosition i c cp (updateLevels s i c st)).events ++
        (match (managePosition i c cp (updateLevels s i c st)).box_entry_zone with
          | some b => [Event.entry_zone_removed i b]
          | none => []) ++
        [Event.entry_zone_created i (newZone s i L) L] ++
        (if s.zoneNoBars ≤ 0 then [Event.entry_zone_expired i (newZone s i L)] else []) ∧
    (step s i c cp st).entry_zone_active = 0 ∧ (step s i c cp st).pos = 0 ∧
    (1 ≤ s.zoneNoBars →
      (step s i c cp st).box_entry_zone = some (newZone s i L) ∧
      (step s i c cp st).entry_zone_top = some (newZone s i L).top ∧
      (step s i c cp st).entry_zone_bot = some (newZone s i L).bottom ∧
      (step s i c cp st).zone_created_bar = some i) ∧
    (st.pos = 0 →
      (managePosition i c cp (updateLevels s i c st)).box_entry_zone = st.box_entry_zone ∧
      (managePosition i c cp (updateLevels s i c st)).events = st.events) := by
  have hstep : step s i c cp st =
      zoneExpiry s i (positionActivation s i c (zoneActivation i c cp
        (zoneCreation s i (managePosition i c cp (updateLevels s i c st))))) := rfl
  have hcurr : (managePosition i c cp (updateLevels s i c st)).active_level_curr = some L := by
    rw [(managePosition_levels i c cp _).1]
    exact hL
  have hlast : st.pos = 0 →
      (managePosition i c cp (updateLevels s i c st)).box_entry_zone = st.box_entry_zone ∧
      (managePosition i c cp (updateLevels s i c st)).events = st.events := by
    intro h0
    rw [managePosition_flat i c cp _ (show (updateLevels s i c st).pos = 0 from h0)]
    exact ⟨rfl, rfl⟩
  refine ⟨⟨rfl, rfl, rfl, rfl⟩, ?_, ?_, ?_, ?_, hlast⟩
  all_goals
    rw [hstep]
    generalize managePosition i c cp (updateLevels s i c st) = st2 at hflat hcurr
    have h3 := zoneCreation_newZone s i st2 L hcurr hflat
    have h3c : (zoneCreation s i st2).active_level_curr = some L := by rw [h3]; exact hcurr
    rw [zoneActivation_of_curr_some i c cp _ L h3c,
      positionActivation_of_curr_some s i c _ L h3c, h3]
    unfold zoneExpiry
    dsimp only
  · by_cases hz : s.zoneNoBars ≤ 0
    · have : (i : ℤ) - (i : ℤ) ≥ s.zoneNoBars ∧ st2.pos = 0 := ⟨by omega, hflat⟩
      rw [if_pos this, if_pos hz]
    · have : ¬ ((i : ℤ) - (i : ℤ) ≥ s.zoneNoBars ∧ st2.pos = 0) := fun h => hz (by omega)
      rw [if_neg this, if_neg hz, List.append_nil]
  · split_ifs <;> rfl
  · split_ifs <;> exact hflat
  · intro hz
    have : ¬ ((i : ℤ) - (i : ℤ) ≥ s.zoneNoBars ∧ st2.pos = 0) := fun h => by omega
    rw [if_neg this]
    exact ⟨rfl, rfl, rfl, rfl⟩

/-- Claim C23 on the first bar of `bothHitCandles` read by the fresh engine with the
default settings: the bar rises through the level 2000, and the zone from 1999.5 to
2000.5 is created on bar 0. -/
theorem zone_created_on_active_level_witness :
    (step {} 0 { open_ := 1999, high := 2003, low := 1998, close := 2002 } none
        {}).box_entry_zone = some (newZone {} 0 2000) ∧
      (newZone {} 0 2000).top = 4001 / 2 ∧ (newZone {} 0 2000).bottom = 3999 / 2 ∧
      (step {} 0 { open_ := 1999, high := 2003, low := 1998, close := 2002 } none
        {}).events = [Event.entry_zone_created 0 (newZone {} 0 2000) 2000] :=
  have h := zone_created_on_active_level {} 0
    { open_ := 1999, high := 2003, low := 1998, close := 2002 } none {} 2000
    (by decide!) (by decide!)
  ⟨(h.2.2.2.2.1 (by decide)).1, by decide!, by decide!, by rw [h.2.1]; decide!⟩

/-! ## C24 -/

/-- After a close the later phases of the bar leave the position fields alone. -/
theorem rest_flatDefaults (s : Settings) (i : ℕ) (c : Candle) (cp : Option Candle)
    (st : State) (hb : st.box_entry_zone = none) (hf : st.flatDefaults) :
    (zoneExpiry s i (positionActivation s i c (zoneActivation i c cp
      (zoneCreation s i st)))).flatDefaults := by
  have hp : st.pos = 0 := hf.1
  cases hl : st.active_level_curr with
  | none =>
    rw [zoneCreation_of_curr_none s i st hl]
    have h3 : zoneActivation i c cp st = st := by
      unfold zoneActivation
      split
      · simp_all
      · rfl
    have h4 : positionActivation s i c st = st := by
      unfold positionActivation
      split
      · simp_all
      · rfl
    rw [h3, h4, zoneExpiry_of_no_box s i st hb]
    exact hf
  | some lvl =>
    obtain ⟨bx, -, -, -, -, -, h5, -⟩ := zoneCreation_fires s i st lvl hl hp
    rw [zoneActivation_of_curr_some i c cp _ lvl h5,
      positionActivation_of_curr_some s i c _ lvl h5]
    have h3 : (zoneCreation s i st).flatDefaults := by
      unfold zoneCreation
      simp only [hl, hp, if_true]
      exact ⟨rfl, hf.2⟩
    generalize zoneCreation s i st = st3 at h3
    unfold zoneExpiry
    split
    · split
      · exact h3
      · exact h3
    · exact h3

/-- The close checks of a bar: nothing is closed, or one record is appended together
with one `position_closed` event of the same bar and reason, and the position fields
and the zone are reset. -/
theorem managePosition_close (i : ℕ) (c : Candle) (cp : Option Candle) (st : State) :
    ((managePosition i c cp st).positionsClosed = st.positionsClosed ∧
      (managePosition i c cp st).events.filter Event.isPositionClosed =
        st.events.filter Event.isPositionClosed) ∨
    (st.pos ≠ 0 ∧ ∃ r : ClosedPosition,
      (managePosition i c cp st).positionsClosed = st.positionsClosed ++ [r] ∧
      r.closedBar = i ∧
      (managePosition i c cp st).events.filter Event.isPositionClosed =
        st.events.filter Event.isPositionClosed ++
          [Event.position_closed i r.reason r.entry r.sl r.tp1 r.tp2] ∧
      (managePosition i c cp st).flatDefaults ∧
      (managePosition i c cp st).box_entry_zone = none) := by
  unfold managePosition
  by_cases hp : st.pos ≠ 0
  · rw [if_pos hp]
    have q := sameTrade_trans (sameTrade_checkTp1 i c cp st) (sameTrade_checkTp2 i c cp _)
    generalize checkTp2 i c cp (checkTp1 i c cp st) = st2 at q
    unfold checkClose
    split_ifs with hc
    · right
      have hp2 : st2.pos ≠ 0 := by rw [q.pos]; exact hp
      unfold closePosition
      rw [if_neg hp2]
      refine ⟨hp, _, by dsimp only; rw [q.closed], rfl, ?_, ⟨rfl, rfl, rfl, rfl, rfl, rfl, rfl,
        rfl, rfl⟩, rfl⟩
      dsimp only
      rw [List.filter_append, q.noClose]
      rfl
    · left
      exact ⟨q.closed, q.noClose⟩
  · rw [if_neg hp]
    exact Or.inl ⟨rfl, rfl⟩

/-- Claim C24: calling `closePosition` while flat changes nothing; and on every bar of
the level engine either no position is closed (no record is appended and no
`position_closed` event is emitted), or a position was open and is closed: exactly
one record is appended to `positionsClosed` and exactly one `position_closed` event is
emitted, both with the bar as closing bar and with the same reason, which is
`STOPLOSS` or `TP2`; right after the close checks, and still at the end of the bar,
all position fields are at their flat defaults. -/
theorem close_appends_one_record (s : Settings) (i : ℕ) (c : Candle) (cp : Option Candle)
    (st : State) :
    (∀ (reason : Reason) (j : ℕ) (c0 : Candle) (st0 : State), st0.pos = 0 →
      closePosition reason j c0 st0 = st0) ∧
    (((step s i c cp st).positionsClosed = st.positionsClosed ∧
        (step s i c cp st).events.filter Event.isPositionClosed =
          st.events.filter Event.isPositionClosed) ∨
      (st.pos ≠ 0 ∧ ∃ r : ClosedPosition,
        (step s i c cp st).positionsClosed = st.positionsClosed ++ [r] ∧
        r.closedBar = i ∧ (r.reason = Reason.STOPLOSS ∨ r.reason = Reason.TP2) ∧
        (step s i c cp st).events.filter Event.isPositionClosed =
          st.events.filter Event.isPositionClosed ++
            [Event.position_closed i r.reason r.entry r.sl r.tp1 r.tp2] ∧
        (managePosition i c cp (updateLevels s i c st)).flatDefaults ∧
        (step s i c cp st).flatDefaults)) := by
  refine ⟨fun reason j c0 st0 h0 => by unfold closePosition; rw [if_pos h0], ?_⟩
  have hrest := afterClose_rest s i c cp (managePosition i c cp (updateLevels s i c st))
  have hstep : step s i c cp st =
      zoneExpiry s i (positionActivation s i c (zoneActivation i c cp
        (zoneCreation s i (managePosition i c cp (updateLevels s i c st))))) := rfl
  rw [hstep, hrest.closed, hrest.noClose]
  rcases managePosition_close i c cp (updateLevels s i c st) with ⟨h1, h2⟩ | ⟨h0, r, h1, h2, h3, h4, h5⟩
  · exact Or.inl ⟨h1, h2⟩
  · refine Or.inr ⟨h0, r, h1, h2, ?_, h3, h4, rest_flatDefaults s i c cp _ h5 h4⟩
    cases r.reason
    · exact Or.inl rfl
    · exact Or.inr rfl

/-! ## C25 -/

theorem flagAfter_append (isM : Event → Bool) (l l2 : List Event) :
    ∀ f, flagAfter isM f (l ++ l2) = flagAfter isM (flagAfter isM f l) l2 := by
  induction l with
  | nil => intro f; rfl
  | cons e l ih =>
    intro f
    simp only [List.cons_append, flagAfter]
    split_ifs <;> exact ih _

theorem milestoneOnce_append (isM : Event → Bool) (l l2 : List Event) :
    ∀ f, milestoneOnce isM f (l ++ l2) =
      (milestoneOnce isM f l && milestoneOnce isM (flagAfter isM f l) l2) := by
  induction l with
  | nil => intro f; simp [milestoneOnce, flagAfter]
  | cons e l ih =>
    intro f
    simp only [List.cons_append, milestoneOnce, flagAfter]
    split_ifs
    · rw [Bool.and_assoc]
      congr 1
      exact ih _
    · exact ih _
    · exact ih _

/-- Two milestone events of a list read without meeting one under a raised flag have a
`position_closed` event between them. -/
theorem closed_between (isM : Event → Bool) (a : List Event) :
    ∀ (f : Bool) (b c : List Event) (e1 e2 : Event),
      milestoneOnce isM f (a ++ e1 :: (b ++ e2 :: c)) = true → isM e1 = true →
      isM e2 = true → ∃ e ∈ b, e.isPositionClosed = true := by
  have tail : ∀ (b c : List Event) (e2 : Event),
      milestoneOnce isM true (b ++ e2 :: c) = true → isM e2 = true →
      ∃ e ∈ b, e.isPositionClosed = true := by
    intro b
    induction b with
    | nil =>
      intro c e2 h h2
      simp [milestoneOnce, h2] at h
    | cons e b ih =>
      intro c e2 h h2
      simp only [List.cons_append, milestoneOnce] at h
      by_cases hm : isM e = true
      · simp [hm] at h
      · by_cases hc : e.isPositionClosed = true
        · exact ⟨e, List.mem_cons_self _ _, hc⟩
        · simp only [hm, hc, Bool.false_eq_true, if_false] at h
          obtain ⟨x, hx, hxc⟩ := ih c e2 h h2
          exact ⟨x, List.mem_cons_of_mem _ hx, hxc⟩
  induction a with
  | nil =>
    intro f b c e1 e2 h h1 h2
    simp only [List.nil_append, milestoneOnce, h1, if_true, Bool.and_eq_true] at h
    exact tail b c e2 h.2 h2
  | cons x a ih =>
    intro f b c e1 e2 h h1 h2
    simp only [List.cons_append, milestoneOnce] at h
    split_ifs at h
    · simp only [Bool.and_eq_true] at h
      exact ih _ b c e1 e2 h.2 h1 h2
    · exact ih _ b c e1 e2 h h1 h2
    · exact ih _ b c e1 e2 h h1 h2

theorem noMilestone_refl (st : State) : NoMilestone st st :=
  ⟨⟨[], (List.append_nil _).symm, by simp⟩, rfl, rfl⟩

theorem noMilestone_trans {a b c : State} (h1 : NoMilestone a b) (h2 : NoMilestone b c) :
    NoMilestone a c := by
  obtain ⟨⟨D1, e1, p1⟩, t1, u1⟩ := h1
  obtain ⟨⟨D2, e2, p2⟩, t2, u2⟩ := h2
  refine ⟨⟨D1 ++ D2, by rw [e2, e1, List.append_assoc], ?_⟩, t2.trans t1, u2.trans u1⟩
  intro e he
  rcases List.mem_append.1 he with he | he
  · exact p1 e he
  · exact p2 e he

theorem noMilestone_zoneCreation (s : Settings) (i : ℕ) (st : State) :
    NoMilestone st (zoneCreation s i st) := by
  unfold zoneCreation
  split
  · split
    · refine ⟨?_, rfl, rfl⟩
      dsimp only
      cases st.box_entry_zone with
      | none => exact ⟨_, rfl, by simp [Event.isTp1, Event.isTp2, Event.isPositionClosed]⟩
      | some b =>
        refine ⟨_, (List.append_assoc _ _ _), ?_⟩
        simp [Event.isTp1, Event.isTp2, Event.isPositionClosed]
    · exact noMilestone_refl st
  · exact noMilestone_refl st

theorem noMilestone_zoneActivation (i : ℕ) (c : Candle) (cp : Option Candle) (st : State) :
    NoMilestone st (zoneActivation i c cp st) := by
  unfold zoneActivation
  split
  · split_ifs
    all_goals first
      | exact noMilestone_refl st
      | exact ⟨⟨_, rfl, by simp [Event.isTp1, Event.isTp2, Event.isPositionClosed]⟩, rfl, rfl⟩
  · exact noMilestone_refl st

theorem noMilestone_positionActivation (s : Settings) (i : ℕ) (c : Candle) (st : State) :
    NoMilestone st (positionActivation s i c st) := by
  unfold positionActivation
  split
  · dsimp only
    split_ifs
    all_goals first
      | exact noMilestone_refl st
      | exact ⟨⟨_, rfl, by simp [Event.isTp1, Event.isTp2, Event.isPositionClosed]⟩, rfl, rfl⟩
  · exact noMilestone_refl st

theorem noMilestone_zoneExpiry (s : Settings) (i : ℕ) (st : State) :
    NoMilestone st (zoneExpiry s i st) := by
  unfold zoneExpiry
  split
  · split_ifs
    all_goals first
      | exact noMilestone_refl st
      | exact ⟨⟨_, rfl, by simp [Event.isTp1, Event.isTp2, Event.isPositionClosed]⟩, rfl, rfl⟩
  · exact noMilestone_refl st

theorem noMilestone_rest (s : Settings) (i : ℕ) (c : Candle) (cp : Option Candle)
    (st : State) :
    NoMilestone st
      (zoneExpiry s i (positionActivation s i c (zoneActivation i c cp
        (zoneCreation s i st)))) :=
  noMilestone_trans (noMilestone_trans (noMilestone_trans (noMilestone_zoneCreation s i st)
    (noMilestone_zoneActivation i c cp _)) (noMilestone_positionActivation s i c _))
    (noMilestone_zoneExpiry s i _)

theorem scan_plain (isM : Event → Bool) (evs : List Event)
    (h : ∀ e ∈ evs, isM e = false ∧ e.isPositionClosed = false) :
    ∀ f, flagAfter isM f evs = f ∧ milestoneOnce isM f evs = true := by
  induction evs with
  | nil => intro f; exact ⟨rfl, rfl⟩
  | cons e evs ih =>
    intro f
    obtain ⟨h1, h2⟩ := h e (List.mem_cons_self _ _)
    simp only [flagAfter, milestoneOnce, h1, h2, Bool.false_eq_true, if_false]
    exact ih (fun x hx => h x (List.mem_cons_of_mem _ hx)) f

theorem milestones_noMilestone {st st' : State} (h : Milestones st)
    (q : NoMilestone st st') : Milestones st' := by
  obtain ⟨⟨evs, hevs, hp⟩, t1, t2⟩ := q
  have p1 := scan_plain Event.isTp1 evs (fun e he => ⟨(hp e he).1, (hp e he).2.2⟩)
  have p2 := scan_plain Event.isTp2 evs (fun e he => ⟨(hp e he).2.1, (hp e he).2.2⟩)
  refine ⟨?_, ?_, ?_, ?_⟩
  · rw [hevs, milestoneOnce_append, h.once1, (p1 _).2]; rfl
  · rw [hevs, flagAfter_append, (p1 _).1, h.flag1, t1]
  · rw [hevs, milestoneOnce_append, h.once2, (p2 _).2]; rfl
  · rw [hevs, flagAfter_append, (p2 _).1, h.flag2, t2]

theorem milestones_checkTp1 {st : State} (i : ℕ) (c : Candle) (cp : Option Candle)
    (h : Milestones st) : Milestones (checkTp1 i c cp st) := by
  have fire : st.tp1_reached = false →
      Milestones { st with tp1_reached := true
                           events := st.events ++ [Event.tp1_reached i st.tp1] } := by
    intro hf
    refine ⟨?_, ?_, ?_, ?_⟩
    · simp [milestoneOnce_append, h.once1, h.flag1, hf, milestoneOnce, Event.isTp1]
    · simp [flagAfter_append, flagAfter, Event.isTp1]
    · simp [milestoneOnce_append, h.once2, milestoneOnce, Event.isTp2,
        Event.isPositionClosed]
    · simp [flagAfter_append, flagAfter, Event.isTp2, Event.isPositionClosed, h.flag2]
  unfold checkTp1
  split
  · split_ifs with hf
    · exact fire hf
    · exact fire hf
    · exact h
    · exact h
  · exact h

theorem milestones_checkTp2 {st : State} (i : ℕ) (c : Candle) (cp : Option Candle)
    (h : Milestones st) : Milestones (checkTp2 i c cp st) := by
  have fire : st.tp2_reached = false →
      Milestones { st with tp2_reached := true
                           events := st.events ++ [Event.tp2_reached i st.tp2] } := by
    intro hf
    refine ⟨?_, ?_, ?_, ?_⟩
    · simp [milestoneOnce_append, h.once1, milestoneOnce, Event.isTp1,
        Event.isPositionClosed]
    · simp [flagAfter_append, flagAfter, Event.isTp1, Event.isPositionClosed, h.flag1]
    · simp [milestoneOnce_append, h.once2, h.flag2, hf, milestoneOnce, Event.isTp2]
    · simp [flagAfter_append, flagAfter, Event.isTp2]
  unfold checkTp2
  split
  · split_ifs with hf
    · exact fire hf
    · exact fire hf
    · exact h
    · exact h
  · exact h

theorem milestones_checkClose {st : State} (i : ℕ) (c : Candle) (h : Milestones st) :
    Milestones (checkClose i c st) := by
  unfold checkClose
  split_ifs with hc
  · have hp : st.pos ≠ 0 := by
      rcases hc with hc | hc
      · have := hc.1; omega
      · have := hc.1; omega
    unfold closePosition
    rw [if_neg hp]
    refine ⟨?_, ?_, ?_, ?_⟩
    · simp [milestoneOnce_append, h.once1, milestoneOnce, Event.isTp1,
        Event.isPositionClosed]
    · simp [flagAfter_append, flagAfter, Event.isTp1, Event.isPositionClosed]
    · simp [milestoneOnce_append, h.once2, milestoneOnce, Event.isTp2,
        Event.isPositionClosed]
    · simp [flagAfter_append, flagAfter, Event.isTp2, Event.isPositionClosed]
  · exact h

theorem milestones_step {st : State} (s : Settings) (i : ℕ) (c : Candle)
    (cp : Option Candle) (h : Milestones st) : Milestones (step s i c cp st) := by
  have h1 : Milestones (updateLevels s i c st) := ⟨h.once1, h.flag1, h.once2, h.flag2⟩
  have h2 : Milestones (managePosition i c cp (updateLevels s i c st)) := by
    unfold managePosition
    split_ifs
    · exact milestones_checkClose i c (milestones_checkTp2 i c cp
        (milestones_checkTp1 i c cp h1))
    · exact h1
  exact milestones_noMilestone h2 (noMilestone_rest s i c cp _)

theorem milestones_take (candles : List Candle) (s : Settings) (j : ℕ)
    (hj : j ≤ candles.length) : Milestones (finalState (candles.take j) s) := by
  induction j with
  | zero => exact ⟨rfl, rfl, rfl, rfl⟩
  | succ j ih =>
    rw [finalState_take_succ candles s j (by omega)]
    exact milestones_step s j _ _ (ih (by omega))

theorem checkTp1_events (i : ℕ) (c cp : Candle) (st : State) :
    (checkTp1 i c (some cp) st).events = st.events ++
      (if st.tp1_reached = false ∧
          ((st.pos > 0 ∧ cp.close < num st.tp1 ∧ c.high ≥ num st.tp1) ∨
            (st.pos < 0 ∧ cp.close > num st.tp1 ∧ c.low ≤ num st.tp1))
        then [Event.tp1_reached i st.tp1] else []) ∧
    ((st.tp1_reached = false ∧
          ((st.pos > 0 ∧ cp.close < num st.tp1 ∧ c.high ≥ num st.tp1) ∨
            (st.pos < 0 ∧ cp.close > num st.tp1 ∧ c.low ≤ num st.tp1))) →
      (checkTp1 i c (some cp) st).tp1_reached = true) ∧
    (checkTp1 i c (some cp) st).tp2_reached = st.tp2_reached := by
  unfold checkTp1
  dsimp only
  by_cases hf : st.tp1_reached = false
  · by_cases hl : st.pos > 0 ∧ cp.close < num st.tp1 ∧ c.high ≥ num st.tp1
    · simp [hf, hl]
    · by_cases hs : st.pos < 0 ∧ cp.close > num st.tp1 ∧ c.low ≤ num st.tp1
      · simp [hf, hl, hs]
      · simp [hf, hl, hs]
  · simp [hf]

theorem checkTp2_events (i : ℕ) (c cp : Candle) (st : State) :
    (checkTp2 i c (some cp) st).events = st.events ++
      (if st.tp2_reached = false ∧
          ((st.pos > 0 ∧ cp.close < num st.tp2 ∧ c.high ≥ num st.tp2) ∨
            (st.pos < 0 ∧ cp.close > num st.tp2 ∧ c.low ≤ num st.tp2))
        then [Event.tp2_reached i st.tp2] else []) ∧
    ((st.tp2_reached = false ∧
          ((st.pos > 0 ∧ cp.close < num st.tp2 ∧ c.high ≥ num st.tp2) ∨
            (st.pos < 0 ∧ cp.close > num st.tp2 ∧ c.low ≤ num st.tp2))) →
      (checkTp2 i c (some cp) st).tp2_reached = true) ∧
    (checkTp2 i c (some cp) st).tp1_reached = st.tp1_reached := by
  unfold checkTp2
  dsimp only
  by_cases hf : st.tp2_reached = false
  · by_cases hl : st.pos > 0 ∧ cp.close < num st.tp2 ∧ c.high ≥ num st.tp2
    · simp [hf, hl]
    · by_cases hs : st.pos < 0 ∧ cp.close > num st.tp2 ∧ c.low ≤ num st.tp2
      · simp [hf, hl, hs]
      · simp [hf, hl, hs]
  · simp [hf]

theorem checkClose_milestones (i : ℕ) (c : Candle) (st : State) :
    (checkClose i c st).events.filter Event.isTp1 = st.events.filter Event.isTp1 ∧
    (checkClose i c st).events.filter Event.isTp2 = st.events.filter Event.isTp2 := by
  unfold checkClose closePosition
  dsimp only
  split_ifs <;> simp [List.filter_append, Event.isTp1, Event.isTp2]

/-- The milestone events of one bar with a previous candle. -/
theorem step_milestones (s : Settings) (i : ℕ) (c cp : Candle) (st : State) :
    (step s i c (some cp) st).events.filter Event.isTp1 =
      st.events.filter Event.isTp1 ++
        (if st.tp1_reached = false ∧
            ((st.pos > 0 ∧ cp.close < num st.tp1 ∧ c.high ≥ num st.tp1) ∨
              (st.pos < 0 ∧ cp.close > num st.tp1 ∧ c.low ≤ num st.tp1))
          then [Event.tp1_reached i st.tp1] else []) ∧
    (step s i c (some cp) st).events.filter Event.isTp2 =
      st.events.filter Event.isTp2 ++
        (if st.tp2_reached = false ∧
            ((st.pos > 0 ∧ cp.close < num st.tp2 ∧ c.high ≥ num st.tp2) ∨
              (st.pos < 0 ∧ cp.close > num st.tp2 ∧ c.low ≤ num st.tp2))
          then [Event.tp2_reached i st.tp2] else []) := by
  obtain ⟨⟨evs, hevs, hp⟩, -, -⟩ := noMilestone_rest s i c (some cp)
    (managePosition i c (some cp) (updateLevels s i c st))
  have hstep : step s i c (some cp) st =
      zoneExpiry s i (positionActivation s i c (zoneActivation i c (some cp)
        (zoneCreation s i (managePosition i c (some cp) (updateLevels s i c st))))) := rfl
  have e1 : evs.filter Event.isTp1 = [] := by
    rw [List.filter_eq_nil_iff]
    intro e he
    simp [(hp e he).1]
  have e2 : evs.filter Event.isTp2 = [] := by
    rw [List.filter_eq_nil_iff]
    intro e he
    simp [(hp e he).2.1]
  rw [hstep, hevs, List.filter_append, List.filter_append, e1, e2, List.append_nil,
    List.append_nil]
  unfold managePosition
  by_cases hpos : st.pos ≠ 0
  · have hpos1 : (updateLevels s i c st).pos ≠ 0 := hpos
    rw [if_pos hpos1]
    obtain ⟨c1, c2⟩ := checkClose_milestones i c
      (checkTp2 i c (some cp) (checkTp1 i c (some cp) (updateLevels s i c st)))
    have t1 : (checkTp1 i c (some cp) (updateLevels s i c st)).events = st.events ++
        (if st.tp1_reached = false ∧
            ((st.pos > 0 ∧ cp.close < num st.tp1 ∧ c.high ≥ num st.tp1) ∨
              (st.pos < 0 ∧ cp.close > num st.tp1 ∧ c.low ≤ num st.tp1))
          then [Event.tp1_reached i st.tp1] else []) :=
      (checkTp1_events i c cp (updateLevels s i c st)).1
    have t3 : (checkTp1 i c (some cp) (updateLevels s i c st)).tp2_reached =
        st.tp2_reached := (checkTp1_events i c cp (updateLevels s i c st)).2.2
    have q := sameTrade_checkTp1 i c (some cp) (updateLevels s i c st)
    have qpos : (checkTp1 i c (some cp) (updateLevels s i c st)).pos = st.pos := q.pos
    have qtp2 : (checkTp1 i c (some cp) (updateLevels s i c st)).tp2 = st.tp2 := q.tp2
    have u1 := (checkTp2_events i c cp (checkTp1 i c (some cp) (updateLevels s i c st))).1
    rw [qpos, qtp2, t3, t1] at u1
    rw [c1, c2, u1]
    have k1 : ∀ (b : Prop) [Decidable b],
        (if b then [Event.tp2_reached i st.tp2] else []).filter Event.isTp1 = [] := by
      intro b _; split_ifs <;> simp [Event.isTp1]
    have k2 : ∀ (b : Prop) [Decidable b],
        (if b then [Event.tp1_reached i st.tp1] else []).filter Event.isTp2 = [] := by
      intro b _; split_ifs <;> simp [Event.isTp2]
    have k3 : ∀ (b : Prop) [Decidable b],
        (if b then [Event.tp1_reached i st.tp1] else []).filter Event.isTp1 =
          (if b then [Event.tp1_reached i st.tp1] else []) := by
      intro b _; split_ifs <;> simp [Event.isTp1]
    have k4 : ∀ (b : Prop) [Decidable b],
        (if b then [Event.tp2_reached i st.tp2] else []).filter Event.isTp2 =
          (if b then [Event.tp2_reached i st.tp2] else []) := by
      intro b _; split_ifs <;> simp [Event.isTp2]
    simp only [List.filter_append, k1, k2, k3, k4, List.append_nil]
    exact ⟨trivial, trivial⟩
  · have hpos0 : st.pos = 0 := by simpa using hpos
    have hpos1 : ¬ (updateLevels s i c st).pos ≠ 0 := hpos
    rw [if_neg hpos1]
    have n1 : ¬ (st.tp1_reached = false ∧
        ((st.pos > 0 ∧ cp.close < num st.tp1 ∧ c.high ≥ num st.tp1) ∨
          (st.pos < 0 ∧ cp.close > num st.tp1 ∧ c.low ≤ num st.tp1))) := by
      rw [hpos0]; simp
    have n2 : ¬ (st.tp2_reached = false ∧
        ((st.pos > 0 ∧ cp.close < num st.tp2 ∧ c.high ≥ num st.tp2) ∨
          (st.pos < 0 ∧ cp.close > num st.tp2 ∧ c.low ≤ num st.tp2))) := by
      rw [hpos0]; simp
    rw [if_neg n1, if_neg n2, List.append_nil, List.append_nil]
    exact ⟨rfl, rfl⟩

/-- A flag raised by the milestone checks is still raised at the end of the bar, or
the position was closed on the bar and its record carries the raised flag. -/
theorem flag_kept_or_recorded (s : Settings) (i : ℕ) (c : Candle) (cp : Option Candle)
    (st : State) (hpos : st.pos ≠ 0) :
    (((checkTp2 i c cp (checkTp1 i c cp (updateLevels s i c st))).tp1_reached = true →
      (step s i c cp st).tp1_reached = true ∨
        ∃ r, (step s i c cp st).positionsClosed = st.positionsClosed ++ [r] ∧
          r.tp1_reached = true) ∧
    ((checkTp2 i c cp (checkTp1 i c cp (updateLevels s i c st))).tp2_reached = true →
      (step s i c cp st).tp2_reached = true ∨
        ∃ r, (step s i c cp st).positionsClosed = st.positionsClosed ++ [r] ∧
          r.tp2_reached = true)) := by
  have hrest := noMilestone_rest s i c cp (managePosition i c cp (updateLevels s i c st))
  have hcl := (afterClose_rest s i c cp (managePosition i c cp (updateLevels s i c st))).closed
  have hstep : step s i c cp st =
      zoneExpiry s i (positionActivation s i c (zoneActivation i c cp
        (zoneCreation s i (managePosition i c cp (updateLevels s i c st))))) := rfl
  rw [hstep, hrest.tp1, hrest.tp2, hcl]
  unfold managePosition
  have hpos1 : (updateLevels s i c st).pos ≠ 0 := hpos
  rw [if_pos hpos1]
  have q := sameTrade_trans (sameTrade_checkTp1 i c cp (updateLevels s i c st))
    (sameTrade_checkTp2 i c cp _)
  have qc : (checkTp2 i c cp (checkTp1 i c cp (updateLevels s i c st))).positionsClosed =
      st.positionsClosed := q.closed
  have qp : (checkTp2 i c cp (checkTp1 i c cp (updateLevels s i c st))).pos ≠ 0 := by
    rw [q.pos]; exact hpos
  generalize checkTp2 i c cp (checkTp1 i c cp (updateLevels s i c st)) = st2 at qc qp
  unfold checkClose
  split_ifs with hc
  · unfold closePosition
    rw [if_neg qp]
    dsimp only
    rw [qc]
    exact ⟨fun h => Or.inr ⟨_, rfl, h⟩, fun h => Or.inr ⟨_, rfl, h⟩⟩
  · exact ⟨fun h => Or.inl h, fun h => Or.inl h⟩

/-- Claim C25: for a bar `i` with previous candle `cp` (so `i >= 1`), read in the state
`st`: a `tp1_reached` event is emitted on the bar exactly when the tp1 flag is not yet
raised and either a long position is open with `cp.close < tp1` and `high >= tp1`, or
a short one with `cp.close > tp1` and `low <= tp1`; it is then the only one of the bar,
the flag is raised by the check, and at the end of the bar it is still raised unless
the position was closed on the bar, in which case the record carries it. The same
holds for tp2 with `tp2_reached`. In particular a bar whose predecessor closed at or
beyond the target never flags it. Consequently, in the events of every run, two
`tp1_reached` events (and two `tp2_reached` events) always have a `position_closed`
event between them: each position gets at most one of each. -/
theorem milestone_once_per_position (candles : List Candle) (s : Settings) (i : ℕ)
    (c cp : Candle) (st : State) :
    ((step s i c (some cp) st).events.filter Event.isTp1 =
      st.events.filter Event.isTp1 ++
        (if st.tp1_reached = false ∧
            ((st.pos > 0 ∧ cp.close < num st.tp1 ∧ c.high ≥ num st.tp1) ∨
              (st.pos < 0 ∧ cp.close > num st.tp1 ∧ c.low ≤ num st.tp1))
          then [Event.tp1_reached i st.tp1] else [])) ∧
    ((step s i c (some cp) st).events.filter Event.isTp2 =
      st.events.filter Event.isTp2 ++
        (if st.tp2_reached = false ∧
            ((st.pos > 0 ∧ cp.close < num st.tp2 ∧ c.high ≥ num st.tp2) ∨
              (st.pos < 0 ∧ cp.close > num st.tp2 ∧ c.low ≤ num st.tp2))
          then [Event.tp2_reached i st.tp2] else [])) ∧
    ((st.tp1_reached = false ∧
        ((st.pos > 0 ∧ cp.close < num st.tp1 ∧ c.high ≥ num st.tp1) ∨
          (st.pos < 0 ∧ cp.close > num st.tp1 ∧ c.low ≤ num st.tp1))) →
      (checkTp1 i c (some cp) (updateLevels s i c st)).tp1_reached = true ∧
      ((step s i c (some cp) st).tp1_reached = true ∨
        ∃ r, (step s i c (some cp) st).positionsClosed = st.positionsClosed ++ [r] ∧
          r.tp1_reached = true)) ∧
    ((st.tp2_reached = false ∧
        ((st.pos > 0 ∧ cp.close < num st.tp2 ∧ c.high ≥ num st.tp2) ∨
          (st.pos < 0 ∧ cp.close > num st.tp2 ∧ c.low ≤ num st.tp2))) →
      (checkTp2 i c (some cp)
        (checkTp1 i c (some cp) (updateLevels s i c st))).tp2_reached = true ∧
      ((step s i c (some cp) st).tp2_reached = true ∨
        ∃ r, (step s i c (some cp) st).positionsClosed = st.positionsClosed ++ [r] ∧
          r.tp2_reached = true)) ∧
    (∀ (a b d : List Event) (e1 e2 : Event),
      (runEngine candles s).events = a ++ e1 :: (b ++ e2 :: d) →
      (e1.isTp1 = true ∧ e2.isTp1 = true) ∨ (e1.isTp2 = true ∧ e2.isTp2 = true) →
      ∃ e ∈ b, e.isPositionClosed = true) := by
  obtain ⟨m1, m2⟩ := step_milestones s i c cp st
  refine ⟨m1, m2, ?_, ?_, ?_⟩
  · intro h
    have hpos : st.pos ≠ 0 := by
      rcases h.2 with h | h
      · have := h.1; omega
      · have := h.1; omega
    have h1 := (checkTp1_events i c cp (updateLevels s i c st)).2.1 h
    have h2 : (checkTp2 i c (some cp)
        (checkTp1 i c (some cp) (updateLevels s i c st))).tp1_reached = true := by
      rw [(checkTp2_events i c cp _).2.2]; exact h1
    exact ⟨h1, (flag_kept_or_recorded s i c (some cp) st hpos).1 h2⟩
  · intro h
    have hpos : st.pos ≠ 0 := by
      rcases h.2 with h | h
      · have := h.1; omega
      · have := h.1; omega
    have q := sameTrade_checkTp1 i c (some cp) (updateLevels s i c st)
    have t3 : (checkTp1 i c (some cp) (updateLevels s i c st)).tp2_reached =
        st.tp2_reached := (checkTp1_events i c cp (updateLevels s i c st)).2.2
    have qpos : (checkTp1 i c (some cp) (updateLevels s i c st)).pos = st.pos := q.pos
    have qtp2 : (checkTp1 i c (some cp) (updateLevels s i c st)).tp2 = st.tp2 := q.tp2
    have h2 := (checkTp2_events i c cp
      (checkTp1 i c (some cp) (updateLevels s i c st))).2.1 (by rw [qpos, qtp2, t3]; exact h)
    exact ⟨h2, (flag_kept_or_recorded s i c (some cp) st hpos).2 h2⟩
  · intro a b d e1 e2 hev hm
    have hM := milestones_take candles s candles.length le_rfl
    rw [finalState_take_length] at hM
    have hev2 : (finalState candles s).events = a ++ e1 :: (b ++ e2 :: d) := hev
    rcases hm with ⟨h1, h2⟩ | ⟨h1, h2⟩
    · have := hM.once1
      rw [hev2] at this
      exact closed_between Event.isTp1 a false b d e1 e2 this h1 h2
    · have := hM.once2
      rw [hev2] at this
      exact closed_between Event.isTp2 a false b d e1 e2 this h1 h2

/-! ## C26 -/

/-- Appending events that are no expiry events keeps `ExpiredOk`. -/
theorem expiredOk_append (s : Settings) (l evs : List Event) (h : ExpiredOk s l)
    (hn : ∀ e ∈ evs, e.isExpired = false) : ExpiredOk s (l ++ evs) := by
  intro k i b hk
  by_cases hlt : k < l.length
  · rw [List.getElem?_append_left hlt] at hk
    obtain ⟨h1, k0, hk0, e, he, ha⟩ := h k i b hk
    refine ⟨h1, k0, hk0, e, ?_, ha⟩
    rw [List.getElem?_append_left (by omega)]
    exact he
  · rw [List.getElem?_append_right (by omega)] at hk
    have := hn _ (List.getElem?_mem hk)
    simp [Event.isExpired] at this

/-- Appending the expiry event of a zone of the right age that has an activation
event keeps `ExpiredOk`. -/
theorem expiredOk_snoc (s : Settings) (l : List Event) (i : ℕ) (b : Box)
    (h : ExpiredOk s l) (hage : (b.createdBar : ℤ) = (i : ℤ) - s.zoneNoBars)
    (hact : ∃ e ∈ l, e.activates b = true) :
    ExpiredOk s (l ++ [Event.entry_zone_expired i b]) := by
  intro k i0 b0 hk
  by_cases hlt : k < l.length
  · rw [List.getElem?_append_left hlt] at hk
    obtain ⟨h1, k0, hk0, e, he, ha⟩ := h k i0 b0 hk
    refine ⟨h1, k0, hk0, e, ?_, ha⟩
    rw [List.getElem?_append_left (by omega)]
    exact he
  · rw [List.getElem?_append_right (by omega)] at hk
    have hk2 : k - l.length = 0 := by
      by_contra hne
      rw [List.getElem?_eq_none (by simp; omega)] at hk
      exact Option.noConfusion hk
    rw [hk2] at hk
    simp only [List.getElem?_cons_zero, Option.some.injEq, Event.entry_zone_expired.injEq] at hk
    obtain ⟨rfl, rfl⟩ := hk
    obtain ⟨e, he, ha⟩ := hact
    obtain ⟨k0, hk0, hek⟩ := List.getElem_of_mem he
    refine ⟨hage, k0, by omega, e, ?_, ha⟩
    rw [List.getElem?_append_left hk0, List.getElem?_eq_getElem hk0, hek]

theorem isExpired_of_box?_none {e : Event} (h : e.box? = none) : e.isExpired = false := by
  cases e <;> simp_all [Event.box?, Event.isExpired]

theorem checkTp1_zone (i : ℕ) (c : Candle) (cp : Option Candle) (st : State) :
    (checkTp1 i c cp st).box_entry_zone = st.box_entry_zone ∧
      (checkTp1 i c cp st).entry_zone_active = st.entry_zone_active ∧
      (checkTp1 i c cp st).zone_created_bar = st.zone_created_bar := by
  unfold checkTp1
  split
  · split_ifs <;> exact ⟨rfl, rfl, rfl⟩
  · exact ⟨rfl, rfl, rfl⟩

theorem checkTp2_zone (i : ℕ) (c : Candle) (cp : Option Candle) (st : State) :
    (checkTp2 i c cp st).box_entry_zone = st.box_entry_zone ∧
      (checkTp2 i c cp st).entry_zone_active = st.entry_zone_active ∧
      (checkTp2 i c cp st).zone_created_bar = st.zone_created_bar := by
  unfold checkTp2
  split
  · split_ifs <;> exact ⟨rfl, rfl, rfl⟩
  · exact ⟨rfl, rfl, rfl⟩

/-- The close checks keep the position and the zone, or close the position and drop
the zone. -/
theorem managePosition_zone (i : ℕ) (c : Candle) (cp : Option Candle) (st : State) :
    ((managePosition i c cp st).pos = st.pos ∧
      (managePosition i c cp st).box_entry_zone = st.box_entry_zone ∧
      (managePosition i c cp st).entry_zone_active = st.entry_zone_active ∧
      (managePosition i c cp st).zone_created_bar = st.zone_created_bar) ∨
    ((managePosition i c cp st).pos = 0 ∧
      (managePosition i c cp st).box_entry_zone = none) := by
  unfold managePosition
  split
  · rename_i hp
    obtain ⟨a1, a2, a3⟩ := checkTp1_zone i c cp st
    obtain ⟨b1, b2, b3⟩ := checkTp2_zone i c cp (checkTp1 i c cp st)
    have q := sameTrade_trans (sameTrade_checkTp1 i c cp st) (sameTrade_checkTp2 i c cp _)
    have qp := q.pos
    generalize checkTp2 i c cp (checkTp1 i c cp st) = st2 at b1 b2 b3 qp
    unfold checkClose
    split
    · right
      unfold closePosition
      rw [if_neg (by rw [qp]; exact hp)]
      exact ⟨rfl, rfl⟩
    · left
      exact ⟨qp, b1.trans a1, b2.trans a2, b3.trans a3⟩
  · exact Or.inl ⟨rfl, rfl, rfl, rfl⟩

/-- Entry zone activation on a bar without zone creation: afterwards a zone that is
still there is activated. -/
theorem zoneCore_zoneActivation (s : Settings) (i : ℕ) (c : Candle) (cp : Option Candle)
    (st : State) (hcp : 0 < i → ∃ p, cp = some p) (core : ZoneCore s i st)
    (jf : ∀ b, st.box_entry_zone = some b → st.entry_zone_active = 0 →
      st.pos = 0 ∧ st.active_level_prev ≠ none ∧ b.createdBar + 1 = i)
    (hnc : st.pos = 0 → st.active_level_curr = none) :
    ZoneCore s i (zoneActivation i c cp st) ∧
      (∀ b, (zoneActivation i c cp st).box_entry_zone = some b →
        (zoneActivation i c cp st).entry_zone_active ≠ 0) := by
  have noop : (∀ (L : ℚ) (b : Box) (p : Candle), st.active_level_prev = some L →
      st.active_level_curr = none → st.box_entry_zone = some b → cp = some p →
      ¬ (st.pos = 0 ∧ st.entry_zone_active = 0)) →
      ZoneCore s i st ∧ (∀ b, st.box_entry_zone = some b → st.entry_zone_active ≠ 0) := by
    intro hno
    refine ⟨core, fun b hb ha => ?_⟩
    obtain ⟨h1, h2, h3⟩ := jf b hb ha
    obtain ⟨p, hp⟩ := hcp (by omega)
    obtain ⟨L, hL⟩ := Option.ne_none_iff_exists'.1 h2
    exact hno L b p hL (hnc h1) hb hp ⟨h1, ha⟩
  unfold zoneActivation
  split
  · rename_i L b p e1 e2 e3
    split_ifs with hg ha hb
    · refine ⟨⟨core.edges, fun b0 hb0 _ => ?_, core.young, ?_⟩, fun b0 _ => by simp⟩
      · have hbb : b0 = b := Option.some.inj (hb0.symm.trans e3)
        subst hbb
        exact ⟨_, List.mem_append_right _ (List.mem_singleton_self _),
          by simp [Event.activates]⟩
      · exact expiredOk_append s _ _ core.expired (by simp [Event.isExpired])
    · refine ⟨⟨core.edges, fun b0 hb0 _ => ?_, core.young, ?_⟩, fun b0 _ => by simp⟩
      · have hbb : b0 = b := Option.some.inj (hb0.symm.trans e3)
        subst hbb
        exact ⟨_, List.mem_append_right _ (List.mem_singleton_self _),
          by simp [Event.activates]⟩
      · exact expiredOk_append s _ _ core.expired (by simp [Event.isExpired])
    · refine ⟨⟨fun b0 hb0 => ?_, fun b0 hb0 => ?_, fun b0 hb0 => ?_, ?_⟩, fun b0 hb0 => ?_⟩
      · cases hb0
      · cases hb0
      · cases hb0
      · exact expiredOk_append s _ _ core.expired (by simp [Event.isExpired])
      · cases hb0
    · exact noop (fun L0 b0 p0 _ _ _ _ => hg)
  · rename_i hno
    exact noop (fun L0 b0 p0 h1 h2 h3 h4 _ => hno L0 b0 p0 h1 h2 h3 h4)

/-- A state that differs by an open position and one more event, which is no expiry
event, keeps the zone facts. -/
theorem zoneCore_opened (s : Settings) (i : ℕ) (st st2 : State) (e : Event)
    (core : ZoneCore s i st)
    (hact : ∀ b, st.box_entry_zone = some b → st.entry_zone_active ≠ 0)
    (hp : st2.pos ≠ 0) (hb : st2.box_entry_zone = st.box_entry_zone)
    (ha : st2.entry_zone_active = st.entry_zone_active)
    (hc : st2.zone_created_bar = st.zone_created_bar)
    (he : st2.events = st.events ++ [e]) (hne : e.isExpired = false) :
    ZoneCore s i st2 ∧ (∀ b, st2.box_entry_zone = some b → st2.entry_zone_active ≠ 0) := by
  refine ⟨⟨fun b h => ?_, fun b h h2 => ?_, fun b h h2 => absurd h2 hp, ?_⟩, fun b h => ?_⟩
  · rw [hc]
    exact core.edges b (hb ▸ h)
  · obtain ⟨x, hx, hxa⟩ := core.act b (hb ▸ h) (ha ▸ h2)
    exact ⟨x, by rw [he]; exact List.mem_append_left _ hx, hxa⟩
  · rw [he]
    refine expiredOk_append s _ _ core.expired ?_
    intro x hx
    rw [List.mem_singleton] at hx
    rw [hx]
    exact hne
  · rw [ha]
    exact hact b (hb ▸ h)

/-- Position activation keeps the zone facts. -/
theorem zoneCore_positionActivation (s : Settings) (i : ℕ) (c : Candle) (st : State)
    (core : ZoneCore s i st)
    (hact : ∀ b, st.box_entry_zone = some b → st.entry_zone_active ≠ 0) :
    ZoneCore s i (positionActivation s i c st) ∧
      (∀ b, (positionActivation s i c st).box_entry_zone = some b →
        (positionActivation s i c st).entry_zone_active ≠ 0) := by
  unfold positionActivation
  split
  · dsimp only
    split_ifs
    all_goals first
      | exact ⟨core, hact⟩
      | exact zoneCore_opened s i st _ _ core hact (by dsimp only; omega) rfl rfl rfl rfl rfl
  · exact ⟨core, hact⟩

/-- The clean up of expired zones at the end of bar `i` on a bar without zone
creation. -/
theorem zoneInv_zoneExpiry (s : Settings) (i : ℕ) (st : State) (core : ZoneCore s i st)
    (hact : ∀ b, st.box_entry_zone = some b → st.entry_zone_active ≠ 0) :
    ZoneInv s (i + 1) (zoneExpiry s i st) := by
  have keep : (∀ b cr, st.box_entry_zone = some b → st.zone_created_bar = some cr →
      ¬ ((i : ℤ) - (cr : ℤ) ≥ s.zoneNoBars ∧ st.pos = 0)) → ZoneInv s (i + 1) st := by
    intro hno
    refine ⟨⟨core.edges, core.act, fun b hb hp => ?_, core.expired⟩,
      fun b hb ha => absurd ha (hact b hb)⟩
    have := hno b b.createdBar hb (core.edges b hb)
    have h2 : ¬ ((i : ℤ) - (b.createdBar : ℤ) ≥ s.zoneNoBars) := fun h => this ⟨h, hp⟩
    push_cast
    omega
  unfold zoneExpiry
  split
  · rename_i b cr hb hc
    split_ifs with hg
    · refine ⟨⟨fun b0 hb0 => ?_, fun b0 hb0 => ?_, fun b0 hb0 => ?_, ?_⟩, fun b0 hb0 => ?_⟩
      · cases hb0
      · cases hb0
      · cases hb0
      · have hcr : cr = b.createdBar :=
          Option.some.inj (hc.symm.trans (core.edges b hb))
        have hy := core.young b hb hg.2
        have hge := hg.1
        rw [hcr] at hge
        exact expiredOk_snoc s _ i b core.expired (by omega) (core.act b hb (hact b hb))
      · cases hb0
    · exact keep (fun b0 cr0 h1 h2 => by
        have e1 : b0 = b := Option.some.inj (h1.symm.trans hb)
        have e2 : cr0 = cr := Option.some.inj (h2.symm.trans hc)
        rw [e2]
        exact hg)
  · rename_i hno
    exact keep (fun b0 cr0 h1 h2 _ => hno b0 cr0 h1 h2)

/-- The zone facts after the close checks of bar `i`; the active level of the last bar
is now `active_level_prev`. -/
theorem zoneCore_managePosition (s : Settings) (i : ℕ) (c : Candle) (cp : Option Candle)
    (st : State) (h : ZoneInv s i st) :
    ZoneCore s i (managePosition i c cp (updateLevels s i c st)) ∧
      (∀ b, (managePosition i c cp (updateLevels s i c st)).box_entry_zone = some b →
        (managePosition i c cp (updateLevels s i c st)).entry_zone_active = 0 →
        (managePosition i c cp (updateLevels s i c st)).pos = 0 ∧
        (managePosition i c cp (updateLevels s i c st)).active_level_prev ≠ none ∧
        b.createdBar + 1 = i) := by
  obtain ⟨⟨ev, hev, hplain⟩, -⟩ := plain_managePosition i c cp (updateLevels s i c st)
  have hprev : (managePosition i c cp (updateLevels s i c st)).active_level_prev =
      st.active_level_curr := (managePosition_levels i c cp _).2
  have hev2 : (managePosition i c cp (updateLevels s i c st)).events = st.events ++ ev := hev
  have hexp : ExpiredOk s (managePosition i c cp (updateLevels s i c st)).events := by
    rw [hev2]
    exact expiredOk_append s _ _ h.core.expired
      (fun e he => isExpired_of_box?_none (hplain e he))
  rcases managePosition_zone i c cp (updateLevels s i c st) with ⟨k1, k2, k3, k4⟩ | ⟨k1, k2⟩
  · have k1s : (managePosition i c cp (updateLevels s i c st)).pos = st.pos := k1
    have k2s : (managePosition i c cp (updateLevels s i c st)).box_entry_zone =
        st.box_entry_zone := k2
    have k3s : (managePosition i c cp (updateLevels s i c st)).entry_zone_active =
        st.entry_zone_active := k3
    have k4s : (managePosition i c cp (updateLevels s i c st)).zone_created_bar =
        st.zone_created_bar := k4
    refine ⟨⟨fun b hb => ?_, fun b hb ha => ?_, fun b hb hp => ?_, hexp⟩, fun b hb ha => ?_⟩
    · rw [k4s]
      exact h.core.edges b (k2s ▸ hb)
    · obtain ⟨e, he, hea⟩ := h.core.act b (k2s ▸ hb) (k3s ▸ ha)
      exact ⟨e, by rw [hev2]; exact List.mem_append_left _ he, hea⟩
    · exact h.core.young b (k2s ▸ hb) (k1s ▸ hp)
    · obtain ⟨f1, f2, f3⟩ := h.fresh b (k2s ▸ hb) (k3s ▸ ha)
      exact ⟨k1s.trans f1, by rw [hprev]; exact f2, f3⟩
  · refine ⟨⟨fun b hb => ?_, fun b hb => ?_, fun b hb => ?_, hexp⟩, fun b hb => ?_⟩
    all_goals
      rw [k2] at hb
      cases hb

/-- The later phases of bar `i`, from the zone facts after the close checks. -/
theorem zoneInv_rest (s : Settings) (i : ℕ) (c : Candle) (cp : Option Candle)
    (st : State) (hz : 1 ≤ s.zoneNoBars) (hcp : 0 < i → ∃ p, cp = some p)
    (core : ZoneCore s i st)
    (jf : ∀ b, st.box_entry_zone = some b → st.entry_zone_active = 0 →
      st.pos = 0 ∧ st.active_level_prev ≠ none ∧ b.createdBar + 1 = i) :
    ZoneInv s (i + 1)
      (zoneExpiry s i (positionActivation s i c (zoneActivation i c cp
        (zoneCreation s i st)))) := by
  by_cases hcre : st.pos = 0 ∧ ∃ lvl, st.active_level_curr = some lvl
  · -- a zone is created on this bar
    obtain ⟨hp, lvl, hl⟩ := hcre
    obtain ⟨bx, hbx, h1, h2, h3, h4, h5, h6⟩ := zoneCreation_fires s i st lvl hl hp
    rw [zoneActivation_of_curr_some i c cp _ lvl h5,
      positionActivation_of_curr_some s i c _ lvl h5, zoneExpiry_fresh s i _ h2 hz]
    refine ⟨⟨fun b hb => ?_, fun b hb ha => absurd h4 ha, fun b hb _ => ?_, ?_⟩,
      fun b hb _ => ?_⟩
    · have : b = bx := Option.some.inj (hb.symm.trans h1)
      rw [h2, this, hbx]
    · have : b = bx := Option.some.inj (hb.symm.trans h1)
      rw [this, hbx]
      push_cast
      omega
    · rw [h6, List.append_assoc]
      refine expiredOk_append s _ _ core.expired ?_
      intro e he
      rcases List.mem_append.1 he with he | he
      · cases hbz : st.box_entry_zone with
        | none => rw [hbz] at he; simp at he
        | some b0 =>
          rw [hbz] at he
          simp only [List.mem_singleton] at he
          rw [he]
          rfl
      · rw [List.mem_singleton] at he
        rw [he]
        rfl
    · have : b = bx := Option.some.inj (hb.symm.trans h1)
      refine ⟨h3, by rw [h5]; simp, ?_⟩
      rw [this, hbx]
  · -- no zone is created on this bar
    have hnc : st.pos = 0 → st.active_level_curr = none := by
      intro hp
      cases hl : st.active_level_curr with
      | none => rfl
      | some lvl => exact absurd ⟨hp, lvl, hl⟩ hcre
    have h3 : zoneCreation s i st = st := by
      by_cases hp : st.pos = 0
      · exact zoneCreation_of_curr_none s i st (hnc hp)
      · exact zoneCreation_of_pos s i st hp
    rw [h3]
    obtain ⟨c4, a4⟩ := zoneCore_zoneActivation s i c cp st hcp core jf hnc
    obtain ⟨c5, a5⟩ := zoneCore_positionActivation s i c _ c4 a4
    exact zoneInv_zoneExpiry s i _ c5 a5

theorem zoneInv_step (s : Settings) (i : ℕ) (c : Candle) (cp : Option Candle)
    (st : State) (hz : 1 ≤ s.zoneNoBars) (hcp : 0 < i → ∃ p, cp = some p)
    (h : ZoneInv s i st) : ZoneInv s (i + 1) (step s i c cp st) := by
  obtain ⟨core, jf⟩ := zoneCore_managePosition s i c cp st h
  exact zoneInv_rest s i c cp _ hz hcp core jf

theorem zoneInv_take (candles : List Candle) (s : Settings) (hz : 1 ≤ s.zoneNoBars)
    (j : ℕ) (hj : j ≤ candles.length) : ZoneInv s j (finalState (candles.take j) s) := by
  induction j with
  | zero =>
    refine ⟨⟨fun b hb => ?_, fun b hb => ?_, fun b hb => ?_, fun k i b hk => ?_⟩,
      fun b hb => ?_⟩
    · cases hb
    · cases hb
    · cases hb
    · simp [finalState, loop] at hk
    · cases hb
  | succ j ih =>
    rw [finalState_take_succ candles s j (by omega)]
    refine zoneInv_step s j _ _ _ hz ?_ (ih (by omega))
    intro hj0
    unfold prevCandle
    rw [if_neg (by omega)]
    exact ⟨candles[j - 1], List.getElem?_eq_getElem (by omega)⟩

/-- C26: with `zoneNoBars ≥ 1`, every `entry_zone_expired` event of a run, emitted at
bar `i` for a zone `b`, has `b.createdBar = i - zoneNoBars`, and an earlier event of the
run is the `entry_zone_activated_long` or `entry_zone_activated_short` event of that zone;
moreover, after any number `j` of bars a zone that is held and not activated was created
on bar `j - 1`, so a non-activated zone never survives past the bar after its creation. -/
theorem expiry_only_after_activation (candles : List Candle) (s : Settings)
    (hz : 1 ≤ s.zoneNoBars) :
    (∀ (k i : ℕ) (b : Box),
      (runEngine candles s).events[k]? = some (Event.entry_zone_expired i b) →
        (b.createdBar : ℤ) = (i : ℤ) - s.zoneNoBars ∧
          ∃ k0 : ℕ, k0 < k ∧ ∃ e : Event,
            (runEngine candles s).events[k0]? = some e ∧ e.activates b = true) ∧
      (∀ (j : ℕ) (b : Box), j ≤ candles.length →
        (finalState (candles.take j) s).box_entry_zone = some b →
        (finalState (candles.take j) s).entry_zone_active = 0 →
        b.createdBar + 1 = j) := by
  refine ⟨fun k i b hk => ?_, fun j b hj hb ha => ?_⟩
  · have h := zoneInv_take candles s hz candles.length le_rfl
    rw [finalState_take_length] at h
    exact h.core.expired k i b hk
  · exact ((zoneInv_take candles s hz j hj).fresh b hb ha).2.2

/-- C26 (witness): on `lapseCandles` with `zoneNoBars = 2` the third event is the expiry,
on bar 2, of the zone created on bar 0 and activated on bar 1. -/
theorem expiry_only_after_activation_witness :
    (1 : ℤ) ≤ ({ zoneNoBars := 2 } : Settings).zoneNoBars ∧
      (runEngine lapseCandles { zoneNoBars := 2 }).events[2]? =
        some (Event.entry_zone_expired 2 expiryBox) ∧
      ((expiryBox.createdBar : ℤ) = ((2 : ℕ) : ℤ) - ({ zoneNoBars := 2 } : Settings).zoneNoBars ∧
        ∃ k0 : ℕ, k0 < 2 ∧ ∃ e : Event,
          (runEngine lapseCandles { zoneNoBars := 2 }).events[k0]? = some e ∧
            e.activates expiryBox = true) :=
  ⟨by decide, by decide!,
    (expiry_only_after_activation lapseCandles { zoneNoBars := 2 } (by decide)).1 2 2
      expiryBox (by decide!)⟩

end Fiverr

namespace GoldenEra

/-! ## C27 -/

theorem rebox_positionsClosed (cfg : Config) (slRebox : Bool) (i : ℕ) (c : Candle)
    (eng : Engine) : (rebox cfg slRebox i c eng).positionsClosed = eng.positionsClosed := by
  unfold rebox
  split
  · split <;> rfl
  · rfl

theorem notInTrade_positionsClosed (cfg : Config) (z : ZoneCheck) (i : ℕ) (c : Candle)
    (eng : Engine) : (notInTrade cfg z i c eng).positionsClosed = eng.positionsClosed := by
  unfold notInTrade breakChecks brokenChecks
  dsimp only
  split_ifs <;> first | rfl | (split <;> rfl)

/-- The exit checks leave the trade data of the state alone, and when they set
`exitThisBar` the last event names the first exit condition that holds on the bar. -/
theorem exitChecks_exit_order (i : ℕ) (c : Candle) (eng : Engine) :
    (exitChecks i c eng).eng.positionsClosed = eng.positionsClosed ∧
    (exitChecks i c eng).eng.state.isInTrade = eng.state.isInTrade ∧
    (exitChecks i c eng).eng.state.isBull = eng.state.isBull ∧
    (exitChecks i c eng).eng.state.sl = eng.state.sl ∧
    (exitChecks i c eng).eng.state.tp1 = eng.state.tp1 ∧
    (exitChecks i c eng).eng.state.tp2 = eng.state.tp2 ∧
    ((exitChecks i c eng).exitThisBar = true →
      (exitReasonOf (exitChecks i c eng).eng.events = ExitReason.SL_HIT ∧
        (if truthy eng.state.isBull then leN (some c.low) eng.state.sl
          else geN (some c.high) eng.state.sl) = true) ∨
      (exitReasonOf (exitChecks i c eng).eng.events = ExitReason.TP2_HIT ∧
        (if truthy eng.state.isBull then leN (some c.low) eng.state.sl
          else geN (some c.high) eng.state.sl) = false ∧
        (if truthy eng.state.isBull then geN (some c.high) eng.state.tp2
          else leN (some c.low) eng.state.tp2) = true) ∨
      (exitReasonOf (exitChecks i c eng).eng.events = ExitReason.TP1_HIT ∧
        (if truthy eng.state.isBull then leN (some c.low) eng.state.sl
          else geN (some c.high) eng.state.sl) = false ∧
        (if truthy eng.state.isBull then geN (some c.high) eng.state.tp2
          else leN (some c.low) eng.state.tp2) = false ∧
        (if truthy eng.state.isBull then geN (some c.high) eng.state.tp1
          else leN (some c.low) eng.state.tp1) = true)) := by
  unfold exitChecks
  dsimp only
  split_ifs with hb h1 h2 h3 h4 h5 h6 h7 h8 h9 h10
  all_goals refine ⟨rfl, rfl, rfl, rfl, rfl, rfl, ?_⟩
  all_goals simp_all [recordZoneEvent, exitReasonOf]

/-- The records that the in-trade branch appends: none, or one whose reason is the
first exit condition that holds on the bar. -/
theorem inTrade_exit_order (cfg : Config) (i : ℕ) (c : Candle) (eng : Engine)
    (ht : eng.state.isInTrade = true) :
    ∃ D, (inTrade cfg i c eng).positionsClosed = eng.positionsClosed ++ D ∧
      ∀ r ∈ D, r.exitBar = i ∧ r.exitReason ≠ ExitReason.EXIT ∧ ExitOrder c r := by
  obtain ⟨x0, x1, x2, x3, x4, x5, x6⟩ := exitChecks_exit_order i c eng
  unfold inTrade
  dsimp only
  rw [rebox_positionsClosed]
  by_cases he : (exitChecks i c eng).exitThisBar = true
  · simp only [he, if_true]
    unfold closeTrade
    dsimp only
    rw [if_pos (by rw [x1]; exact ht), x0]
    refine ⟨_, rfl, ?_⟩
    intro r hr
    rw [List.mem_singleton] at hr
    subst hr
    refine ⟨rfl, ?_, ?_⟩
    · rcases x6 he with h | h | h <;> simp [h.1]
    · unfold ExitOrder
      dsimp only
      rw [x2, x3, x4, x5]
      have hside : ((if truthy eng.state.isBull = true then Side.long else Side.short) =
          Side.long) ↔ truthy eng.state.isBull = true := by
        split_ifs with hb <;> simp [hb]
      simp only [hside]
      rcases x6 he with h | h | h
      · exact Or.inl ⟨h.1, by rw [h.1]; simp [exitPriceOf, x3], h.2⟩
      · exact Or.inr (Or.inl ⟨h.1, by rw [h.1]; simp [exitPriceOf, x5], h.2.1, h.2.2⟩)
      · exact Or.inr (Or.inr ⟨h.1, by rw [h.1]; simp [exitPriceOf, x4], h.2.1, h.2.2.1,
          h.2.2.2⟩)
  · simp only [he, Bool.false_eq_true, if_false]
    exact ⟨[], by rw [x0, List.append_nil], by simp⟩

theorem step_exit_order (cfg : Config) (i : ℕ) (c : Candle) (eng : Engine) :
    ∃ D, (step cfg i c eng).positionsClosed = eng.positionsClosed ++ D ∧
      ∀ r ∈ D, r.exitBar = i ∧ r.exitReason ≠ ExitReason.EXIT ∧ ExitOrder c r := by
  unfold step
  dsimp only
  by_cases ht : eng.state.isInTrade = true
  · simp only [ht, Bool.not_true, Bool.false_eq_true, if_false]
    exact inTrade_exit_order cfg i c eng ht
  · simp only [Bool.not_eq_true] at ht
    simp only [ht, Bool.not_false, if_true]
    exact ⟨[], by rw [notInTrade_positionsClosed, List.append_nil], by simp⟩

/-- Claim C27: in the box engine, for every bar sequence and config, every record of
`positionsClosed` has a reason among `SL_HIT`, `TP2_HIT`, `TP1_HIT`, never the
fallback `EXIT`; its closing bar is a bar of the input, the reason is the first exit
condition that holds on that bar in the order stop, second target, first target, and
the exit price is the `sl`, `tp2` or `tp1` of the trade accordingly. -/
theorem exit_reason_never_generic (candles : List Candle) (cfg : Config) :
    ∀ r ∈ (runEngine candles cfg).positionsClosed,
      r.exitReason ≠ ExitReason.EXIT ∧
      (r.exitReason = ExitReason.SL_HIT ∨ r.exitReason = ExitReason.TP2_HIT ∨
        r.exitReason = ExitReason.TP1_HIT) ∧
      ∃ c, candles[r.exitBar]? = some c ∧ ExitOrder c r := by
  have key : ∀ j, j ≤ candles.length →
      ∀ r ∈ (finalEngine (candles.take j) cfg).positionsClosed,
        r.exitReason ≠ ExitReason.EXIT ∧
        ∃ c, candles[r.exitBar]? = some c ∧ ExitOrder c r := by
    intro j
    induction j with
    | zero => intro _ r hr; simp [finalEngine, loop] at hr
    | succ j ih =>
      intro hj r hr
      rw [finalEngine_take_succ candles cfg j (by omega)] at hr
      obtain ⟨D, hD, hP⟩ := step_exit_order cfg j candles[j] (finalEngine (candles.take j) cfg)
      rw [hD] at hr
      rcases List.mem_append.1 hr with hr | hr
      · exact ih (by omega) r hr
      · obtain ⟨h1, h2, h3⟩ := hP r hr
        refine ⟨h2, candles[j], ?_, h3⟩
        rw [h1]
        exact List.getElem?_eq_getElem (by omega)
  intro r hr
  have hr2 : r ∈ (finalEngine (candles.take candles.length) cfg).positionsClosed := by
    rw [finalEngine_take_length]
    exact hr
  obtain ⟨h1, c, h2, h3⟩ := key candles.length le_rfl r hr2
  refine ⟨h1, ?_, c, h2, h3⟩
  cases hx : r.exitReason with
  | SL_HIT => exact Or.inl rfl
  | TP2_HIT => exact Or.inr (Or.inl rfl)
  | TP1_HIT => exact Or.inr (Or.inr rfl)
  | EXIT => exact absurd hx h1

/-- Claim C27 on the run on `longTradeCandles` followed by `bothHitBar`: its record
`bothHitTrade`, closed on bar 2 where both the stop and the second target are reached,
has the reason `SL_HIT` and the stop as exit price. -/
theorem exit_reason_never_generic_witness :
    bothHitTrade ∈ (runEngine (longTradeCandles ++ [bothHitBar]) {}).positionsClosed ∧
      (bothHitTrade.exitReason ≠ ExitReason.EXIT ∧
        (bothHitTrade.exitReason = ExitReason.SL_HIT ∨
          bothHitTrade.exitReason = ExitReason.TP2_HIT ∨
          bothHitTrade.exitReason = ExitReason.TP1_HIT) ∧
        ∃ c, (longTradeCandles ++ [bothHitBar])[bothHitTrade.exitBar]? = some c ∧
          ExitOrder c bothHitTrade) :=
  ⟨by decide!,
    exit_reason_never_generic (longTradeCandles ++ [bothHitBar]) {} bothHitTrade
      (by decide!)⟩

/-! ## C28 -/

/-- Claim C28: for every integer step of at least 2 and every number `num`, with `d`
the quotient for which `firstMultipleDown num step = d * step`: the two functions
`firstMultipleDown` and `firstMultipleUp` are either equal (both are the truncation of
`num`, which is then a multiple of the step) or adjacent multiples `d * step` and
`(d + 1) * step` with `num` strictly between them; `nearestMultiple num step` is one
of the two, no integer multiple of the step is nearer to `num`, and when `num` is
exactly halfway between two multiples `j * step` and `(j + 1) * step` it is the
smaller one, `j * step`. -/
theorem multiples_enclose_and_tie (num : ℚ) (step : ℤ) (hstep : 2 ≤ step) :
    ∃ d : ℤ, firstMultipleDown num step = some (((d * step : ℤ) : ℚ)) ∧
      ((firstMultipleUp num step = some (((d * step : ℤ) : ℚ)) ∧
          toIntTowardZero num = d * step) ∨
        (firstMultipleUp num step = some ((((d + 1) * step : ℤ) : ℚ)) ∧
          ((d * step : ℤ) : ℚ) < num ∧ num < (((d + 1) * step : ℤ) : ℚ))) ∧
      (nearestMultiple num step = firstMultipleDown num step ∨
        nearestMultiple num step = firstMultipleUp num step) ∧
      (∃ q : ℤ, nearestMultiple num step = some (((q * step : ℤ) : ℚ)) ∧
        ∀ j : ℤ, |num - ((q * step : ℤ) : ℚ)| ≤ |num - ((j * step : ℤ) : ℚ)|) ∧
      ∀ j : ℤ, num = ((j * step : ℤ) : ℚ) + (step : ℚ) / 2 →
        nearestMultiple num step = some (((j * step : ℤ) : ℚ)) := by
  have hs : 0 < step := by omega
  obtain ⟨k, h0, h1, hd, hu⟩ := firstMultiples_int num step hs
  obtain ⟨k2, h02, h12, hn⟩ := nearestMultiple_int num step hs
  have hk2 : k2 = k := by
    have a1 : k2 < k + 1 := by
      apply int_mul_lt_cancel step _ _ hs
      nlinarith
    have a2 : k < k2 + 1 := by
      apply int_mul_lt_cancel step _ _ hs
      nlinarith
    omega
  subst hk2
  obtain ⟨hnear, -⟩ := toIntTowardZero_near num
  rw [abs_lt] at hnear
  have hd2 : firstMultipleDown num step = some (((k2 * step : ℤ) : ℚ)) := by
    rw [hd, mul_comm]
  have e0 : ((k2 * step : ℤ) : ℚ) = ((step * k2 : ℤ) : ℚ) := by rw [mul_comm]
  have e1 : (((k2 + 1) * step : ℤ) : ℚ) = ((step * k2 + step : ℤ) : ℚ) := by
    congr 1; ring
  have below : ∀ j : ℤ, j ≤ k2 → ((j * step : ℤ) : ℚ) ≤ ((step * k2 : ℤ) : ℚ) := by
    intro j hj
    have : j * step ≤ step * k2 := by nlinarith
    exact_mod_cast this
  have above : ∀ j : ℤ, k2 + 1 ≤ j →
      ((step * k2 + step : ℤ) : ℚ) ≤ ((j * step : ℤ) : ℚ) := by
    intro j hj
    have : step * k2 + step ≤ j * step := by nlinarith
    exact_mod_cast this
  refine ⟨k2, hd2, ?_⟩
  by_cases h : toIntTowardZero num = step * k2
  · -- the truncation is a multiple: both functions return it
    rw [if_pos h] at hu hn
    have hu2 : firstMultipleUp num step = some (((k2 * step : ℤ) : ℚ)) := by
      rw [hu, mul_comm]
    have et : ((step * k2 : ℤ) : ℚ) = (toIntTowardZero num : ℚ) := by rw [h]
    refine ⟨Or.inl ⟨hu2, by rw [h, mul_comm]⟩, Or.inl (by rw [hn, hd]),
      ⟨k2, by rw [hn, mul_comm], fun j => ?_⟩, fun j hj => ?_⟩
    · rw [e0, et]
      rcases lt_trichotomy j k2 with hj | hj | hj
      · have hz : j * step + 2 ≤ toIntTowardZero num := by rw [h]; nlinarith
        have hq : ((j * step : ℤ) : ℚ) + 2 ≤ (toIntTowardZero num : ℚ) := by
          exact_mod_cast hz
        rw [abs_of_nonneg (a := num - ((j * step : ℤ) : ℚ)) (by linarith), abs_le]
        constructor <;> linarith
      · rw [hj, e0, et]
      · have hz : toIntTowardZero num + 2 ≤ j * step := by rw [h]; nlinarith
        have hq : (toIntTowardZero num : ℚ) + 2 ≤ ((j * step : ℤ) : ℚ) := by
          exact_mod_cast hz
        rw [abs_of_nonpos (a := num - ((j * step : ℤ) : ℚ)) (by linarith), abs_le]
        constructor <;> linarith
    · -- a number halfway between two multiples is at least 1 away from both
      exfalso
      have hs2 : (2 : ℚ) ≤ (step : ℚ) := by exact_mod_cast hstep
      have c1 : ((j * step : ℤ) : ℚ) < (toIntTowardZero num : ℚ) := by linarith
      have c2 : (toIntTowardZero num : ℚ) < (((j + 1) * step : ℤ) : ℚ) := by
        push_cast at hj ⊢
        linarith
      have c1z : j * step < toIntTowardZero num := by exact_mod_cast c1
      have c2z : toIntTowardZero num < (j + 1) * step := by exact_mod_cast c2
      rw [h] at c1z c2z
      have a1 : j < k2 := by
        apply int_mul_lt_cancel step _ _ hs
        nlinarith
      have a2 : k2 < j + 1 := by
        apply int_mul_lt_cancel step _ _ hs
        nlinarith
      omega
  · -- the truncation lies strictly between two adjacent multiples, and so does `num`
    rw [if_neg h] at hu hn
    have hD : ((step * k2 : ℤ) : ℚ) + 1 ≤ (toIntTowardZero num : ℚ) := by
      have : step * k2 + 1 ≤ toIntTowardZero num := by omega
      exact_mod_cast this
    have hU : (toIntTowardZero num : ℚ) + 1 ≤ ((step * k2 + step : ℤ) : ℚ) := by
      have : toIntTowardZero num + 1 ≤ step * k2 + step := by omega
      exact_mod_cast this
    have hu2 : firstMultipleUp num step = some ((((k2 + 1) * step : ℤ) : ℚ)) := by
      rw [hu, e1]
    refine ⟨Or.inr ⟨hu2, by rw [e0]; linarith, by rw [e1]; linarith⟩, ?_, ?_, ?_⟩
    · by_cases h2 : num - ((step * k2 : ℤ) : ℚ) > ((step * k2 + step : ℤ) : ℚ) - num
      · rw [if_pos h2] at hn
        exact Or.inr (by rw [hn, hu])
      · rw [if_neg h2] at hn
        exact Or.inl (by rw [hn, hd])
    · by_cases h2 : num - ((step * k2 : ℤ) : ℚ) > ((step * k2 + step : ℤ) : ℚ) - num
      · rw [if_pos h2] at hn
        refine ⟨k2 + 1, by rw [hn, e1], fun j => ?_⟩
        rw [e1, abs_of_nonpos (a := num - ((step * k2 + step : ℤ) : ℚ)) (by linarith)]
        rcases le_or_lt j k2 with hj | hj
        · have := below j hj
          rw [abs_of_nonneg (a := num - ((j * step : ℤ) : ℚ)) (by linarith)]
          linarith
        · have := above j hj
          rw [abs_of_nonpos (a := num - ((j * step : ℤ) : ℚ)) (by linarith)]
          linarith
      · rw [if_neg h2] at hn
        refine ⟨k2, by rw [hn, e0], fun j => ?_⟩
        rw [e0, abs_of_nonneg (a := num - ((step * k2 : ℤ) : ℚ)) (by linarith)]
        rcases le_or_lt j k2 with hj | hj
        · have := below j hj
          rw [abs_of_nonneg (a := num - ((j * step : ℤ) : ℚ)) (by linarith)]
          linarith
        · have := above j hj
          rw [abs_of_nonpos (a := num - ((j * step : ℤ) : ℚ)) (by linarith)]
          linarith
    · intro j hj
      have hs2 : (2 : ℚ) ≤ (step : ℚ) := by exact_mod_cast hstep
      -- `j` is the quotient `k2`
      have c1 : ((j * step : ℤ) : ℚ) < ((step * k2 + step : ℤ) : ℚ) := by linarith
      have c2 : ((step * k2 : ℤ) : ℚ) < (((j + 1) * step : ℤ) : ℚ) := by
        have hD2 := hD
        push_cast at hj hD2 ⊢
        linarith
      have c1z : j * step < step * k2 + step := by exact_mod_cast c1
      have c2z : step * k2 < (j + 1) * step := by exact_mod_cast c2
      have a1 : j < k2 + 1 := by
        apply int_mul_lt_cancel step _ _ hs
        nlinarith
      have a2 : k2 < j + 1 := by
        apply int_mul_lt_cancel step _ _ hs
        nlinarith
      have hjk : j = k2 := by omega
      subst hjk
      have htie : ¬ (num - ((step * j : ℤ) : ℚ) > ((step * j + step : ℤ) : ℚ) - num) := by
        push_cast at hj ⊢
        rw [hj]
        apply not_lt.2
        apply le_of_eq
        ring
      rw [if_neg htie] at hn
      rw [hn, e0]

/-- Claim C28 at step 5 and the number 2002.5, halfway between 2000 and 2005: the two
neighbours are 2000 and 2005 and the nearest multiple returned is the smaller one. -/
theorem multiples_enclose_and_tie_witness :
    (2 : ℤ) ≤ 5 ∧ firstMultipleDown (4005 / 2) 5 = some 2000 ∧
      firstMultipleUp (4005 / 2) 5 = some 2005 ∧
      nearestMultiple (4005 / 2) 5 = some 2000 ∧
      ∃ d : ℤ, firstMultipleDown (4005 / 2) ((5 : ℤ) : ℚ) = some (((d * 5 : ℤ) : ℚ)) :=
  ⟨by decide, by decide!, by decide!, by decide!,
    (multiples_enclose_and_tie (4005 / 2) 5 (by decide)).imp fun _ h => h.1⟩

end GoldenEra

namespace Fiverr

namespace F64

/-! ## Powers of two and the binary exponent -/

theorem pow2_eq (k : ℤ) : pow2 k = (2 : ℚ) ^ k := by
  unfold pow2
  split_ifs with h
  · obtain ⟨n, rfl⟩ := Int.eq_ofNat_of_zero_le h
    simp
  · obtain ⟨n, hn⟩ := Int.eq_ofNat_of_zero_le (show 0 ≤ -k by omega)
    have hk : k = -(n : ℤ) := by omega
    subst hk
    simp

theorem pow2_pos (k : ℤ) : 0 < pow2 k := by
  rw [pow2_eq]
  positivity

theorem pow2_add (a b : ℤ) : pow2 (a + b) = pow2 a * pow2 b := by
  rw [pow2_eq, pow2_eq, pow2_eq, zpow_add₀ (by norm_num)]

theorem pow2_sub (a b : ℤ) : pow2 (a - b) = pow2 a / pow2 b := by
  rw [pow2_eq, pow2_eq, pow2_eq, zpow_sub₀ (by norm_num)]

theorem pow2_le (a b : ℤ) (h : a ≤ b) : pow2 a ≤ pow2 b := by
  rw [pow2_eq, pow2_eq]
  exact zpow_le_zpow_right₀ (by norm_num) h

theorem pow2_lt (a b : ℤ) (h : a < b) : pow2 a < pow2 b := by
  rw [pow2_eq, pow2_eq]
  exact zpow_lt_zpow_right₀ (by norm_num) h

theorem pow2_natCast (n : ℕ) : pow2 (n : ℤ) = ((2 ^ n : ℕ) : ℚ) := by
  rw [pow2_eq]
  simp

theorem pow2_succ (a : ℤ) : pow2 (a + 1) = 2 * pow2 a := by
  rw [pow2_add, mul_comm]
  congr 1

theorem log2Aux_eq (fuel n : ℕ) (h : n ≤ fuel) : log2Aux fuel n = Nat.log2 n := by
  induction fuel generalizing n with
  | zero =>
    have : n = 0 := by omega
    subst this
    rw [Nat.log2, if_neg (by omega)]
    rfl
  | succ fuel ih =>
    unfold log2Aux
    rw [Nat.log2]
    by_cases h2 : 2 ≤ n
    · rw [if_pos h2, if_pos h2, ih (n / 2) (by omega)]
    · rw [if_neg h2, if_neg h2]

theorem log2_eq (n : ℕ) : log2 n = Nat.log2 n := log2Aux_eq n n le_rfl

theorem ratio_bracket (N D A B : ℚ) (hD : 0 < D) (hB : 0 < B) (a1 : A ≤ N)
    (a2 : N < 2 * A) (b1 : B ≤ D) (b2 : D < 2 * B) :
    A / B / 2 ≤ N / D ∧ N / D < 2 * (A / B) := by
  have hA : 0 ≤ N := by
    by_contra h
    push_neg at h
    nlinarith
  constructor
  · rw [div_div, div_le_div_iff₀ (by positivity) hD]
    nlinarith
  · rw [show 2 * (A / B) = (2 * A) / B by ring, div_lt_div_iff₀ hD hB]
    by_cases hN : N = 0
    · subst hN
      nlinarith
    · have : 0 < N := lt_of_le_of_ne hA (Ne.symm hN)
      nlinarith

/-- For a positive `x` the binary exponent brackets `x` between two powers of two. -/
theorem ilog2_spec (x : ℚ) (hx : 0 < x) :
    pow2 (ilog2 x) ≤ x ∧ x < pow2 (ilog2 x + 1) := by
  have hnum : 0 < x.num := Rat.num_pos.2 hx
  have hn0 : x.num.natAbs ≠ 0 := by omega
  have hd0 : x.den ≠ 0 := x.den_nz
  have hdpos : (0 : ℚ) < (x.den : ℚ) := by exact_mod_cast Nat.pos_of_ne_zero hd0
  have hxeq : (x.num.natAbs : ℚ) / (x.den : ℚ) = x := by
    rw [Nat.cast_natAbs, abs_of_pos hnum]
    exact Rat.num_div_den x
  have a1 : ((2 ^ x.num.natAbs.log2 : ℕ) : ℚ) ≤ (x.num.natAbs : ℚ) := by
    exact_mod_cast Nat.log2_self_le hn0
  have a2 : (x.num.natAbs : ℚ) < ((2 ^ (x.num.natAbs.log2 + 1) : ℕ) : ℚ) := by
    exact_mod_cast Nat.lt_log2_self
  have b1 : ((2 ^ x.den.log2 : ℕ) : ℚ) ≤ (x.den : ℚ) := by
    exact_mod_cast Nat.log2_self_le hd0
  have b2 : (x.den : ℚ) < ((2 ^ (x.den.log2 + 1) : ℕ) : ℚ) := by
    exact_mod_cast Nat.lt_log2_self
  rw [← pow2_natCast] at a1 a2 b1 b2
  have hB := pow2_pos (x.den.log2 : ℤ)
  have a2' : (x.num.natAbs : ℚ) < 2 * pow2 (x.num.natAbs.log2 : ℤ) := by
    rw [← pow2_succ]
    exact_mod_cast a2
  have b2' : (x.den : ℚ) < 2 * pow2 (x.den.log2 : ℤ) := by
    rw [← pow2_succ]
    exact_mod_cast b2
  obtain ⟨r1, r2⟩ := ratio_bracket _ _ _ _ hdpos hB a1 a2' b1 b2'
  rw [hxeq] at r1 r2
  have hlow : pow2 ((x.num.natAbs.log2 : ℤ) - (x.den.log2 : ℤ) - 1) ≤ x := by
    have : pow2 1 = 2 := by rw [pow2_eq]; norm_num
    rw [pow2_sub, pow2_sub, this]
    exact r1
  have hhigh : x < pow2 ((x.num.natAbs.log2 : ℤ) - (x.den.log2 : ℤ) + 1) := by
    rw [pow2_succ, pow2_sub]
    exact r2
  unfold ilog2
  rw [log2_eq, log2_eq]
  split_ifs with h
  · exact ⟨h, hhigh⟩
  · refine ⟨hlow, ?_⟩
    rw [sub_add_cancel]
    exact lt_of_not_le h

/-! ## Rounding to the nearest integer, ties to even -/

theorem rne_le (a : ℚ) : (rne a : ℚ) ≤ a + 1 / 2 := by
  have h1 := Int.floor_le a
  have h2 := Int.lt_floor_add_one a
  unfold rne
  split_ifs <;> push_cast <;> linarith

theorem le_rne (a : ℚ) : a - 1 / 2 ≤ (rne a : ℚ) := by
  have h1 := Int.floor_le a
  have h2 := Int.lt_floor_add_one a
  unfold rne
  split_ifs <;> push_cast <;> linarith

theorem rne_intCast (z : ℤ) : rne (z : ℚ) = z := by
  unfold rne
  rw [Int.floor_intCast, sub_self, if_pos (by norm_num)]

theorem rne_mono (a b : ℚ) (h : a ≤ b) : rne a ≤ rne b := by
  by_contra hlt
  push_neg at hlt
  have h1 : (rne b : ℚ) + 1 ≤ (rne a : ℚ) := by exact_mod_cast hlt
  have h2 := rne_le a
  have h3 := le_rne b
  have hab : a = b := le_antisymm h (by linarith)
  rw [hab] at hlt
  exact lt_irrefl _ hlt

/-- Ties to even make the rounding odd: `rne (-a) = - rne a`. -/
theorem rne_neg (a : ℚ) : rne (-a) = - rne a := by
  have f1 := Int.floor_le a
  have f2 := Int.lt_floor_add_one a
  by_cases hint : a = (⌊a⌋ : ℚ)
  · rw [hint, ← Int.cast_neg, rne_intCast, rne_intCast]
  · have hlt : (⌊a⌋ : ℚ) < a := lt_of_le_of_ne f1 (Ne.symm hint)
    have hfl : ⌊-a⌋ = -⌊a⌋ - 1 := by
      rw [Int.floor_eq_iff]
      push_cast
      constructor <;> linarith
    unfold rne
    rw [hfl]
    push_cast
    by_cases c1 : a - ⌊a⌋ < 1 / 2
    · rw [if_pos c1, if_neg (by linarith), if_pos (by linarith)]
      ring
    · by_cases c2 : 1 / 2 < a - ⌊a⌋
      · rw [if_neg c1, if_pos c2, if_pos (by linarith)]
        ring
      · rw [if_neg c1, if_neg c2, if_neg (by linarith), if_neg (by linarith)]
        by_cases c3 : ⌊a⌋ % 2 = 0
        · rw [if_pos c3, if_neg (by omega)]
          ring
        · rw [if_neg c3, if_pos (by omega)]
          ring

theorem rne_zero : rne 0 = 0 := by
  have := rne_intCast 0
  simpa using this

theorem rne_nonneg (a : ℚ) (h : 0 ≤ a) : 0 ≤ rne a := by
  have := rne_mono 0 a h
  rwa [rne_zero] at this

/-! ## Rounding to the nearest binary64 value -/

theorem ulp_pos (x : ℚ) : 0 < ulp x := pow2_pos _

theorem exponent_neg (x : ℚ) : exponent (-x) = exponent x := by
  unfold exponent
  rw [abs_neg]

theorem ulp_neg (x : ℚ) : ulp (-x) = ulp x := by
  unfold ulp
  rw [exponent_neg]

theorem nearest_neg (x : ℚ) : nearest (-x) = - nearest x := by
  unfold nearest
  rw [ulp_neg, neg_div, rne_neg]
  push_cast
  ring

theorem nearest_zero : nearest 0 = 0 := by
  unfold nearest
  rw [zero_div, rne_zero]
  simp

theorem abs_lt_pow2_exponent (x : ℚ) : |x| < pow2 (exponent x + 1) := by
  by_cases hx : x = 0
  · rw [hx, abs_zero]
    exact pow2_pos _
  · have h := (ilog2_spec |x| (abs_pos.2 hx)).2
    refine lt_of_lt_of_le h (pow2_le _ _ ?_)
    unfold exponent
    have := le_max_left (ilog2 |x|) (-1022)
    omega

theorem pow2_exponent_le (x : ℚ) (hx : x ≠ 0) (he : -1022 < exponent x) :
    pow2 (exponent x) ≤ |x| := by
  have h := (ilog2_spec |x| (abs_pos.2 hx)).1
  have : exponent x = ilog2 |x| := by
    unfold exponent at he ⊢
    rcases max_cases (ilog2 |x|) (-1022) with ⟨h1, _⟩ | ⟨h1, _⟩
    · exact h1
    · rw [h1] at he
      exact absurd he (lt_irrefl _)
  rw [this]
  exact h

theorem ilog2_mono (x y : ℚ) (hx : 0 < x) (h : x ≤ y) : ilog2 x ≤ ilog2 y := by
  obtain ⟨a1, a2⟩ := ilog2_spec x hx
  obtain ⟨b1, b2⟩ := ilog2_spec y (lt_of_lt_of_le hx h)
  by_contra hlt
  push_neg at hlt
  have := pow2_le (ilog2 y + 1) (ilog2 x) (by omega)
  linarith

theorem exponent_mono (x y : ℚ) (hx : 0 < x) (h : x ≤ y) : exponent x ≤ exponent y := by
  unfold exponent
  have := ilog2_mono |x| |y| (abs_pos.2 hx.ne') (by
    rw [abs_of_pos hx, abs_of_pos (lt_of_lt_of_le hx h)]
    exact h)
  exact max_le_max this le_rfl

theorem pow2_53 : pow2 53 = 2 ^ 53 := by
  rw [pow2_eq]
  norm_cast

theorem pow2_52 : pow2 52 = 2 ^ 52 := by
  rw [pow2_eq]
  norm_cast

/-- The scaled value `x / ulp x` is below `2 ^ 53` in absolute value. -/
theorem abs_scaled_lt (x : ℚ) : |x / ulp x| < 2 ^ 53 := by
  rw [abs_div, abs_of_pos (ulp_pos x), div_lt_iff₀ (ulp_pos x)]
  have h := abs_lt_pow2_exponent x
  have : pow2 (exponent x + 1) = 2 ^ 53 * ulp x := by
    unfold ulp
    rw [← pow2_53, ← pow2_add]
    congr 1
    ring
  rw [← this]
  exact h

/-- In the normal range the scaled value `x / ulp x` is at least `2 ^ 52`. -/
theorem le_abs_scaled (x : ℚ) (hx : x ≠ 0) (he : -1022 < exponent x) :
    2 ^ 52 ≤ |x / ulp x| := by
  rw [abs_div, abs_of_pos (ulp_pos x), le_div_iff₀ (ulp_pos x)]
  have h := pow2_exponent_le x hx he
  have : pow2 (exponent x) = 2 ^ 52 * ulp x := by
    unfold ulp
    rw [← pow2_52, ← pow2_add]
    congr 1
    ring
  rw [← this]
  exact h

theorem nearest_nonneg (x : ℚ) (hx : 0 ≤ x) : 0 ≤ nearest x := by
  unfold nearest
  have h1 : 0 ≤ rne (x / ulp x) := rne_nonneg _ (div_nonneg hx (ulp_pos x).le)
  have h2 : (0 : ℚ) ≤ (rne (x / ulp x) : ℚ) := by exact_mod_cast h1
  exact mul_nonneg h2 (ulp_pos x).le

/-- The rounded value stays within the binade of `x`, its upper end included. -/
theorem nearest_le_pow2 (x : ℚ) (hx : 0 ≤ x) : nearest x ≤ pow2 (exponent x + 1) := by
  have h := abs_scaled_lt x
  rw [abs_of_nonneg (div_nonneg hx (ulp_pos x).le)] at h
  have h1 : rne (x / ulp x) ≤ 2 ^ 53 := by
    have := rne_mono _ _ h.le
    have e : rne ((2 : ℚ) ^ 53) = 2 ^ 53 := by
      have := rne_intCast (2 ^ 53)
      push_cast at this
      exact this
    rwa [e] at this
  have h2 : (rne (x / ulp x) : ℚ) ≤ 2 ^ 53 := by exact_mod_cast h1
  have e : pow2 (exponent x + 1) = 2 ^ 53 * ulp x := by
    unfold ulp
    rw [← pow2_53, ← pow2_add]
    congr 1
    ring
  rw [e]
  unfold nearest
  exact mul_le_mul_of_nonneg_right h2 (ulp_pos x).le

theorem pow2_le_nearest (x : ℚ) (hx : 0 < x) (he : -1022 < exponent x) :
    pow2 (exponent x) ≤ nearest x := by
  have h := le_abs_scaled x hx.ne' he
  rw [abs_of_nonneg (div_nonneg hx.le (ulp_pos x).le)] at h
  have h1 : 2 ^ 52 ≤ rne (x / ulp x) := by
    have := rne_mono _ _ h
    have e : rne ((2 : ℚ) ^ 52) = 2 ^ 52 := by
      have := rne_intCast (2 ^ 52)
      push_cast at this
      exact this
    rwa [e] at this
  have h2 : (2 : ℚ) ^ 52 ≤ (rne (x / ulp x) : ℚ) := by exact_mod_cast h1
  have e : pow2 (exponent x) = 2 ^ 52 * ulp x := by
    unfold ulp
    rw [← pow2_52, ← pow2_add]
    congr 1
    ring
  rw [e]
  unfold nearest
  exact mul_le_mul_of_nonneg_right h2 (ulp_pos x).le

theorem nearest_mono_pos (x y : ℚ) (hx : 0 < x) (h : x ≤ y) : nearest x ≤ nearest y := by
  have hy : 0 < y := lt_of_lt_of_le hx h
  rcases (exponent_mono x y hx h).lt_or_eq with hlt | heq
  · have a := nearest_le_pow2 x hx.le
    have b := pow2_le_nearest y hy (by
      have : -1022 ≤ exponent x := le_max_right _ _
      omega)
    have c := pow2_le (exponent x + 1) (exponent y) (by omega)
    linarith
  · have hu : ulp x = ulp y := by
      unfold ulp
      rw [heq]
    unfold nearest
    rw [hu]
    have := rne_mono (x / ulp y) (y / ulp y) (div_le_div_of_nonneg_right h (ulp_pos y).le)
    have : (rne (x / ulp y) : ℚ) ≤ (rne (y / ulp y) : ℚ) := by exact_mod_cast this
    exact mul_le_mul_of_nonneg_right this (ulp_pos y).le

/-- Rounding to the nearest binary64 value is monotone. -/
theorem nearest_mono (x y : ℚ) (h : x ≤ y) : nearest x ≤ nearest y := by
  rcases lt_trichotomy 0 x with hx | hx | hx
  · exact nearest_mono_pos x y hx h
  · rw [← hx, nearest_zero]
    exact nearest_nonneg y (hx ▸ h)
  · rcases lt_or_le y 0 with hy | hy
    · have := nearest_mono_pos (-y) (-x) (by linarith) (by linarith)
      rw [nearest_neg, nearest_neg] at this
      linarith
    · have a := nearest_nonneg y hy
      have b := nearest_nonneg (-x) (by linarith)
      rw [nearest_neg] at b
      linarith

/-! ## Representable values -/

/-- A multiple `z * 2 ^ g` of a power of two with `|z| < 2 ^ 53` and `g ≥ -1074` is
a binary64 value: rounding leaves it unchanged. -/
theorem nearest_grid (z g : ℤ) (hz : |z| < 2 ^ 53) (hg : -1074 ≤ g) :
    nearest ((z : ℚ) * pow2 g) = (z : ℚ) * pow2 g := by
  by_cases hz0 : z = 0
  · rw [hz0]
    simp [nearest_zero]
  have hzq : |(z : ℚ)| < 2 ^ 53 := by exact_mod_cast hz
  have hx0 : (z : ℚ) * pow2 g ≠ 0 :=
    mul_ne_zero (by exact_mod_cast hz0) (pow2_pos g).ne'
  have habs : |(z : ℚ) * pow2 g| < pow2 (g + 53) := by
    rw [abs_mul, abs_of_pos (pow2_pos g), pow2_add, pow2_53, mul_comm]
    exact mul_lt_mul_of_pos_left hzq (pow2_pos g)
  have hE : exponent ((z : ℚ) * pow2 g) ≤ g + 52 := by
    unfold exponent
    refine max_le ?_ (by omega)
    by_contra hlt
    push_neg at hlt
    have h1 := (ilog2_spec _ (abs_pos.2 hx0)).1
    have h2 := pow2_le (g + 53) (ilog2 |(z : ℚ) * pow2 g|) (by omega)
    linarith
  obtain ⟨n, hn⟩ := Int.eq_ofNat_of_zero_le
    (show 0 ≤ g - exponent ((z : ℚ) * pow2 g) + 52 by omega)
  have hscaled : (z : ℚ) * pow2 g / ulp ((z : ℚ) * pow2 g) = ((z * 2 ^ n : ℤ) : ℚ) := by
    unfold ulp
    rw [mul_div_assoc, ← pow2_sub]
    have : g - (exponent ((z : ℚ) * pow2 g) - 52) = (n : ℤ) := by omega
    rw [this, pow2_natCast]
    push_cast
    ring
  unfold nearest
  rw [hscaled, rne_intCast, ← hscaled]
  exact div_mul_cancel₀ _ (ulp_pos _).ne'

/-- The rounded value is a multiple of the unit in the last place by an integer of
absolute value at most `2 ^ 53`. -/
theorem abs_rne_scaled_le (x : ℚ) : |rne (x / ulp x)| ≤ 2 ^ 53 := by
  have h := abs_scaled_lt x
  rw [abs_lt] at h
  have e1 : rne ((2 : ℚ) ^ 53) = 2 ^ 53 := by
    have := rne_intCast (2 ^ 53)
    push_cast at this
    exact this
  have e2 : rne (-(2 : ℚ) ^ 53) = -2 ^ 53 := by
    rw [rne_neg, e1]
  have h1 := rne_mono _ _ h.2.le
  have h2 := rne_mono _ _ h.1.le
  rw [e1] at h1
  rw [e2] at h2
  rw [abs_le]
  exact ⟨h2, h1⟩

theorem exponent_ge (x : ℚ) : -1022 ≤ exponent x := le_max_right _ _

/-- Every rounded value is on a grid `z * 2 ^ g` with `|z| < 2 ^ 53` and
`g ≥ -1074`. -/
theorem nearest_on_grid (x : ℚ) :
    ∃ z g : ℤ, |z| < 2 ^ 53 ∧ -1074 ≤ g ∧ nearest x = (z : ℚ) * pow2 g := by
  have hle := abs_rne_scaled_le x
  have hE := exponent_ge x
  rcases hle.lt_or_eq with hlt | heq
  · exact ⟨rne (x / ulp x), exponent x - 52, hlt, by omega, rfl⟩
  · rcases abs_eq (by norm_num : (0 : ℤ) ≤ 2 ^ 53) |>.1 heq with h | h
    · refine ⟨2 ^ 52, exponent x - 51, by norm_num, by omega, ?_⟩
      unfold nearest
      rw [h, show exponent x - 51 = (exponent x - 52) + 1 by ring, pow2_succ]
      unfold ulp
      push_cast
      ring
    · refine ⟨-2 ^ 52, exponent x - 51, by norm_num, by omega, ?_⟩
      unfold nearest
      rw [h, show exponent x - 51 = (exponent x - 52) + 1 by ring, pow2_succ]
      unfold ulp
      push_cast
      ring

/-- Rounding is idempotent: a rounded value is a binary64 value. -/
theorem nearest_idem (x : ℚ) : nearest (nearest x) = nearest x := by
  obtain ⟨z, g, hz, hg, h⟩ := nearest_on_grid x
  rw [h]
  exact nearest_grid z g hz hg

theorem fl_eq_some (x y : ℚ) (h : fl x = some y) : y = nearest x ∧ |y| ≤ maxValue := by
  unfold fl at h
  split_ifs at h with hm
  have := Option.some.inj h
  rw [← this]
  exact ⟨rfl, hm⟩

theorem isDouble_of_fl (x y : ℚ) (h : fl x = some y) : IsDouble y := by
  obtain ⟨h1, h2⟩ := fl_eq_some x y h
  unfold IsDouble fl
  rw [h1, nearest_idem, if_pos (h1 ▸ h2)]

theorem nearest_of_isDouble (x : ℚ) (h : IsDouble x) : nearest x = x :=
  (fl_eq_some x x h).1.symm

theorem isDouble_on_grid (x : ℚ) (h : IsDouble x) :
    ∃ z g : ℤ, |z| < 2 ^ 53 ∧ -1074 ≤ g ∧ x = (z : ℚ) * pow2 g := by
  obtain ⟨z, g, hz, hg, e⟩ := nearest_on_grid x
  rw [nearest_of_isDouble x h] at e
  exact ⟨z, g, hz, hg, e⟩

/-! ## The binary64 ladder in loop order -/

theorem collect_map_eq (f : ℕ → Option ℚ) (g : ℕ → ℚ)
    (hfg : ∀ i v, f i = some v → v = g i) (l : List ℕ) (r : List ℚ)
    (h : collect (l.map f) = some r) :
    r = l.map g ∧ ∀ i ∈ l, f i = some (g i) := by
  induction l generalizing r with
  | nil =>
    simp only [List.map_nil, collect, Option.some.injEq] at h
    subst h
    exact ⟨rfl, fun i hi => absurd hi (List.not_mem_nil i)⟩
  | cons a l ih =>
    rw [List.map_cons] at h
    cases hfa : f a with
    | none =>
      rw [hfa] at h
      simp [collect] at h
    | some v =>
      rw [hfa] at h
      simp only [collect, Option.map_eq_some'] at h
      obtain ⟨r0, hr0, rfl⟩ := h
      obtain ⟨e1, e2⟩ := ih r0 hr0
      have hv := hfg a v hfa
      refine ⟨by rw [List.map_cons, ← hv, ← e1], ?_⟩
      intro i hi
      rcases List.mem_cons.1 hi with rfl | hi
      · rw [hfa, hv]
      · exact e2 i hi

/-- The value that a finite `upLevel` has. -/
theorem upLevel_eq_some (b s : ℚ) (i : ℕ) (v : ℚ) (h : upLevel b s i = some v) :
    v = nearest (b + nearest (nearest ((i : ℚ) + 1) * s)) := by
  unfold upLevel add mul at h
  simp only [Option.bind_eq_some] at h
  obtain ⟨j, hj, t, ht, hv⟩ := h
  rw [(fl_eq_some _ _ hv).1, (fl_eq_some _ _ ht).1, (fl_eq_some _ _ hj).1]

/-- The value that a finite `dnLevel` has. -/
theorem dnLevel_eq_some (b s : ℚ) (i : ℕ) (v : ℚ) (h : dnLevel b s i = some v) :
    v = nearest (b - nearest ((i : ℚ) * s)) := by
  unfold dnLevel sub mul at h
  simp only [Option.bind_eq_some] at h
  obtain ⟨t, ht, hv⟩ := h
  rw [(fl_eq_some _ _ hv).1, (fl_eq_some _ _ ht).1]

theorem upVal_mono (b s : ℚ) (hs : 0 ≤ s) (i j : ℕ) (h : i ≤ j) :
    nearest (b + nearest (nearest ((i : ℚ) + 1) * s)) ≤
      nearest (b + nearest (nearest ((j : ℚ) + 1) * s)) := by
  have h0 : (i : ℚ) + 1 ≤ (j : ℚ) + 1 := by
    have : (i : ℚ) ≤ (j : ℚ) := by exact_mod_cast h
    linarith
  have h1 := nearest_mono _ _ h0
  have h2 := nearest_mono _ _ (mul_le_mul_of_nonneg_right h1 hs)
  exact nearest_mono _ _ (by linarith)

theorem dnVal_anti (b s : ℚ) (hs : 0 ≤ s) (i j : ℕ) (h : i ≤ j) :
    nearest (b - nearest ((j : ℚ) * s)) ≤ nearest (b - nearest ((i : ℚ) * s)) := by
  have h0 : (i : ℚ) ≤ (j : ℚ) := by exact_mod_cast h
  have h2 := nearest_mono _ _ (mul_le_mul_of_nonneg_right h0 hs)
  exact nearest_mono _ _ (by linarith)

/-- Sorting the pushed values of a monotone loop gives them in index order. -/
theorem sort_reverse_map_mono (g : ℕ → ℚ) (hg : ∀ i j, i ≤ j → g i ≤ g j) (n : ℕ) :
    (((List.range n).reverse.map g).insertionSort (· ≤ ·)) = (List.range n).map g := by
  apply List.eq_of_perm_of_sorted (r := (· ≤ ·))
  · refine (List.perm_insertionSort _ _).trans ?_
    rw [List.map_reverse]
    exact List.reverse_perm _
  · exact List.sorted_insertionSort _ _
  · unfold List.Sorted
    rw [List.pairwise_map]
    exact (List.pairwise_lt_range n).imp (fun hab => hg _ _ (le_of_lt hab))

theorem sort_reverse_map_anti (g : ℕ → ℚ) (hg : ∀ i j, i ≤ j → g j ≤ g i) (n : ℕ) :
    (((List.range n).reverse.map g).insertionSort (· ≥ ·)) = (List.range n).map g := by
  apply List.eq_of_perm_of_sorted (r := (· ≥ ·))
  · refine (List.perm_insertionSort _ _).trans ?_
    rw [List.map_reverse]
    exact List.reverse_perm _
  · exact List.sorted_insertionSort _ _
  · unfold List.Sorted
    rw [List.pairwise_map]
    exact (List.pairwise_lt_range n).imp (fun hab => hg _ _ (le_of_lt hab))

/-- When the binary64 ladder is finite and the step is not negative, the sorted arrays
hold the loop values in index order: `up[j]` is the value pushed for `i = j`, and so
is `dn[j]`. -/
theorem ladder_in_loop_order (price pips pipSize : ℚ) (nLevels : ℤ) (lv : Levels)
    (h : processLevels price pips nLevels pipSize = some lv)
    (hs : 0 ≤ lv.levelSizeInPrice) :
    pipsToPrice pips pipSize = some lv.levelSizeInPrice ∧
    ∃ q base, div price lv.levelSizeInPrice = some q ∧
      mul (⌊q⌋ : ℚ) lv.levelSizeInPrice = some base ∧
      lv.up = (List.range nLevels.toNat).map
        (fun (i : ℕ) => nearest (base + nearest (nearest ((i : ℚ) + 1) *
          lv.levelSizeInPrice))) ∧
      lv.dn = (List.range nLevels.toNat).map
        (fun (i : ℕ) => nearest (base - nearest ((i : ℚ) * lv.levelSizeInPrice))) ∧
      ∀ j, j < nLevels.toNat →
        upLevel base lv.levelSizeInPrice j = some (nearest (base + nearest
          (nearest ((j : ℚ) + 1) * lv.levelSizeInPrice))) ∧
        dnLevel base lv.levelSizeInPrice j = some (nearest (base - nearest
          ((j : ℚ) * lv.levelSizeInPrice))) := by
  unfold processLevels at h
  simp only [Option.bind_eq_some] at h
  obtain ⟨ls, hls, q, hq, base, hbase, ups, hups, dns, hdns, hlv⟩ := h
  have hlv2 := Option.some.inj hlv
  subst hlv2
  dsimp only at hs ⊢
  obtain ⟨u1, u2⟩ := collect_map_eq (upLevel base ls) _ (upLevel_eq_some base ls) _ _ hups
  obtain ⟨d1, d2⟩ := collect_map_eq (dnLevel base ls) _ (dnLevel_eq_some base ls) _ _ hdns
  refine ⟨hls, q, base, hq, hbase, ?_, ?_, ?_⟩
  · rw [u1]
    exact sort_reverse_map_mono _ (upVal_mono base ls hs) _
  · rw [d1]
    exact sort_reverse_map_anti _ (dnVal_anti base ls hs) _
  · intro j hj
    have hm : j ∈ (List.range nLevels.toNat).reverse := by
      rw [List.mem_reverse, List.mem_range]
      exact hj
    exact ⟨u2 j hm, d2 j hm⟩

/-! ## Steps on which the ladder arithmetic is exact -/

theorem nearest_intCast_mul (z a g : ℤ) (hza : |z * a| < 2 ^ 53) (hg : -1074 ≤ g) :
    nearest ((z : ℚ) * ((a : ℚ) * pow2 g)) = (z : ℚ) * ((a : ℚ) * pow2 g) := by
  have := nearest_grid (z * a) g hza hg
  push_cast at this
  rw [← mul_assoc]
  exact this

theorem nearest_intCast (z : ℤ) (hz : |z| < 2 ^ 53) : nearest (z : ℚ) = (z : ℚ) := by
  have := nearest_grid z 0 hz (by norm_num)
  have e : pow2 0 = 1 := by rw [pow2_eq]; norm_num
  rw [e, mul_one] at this
  exact this

/-- On a step `a * 2 ^ g` with `(|k| + j + 1) * a < 2 ^ 53` the up level of round `j`
above the base `k * step` is computed without rounding. -/
theorem upVal_grid (k : ℤ) (a : ℕ) (g : ℤ) (j : ℕ) (ha : 1 ≤ a) (hg : -1074 ≤ g)
    (hb : (|k| + (j : ℤ) + 1) * (a : ℤ) < 2 ^ 53) :
    nearest ((k : ℚ) * ((a : ℚ) * pow2 g) +
        nearest (nearest ((j : ℚ) + 1) * ((a : ℚ) * pow2 g))) =
      (k : ℚ) * ((a : ℚ) * pow2 g) + ((j : ℚ) + 1) * ((a : ℚ) * pow2 g) := by
  have hk0 : 0 ≤ |k| := abs_nonneg k
  have ha1 : (1 : ℤ) ≤ (a : ℤ) := by exact_mod_cast ha
  have e1 : nearest ((j : ℚ) + 1) = (j : ℚ) + 1 := by
    have := nearest_intCast ((j : ℤ) + 1) (by
      rw [abs_of_nonneg (by positivity)]
      nlinarith)
    push_cast at this
    exact this
  have e2 : nearest (((j : ℚ) + 1) * ((a : ℚ) * pow2 g)) =
      ((j : ℚ) + 1) * ((a : ℚ) * pow2 g) := by
    have := nearest_intCast_mul ((j : ℤ) + 1) (a : ℤ) g (by
      rw [abs_of_nonneg (by positivity)]
      nlinarith) hg
    push_cast at this
    exact this
  rw [e1, e2]
  have e3 := nearest_intCast_mul (k + (j : ℤ) + 1) (a : ℤ) g (by
    rw [abs_mul, abs_of_nonneg (by positivity : (0 : ℤ) ≤ (a : ℤ))]
    have : |k + (j : ℤ) + 1| ≤ |k| + (j : ℤ) + 1 := by
      rw [abs_le]
      have := neg_abs_le k
      have := le_abs_self k
      constructor <;> omega
    nlinarith) hg
  push_cast at e3
  rw [show (k : ℚ) * ((a : ℚ) * pow2 g) + ((j : ℚ) + 1) * ((a : ℚ) * pow2 g) =
    ((k : ℚ) + (j : ℚ) + 1) * ((a : ℚ) * pow2 g) by ring]
  exact e3

/-- On a step `a * 2 ^ g` with `(|k| + j) * a < 2 ^ 53` the down level of round `j`
below the base `k * step` is computed without rounding. -/
theorem dnVal_grid (k : ℤ) (a : ℕ) (g : ℤ) (j : ℕ) (hg : -1074 ≤ g)
    (hb : (|k| + (j : ℤ)) * (a : ℤ) < 2 ^ 53) :
    nearest ((k : ℚ) * ((a : ℚ) * pow2 g) - nearest ((j : ℚ) * ((a : ℚ) * pow2 g))) =
      (k : ℚ) * ((a : ℚ) * pow2 g) - (j : ℚ) * ((a : ℚ) * pow2 g) := by
  have hk0 : 0 ≤ |k| := abs_nonneg k
  have ha0 : (0 : ℤ) ≤ (a : ℤ) := by positivity
  have e2 : nearest ((j : ℚ) * ((a : ℚ) * pow2 g)) = (j : ℚ) * ((a : ℚ) * pow2 g) := by
    have := nearest_intCast_mul (j : ℤ) (a : ℤ) g (by
      rw [abs_of_nonneg (by positivity)]
      nlinarith) hg
    push_cast at this
    exact this
  rw [e2]
  have e3 := nearest_intCast_mul (k - (j : ℤ)) (a : ℤ) g (by
    rw [abs_mul, abs_of_nonneg ha0]
    have : |k - (j : ℤ)| ≤ |k| + (j : ℤ) := by
      rw [abs_le]
      have := neg_abs_le k
      have := le_abs_self k
      constructor <;> omega
    nlinarith) hg
  push_cast at e3
  rw [show (k : ℚ) * ((a : ℚ) * pow2 g) - (j : ℚ) * ((a : ℚ) * pow2 g) =
    ((k : ℚ) - (j : ℚ)) * ((a : ℚ) * pow2 g) by ring]
  exact e3

/-- On a step `a * 2 ^ g` with `(|k| + n) * a < 2 ^ 53`, where `k` is the floor of the
rounded quotient and `n` the number of levels, the finite binary64 ladder is the exact
ladder on the base `k * step`. -/
theorem ladder_exact_on_grid (price pips pipSize : ℚ) (nLevels : ℤ) (lv : Levels)
    (q : ℚ) (a : ℕ) (g : ℤ)
    (h : processLevels price pips nLevels pipSize = some lv)
    (hq : div price lv.levelSizeInPrice = some q)
    (ha : 1 ≤ a) (hg : -1074 ≤ g) (hstep : lv.levelSizeInPrice = (a : ℚ) * pow2 g)
    (hb : (|⌊q⌋| + (nLevels.toNat : ℤ)) * (a : ℤ) < 2 ^ 53) :
    lv.up = (List.range nLevels.toNat).map
        (fun (i : ℕ) => (⌊q⌋ : ℚ) * lv.levelSizeInPrice +
          ((i : ℚ) + 1) * lv.levelSizeInPrice) ∧
      lv.dn = (List.range nLevels.toNat).map
        (fun (i : ℕ) => (⌊q⌋ : ℚ) * lv.levelSizeInPrice -
          (i : ℚ) * lv.levelSizeInPrice) := by
  have hpos : 0 ≤ lv.levelSizeInPrice := by
    rw [hstep]
    exact mul_nonneg (by positivity) (pow2_pos g).le
  obtain ⟨-, q0, base, hq0, hbase, hup, hdn, -⟩ :=
    ladder_in_loop_order price pips pipSize nLevels lv h hpos
  have hqq : q0 = q := Option.some.inj (hq0.symm.trans hq)
  subst hqq
  have hk0 : 0 ≤ |⌊q0⌋| := abs_nonneg _
  have ha0 : (0 : ℤ) ≤ (a : ℤ) := by positivity
  have hn0 : (0 : ℤ) ≤ (nLevels.toNat : ℤ) := by positivity
  have hbase2 : base = (⌊q0⌋ : ℚ) * lv.levelSizeInPrice := by
    rw [(fl_eq_some _ _ hbase).1, hstep]
    exact nearest_intCast_mul ⌊q0⌋ (a : ℤ) g (by
      rw [abs_mul, abs_of_nonneg ha0]
      nlinarith) hg
  rw [hup, hdn, hbase2, hstep]
  constructor
  · apply List.map_congr_left
    intro i hi
    have hi2 : i < nLevels.toNat := List.mem_range.1 hi
    have hi3 : (i : ℤ) + 1 ≤ (nLevels.toNat : ℤ) := by exact_mod_cast hi2
    exact upVal_grid ⌊q0⌋ a g i ha hg (by nlinarith)
  · apply List.map_congr_left
    intro i hi
    have hi2 : i < nLevels.toNat := List.mem_range.1 hi
    have hi3 : (i : ℤ) + 1 ≤ (nLevels.toNat : ℤ) := by exact_mod_cast hi2
    exact dnVal_grid ⌊q0⌋ a g i hg (by nlinarith)

/-! ## The floor of a rounded quotient -/

/-- Rounding moves a value by at most half a unit in the last place. -/
theorem abs_nearest_sub_le (x : ℚ) : |nearest x - x| ≤ ulp x / 2 := by
  have hu := ulp_pos x
  have h1 := rne_le (x / ulp x)
  have h2 := le_rne (x / ulp x)
  have e : nearest x - x = ((rne (x / ulp x) : ℚ) - x / ulp x) * ulp x := by
    unfold nearest
    field_simp
  rw [e, abs_le]
  constructor <;> nlinarith

theorem pow2_exponent_le_of_normal (x : ℚ) (h : pow2 (-1022) ≤ |x|) :
    pow2 (exponent x) ≤ |x| := by
  have hx : x ≠ 0 := by
    intro h0
    rw [h0, abs_zero] at h
    exact absurd (pow2_pos (-1022)) (not_lt.2 h)
  unfold exponent
  rcases max_cases (ilog2 |x|) (-1022) with ⟨h1, _⟩ | ⟨h1, _⟩
  · rw [h1]
    exact (ilog2_spec |x| (abs_pos.2 hx)).1
  · rw [h1]
    exact h

/-- In the normal range rounding moves a value by at most `2 ^ (-53)` of its size. -/
theorem abs_nearest_sub_le_rel (x : ℚ) (h : pow2 (-1022) ≤ |x|) :
    |nearest x - x| ≤ |x| / 2 ^ 53 := by
  have h1 := abs_nearest_sub_le x
  have h2 := pow2_exponent_le_of_normal x h
  have e : pow2 (exponent x) = 2 ^ 52 * ulp x := by
    unfold ulp
    rw [← pow2_52, ← pow2_add]
    congr 1
    ring
  rw [e] at h2
  rw [le_div_iff₀ (by positivity)]
  linarith

theorem pow2_zero : pow2 0 = 1 := by
  rw [pow2_eq]
  norm_num

/-- A rounded value stays between the integers around the exact value. -/
theorem nearest_between_floor (x : ℚ) (hx : |⌊x⌋| + 1 < 2 ^ 53) :
    (⌊x⌋ : ℚ) ≤ nearest x ∧ nearest x ≤ (⌊x⌋ : ℚ) + 1 := by
  have h1 := Int.floor_le x
  have h2 := (Int.lt_floor_add_one x).le
  have a1 := nearest_intCast ⌊x⌋ (by
    have := abs_nonneg ⌊x⌋
    omega)
  have a2 := nearest_intCast (⌊x⌋ + 1) (by
    have : |⌊x⌋ + 1| ≤ |⌊x⌋| + 1 := by
      rw [abs_le]
      have := neg_abs_le ⌊x⌋
      have := le_abs_self ⌊x⌋
      constructor <;> omega
    omega)
  push_cast at a2
  have m1 := nearest_mono _ _ h1
  have m2 := nearest_mono _ _ h2
  rw [a1] at m1
  rw [a2] at m2
  exact ⟨m1, m2⟩

/-- A positive difference of a multiple of `2 ^ g` and a multiple of `2 ^ s` is at
least the smaller of the two powers. -/
theorem grid_gap (Z a P g s : ℤ)
    (h : 0 < (Z : ℚ) * ((a : ℚ) * pow2 g) - (P : ℚ) * pow2 s) :
    pow2 g ≤ (Z : ℚ) * ((a : ℚ) * pow2 g) - (P : ℚ) * pow2 s ∨
      pow2 s ≤ (Z : ℚ) * ((a : ℚ) * pow2 g) - (P : ℚ) * pow2 s := by
  rcases le_or_lt g s with hgs | hsg
  · left
    obtain ⟨t, ht⟩ := Int.eq_ofNat_of_zero_le (show 0 ≤ s - g by omega)
    have hpow : pow2 s = ((2 ^ t : ℕ) : ℚ) * pow2 g := by
      rw [← pow2_natCast, ← pow2_add]
      congr 1
      omega
    have e : (Z : ℚ) * ((a : ℚ) * pow2 g) - (P : ℚ) * pow2 s =
        ((Z * a - P * (2 ^ t : ℕ) : ℤ) : ℚ) * pow2 g := by
      rw [hpow]
      push_cast
      ring
    rw [e] at h ⊢
    have hgp := pow2_pos g
    have hZ : (0 : ℚ) < ((Z * a - P * (2 ^ t : ℕ) : ℤ) : ℚ) := by
      by_contra hneg
      push_neg at hneg
      have := mul_nonpos_of_nonpos_of_nonneg hneg hgp.le
      linarith
    have hZ1 : (1 : ℤ) ≤ Z * a - P * (2 ^ t : ℕ) := by
      have : (0 : ℤ) < Z * a - P * (2 ^ t : ℕ) := by exact_mod_cast hZ
      omega
    have hZ2 : (1 : ℚ) ≤ ((Z * a - P * (2 ^ t : ℕ) : ℤ) : ℚ) := by exact_mod_cast hZ1
    exact le_mul_of_one_le_left hgp.le hZ2
  · right
    obtain ⟨t, ht⟩ := Int.eq_ofNat_of_zero_le (show 0 ≤ g - s by omega)
    have hpow : pow2 g = ((2 ^ t : ℕ) : ℚ) * pow2 s := by
      rw [← pow2_natCast, ← pow2_add]
      congr 1
      omega
    have e : (Z : ℚ) * ((a : ℚ) * pow2 g) - (P : ℚ) * pow2 s =
        ((Z * a * (2 ^ t : ℕ) - P : ℤ) : ℚ) * pow2 s := by
      rw [hpow]
      push_cast
      ring
    rw [e] at h ⊢
    have hsp := pow2_pos s
    have hZ : (0 : ℚ) < ((Z * a * (2 ^ t : ℕ) - P : ℤ) : ℚ) := by
      by_contra hneg
      push_neg at hneg
      have := mul_nonpos_of_nonpos_of_nonneg hneg hsp.le
      linarith
    have hZ1 : (1 : ℤ) ≤ Z * a * (2 ^ t : ℕ) - P := by
      have : (0 : ℤ) < Z * a * (2 ^ t : ℕ) - P := by exact_mod_cast hZ
      omega
    have hZ2 : (1 : ℚ) ≤ ((Z * a * (2 ^ t : ℕ) - P : ℤ) : ℚ) := by exact_mod_cast hZ1
    exact le_mul_of_one_le_left hsp.le hZ2

/-- A quotient `x = price / step` of the normal range, of a binary64 price by a step
`a * 2 ^ g` with `(|floor x| + 1) * a < 2 ^ 53`, is not rounded up to the next
integer. -/
theorem nearest_lt_next_int (x price : ℚ) (a : ℕ) (g : ℤ) (hp : IsDouble price)
    (hpr : price = x * ((a : ℚ) * pow2 g)) (ha : 1 ≤ a)
    (hb : (|⌊x⌋| + 1) * (a : ℤ) < 2 ^ 53) (hnorm : pow2 (-1022) ≤ |x|) :
    nearest x ≠ (⌊x⌋ : ℚ) + 1 := by
  intro heq
  have f1 := Int.floor_le x
  have f2 := Int.lt_floor_add_one x
  have haq : (1 : ℚ) ≤ (a : ℚ) := by exact_mod_cast ha
  have hgp := pow2_pos g
  have hls : 0 < (a : ℚ) * pow2 g := mul_pos (by linarith) hgp
  have herr := abs_nearest_sub_le_rel x hnorm
  rw [heq, abs_of_pos (by linarith)] at herr
  obtain ⟨P, s, hP, -, hPs⟩ := isDouble_on_grid price hp
  have hPq : |(P : ℚ)| < 2 ^ 53 := by exact_mod_cast hP
  have hsp := pow2_pos s
  have habs : |price| = |x| * ((a : ℚ) * pow2 g) := by
    rw [hpr, abs_mul, abs_of_pos hls]
  have hD : (((⌊x⌋ + 1 : ℤ) : ℚ)) * ((a : ℚ) * pow2 g) - (P : ℚ) * pow2 s =
      ((⌊x⌋ : ℚ) + 1 - x) * ((a : ℚ) * pow2 g) := by
    rw [← hPs, hpr]
    push_cast
    ring
  have hD0 : 0 < (((⌊x⌋ + 1 : ℤ) : ℚ)) * ((a : ℚ) * pow2 g) - (P : ℚ) * pow2 s := by
    rw [hD]
    exact mul_pos (by linarith) hls
  have hD1 : (((⌊x⌋ + 1 : ℤ) : ℚ)) * ((a : ℚ) * pow2 g) - (P : ℚ) * pow2 s ≤
      |price| / 2 ^ 53 := by
    rw [hD, habs, mul_div_right_comm]
    exact mul_le_mul_of_nonneg_right herr hls.le
  have bound1 : |price| / 2 ^ 53 < pow2 s := by
    rw [hPs, abs_mul, abs_of_pos hsp, div_lt_iff₀ (by positivity), mul_comm]
    exact mul_lt_mul_of_pos_left hPq hsp
  have bound2 : |price| / 2 ^ 53 < pow2 g := by
    have hx : |x| ≤ |(⌊x⌋ : ℚ)| + 1 := by
      rw [abs_le]
      have := neg_abs_le (⌊x⌋ : ℚ)
      have := le_abs_self (⌊x⌋ : ℚ)
      constructor <;> linarith
    have hxa : (|(⌊x⌋ : ℚ)| + 1) * (a : ℚ) < 2 ^ 53 := by exact_mod_cast hb
    have hxa2 : |x| * (a : ℚ) < 2 ^ 53 :=
      lt_of_le_of_lt (mul_le_mul_of_nonneg_right hx (by linarith)) hxa
    rw [habs, div_lt_iff₀ (by positivity), ← mul_assoc, mul_comm (pow2 g)]
    exact mul_lt_mul_of_pos_right hxa2 hgp
  have hgap := grid_gap (⌊x⌋ + 1) (a : ℤ) P g s (by
    rw [Int.cast_natCast]
    exact hD0)
  rw [Int.cast_natCast] at hgap
  rcases hgap with h | h <;> linarith

/-- The floor of the rounded quotient of a binary64 price by a step `a * 2 ^ g` is the
floor of the exact quotient, as long as `(|floor| + 2) * a ≤ 2 ^ 53` and the quotient
is not a negative number of the subnormal range. -/
theorem floor_quotient_exact (price ls : ℚ) (a : ℕ) (g : ℤ) (hp : IsDouble price)
    (ha : 1 ≤ a) (hstep : ls = (a : ℚ) * pow2 g)
    (hb : (|⌊price / ls⌋| + 2) * (a : ℤ) ≤ 2 ^ 53)
    (hn : 0 ≤ price ∨ pow2 (-1022) ≤ |price / ls|) :
    ⌊nearest (price / ls)⌋ = ⌊price / ls⌋ := by
  have hk0 : 0 ≤ |⌊price / ls⌋| := abs_nonneg _
  have ha1 : (1 : ℤ) ≤ (a : ℤ) := by exact_mod_cast ha
  have haq : (1 : ℚ) ≤ (a : ℚ) := by exact_mod_cast ha
  have hls : 0 < ls := by
    rw [hstep]
    exact mul_pos (by linarith) (pow2_pos g)
  have hsmall : |⌊price / ls⌋| + 1 < 2 ^ 53 := by nlinarith
  obtain ⟨b1, b2⟩ := nearest_between_floor (price / ls) hsmall
  suffices hlt : nearest (price / ls) < (⌊price / ls⌋ : ℚ) + 1 by
    rw [Int.floor_eq_iff]
    exact ⟨b1, hlt⟩
  by_cases hnorm : pow2 (-1022) ≤ |price / ls|
  · -- the quotient is in the normal range
    refine lt_of_le_of_ne b2 ?_
    refine nearest_lt_next_int (price / ls) price a g hp ?_ ha (by nlinarith) hnorm
    rw [← hstep]
    exact (div_mul_cancel₀ price hls.ne').symm
  · -- a quotient of the subnormal range is not negative here
    have hpos : 0 ≤ price := by
      rcases hn with h | h
      · exact h
      · exact absurd h hnorm
    have hx0 : 0 ≤ price / ls := div_nonneg hpos hls.le
    push_neg at hnorm
    rw [abs_of_nonneg hx0] at hnorm
    have m := nearest_mono _ _ hnorm.le
    have e := nearest_grid 1 (-1022) (by norm_num) (by norm_num)
    rw [Int.cast_one, one_mul] at e
    rw [e] at m
    have hlt1 : pow2 (-1022) < 1 := by
      rw [← pow2_zero]
      exact pow2_lt _ _ (by norm_num)
    have hfl : (0 : ℚ) ≤ (⌊price / ls⌋ : ℚ) := by
      have : 0 ≤ ⌊price / ls⌋ := Int.floor_nonneg.2 hx0
      exact_mod_cast this
    linarith

/-! ## C1 -/

/-- C1 (counterexample): at the binary64 prices written `1900.1` and `2047.8`, with
`pips = 10`, `pipSize = 0.01` (the step is the binary64 value `0.1`) and four levels,
the ladder does not enclose the price. For `1900.1` the first up level is the price
itself, so `price < up[0]` fails; for `2047.8` the quotient `price / step` is rounded
up to the integer `20478` and the first down level is `2047.8000000000002`, above the
price, so `dn[0] <= price` fails. -/
theorem ladder_anchor_counterexample :
    (IsDouble (nearest (19001 / 10)) ∧ IsDouble (nearest (10239 / 5)) ∧
      pipsToPrice 10 (nearest (1 / 100)) = some (nearest (1 / 10)) ∧
      0 < nearest (1 / 10)) ∧
    (processLevels (nearest (19001 / 10)) 10 4 (nearest (1 / 100))).bind
        (fun lv => lv.up[0]?) = some (nearest (19001 / 10)) ∧
    (div (nearest (10239 / 5)) (nearest (1 / 10)) = some 20478 ∧
      ⌊nearest (10239 / 5) / nearest (1 / 10)⌋ = 20477) ∧
    (processLevels (nearest (10239 / 5)) 10 4 (nearest (1 / 100))).bind
        (fun lv => lv.dn[0]?) = some (nearest (10239 / 5) + pow2 (-42)) := by
  decide!

/-- C1 (amended): let `processLevels` return a finite ladder `lv` for a binary64 price,
a positive step `lv.levelSizeInPrice` (the binary64 product `pips * pipSize`) and
`nLevels ≥ 1`. Then `dn[0]` is the binary64 product `k * step` for the floor `k` of the
binary64 quotient `price / step`, and `up[0]` is the binary64 sum `dn[0] + step`.
When the step is `a * 2 ^ g` for a positive integer `a` with
`(|floor(price / step)| + 2) * a ≤ 2 ^ 53`, and the quotient is not a negative number
of the subnormal range, these operations lose nothing:
`dn[0] = floor(price / step) * step`, `up[0] = dn[0] + step` and
`dn[0] ≤ price < up[0]`. -/
theorem ladder_anchor_rounded (price pips pipSize : ℚ) (nLevels : ℤ) (lv : Levels)
    (hp : IsDouble price) (h : processLevels price pips nLevels pipSize = some lv)
    (hn : 1 ≤ nLevels) (hs : 0 < lv.levelSizeInPrice) :
    (∃ q d, div price lv.levelSizeInPrice = some q ∧
      mul (⌊q⌋ : ℚ) lv.levelSizeInPrice = some d ∧ lv.dn[0]? = some d ∧
      lv.up[0]? = add d lv.levelSizeInPrice) ∧
    ∀ (a : ℕ) (g : ℤ), 1 ≤ a → -1074 ≤ g → lv.levelSizeInPrice = (a : ℚ) * pow2 g →
      (|⌊price / lv.levelSizeInPrice⌋| + 2) * (a : ℤ) ≤ 2 ^ 53 →
      (0 ≤ price ∨ pow2 (-1022) ≤ |price / lv.levelSizeInPrice|) →
      lv.dn[0]? = some ((⌊price / lv.levelSizeInPrice⌋ : ℚ) * lv.levelSizeInPrice) ∧
      lv.up[0]? = some ((⌊price / lv.levelSizeInPrice⌋ : ℚ) * lv.levelSizeInPrice +
        lv.levelSizeInPrice) ∧
      (⌊price / lv.levelSizeInPrice⌋ : ℚ) * lv.levelSizeInPrice ≤ price ∧
      price < (⌊price / lv.levelSizeInPrice⌋ : ℚ) * lv.levelSizeInPrice +
        lv.levelSizeInPrice := by
  obtain ⟨hls, q, base, hq, hbase, hup, hdn, hj⟩ :=
    ladder_in_loop_order price pips pipSize nLevels lv h hs.le
  have hn0 : 0 < nLevels.toNat := by omega
  have hbd : IsDouble base := isDouble_of_fl _ _ hbase
  have hsd : IsDouble lv.levelSizeInPrice := isDouble_of_fl _ _ hls
  have hdn0 : lv.dn[0]? = some base := by
    rw [hdn, List.getElem?_map, List.getElem?_range hn0]
    simp only [Option.map_some', Nat.cast_zero, zero_mul, nearest_zero, sub_zero]
    rw [nearest_of_isDouble base hbd]
  have hup0 : lv.up[0]? = some (nearest (base + lv.levelSizeInPrice)) := by
    rw [hup, List.getElem?_map, List.getElem?_range hn0]
    simp only [Option.map_some', Nat.cast_zero, zero_add]
    have e1 : nearest 1 = 1 := by
      have := nearest_intCast 1 (by norm_num)
      simpa using this
    rw [e1, one_mul, nearest_of_isDouble _ hsd]
  have hadd : add base lv.levelSizeInPrice = some (nearest (base + lv.levelSizeInPrice)) := by
    have h1 := (hj 0 hn0).1
    unfold upLevel at h1
    have e1 : add ((0 : ℕ) : ℚ) 1 = some 1 := by
      unfold add fl
      have e : nearest (((0 : ℕ) : ℚ) + 1) = 1 := by
        have := nearest_intCast 1 (by norm_num)
        simpa using this
      rw [e, if_pos (by decide!)]
    have e2 : mul 1 lv.levelSizeInPrice = some lv.levelSizeInPrice := by
      unfold mul
      rw [one_mul]
      exact hsd
    rw [e1, Option.some_bind, e2, Option.some_bind] at h1
    rw [h1]
    simp only [Nat.cast_zero, zero_add]
    have e1 : nearest 1 = 1 := by
      have := nearest_intCast 1 (by norm_num)
      simpa using this
    rw [e1, one_mul, nearest_of_isDouble _ hsd]
  refine ⟨⟨q, base, hq, hbase, hdn0, by rw [hup0, hadd]⟩, ?_⟩
  intro a g ha hg hstep hb hnorm
  have hq2 : q = nearest (price / lv.levelSizeInPrice) := by
    unfold div at hq
    rw [if_neg hs.ne'] at hq
    exact (fl_eq_some _ _ hq).1
  have hfloor : ⌊q⌋ = ⌊price / lv.levelSizeInPrice⌋ := by
    rw [hq2]
    exact floor_quotient_exact price lv.levelSizeInPrice a g hp ha hstep hb hnorm
  have hk0 : 0 ≤ |⌊price / lv.levelSizeInPrice⌋| := abs_nonneg _
  have ha1 : (1 : ℤ) ≤ (a : ℤ) := by exact_mod_cast ha
  have hbase2 : base = (⌊price / lv.levelSizeInPrice⌋ : ℚ) * lv.levelSizeInPrice := by
    rw [(fl_eq_some _ _ hbase).1, hfloor]
    nth_rewrite 2 4 [hstep]
    exact nearest_intCast_mul _ (a : ℤ) g (by
      rw [abs_mul, abs_of_nonneg (by positivity : (0 : ℤ) ≤ (a : ℤ))]
      nlinarith) hg
  have hup2 : nearest (base + lv.levelSizeInPrice) =
      (⌊price / lv.levelSizeInPrice⌋ : ℚ) * lv.levelSizeInPrice + lv.levelSizeInPrice := by
    rw [hbase2]
    have := nearest_intCast_mul (⌊price / lv.levelSizeInPrice⌋ + 1) (a : ℤ) g (by
      rw [abs_mul, abs_of_nonneg (by positivity : (0 : ℤ) ≤ (a : ℤ))]
      have : |⌊price / lv.levelSizeInPrice⌋ + 1| ≤ |⌊price / lv.levelSizeInPrice⌋| + 1 := by
        rw [abs_le]
        have := neg_abs_le ⌊price / lv.levelSizeInPrice⌋
        have := le_abs_self ⌊price / lv.levelSizeInPrice⌋
        constructor <;> omega
      nlinarith) hg
    push_cast at this
    rw [← hstep] at this
    rw [show (⌊price / lv.levelSizeInPrice⌋ : ℚ) * lv.levelSizeInPrice +
      lv.levelSizeInPrice =
      ((⌊price / lv.levelSizeInPrice⌋ : ℚ) + 1) * lv.levelSizeInPrice by ring]
    exact this
  exact ⟨by rw [hdn0, hbase2], by rw [hup0, hup2], floor_mul_le _ _ hs,
    lt_floor_mul_add _ _ hs⟩

/-- C1 (witness): `processLevels(2003.7, 500, 4, 0.01)` in binary64. The step is
`5 = 5 * 2 ^ 0`, the ladder is `defaultLadder`, and the price lies between
`dn[0] = 2000` and `up[0] = 2005`. -/
theorem ladder_anchor_rounded_witness :
    (IsDouble (nearest (20037 / 10)) ∧
      processLevels (nearest (20037 / 10)) 500 4 (nearest (1 / 100)) = some defaultLadder ∧
      (1 : ℤ) ≤ 4 ∧ 0 < defaultLadder.levelSizeInPrice) ∧
    (defaultLadder.dn[0]? = some ((⌊nearest (20037 / 10) / 5⌋ : ℚ) * 5) ∧
      defaultLadder.up[0]? = some ((⌊nearest (20037 / 10) / 5⌋ : ℚ) * 5 + 5) ∧
      (⌊nearest (20037 / 10) / 5⌋ : ℚ) * 5 ≤ nearest (20037 / 10) ∧
      nearest (20037 / 10) < (⌊nearest (20037 / 10) / 5⌋ : ℚ) * 5 + 5) :=
  ⟨by decide!,
    (ladder_anchor_rounded (nearest (20037 / 10)) 500 (nearest (1 / 100)) 4 defaultLadder
      (by decide!) (by decide!) (by decide!) (by decide!)).2 5 0 (by decide!) (by decide!)
      (by decide!) (by decide!) (by decide!)⟩

/-! ## C2 -/

/-- C2 (counterexample): two finite binary64 ladders with a positive step that are
not strictly ordered. `processLevels(1e17, 1, 4, 1)` returns four up levels and four
down levels that all equal `1e17`; `processLevels(2000, 1, 4, 2 ** -43)` returns
`up[2] = up[3]` and `dn[0] = dn[1]`. -/
theorem ladder_order_counterexample :
    (IsDouble (10 ^ 17) ∧ pipsToPrice 1 1 = some 1 ∧
      processLevels (10 ^ 17) 1 4 1 = some collapsedLadder ∧
      collapsedLadder.up[0]? = collapsedLadder.up[1]? ∧
      collapsedLadder.dn[0]? = collapsedLadder.dn[1]?) ∧
    (IsDouble 2000 ∧ IsDouble (pow2 (-43)) ∧
      pipsToPrice 1 (pow2 (-43)) = some (pow2 (-43)) ∧ 0 < pow2 (-43) ∧
      processLevels 2000 1 4 (pow2 (-43)) = some mergedLadder ∧
      mergedLadder.up[2]? = mergedLadder.up[3]? ∧
      mergedLadder.dn[0]? = mergedLadder.dn[1]?) := by
  decide!

/-- C2 (amended): let `processLevels` return a finite ladder `lv` with a positive step,
and let `q` be the binary64 quotient `price / step`. The ladder is ordered, not always
strictly: `up[0] ≤ up[1] ≤ …` and `dn[0] ≥ dn[1] ≥ …`, where `up[j]` is the value
`base + (j + 1) * step` and `dn[j]` the value `base - j * step` that the loop computed
in binary64 for `i = j`, so index 0 holds a smallest up level and a largest down level.
When the step is `a * 2 ^ g` for a positive integer `a` with
`(|floor q| + nLevels) * a < 2 ^ 53` no level is rounded and the order is strict:
`up[0] < up[1] < …` and `dn[0] > dn[1] > …`. -/
theorem ladder_ordered_rounded (price pips pipSize : ℚ) (nLevels : ℤ) (lv : Levels)
    (q : ℚ) (h : processLevels price pips nLevels pipSize = some lv)
    (hs : 0 < lv.levelSizeInPrice) (hq : div price lv.levelSizeInPrice = some q) :
    List.Sorted (· ≤ ·) lv.up ∧ List.Sorted (· ≥ ·) lv.dn ∧
    (∃ base, mul (⌊q⌋ : ℚ) lv.levelSizeInPrice = some base ∧
      ∀ j, j < nLevels.toNat →
        lv.up[j]? = upLevel base lv.levelSizeInPrice j ∧
        lv.dn[j]? = dnLevel base lv.levelSizeInPrice j) ∧
    ∀ (a : ℕ) (g : ℤ), 1 ≤ a → -1074 ≤ g → lv.levelSizeInPrice = (a : ℚ) * pow2 g →
      (|⌊q⌋| + (nLevels.toNat : ℤ)) * (a : ℤ) < 2 ^ 53 →
      List.Sorted (· < ·) lv.up ∧ List.Sorted (· > ·) lv.dn := by
  obtain ⟨-, q0, base, hq0, hbase, hup, hdn, hj⟩ :=
    ladder_in_loop_order price pips pipSize nLevels lv h hs.le
  have hqq : q0 = q := Option.some.inj (hq0.symm.trans hq)
  subst hqq
  refine ⟨?_, ?_, ⟨base, hbase, ?_⟩, ?_⟩
  · rw [hup]
    unfold List.Sorted
    rw [List.pairwise_map]
    exact (List.pairwise_lt_range _).imp
      (fun hab => upVal_mono base _ hs.le _ _ (le_of_lt hab))
  · rw [hdn]
    unfold List.Sorted
    rw [List.pairwise_map]
    exact (List.pairwise_lt_range _).imp
      (fun hab => dnVal_anti base _ hs.le _ _ (le_of_lt hab))
  · intro j hjn
    obtain ⟨u, d⟩ := hj j hjn
    constructor
    · rw [u, hup, List.getElem?_map, List.getElem?_range hjn]
      rfl
    · rw [d, hdn, List.getElem?_map, List.getElem?_range hjn]
      rfl
  · intro a g ha hg hstep hb
    obtain ⟨e1, e2⟩ := ladder_exact_on_grid price pips pipSize nLevels lv q0 a g h hq ha hg
      hstep hb
    rw [e1, e2]
    exact ⟨sorted_up_closed _ _ hs _, sorted_dn_closed _ _ hs _⟩

/-- C2 (witness): `processLevels(2003.7, 500, 4, 0.01)` in binary64, with the step
`5 = 5 * 2 ^ 0` and the quotient `400.74`: the ladder `defaultLadder` is strictly
ordered. -/
theorem ladder_ordered_rounded_witness :
    (processLevels (nearest (20037 / 10)) 500 4 (nearest (1 / 100)) = some defaultLadder ∧
      0 < defaultLadder.levelSizeInPrice ∧
      div (nearest (20037 / 10)) defaultLadder.levelSizeInPrice =
        some (nearest (nearest (20037 / 10) / 5))) ∧
    (List.Sorted (· < ·) defaultLadder.up ∧ List.Sorted (· > ·) defaultLadder.dn) :=
  ⟨by decide!,
    (ladder_ordered_rounded (nearest (20037 / 10)) 500 (nearest (1 / 100)) 4 defaultLadder
      (nearest (nearest (20037 / 10) / 5)) (by decide!) (by decide!) (by decide!)).2.2.2 5 0
      (by decide!) (by decide!) (by decide!) (by decide!)⟩

/-! ## C3 -/

/-- C3 (counterexample): `processLevels(2000.05, 10, 4, 0.01)` in binary64. The step
is the binary64 value `0.1`; the first two up levels are the binary64 values `2000.1`
and `2000.2`, whose difference exceeds the step by `4915 * 2 ^ (-55)`, and the first
two down levels are `2000` and the binary64 value `1999.9`, whose difference falls
short of the step by `3277 * 2 ^ (-55)`. -/
theorem ladder_spacing_counterexample :
    (IsDouble (nearest (40001 / 20)) ∧
      pipsToPrice 10 (nearest (1 / 100)) = some (nearest (1 / 10)) ∧
      0 < nearest (1 / 10)) ∧
    (processLevels (nearest (40001 / 20)) 10 4 (nearest (1 / 100))).bind
        (fun lv => lv.up[0]?) = some (nearest (20001 / 10)) ∧
    (processLevels (nearest (40001 / 20)) 10 4 (nearest (1 / 100))).bind
        (fun lv => lv.up[1]?) = some (nearest (10001 / 5)) ∧
    nearest (10001 / 5) - nearest (20001 / 10) = nearest (1 / 10) + 4915 * pow2 (-55) ∧
    (processLevels (nearest (40001 / 20)) 10 4 (nearest (1 / 100))).bind
        (fun lv => lv.dn[0]?) = some 2000 ∧
    (processLevels (nearest (40001 / 20)) 10 4 (nearest (1 / 100))).bind
        (fun lv => lv.dn[1]?) = some (nearest (19999 / 10)) ∧
    2000 - nearest (19999 / 10) = nearest (1 / 10) - 3277 * pow2 (-55) := by
  decide!

/-- C3 (amended): let `processLevels` return a finite ladder `lv` with a positive step
for `nLevels = n ≥ 0`, and let `q` be the binary64 quotient `price / step`. The ladder
has exactly `n` up levels and `n` down levels, `levelSizeInPrice` is the binary64
product `pips * pipSize`, and `up[j]`, `dn[j]` are the values `base + (j + 1) * step`
and `base - j * step` as the loop computed them in binary64, so the spacing is uniform
up to the rounding of these operations. When the step is `a * 2 ^ g` for a positive
integer `a` with `(|floor q| + n) * a < 2 ^ 53` no level is rounded and the spacing is
exact: `up[k+1] - up[k] = step` and `dn[k] - dn[k+1] = step` for every valid `k`. -/
theorem ladder_spacing_rounded (price pips pipSize : ℚ) (n : ℤ) (lv : Levels) (q : ℚ)
    (h : processLevels price pips n pipSize = some lv) (hs : 0 < lv.levelSizeInPrice)
    (hq : div price lv.levelSizeInPrice = some q) (hn : 0 ≤ n) :
    (lv.up.length : ℤ) = n ∧ (lv.dn.length : ℤ) = n ∧
    mul pips pipSize = some lv.levelSizeInPrice ∧
    (∃ base, mul (⌊q⌋ : ℚ) lv.levelSizeInPrice = some base ∧
      ∀ j, j < n.toNat →
        lv.up[j]? = upLevel base lv.levelSizeInPrice j ∧
        lv.dn[j]? = dnLevel base lv.levelSizeInPrice j) ∧
    ∀ (a : ℕ) (g : ℤ), 1 ≤ a → -1074 ≤ g → lv.levelSizeInPrice = (a : ℚ) * pow2 g →
      (|⌊q⌋| + n) * (a : ℤ) < 2 ^ 53 →
      (∀ (k : ℕ) (x y : ℚ), lv.up[k]? = some x → lv.up[k + 1]? = some y →
        y - x = lv.levelSizeInPrice) ∧
      (∀ (k : ℕ) (x y : ℚ), lv.dn[k]? = some x → lv.dn[k + 1]? = some y →
        x - y = lv.levelSizeInPrice) := by
  obtain ⟨hls, q0, base, hq0, hbase, hup, hdn, hj⟩ :=
    ladder_in_loop_order price pips pipSize n lv h hs.le
  have hqq : q0 = q := Option.some.inj (hq0.symm.trans hq)
  subst hqq
  have hnn : (n.toNat : ℤ) = n := Int.toNat_of_nonneg hn
  refine ⟨?_, ?_, hls, ⟨base, hbase, ?_⟩, ?_⟩
  · rw [hup, List.length_map, List.length_range, hnn]
  · rw [hdn, List.length_map, List.length_range, hnn]
  · intro j hjn
    obtain ⟨u, d⟩ := hj j hjn
    constructor
    · rw [u, hup, List.getElem?_map, List.getElem?_range hjn]
      rfl
    · rw [d, hdn, List.getElem?_map, List.getElem?_range hjn]
      rfl
  · intro a g ha hg hstep hb
    obtain ⟨e1, e2⟩ := ladder_exact_on_grid price pips pipSize n lv q0 a g h hq ha hg
      hstep (by rw [hnn]; exact hb)
    have key : ∀ (k i : ℕ), (List.range n.toNat)[k]? = some i → i = k := by
      intro k i hi
      by_cases hk : k < n.toNat
      · rw [List.getElem?_range hk] at hi
        exact (Option.some.inj hi).symm
      · rw [List.getElem?_eq_none (by simpa using hk)] at hi
        cases hi
    constructor
    · intro k x y hx hy
      rw [e1] at hx hy
      simp only [List.getElem?_map, Option.map_eq_some'] at hx hy
      obtain ⟨i, hi, rfl⟩ := hx
      obtain ⟨j, hj2, rfl⟩ := hy
      rw [key k i hi, key (k + 1) j hj2]
      push_cast
      ring
    · intro k x y hx hy
      rw [e2] at hx hy
      simp only [List.getElem?_map, Option.map_eq_some'] at hx hy
      obtain ⟨i, hi, rfl⟩ := hx
      obtain ⟨j, hj2, rfl⟩ := hy
      rw [key k i hi, key (k + 1) j hj2]
      push_cast
      ring

/-- C3 (witness): `processLevels(2003.7, 500, 4, 0.01)` in binary64, with the step
`5 = 5 * 2 ^ 0`: four up and four down levels, `5` apart. -/
theorem ladder_spacing_rounded_witness :
    (processLevels (nearest (20037 / 10)) 500 4 (nearest (1 / 100)) = some defaultLadder ∧
      0 < defaultLadder.levelSizeInPrice ∧
      div (nearest (20037 / 10)) defaultLadder.levelSizeInPrice =
        some (nearest (nearest (20037 / 10) / 5)) ∧ (0 : ℤ) ≤ 4) ∧
    ((defaultLadder.up.length : ℤ) = 4 ∧ (defaultLadder.dn.length : ℤ) = 4 ∧
      mul 500 (nearest (1 / 100)) = some defaultLadder.levelSizeInPrice) ∧
    ((∀ (k : ℕ) (x y : ℚ), defaultLadder.up[k]? = some x →
        defaultLadder.up[k + 1]? = some y → y - x = defaultLadder.levelSizeInPrice) ∧
      (∀ (k : ℕ) (x y : ℚ), defaultLadder.dn[k]? = some x →
        defaultLadder.dn[k + 1]? = some y → x - y = defaultLadder.levelSizeInPrice)) := by
  have t := ladder_spacing_rounded (nearest (20037 / 10)) 500 (nearest (1 / 100)) 4
    defaultLadder (nearest (nearest (20037 / 10) / 5)) (by decide!) (by decide!)
    (by decide!) (by decide!)
  exact ⟨by decide!, ⟨t.1, t.2.1, t.2.2.1⟩,
    t.2.2.2.2 5 0 (by decide!) (by decide!) (by decide!) (by decide!)⟩

end F64

end Fiverr
